import Mathlib

namespace OrthancPlugins

/-!
# Transfers accelerator: bucket planner and download area

A shallow embedding of `Framework/TransferBucket.cpp`,
`Framework/TransferScheduler.cpp` and `Framework/DownloadArea.cpp`.

Conventions of the embedding.

* `size_t` values are natural numbers; every `size_t` addition and
  subtraction of the source is written with `addSz` / `subSz`, which wrap
  modulo `2 ^ 64`.
* A C++ exception is an `ErrorCode`.  A function that only reads its object
  returns `Except ErrorCode _`; a function that mutates its object returns
  the mutated object together with the optional error, because the object
  outlives the exception.
* `std::string` is `String`; `std::string::length` is the number of bytes of
  the UTF-8 encoding (`String.utf8ByteSize`).
* `std::map<std::string, T>` is an association list kept sorted by key with
  unique keys (`mapInsert` is `operator[]` followed by an assignment, `mapFind`
  is `find`); iteration is the order of the list.
* The bytes of a file or of a network payload are a `List Byte`.
* The MD5 digest, the gzip inflater and the host archive belong to the
  Orthanc framework; they are parameters of the functions that call them.
-/


/-! ## Machine integers -/

/-- Number of values of a `size_t`. -/
def SIZE_MOD : Nat := 2 ^ 64

/-- Addition of two `size_t`. -/
def addSz (a b : Nat) : Nat := (a + b) % SIZE_MOD

/-- Subtraction of two `size_t` (both operands below `SIZE_MOD`). -/
def subSz (a b : Nat) : Nat := (a + SIZE_MOD - b) % SIZE_MOD

/-! ## Error codes and simple values -/

/-- The `Orthanc::ErrorCode` values raised by the embedded functions;
`JsonException` stands for the exceptions of JsonCpp, which are not
`OrthancException`. -/
inductive ErrorCode where
  | InternalError
  | ParameterOutOfRange
  | BadSequenceOfCalls
  | UnknownResource
  | NetworkProtocol
  | CorruptedFile
  | BadFileFormat
  | CannotWriteFile
  | NullPointer
  | BadParameterType
  | JsonException
  deriving DecidableEq, Repr

/-- The enumeration `BucketCompression` of `TransferToolbox.h`. -/
inductive BucketCompression where
  | None
  | Gzip
  deriving DecidableEq, Repr

/-- The constant `URI_CHUNKS` of `TransferToolbox.h`. -/
def URI_CHUNKS : String := "/transfers/chunks"

/-- One byte. -/
abbrev Byte := Fin 256

/-- The class `DicomInstanceInfo`: identifier, size and MD5 of an instance. -/
structure DicomInstanceInfo where
  id : String
  size : Nat
  md5 : String
  deriving DecidableEq, Repr

/-! ## `TransferBucket` -/

/-- The struct `TransferBucket::Chunk`. -/
structure Chunk where
  instanceId : String
  offset : Nat
  size : Nat
  deriving DecidableEq, Repr

/-- The class `TransferBucket`; the default value is the one built by the
default constructor. -/
structure TransferBucket where
  chunks : List Chunk := []
  totalSize : Nat := 0
  extensible : Bool := true
  deriving DecidableEq, Repr

namespace TransferBucket

/-- Method `TransferBucket::GetTotalSize`. -/
def GetTotalSize (b : TransferBucket) : Nat := b.totalSize

/-- Method `TransferBucket::GetChunksCount`. -/
def GetChunksCount (b : TransferBucket) : Nat := b.chunks.length

/-- Method `TransferBucket::Clear`. -/
def Clear (_b : TransferBucket) : TransferBucket :=
  { chunks := [], totalSize := 0, extensible := true }

/-- Method `TransferBucket::AddChunk`.  Every `throw` of the source precedes
the first assignment, so a raising call leaves the bucket as it was and the
result is either the error or the new bucket. -/
def AddChunk (b : TransferBucket) (instance_ : DicomInstanceInfo)
    (chunkOffset chunkSize : Nat) : Except ErrorCode TransferBucket :=
  if addSz chunkOffset chunkSize > instance_.size then
    .error .ParameterOutOfRange
  else if !b.extensible then
    .error .BadSequenceOfCalls
  else if !b.chunks.isEmpty && chunkOffset != 0 then
    .error .ParameterOutOfRange
  else if chunkSize == 0 then
    -- Ignore empty chunks
    .ok b
  else
    let extensible := if !b.chunks.isEmpty && chunkSize != instance_.size then false else b.extensible
    .ok { chunks := b.chunks ++ [{ instanceId := instance_.id, offset := chunkOffset, size := chunkSize }]
          totalSize := addSz b.totalSize chunkSize
          extensible := extensible }

/-- The loop of `ComputePullUri` that joins the instance identifiers with
dots (`first` is the flag of the source). -/
def joinIds : Bool → String → List Chunk → String
  | _, uri, [] => uri
  | first, uri, c :: cs =>
    let uri := if first then uri else uri ++ "."
    joinIds false (uri ++ c.instanceId) cs

/-- Method `TransferBucket::ComputePullUri`; `toString` on a natural number is
`boost::lexical_cast<std::string>` on a `size_t`. -/
def ComputePullUri (b : TransferBucket) (compression : BucketCompression) :
    Except ErrorCode String :=
  match b.chunks with
  | [] => .error .InternalError
  | c0 :: _ =>
    let uri := joinIds true (URI_CHUNKS ++ "/") b.chunks
    let uri := uri ++ ("?offset=" ++ toString c0.offset ++ "&size=" ++ toString b.totalSize)
    match compression with
    | .None => .ok (uri ++ "&compression=none")
    | .Gzip => .ok (uri ++ "&compression=gzip")

end TransferBucket

/-! ## `std::map` as a sorted association list -/

/-- `m[key] = value` on a `std::map<std::string, T>`: replaces the value of an
existing key, otherwise inserts the pair at its place in key order.  The keys
are compared as `std::less<std::string>` does, byte by byte, which on UTF-8
text is the lexicographic order of the code points. -/
def mapInsert {α : Type} (key : String) (value : α) : List (String × α) → List (String × α)
  | [] => [(key, value)]
  | (k, v) :: rest =>
    if key.data < k.data then (key, value) :: (k, v) :: rest
    else if key = k then (key, value) :: rest
    else (k, v) :: mapInsert key value rest

/-- `m.find(key)` on a `std::map<std::string, T>`. -/
def mapFind {α : Type} (key : String) : List (String × α) → Option α
  | [] => none
  | (k, v) :: rest => if k = key then some v else mapFind key rest

/-- Replaces the value stored at `key`, the effect of a mutation through the
iterator returned by `find`. -/
def mapSet {α : Type} (key : String) (value : α) : List (String × α) → List (String × α)
  | [] => []
  | (k, v) :: rest => if k = key then (k, value) :: rest else (k, v) :: mapSet key value rest

/-! ## `TransferScheduler` -/

/-- The class `TransferScheduler`: `instances_` maps an identifier to its
`DicomInstanceInfo`. -/
structure TransferScheduler where
  instances : List (String × DicomInstanceInfo) := []
  deriving Repr

namespace TransferScheduler

/-- Method `TransferScheduler::AddInstance(const DicomInstanceInfo&)`. -/
def AddInstance (s : TransferScheduler) (info : DicomInstanceInfo) : TransferScheduler :=
  { instances := mapInsert info.id info s.instances }

/-- Method `TransferScheduler::ListInstances`. -/
def ListInstances (s : TransferScheduler) : List DicomInstanceInfo :=
  s.instances.map Prod.snd

/-- Method `TransferScheduler::GetTotalSize`. -/
def GetTotalSize (s : TransferScheduler) : Nat :=
  s.instances.foldl (fun size e => addSz size e.2.size) 0

/-- The constant `MAX_URL_LENGTH` of `ComputeBucketsInternal`. -/
def MAX_URL_LENGTH : Nat := 2000 - 44

/-- The inner `for` loop of `ComputeBucketsInternal` that divides a large
instance: the first argument counts the iterations left
(`chunksCount - i`), then come `i`, `offset` and `target`.  The result is
`target` after the loop and the exception raised, if any. -/
def splitLoop (info : DicomInstanceInfo) (size chunksCount chunkSize : Nat) :
    Nat → Nat → Nat → List TransferBucket → List TransferBucket × Option ErrorCode
  | 0, _, _, target => (target, none)
  | n + 1, i, offset, target =>
    let added :=
      if i = chunksCount - 1 then
        -- The last chunk must contain all the remaining bytes
        TransferBucket.AddChunk {} info offset (subSz size offset)
      else
        TransferBucket.AddChunk {} info offset chunkSize
    match added with
    | .error e => (target, some e)
    | .ok bucket =>
      splitLoop info size chunksCount chunkSize n (i + 1) (addSz offset chunkSize) (target ++ [bucket])

/-- The first `for` loop of `ComputeBucketsInternal`, over `instances_`; the
state is `target` and `toGroup_`. -/
def classifyLoop (groupThreshold separateThreshold : Nat) :
    List (String × DicomInstanceInfo) → List TransferBucket → List String →
    List TransferBucket × List String × Option ErrorCode
  | [], target, toGroup => (target, toGroup, none)
  | (key, info) :: rest, target, toGroup =>
    let size := info.size
    if size < groupThreshold then
      classifyLoop groupThreshold separateThreshold rest target (toGroup ++ [key])
    else if size < separateThreshold then
      -- Send the whole instance as it is
      match TransferBucket.AddChunk {} info 0 size with
      | .error e => (target, toGroup, some e)
      | .ok bucket => classifyLoop groupThreshold separateThreshold rest (target ++ [bucket]) toGroup
    else
      -- Divide this large instance as a set of chunks
      let chunksCount :=
        if size % separateThreshold = 0 then size / separateThreshold
        else addSz (size / separateThreshold) 1
      let chunkSize := size / chunksCount
      match splitLoop info size chunksCount chunkSize chunksCount 0 0 target with
      | (target, some e) => (target, toGroup, some e)
      | (target, none) => classifyLoop groupThreshold separateThreshold rest target toGroup

/-- The computation of the flag `full` in the second loop of
`ComputeBucketsInternal`, run after each addition to the working bucket: the
bucket is full when its total size reaches the threshold or, with a non-empty
`baseUrl`, when its URL has `MAX_URL_LENGTH` bytes or more. -/
def computeFull (groupThreshold : Nat) (baseUrl : String) (compression : BucketCompression)
    (bucket : TransferBucket) : Except ErrorCode Bool :=
  let full := decide (bucket.GetTotalSize ≥ groupThreshold)
  if !full && !baseUrl.isEmpty then
    match bucket.ComputePullUri compression with
    | .error e => .error e
    | .ok uri =>
      let url := baseUrl ++ uri
      .ok (decide (url.utf8ByteSize ≥ MAX_URL_LENGTH))
  else .ok full

/-- The second `for` loop of `ComputeBucketsInternal`, over `toGroup_`; the
state is the working `bucket` and `target`.  An identifier of `toGroup_` is a
key of `instances_` (the `assert` of the source); the embedding raises
`InternalError` in the branch that the assertion excludes. -/
def groupLoop (instances : List (String × DicomInstanceInfo)) (groupThreshold : Nat)
    (baseUrl : String) (compression : BucketCompression) :
    List String → TransferBucket → List TransferBucket →
    TransferBucket × List TransferBucket × Option ErrorCode
  | [], bucket, target => (bucket, target, none)
  | key :: rest, bucket, target =>
    match mapFind key instances with
    | none => (bucket, target, some .InternalError)
    | some info =>
      match bucket.AddChunk info 0 info.size with
      | .error e => (bucket, target, some e)
      | .ok bucket =>
        match computeFull groupThreshold baseUrl compression bucket with
        | .error e => (bucket, target, some e)
        | .ok full =>
          if full then
            groupLoop instances groupThreshold baseUrl compression rest bucket.Clear (target ++ [bucket])
          else
            groupLoop instances groupThreshold baseUrl compression rest bucket target

/-- Method `TransferScheduler::ComputeBucketsInternal`.  `target` is the
vector the caller passes by reference; the result is that vector after the
call and the exception raised, if any. -/
def ComputeBucketsInternal (s : TransferScheduler) (target : List TransferBucket)
    (groupThreshold separateThreshold : Nat)
    (baseUrl : String) (compression : BucketCompression) :
    List TransferBucket × Option ErrorCode :=
  if groupThreshold > separateThreshold || separateThreshold == 0 then
    (target, some .ParameterOutOfRange)
  else
    match classifyLoop groupThreshold separateThreshold s.instances [] [] with
    | (target, _, some e) => (target, some e)
    | (target, toGroup, none) =>
      match groupLoop s.instances groupThreshold baseUrl compression toGroup {} target with
      | (_, target, some e) => (target, some e)
      | (bucket, target, none) =>
        if bucket.GetChunksCount > 0 then (target ++ [bucket], none) else (target, none)

/-- Method `TransferScheduler::ComputePullBuckets`. -/
def ComputePullBuckets (s : TransferScheduler) (target : List TransferBucket)
    (groupThreshold separateThreshold : Nat)
    (baseUrl : String) (compression : BucketCompression) :
    List TransferBucket × Option ErrorCode :=
  ComputeBucketsInternal s target groupThreshold separateThreshold baseUrl compression

/-- The first statement of `TransferScheduler::FormatPushTransaction`, which
fills the `buckets` argument of the method. -/
def FormatPushTransactionBuckets (s : TransferScheduler) (buckets : List TransferBucket)
    (groupThreshold separateThreshold : Nat) :
    List TransferBucket × Option ErrorCode :=
  ComputeBucketsInternal s buckets groupThreshold separateThreshold "" .None

end TransferScheduler

/-! ## `DownloadArea` -/

/-- The effect of `Writer::Write(offset, data, size)` on the content of the
file: `seekp(offset)` followed by `write`.  The bytes between the end of the
file and `offset`, if any, read as zero. -/
def fileWrite (file : List Byte) (offset : Nat) (data : List Byte) : List Byte :=
  let padded := file ++ List.replicate (offset - file.length) (0 : Byte)
  padded.take offset ++ data ++ padded.drop (offset + data.length)

/-- The class `DownloadArea::Instance`: the descriptor `info_` and the content
of the temporary file `file_`. -/
structure DownloadArea.Instance where
  info : DicomInstanceInfo
  file : List Byte
  deriving DecidableEq, Repr

namespace DownloadArea.Instance

/-- Constructor `DownloadArea::Instance::Instance`: creates the file and, for
a non-zero size, writes one zero byte at `size - 1`. -/
def create (info : DicomInstanceInfo) : DownloadArea.Instance :=
  { info := info
    file := if info.size != 0 then fileWrite [] (subSz info.size 1) [(0 : Byte)] else [] }

/-- Method `DownloadArea::Instance::WriteChunk(offset, data, size)`; `data` is
the memory from the pointer onwards, of which `size` bytes are written. -/
def WriteChunk (slot : DownloadArea.Instance) (offset : Nat) (data : List Byte) (size : Nat) :
    Except ErrorCode DownloadArea.Instance :=
  if addSz offset size > slot.info.size then
    .error .ParameterOutOfRange
  else if size > 0 then
    .ok { slot with file := fileWrite slot.file offset (data.take size) }
  else
    .ok slot

/-- Method `DownloadArea::Instance::Commit(simulate)`.  `md5` is
`Orthanc::Toolbox::ComputeMD5`.  The host archive is seen through
`RestApiPost(result, "/instances", content)`: `posted` lists the bodies handed
to it so far and `accepts posted content` is the value the call returns.  The
result is the new list of posted bodies and the exception raised, if any. -/
def Commit (md5 : List Byte → String) (accepts : List (List Byte) → List Byte → Bool)
    (slot : DownloadArea.Instance) (simulate : Bool) (posted : List (List Byte)) :
    List (List Byte) × Option ErrorCode :=
  let content := slot.file
  if md5 content = slot.info.md5 then
    if !simulate then
      if !accepts posted content then
        (posted ++ [content], some .CorruptedFile)
      else
        (posted ++ [content], none)
    else
      (posted, none)
  else
    (posted, some .CorruptedFile)

end DownloadArea.Instance

/-- The class `DownloadArea`: `instances_` maps an identifier to a pointer to
its slot (`none` is the `NULL` pointer of a released slot). -/
structure DownloadArea where
  instances : List (String × Option DownloadArea.Instance) := []
  totalSize : Nat := 0
  deriving DecidableEq, Repr

namespace DownloadArea

/-- Method `DownloadArea::Setup`, run by the constructors on a new object. -/
def Setup (infos : List DicomInstanceInfo) : DownloadArea :=
  infos.foldl
    (fun area info =>
      { instances := mapInsert info.id (some (Instance.create info)) area.instances
        totalSize := addSz area.totalSize info.size })
    { instances := [], totalSize := 0 }

/-- Constructor `DownloadArea::DownloadArea(const TransferScheduler&)`. -/
def ofScheduler (scheduler : TransferScheduler) : DownloadArea :=
  Setup scheduler.ListInstances

/-- Method `DownloadArea::GetTotalSize`. -/
def GetTotalSize (area : DownloadArea) : Nat := area.totalSize

/-- Method `DownloadArea::LookupInstance`. -/
def LookupInstance (area : DownloadArea) (id : String) : Except ErrorCode DownloadArea.Instance :=
  match mapFind id area.instances with
  | none => .error .UnknownResource
  | some none => .error .InternalError
  | some (some slot) => .ok slot

/-- The `for` loop of `WriteUncompressedBucket` over the chunks of the bucket,
from the chunk list still to write, `pos` and the area; it returns the area
after the loop and either the exception raised or the final `pos`. -/
def writeChunksLoop (data : List Byte) (size : Nat) :
    List Chunk → Nat → DownloadArea → DownloadArea × Except ErrorCode Nat
  | [], pos, area => (area, .ok pos)
  | c :: rest, pos, area =>
    if addSz pos c.size > size then
      (area, .error .InternalError)
    else
      match area.LookupInstance c.instanceId with
      | .error e => (area, .error e)
      | .ok slot =>
        match slot.WriteChunk c.offset (data.drop pos) c.size with
        | .error e => (area, .error e)
        | .ok slot =>
          writeChunksLoop data size rest (addSz pos c.size)
            { area with instances := mapSet c.instanceId (some slot) area.instances }

/-- Method `DownloadArea::WriteUncompressedBucket(bucket, data, size)` with
`size` the length of `data`: the area after the call and the exception
raised, if any. -/
def WriteUncompressedBucket (area : DownloadArea) (bucket : TransferBucket) (data : List Byte) :
    DownloadArea × Option ErrorCode :=
  let size := data.length
  if size != bucket.GetTotalSize then
    (area, some .NetworkProtocol)
  else if size == 0 then
    (area, none)
  else
    match writeChunksLoop data size bucket.chunks 0 area with
    | (area, .error e) => (area, some e)
    | (area, .ok pos) => if pos != size then (area, some .InternalError) else (area, none)

/-- Method `DownloadArea::WriteBucket`; `uncompress` is
`Orthanc::GzipCompressor::Uncompress`, which raises on a stream it cannot
inflate. -/
def WriteBucket (uncompress : List Byte → Except ErrorCode (List Byte))
    (area : DownloadArea) (bucket : TransferBucket) (data : List Byte)
    (compression : BucketCompression) : DownloadArea × Option ErrorCode :=
  match compression with
  | .None => area.WriteUncompressedBucket bucket data
  | .Gzip =>
    match uncompress data with
    | .error e => (area, some e)
    | .ok uncompressed => area.WriteUncompressedBucket bucket uncompressed

/-- Method `DownloadArea::WriteInstance(instanceId, data, size)` with `size`
the length of `data`. -/
def WriteInstance (md5 : List Byte → String) (area : DownloadArea) (instanceId : String)
    (data : List Byte) : DownloadArea × Option ErrorCode :=
  let size := data.length
  let digest := md5 data
  match mapFind instanceId area.instances with
  | some (some slot) =>
    if slot.info.id != instanceId || slot.info.size != size || slot.info.md5 != digest then
      (area, some .CorruptedFile)
    else
      match slot.WriteChunk 0 data size with
      | .error e => (area, some e)
      | .ok slot => ({ area with instances := mapSet instanceId (some slot) area.instances }, none)
  | _ => (area, some .CorruptedFile)

/-- The loop of `CommitInternal` over `instances_`: `done` holds the entries
already visited (their pointer set to `NULL`), the list argument those still
to visit.  It returns the entries of the map after the loop, the bodies posted
to the archive and the exception raised, if any. -/
def commitLoop (md5 : List Byte → String) (accepts : List (List Byte) → List Byte → Bool)
    (simulate : Bool) :
    List (String × Option DownloadArea.Instance) → List (String × Option DownloadArea.Instance) →
    List (List Byte) →
    List (String × Option DownloadArea.Instance) × List (List Byte) × Option ErrorCode
  | [], done, posted => (done, posted, none)
  | (key, some slot) :: rest, done, posted =>
    match slot.Commit md5 accepts simulate posted with
    | (posted, some e) => (done ++ (key, some slot) :: rest, posted, some e)
    | (posted, none) => commitLoop md5 accepts simulate rest (done ++ [(key, none)]) posted
  | (key, none) :: rest, done, posted =>
    (done ++ (key, none) :: rest, posted, some .InternalError)

/-- Method `DownloadArea::CommitInternal(simulate)`. -/
def CommitInternal (md5 : List Byte → String) (accepts : List (List Byte) → List Byte → Bool)
    (area : DownloadArea) (simulate : Bool) (posted : List (List Byte)) :
    DownloadArea × List (List Byte) × Option ErrorCode :=
  match commitLoop md5 accepts simulate area.instances [] posted with
  | (instances, posted, raised) => ({ area with instances := instances }, posted, raised)

/-- Method `DownloadArea::CheckMD5`. -/
def CheckMD5 (md5 : List Byte → String) (accepts : List (List Byte) → List Byte → Bool)
    (area : DownloadArea) (posted : List (List Byte)) :
    DownloadArea × List (List Byte) × Option ErrorCode :=
  area.CommitInternal md5 accepts true posted

/-- Method `DownloadArea::Commit`. -/
def Commit (md5 : List Byte → String) (accepts : List (List Byte) → List Byte → Bool)
    (area : DownloadArea) (posted : List (List Byte)) :
    DownloadArea × List (List Byte) × Option ErrorCode :=
  area.CommitInternal md5 accepts false posted

end DownloadArea

/-! ## Vocabulary of the statements on the planner -/

/-- The invariant of the map `instances_` of a scheduler: the keys increase
strictly, every key is the identifier of its value (the `assert` of
`ListInstances`), and every size is a `size_t`. -/
def TransferScheduler.WellFormed (s : TransferScheduler) : Prop :=
  (s.instances.map Prod.fst).Pairwise (fun a b => a.data < b.data) ∧
  ∀ e ∈ s.instances, e.1 = e.2.id ∧ e.2.size < SIZE_MOD

/-- The chunks of a list of buckets, in order. -/
def allChunks (buckets : List TransferBucket) : List Chunk :=
  buckets.flatMap (fun b => b.chunks)

/-- Whether chunk `c` names instance `id` and holds its byte number `p`. -/
def Chunk.covers (c : Chunk) (id : String) (p : Nat) : Bool :=
  c.instanceId == id && (decide (c.offset ≤ p) && decide (p < c.offset + c.size))

/-- Number of chunks of the list that hold byte `p` of instance `id`. -/
def coverCount (chunks : List Chunk) (id : String) (p : Nat) : Nat :=
  chunks.countP (fun c => c.covers id p)

/-- The bucket that `AddChunk` builds from the empty bucket and one chunk. -/
def singleChunkBucket (c : Chunk) : TransferBucket :=
  { chunks := [c], totalSize := c.size, extensible := true }

/-- The quotient `a / b` rounded up. -/
def ceilDiv (a b : Nat) : Nat := (a + b - 1) / b

/-- Chunk number `j` (from 0) of an instance cut in `k` chunks: it starts at
`j * floor(size / k)`; the last one runs to the end of the instance. -/
def splitChunk (info : DicomInstanceInfo) (k j : Nat) : Chunk :=
  { instanceId := info.id
    offset := j * (info.size / k)
    size := if j = k - 1 then info.size - (k - 1) * (info.size / k) else info.size / k }

/-- The buckets of an instance that is not grouped: `ceil(size / separate)`
buckets of one chunk each. -/
def splitBuckets (separateThreshold : Nat) (info : DicomInstanceInfo) : List TransferBucket :=
  (List.range (ceilDiv info.size separateThreshold)).map
    (fun j => singleChunkBucket (splitChunk info (ceilDiv info.size separateThreshold) j))

/-- The `totalSize_` of a bucket that holds `chunks`: the sum of the chunk
sizes, added as `size_t`. -/
def totalSizeOf (chunks : List Chunk) : Nat :=
  chunks.foldl (fun total c => addSz total c.size) 0

/-- The bucket that holds `chunks` and is open to further chunks. -/
def bucketOfChunks (chunks : List Chunk) : TransferBucket :=
  { chunks := chunks, totalSize := totalSizeOf chunks, extensible := true }

/-- The closing test of the packing of small instances, in the words of the
specification: the working bucket is closed when its `totalSize` reaches
`group` or, for a non-empty `baseUrl`, when `baseUrl` followed by its pull URL
has at least `2000 - 44` bytes. -/
def closesBucket (group : Nat) (baseUrl : String) (compression : BucketCompression)
    (working : List Chunk) : Bool :=
  decide (totalSizeOf working ≥ group) ||
    (!baseUrl.isEmpty &&
      match (bucketOfChunks working).ComputePullUri compression with
      | .ok uri => decide ((baseUrl ++ uri).utf8ByteSize ≥ 1956)
      | .error _ => false)

/-- The reference packing of the specification: the instances are visited in
order, each is appended to the working bucket as the whole-instance chunk
`(id, 0, size)`, the working bucket is closed when `closesBucket` says so, and
the bucket left over at the end is emitted when it is not empty. -/
def referencePacking (group : Nat) (baseUrl : String) (compression : BucketCompression) :
    List DicomInstanceInfo → List Chunk → List TransferBucket
  | [], working => if working.isEmpty then [] else [bucketOfChunks working]
  | info :: rest, working =>
    let working := working ++ [{ instanceId := info.id, offset := 0, size := info.size }]
    if closesBucket group baseUrl compression working then
      bucketOfChunks working :: referencePacking group baseUrl compression rest []
    else
      referencePacking group baseUrl compression rest working

/-- The last statement of `ComputeBucketsInternal`: the working bucket is
pushed when it holds a chunk. -/
def flushBucket (bucket : TransferBucket) : List TransferBucket :=
  if bucket.GetChunksCount > 0 then [bucket] else []

/-- The descriptors that the identifiers of `keys` name in the map. -/
def lookupAll (instances : List (String × DicomInstanceInfo)) (keys : List String) :
    List DicomInstanceInfo :=
  keys.filterMap (fun key => mapFind key instances)

/-- The buckets of the instances that are not grouped (size at least
`group`), in the order of the map. -/
def separateBuckets (s : TransferScheduler) (groupThreshold separateThreshold : Nat) :
    List TransferBucket :=
  (s.ListInstances.filter (fun info => decide (groupThreshold ≤ info.size))).flatMap
    (splitBuckets separateThreshold)

/-- Whether some chunk of the bucket names instance `id`. -/
def TransferBucket.names (b : TransferBucket) (id : String) : Bool :=
  b.chunks.any (fun c => c.instanceId == id)

/-- The chunks that the planner stores for one instance: none for an empty
instance, the whole instance below `separate`, its `ceil(size / separate)`
parts otherwise. -/
def chunksOfInstance (groupThreshold separateThreshold : Nat) (info : DicomInstanceInfo) :
    List Chunk :=
  if groupThreshold ≤ info.size then
    (List.range (ceilDiv info.size separateThreshold)).map
      (splitChunk info (ceilDiv info.size separateThreshold))
  else if 0 < info.size then [{ instanceId := info.id, offset := 0, size := info.size }]
  else []

instance (s : TransferScheduler) : Decidable s.WellFormed := by
  unfold TransferScheduler.WellFormed
  exact inferInstance

/-- The scheduler of the unit tests `TransferScheduler.Basic` and
`TransferScheduler.Grouping`: three instances of 10 bytes. -/
def schedulerOfTests : TransferScheduler :=
  ((({} : TransferScheduler).AddInstance ⟨"d1", 10, "md1"⟩).AddInstance ⟨"d2", 10, "md2"⟩).AddInstance
    ⟨"d3", 10, "md3"⟩

/-- A scheduler with one instance of 11 bytes. -/
def schedulerOfEleven : TransferScheduler :=
  ({} : TransferScheduler).AddInstance ⟨"dicom", 11, ""⟩

/-- A scheduler with an instance of 5 bytes and an empty instance. -/
def schedulerWithEmptyInstance : TransferScheduler :=
  (({} : TransferScheduler).AddInstance ⟨"a", 5, ""⟩).AddInstance ⟨"b", 0, ""⟩

/-- A scheduler whose only instance is empty. -/
def schedulerOfEmptyInstance : TransferScheduler :=
  ({} : TransferScheduler).AddInstance ⟨"a", 0, "d41d8cd98f00b204e9800998ecf8427e"⟩

/-- The base URL of 2048 underscores of the unit test
`TransferScheduler.Grouping`. -/
def longBase : String := String.mk (List.replicate 2048 '_')

/-! ## Vocabulary of the statements on the download area -/

/-- The invariant of a download area: the keys of `instances_` increase
strictly, and a live slot is stored under the identifier of its descriptor,
with a file that has the size of the descriptor, a `size_t`. -/
def DownloadArea.WellFormed (area : DownloadArea) : Prop :=
  (area.instances.map Prod.fst).Pairwise (fun a b => a.data < b.data) ∧
  ∀ e ∈ area.instances, ∀ slot, e.2 = some slot →
    slot.info.id = e.1 ∧ slot.file.length = slot.info.size ∧ slot.info.size < SIZE_MOD

/-- The live slot stored under `id`, if any. -/
def DownloadArea.slotOf (area : DownloadArea) (id : String) : Option DownloadArea.Instance :=
  (mapFind id area.instances).join

/-- The position in the payload of the byte that the chunk loop of
`WriteUncompressedBucket` leaves at byte `q` of slot `id`, when a chunk holds
that byte: the chunks are written in order from position `pos` of the payload,
and a later chunk overwrites an earlier one. -/
def writerOf : List Chunk → Nat → String → Nat → Option Nat
  | [], _, _, _ => none
  | c :: rest, pos, id, q =>
    match writerOf rest (pos + c.size) id q with
    | some i => some i
    | none => if c.covers id q then some (pos + (q - c.offset)) else none

/-- The file of slot `id` once the chunks have been written over it. -/
def overlay (chunks : List Chunk) (pos : Nat) (payload : List Byte) (id : String)
    (file : List Byte) : List Byte :=
  file.mapIdx (fun q b =>
    match writerOf chunks pos id q with
    | some i => payload.getD i 0
    | none => b)

/-- The area once the chunks have been written over each of its live
slots. -/
def applyWrites (chunks : List Chunk) (pos : Nat) (payload : List Byte) (area : DownloadArea) :
    DownloadArea :=
  { area with
    instances := area.instances.map (fun e =>
      (e.1, e.2.map (fun slot => { slot with file := overlay chunks pos payload e.1 slot.file }))) }

/-- The sum of the sizes of the chunks. -/
def sumSizes (chunks : List Chunk) : Nat := (chunks.map (fun c => c.size)).sum

/-- Whether every chunk names a live slot of the area and lies inside it. -/
def chunksValid (area : DownloadArea) (chunks : List Chunk) : Prop :=
  ∀ c ∈ chunks, ∃ slot, area.slotOf c.instanceId = some slot ∧ c.offset + c.size ≤ slot.info.size

/-- Whether two chunks name the same instance and share a byte of it. -/
def Chunk.overlaps (c d : Chunk) : Bool :=
  c.instanceId == d.instanceId &&
    decide (max c.offset d.offset < min (c.offset + c.size) (d.offset + d.size))

/-- The payload after the decompression step of `WriteBucket`. -/
def inflate (uncompress : List Byte → Except ErrorCode (List Byte))
    (compression : BucketCompression) (data : List Byte) : Except ErrorCode (List Byte) :=
  match compression with
  | .None => .ok data
  | .Gzip => uncompress data

/-- The bodies of the live slots of a list of map entries, in order. -/
def filesOf (entries : List (String × Option DownloadArea.Instance)) : List (List Byte) :=
  entries.filterMap (fun e => e.2.map (fun slot => slot.file))

/-- A digest function for the examples: the bytes themselves, read as
characters.  The theorems hold for every digest function. -/
def exampleDigest (bytes : List Byte) : String :=
  String.mk (bytes.map (fun b => Char.ofNat b.val))

/-- An archive that accepts every instance. -/
def acceptAll : List (List Byte) → List Byte → Bool := fun _ _ => true

/-- An inflater for the examples, which returns its input. -/
def exampleUncompress : List Byte → Except ErrorCode (List Byte) := fun data => .ok data

/-- An area of two slots for the examples, as `Setup` builds it: `d1` is empty
and its descriptor carries the digest of the empty file, `d2` has one byte
and a descriptor that does not carry the digest of its file. -/
def areaWithCorruptedSlot (md5 : List Byte → String) : DownloadArea :=
  { instances := [("d1", some ⟨⟨"d1", 0, md5 []⟩, []⟩),
      ("d2", some ⟨⟨"d2", 1, md5 [0] ++ "x"⟩, [0]⟩)]
    totalSize := 1 }

/-- The loop of `Setup`, from any area. -/
def setupFrom (area : DownloadArea) (infos : List DicomInstanceInfo) : DownloadArea :=
  infos.foldl
    (fun area info =>
      { instances := mapInsert info.id (some (DownloadArea.Instance.create info)) area.instances
        totalSize := addSz area.totalSize info.size })
    area

/-- The area of the example after a `Commit` that raised on `d2`: the slot of
`d1` has been released. -/
def areaAfterFailedCommit (md5 : List Byte → String) : DownloadArea :=
  { instances := [("d1", none), ("d2", some ⟨⟨"d2", 1, md5 [0] ++ "x"⟩, [0]⟩)]
    totalSize := 1 }

/-- The payload of a bucket read from the source instances: the
concatenation, chunk after chunk, of bytes `[offset, offset + size)` of the
instance that the chunk names. -/
def payloadOf (src : String → List Byte) (chunks : List Chunk) : List Byte :=
  chunks.flatMap (fun c => ((src c.instanceId).drop c.offset).take c.size)

/-- The body sent for a payload: the payload itself, or its gzip
compression. -/
def encodePayload (compress : List Byte → List Byte) (compression : BucketCompression)
    (payload : List Byte) : List Byte :=
  match compression with
  | .None => payload
  | .Gzip => compress payload

/-- A sequence of calls on a download area, stopped by the first exception. -/
def runCalls (area : DownloadArea) :
    List (DownloadArea → DownloadArea × Option ErrorCode) → DownloadArea × Option ErrorCode
  | [] => (area, none)
  | call :: rest =>
    match call area with
    | (area, none) => runCalls area rest
    | (area, some e) => (area, some e)

/-- The area in which the file of every live slot is replaced by `files id`. -/
def mapFiles (files : String → List Byte) (area : DownloadArea) : DownloadArea :=
  { area with
    instances := area.instances.map (fun e =>
      (e.1, e.2.map (fun slot => { slot with file := files e.1 }))) }

/-- The area built for `infos` in which every slot holds its source
instance. -/
def sourceArea (src : String → List Byte) (infos : List DicomInstanceInfo) : DownloadArea :=
  mapFiles src (DownloadArea.Setup infos)

/-- The bytes of `"Hello"`, the first instance of the unit test
`DownloadArea.Basic`. -/
def helloBytes : List Byte := [72, 101, 108, 108, 111]

/-- The bytes of `"Hello, World!"`, the second instance of the unit test
`DownloadArea.Basic`. -/
def helloWorldBytes : List Byte := [72, 101, 108, 108, 111, 44, 32, 87, 111, 114, 108, 100, 33]

/-- The source instances of the unit test `DownloadArea.Basic`. -/
def sourcesOfTest : String → List Byte :=
  fun id => if id = "d1" then helloBytes else if id = "d2" then helloWorldBytes else []

/-- The descriptors of the unit test `DownloadArea.Basic`, with the digest of
the examples. -/
def infosOfTest : List DicomInstanceInfo :=
  [⟨"d1", 5, exampleDigest helloBytes⟩, ⟨"d2", 13, exampleDigest helloWorldBytes⟩]

/-- The three buckets of the unit test `DownloadArea.Basic`, the last one
sent compressed. -/
def writesOfTest : List (TransferBucket × BucketCompression) :=
  [(bucketOfChunks [⟨"d1", 0, 2⟩], .None),
   (bucketOfChunks [⟨"d1", 2, 3⟩, ⟨"d2", 0, 4⟩], .None),
   (bucketOfChunks [⟨"d2", 4, 9⟩], .Gzip)]

/-! ## JSON values -/

/-- The class `Json::Value` of JsonCpp: one constructor per `Json::ValueType`.
An object is the association list of its members. -/
inductive Json where
  | null
  | int (v : Int)
  | uint (v : Nat)
  | real (num : Int) (den : Nat)
  | string (v : String)
  | bool (v : Bool)
  | array (items : List Json)
  | object (members : List (String × Json))

/-- The enumeration `Json::ValueType`. -/
inductive JsonType where
  | nullValue
  | intValue
  | uintValue
  | realValue
  | stringValue
  | booleanValue
  | arrayValue
  | objectValue
  deriving DecidableEq, Repr

namespace Json

/-- Method `Json::Value::type`. -/
def type : Json → JsonType
  | .null => .nullValue
  | .int _ => .intValue
  | .uint _ => .uintValue
  | .real _ _ => .realValue
  | .string _ => .stringValue
  | .bool _ => .booleanValue
  | .array _ => .arrayValue
  | .object _ => .objectValue

/-- Method `Json::Value::isMember(key)`. -/
def isMember (j : Json) (key : String) : Bool :=
  match j with
  | .object members => (mapFind key members).isSome
  | _ => false

/-- The read access `value[key]` on a constant value: the member, or the null
value when there is none. -/
def get (j : Json) (key : String) : Json :=
  match j with
  | .object members => (mapFind key members).getD .null
  | _ => .null

/-- Method `Json::Value::asString`, on the values the code calls it on: the
strings. -/
def asString : Json → String
  | .string v => v
  | _ => ""

/-- The assignment `value[key] = v` on an object (or on the null value, which
becomes an object). -/
def set (j : Json) (key : String) (v : Json) : Json :=
  match j with
  | .object members => .object (mapInsert key v members)
  | .null => .object [(key, v)]
  | other => other

/-- Method `Json::Value::append` on an array (or on the null value, which
becomes an array). -/
def append (j : Json) (v : Json) : Json :=
  match j with
  | .array items => .array (items ++ [v])
  | .null => .array [v]
  | other => other

end Json

/-- The constant `KEY_ID`. -/
def KEY_ID : String := "ID"

/-- The constant `KEY_MD5`. -/
def KEY_MD5 : String := "MD5"

/-- The constant `KEY_SIZE`. -/
def KEY_SIZE : String := "Size"

/-- The constant `KEY_OFFSET`. -/
def KEY_OFFSET : String := "Offset"

/-! ## Serialization of `DicomInstanceInfo` and `TransferBucket`

`boost::lexical_cast<size_t>` on a string is the parameter `lexicalCast`
(`none` stands for `bad_lexical_cast`); `boost::lexical_cast<std::string>` on a
`size_t` is `toString`. -/

/-- Constructor `DicomInstanceInfo::DicomInstanceInfo(const Json::Value&)`. -/
def DicomInstanceInfo.ofJson (lexicalCast : String → Option Nat) (serialized : Json) :
    Except ErrorCode DicomInstanceInfo :=
  if serialized.type != .objectValue ||
      !serialized.isMember KEY_ID ||
      !serialized.isMember KEY_SIZE ||
      !serialized.isMember KEY_MD5 ||
      (serialized.get KEY_ID).type != .stringValue ||
      (serialized.get KEY_SIZE).type != .stringValue ||
      (serialized.get KEY_MD5).type != .stringValue then
    .error .BadFileFormat
  else
    match lexicalCast (serialized.get KEY_SIZE).asString with
    | some size =>
      .ok { id := (serialized.get KEY_ID).asString, size := size,
            md5 := (serialized.get KEY_MD5).asString }
    | none => .error .BadFileFormat

/-- Method `DicomInstanceInfo::Serialize`. -/
def DicomInstanceInfo.Serialize (info : DicomInstanceInfo) : Json :=
  (((Json.object []).set KEY_ID (.string info.id)).set KEY_SIZE
    (.string (toString info.size))).set KEY_MD5 (.string info.md5)

namespace TransferBucket

/-- The loop of the constructor `TransferBucket::TransferBucket(const
Json::Value&)` over the elements of the array. -/
def ofJsonLoop (lexicalCast : String → Option Nat) :
    List Json → TransferBucket → Except ErrorCode TransferBucket
  | [], b => .ok b
  | item :: rest, b =>
    if item.type != .objectValue ||
        !item.isMember KEY_ID ||
        !item.isMember KEY_OFFSET ||
        !item.isMember KEY_SIZE ||
        (item.get KEY_ID).type != .stringValue ||
        (item.get KEY_OFFSET).type != .stringValue ||
        (item.get KEY_SIZE).type != .stringValue then
      .error .BadFileFormat
    else
      match lexicalCast (item.get KEY_OFFSET).asString with
      | none => .error .BadFileFormat
      | some offset =>
        match lexicalCast (item.get KEY_SIZE).asString with
        | none => .error .BadFileFormat
        | some size =>
          ofJsonLoop lexicalCast rest
            { chunks := b.chunks ++ [{ instanceId := (item.get KEY_ID).asString,
                                       offset := offset, size := size }]
              totalSize := addSz b.totalSize size
              extensible := b.extensible }

/-- Constructor `TransferBucket::TransferBucket(const Json::Value&)`. -/
def ofJson (lexicalCast : String → Option Nat) (serialized : Json) :
    Except ErrorCode TransferBucket :=
  if serialized.type != .arrayValue then .error .BadFileFormat
  else
    match serialized with
    | .array items =>
      ofJsonLoop lexicalCast items { chunks := [], totalSize := 0, extensible := false }
    | _ => .error .BadFileFormat

/-- Method `TransferBucket::Serialize`. -/
def Serialize (b : TransferBucket) : Json :=
  b.chunks.foldl
    (fun target c =>
      target.append
        ((((Json.object []).set KEY_ID (.string c.instanceId)).set KEY_OFFSET
          (.string (toString c.offset))).set KEY_SIZE (.string (toString c.size))))
    (.array [])

end TransferBucket

/-! ## `SourceDicomInstance` -/

/-- The class `SourceDicomInstance`: the descriptor and the bytes of the
instance. -/
structure SourceDicomInstance where
  info : DicomInstanceInfo
  buffer : List Byte

/-- Method `SourceDicomInstance::GetChunk`; the result is the pair of the
out-parameters `target` and `md5`. -/
def SourceDicomInstance.GetChunk (md5 : List Byte → String) (source : SourceDicomInstance)
    (offset size : Nat) : Except ErrorCode (List Byte × String) :=
  if addSz offset size > source.buffer.length then .error .ParameterOutOfRange
  else
    let target := (source.buffer.drop offset).take size
    .ok (target, md5 target)

/-! ## Vocabulary of the claims on `TransferBucket` -/

/-- A call on a bucket: `AddChunk(instance, offset, size)` or `Clear()`. -/
inductive BucketCall where
  | addChunk (instance_ : DicomInstanceInfo) (chunkOffset chunkSize : Nat)
  | clear

/-- The bucket after a call and the exception that the call raised, if any:
`AddChunk` raises before it modifies anything. -/
def TransferBucket.applyCall (b : TransferBucket) : BucketCall → TransferBucket × Option ErrorCode
  | .addChunk instance_ chunkOffset chunkSize =>
    match b.AddChunk instance_ chunkOffset chunkSize with
    | .ok b' => (b', none)
    | .error e => (b, some e)
  | .clear => (b.Clear, none)

/-- The bucket after a sequence of calls, each of which returns or raises. -/
def TransferBucket.run (b : TransferBucket) (calls : List BucketCall) : TransferBucket :=
  calls.foldl (fun b call => (b.applyCall call).1) b

/-- Whether the arguments of a call are values of `size_t`. -/
def BucketCall.representable : BucketCall → Prop
  | .addChunk instance_ chunkOffset chunkSize =>
    instance_.size < SIZE_MOD ∧ chunkOffset < SIZE_MOD ∧ chunkSize < SIZE_MOD
  | .clear => True

/-- The text of the `compression` argument of a pull URL. -/
def compressionName : BucketCompression → String
  | .None => "none"
  | .Gzip => "gzip"

/-- A chunk element in the words of the specification: an object whose
members `ID`, `Offset` and `Size` are strings, the last two being parsed by
the integer parser. -/
def isChunkElement (lexicalCast : String → Option Nat) (item : Json) : Prop :=
  ∃ members id offset size, item = .object members ∧
    mapFind "ID" members = some (.string id) ∧
    mapFind "Offset" members = some (.string offset) ∧
    mapFind "Size" members = some (.string size) ∧
    (lexicalCast offset).isSome ∧ (lexicalCast size).isSome

/-- An instance descriptor in the words of the specification: an object whose
members `ID`, `Size` and `MD5` are strings, the size being parsed by the
integer parser. -/
def isInstanceElement (lexicalCast : String → Option Nat) (item : Json) : Prop :=
  ∃ members id size md5, item = .object members ∧
    mapFind "ID" members = some (.string id) ∧
    mapFind "Size" members = some (.string size) ∧
    mapFind "MD5" members = some (.string md5) ∧
    (lexicalCast size).isSome

/-- The JSON object that `Serialize` builds for one chunk. -/
def chunkToJson (c : Chunk) : Json :=
  .object [("ID", .string c.instanceId), ("Offset", .string (toString c.offset)),
    ("Size", .string (toString c.size))]

/-- The value of a string of decimal digits read after `acc`. -/
def digitsToNat : List Char → Nat → Option Nat
  | [], acc => some acc
  | c :: cs, acc =>
    if c.isDigit then digitsToNat cs (10 * acc + (c.toNat - 48)) else none

/-- A parser of `size_t` for the examples: the non-empty strings of decimal
digits whose value is below `2^64`. -/
def exampleLexicalCast (s : String) : Option Nat :=
  if s.data = [] then none
  else
    match digitsToNat s.data 0 with
    | some n => if n < SIZE_MOD then some n else none
    | none => none

/-- The calls of the unit test `TransferBucket.Serialization`. -/
def callsOfSerializationTest : List BucketCall :=
  [.addChunk ⟨"d1", 10, ""⟩ 5 5, .addChunk ⟨"d2", 20, ""⟩ 0 20, .addChunk ⟨"d3", 30, ""⟩ 0 7]

/-! ## `OrthancInstancesCache`

The class `Orthanc::LeastRecentlyUsedIndex<std::string>` of the Orthanc
framework is the list of its identifiers, the oldest first. -/

/-- `m.erase(key)` on a `std::map<std::string, T>`. -/
def mapErase {α : Type} (key : String) (l : List (String × α)) : List (String × α) :=
  l.filter (fun e => e.1 != key)

/-- Methods `LeastRecentlyUsedIndex::MakeMostRecent` and `AddOrMakeMostRecent`:
the identifier goes to the most recent end. -/
def MakeMostRecent (id : String) (index : List String) : List String :=
  index.erase id ++ [id]

/-- The constant `MB` of `TransferToolbox.h`. -/
def MB : Nat := 1024 * 1024

/-- The class `OrthancInstancesCache`: the index `index_`, the map `content_`,
and the counters `memorySize_` and `maxMemorySize_`. -/
structure OrthancInstancesCache where
  index : List String := []
  content : List (String × SourceDicomInstance) := []
  memorySize : Nat := 0
  maxMemorySize : Nat := 512 * MB

namespace OrthancInstancesCache

/-- Method `OrthancInstancesCache::CheckInvariants`: the conjunction of its
assertions. -/
def CheckInvariants (c : OrthancInstancesCache) : Prop :=
  c.content.length = c.index.length ∧
  (∀ e ∈ c.content, e.1 ∈ c.index) ∧
  c.content.foldl (fun s e => addSz s e.2.info.size) 0 = c.memorySize ∧
  (c.memorySize > c.maxMemorySize →
    c.index.length = 1 ∧ c.content.length = 1 ∧
    ∃ e, c.content.head? = some e ∧ c.memorySize = e.2.info.size)

/-- Method `OrthancInstancesCache::RemoveOldest`; its assertions say that the
index is not empty and that the map holds the oldest identifier. -/
def RemoveOldest (c : OrthancInstancesCache) : OrthancInstancesCache :=
  match c.index with
  | [] => c
  | oldest :: rest =>
    match mapFind oldest c.content with
    | some source =>
      { index := rest
        content := mapErase oldest c.content
        memorySize := subSz c.memorySize source.info.size
        maxMemorySize := c.maxMemorySize }
    | none => { c with index := rest }

/-- The loop `while (test) RemoveOldest();`, run for at most `fuel` rounds. -/
def removeWhile (test : OrthancInstancesCache → Bool) :
    Nat → OrthancInstancesCache → OrthancInstancesCache
  | 0, c => c
  | fuel + 1, c => if test c then removeWhile test fuel c.RemoveOldest else c

/-- The test of the loop of `Store`. -/
def storeTest (size : Nat) (c : OrthancInstancesCache) : Bool :=
  !c.index.isEmpty && decide (addSz c.memorySize size > c.maxMemorySize)

/-- Method `OrthancInstancesCache::Store`, for a non-null instance.  Every
round of the loop takes one identifier out of the index, so that
`index.length` rounds are enough. -/
def Store (c : OrthancInstancesCache) (instanceId : String) (source : SourceDicomInstance) :
    OrthancInstancesCache :=
  if c.index.contains instanceId then
    { c with index := MakeMostRecent instanceId c.index }
  else
    let c := removeWhile (storeTest source.info.size) c.index.length c
    { index := MakeMostRecent instanceId c.index
      content := mapInsert instanceId source c.content
      memorySize := addSz c.memorySize source.info.size
      maxMemorySize := c.maxMemorySize }

/-- Constructor `CacheAccessor::CacheAccessor`: the cache afterwards and the
instance found, if any. -/
def access (c : OrthancInstancesCache) (instanceId : String) :
    OrthancInstancesCache × Option SourceDicomInstance :=
  if c.index.contains instanceId then
    ({ c with index := MakeMostRecent instanceId c.index }, mapFind instanceId c.content)
  else (c, none)

/-- Method `OrthancInstancesCache::SetMaxMemorySize`. -/
def SetMaxMemorySize (c : OrthancInstancesCache) (size : Nat) :
    OrthancInstancesCache × Option ErrorCode :=
  if size ≤ 0 then (c, some .ParameterOutOfRange)
  else
    let c := removeWhile (fun c => decide (c.memorySize > size)) c.index.length c
    ({ c with maxMemorySize := size }, none)

/-- Method `OrthancInstancesCache::GetInstanceInfo` run without interruption;
`load` is the constructor of `SourceDicomInstance`, which reads the instance
from the archive.  The result is the cache and the out-parameters `size` and
`md5`. -/
def GetInstanceInfo (load : String → SourceDicomInstance) (c : OrthancInstancesCache)
    (instanceId : String) : OrthancInstancesCache × Nat × String :=
  match c.access instanceId with
  | (c, some source) => (c, source.info.size, source.info.md5)
  | (c, none) =>
    let source := load instanceId
    (c.Store instanceId source, source.info.size, source.info.md5)

/-- Method `OrthancInstancesCache::GetChunk` run without interruption; the
result is the cache and the out-parameters `chunk` and `md5`, or the
exception. -/
def GetChunk (md5 : List Byte → String) (load : String → SourceDicomInstance)
    (c : OrthancInstancesCache) (instanceId : String) (offset size : Nat) :
    OrthancInstancesCache × Except ErrorCode (List Byte × String) :=
  match c.access instanceId with
  | (c, some source) => (c, source.GetChunk md5 offset size)
  | (c, none) =>
    let source := load instanceId
    match source.GetChunk md5 offset size with
    | .error e => (c, .error e)
    | .ok result => (c.Store instanceId source, .ok result)

end OrthancInstancesCache

/-! ## Vocabulary of the claims on the cache -/

/-- The size of the cached instance `id`, 0 when there is none. -/
def cachedSize (content : List (String × SourceDicomInstance)) (id : String) : Nat :=
  match mapFind id content with
  | some source => source.info.size
  | none => 0

/-- The sum of the sizes of the cached instances named by `ids`. -/
def residency (content : List (String × SourceDicomInstance)) (ids : List String) : Nat :=
  (ids.map (cachedSize content)).sum

/-- A step on the cache taken under its mutex: the lookup of a
`CacheAccessor`, a `Store`, or `SetMaxMemorySize`.  `GetInstanceInfo` and
`GetChunk` are a lookup followed, on a miss, by a `Store`, with the steps of
other threads in between. -/
inductive CacheStep where
  | access (instanceId : String)
  | store (instanceId : String) (source : SourceDicomInstance)
  | setMaxMemorySize (size : Nat)

/-- The cache after one step. -/
def OrthancInstancesCache.step (c : OrthancInstancesCache) : CacheStep → OrthancInstancesCache
  | .access instanceId => (c.access instanceId).1
  | .store instanceId source => c.Store instanceId source
  | .setMaxMemorySize size => (c.SetMaxMemorySize size).1

/-- The cache after a sequence of steps. -/
def OrthancInstancesCache.run (c : OrthancInstancesCache) (steps : List CacheStep) :
    OrthancInstancesCache :=
  steps.foldl OrthancInstancesCache.step c

/-- The steps whose sizes leave the counters far from the end of `size_t`: an
instance is a plugin memory buffer, whose size has 32 bits, and the limit is
at most `2^64 - 2^32`. -/
def CacheStep.representable : CacheStep → Prop
  | .access _ => True
  | .store _ source => source.info.size < 2^32
  | .setMaxMemorySize size => size + 2^32 ≤ SIZE_MOD

/-- The representation invariant of the cache: the index has no duplicate, the
map is sorted, both hold the same identifiers, the counter is the sum of the
sizes of the cached instances, and the counter is at most the limit unless
the cache holds one entry. -/
def OrthancInstancesCache.Consistent (c : OrthancInstancesCache) : Prop :=
  c.index.Nodup ∧
  (c.content.map Prod.fst).Pairwise (fun a b => a.data < b.data) ∧
  (∀ id, id ∈ c.index ↔ (mapFind id c.content).isSome) ∧
  c.memorySize = residency c.content c.index ∧
  (c.memorySize ≤ c.maxMemorySize ∨ c.index.length = 1) ∧
  (∀ id, cachedSize c.content id < 2^32) ∧
  c.maxMemorySize + 2^32 ≤ SIZE_MOD

/-- A source instance of `size` zero bytes, for the examples. -/
def sourceOfSize (id : String) (size : Nat) : SourceDicomInstance :=
  { info := ⟨id, size, ""⟩, buffer := List.replicate size 0 }

/-- The steps of the examples: the limit is set to 25 bytes, then two
instances of 10 bytes are stored. -/
def stepsOfExample : List CacheStep :=
  [.setMaxMemorySize 25, .store "a" (sourceOfSize "a" 10), .store "b" (sourceOfSize "b" 10)]

/-! ## `HttpQueriesQueue` -/

/-- The enumeration `Orthanc::HttpMethod`. -/
inductive HttpMethod where
  | Get
  | Post
  | Put
  | Delete
  deriving DecidableEq, Repr

/-- The interface `IHttpQuery`: `ReadBody` returns the body or raises,
`HandleAnswer` raises or returns. -/
structure IHttpQuery where
  method : HttpMethod
  peer : String
  uri : String
  ReadBody : Except ErrorCode (List Byte)
  HandleAnswer : List Byte → Option ErrorCode

/-- The outcome of one call to `DoGet`, `DoPost`, `DoPut` or `DoDelete`: it
returns `true` with an answer, returns `false`, or raises an
`OrthancException`. -/
inductive Attempt where
  | answered (answer : List Byte)
  | refused
  | raised

/-- The enumeration `HttpQueriesQueue::Status`. -/
inductive Status where
  | Success
  | Failure
  | Running
  deriving DecidableEq, Repr

/-- The modulus of `unsigned int`. -/
def UINT_MOD : Nat := 2 ^ 32

/-- The class `HttpQueriesQueue`; the default value is the one that the
constructor builds. -/
structure HttpQueriesQueue where
  queries : List IHttpQuery := []
  maxRetries : Nat := 0
  position : Nat := 0
  downloadedSize : Nat := 0
  uploadedSize : Nat := 0
  successQueries : Nat := 0
  isFailure : Bool := false

/-- A request sent to a peer: method, peer, URI and body. -/
structure HttpRequest where
  method : HttpMethod
  peer : String
  uri : String
  body : List Byte

/-- What one call to `ExecuteOneQuery` leaves: the queue, the value returned
or the exception, the out-parameter `networkTraffic`, and the requests sent. -/
structure Execution where
  queue : HttpQueriesQueue
  result : Except ErrorCode Bool
  networkTraffic : Nat
  requests : List HttpRequest

namespace HttpQueriesQueue

/-- Method `HttpQueriesQueue::GetStatusInternal`. -/
def GetStatusInternal (q : HttpQueriesQueue) : Status :=
  if q.successQueries = q.queries.length then .Success
  else if q.isFailure then .Failure
  else .Running

/-- Method `HttpQueriesQueue::Enqueue`, for a non-null query. -/
def Enqueue (q : HttpQueriesQueue) (query : IHttpQuery) : HttpQueriesQueue :=
  { q with queries := q.queries ++ [query] }

/-- The first locked section of `ExecuteOneQuery`: `none` when the function
returns `false` at once, otherwise the query taken and the queue. -/
def takeQuery (q : HttpQueriesQueue) : Option (IHttpQuery × HttpQueriesQueue) :=
  if q.position = q.queries.length || q.isFailure then none
  else
    match q.queries[q.position]? with
    | some query => some (query, { q with position := q.position + 1 })
    | none => none

/-- The locked section of `ExecuteOneQuery` after a successful attempt. -/
def recordSuccess (q : HttpQueriesQueue) (downloaded uploaded : Nat) : HttpQueriesQueue :=
  { q with
    downloadedSize := addSz q.downloadedSize downloaded
    uploadedSize := addSz q.uploadedSize uploaded
    successQueries := q.successQueries + 1 }

/-- The locked section of `ExecuteOneQuery` after the last retry. -/
def recordFailure (q : HttpQueriesQueue) : HttpQueriesQueue :=
  { q with isFailure := true }

/-- The loop `for (;;)` of `ExecuteOneQuery`, for at most `fuel` rounds:
`attempt i` is the outcome of the call number `i`, `issued` the number of
calls made and `retry` the counter, an `unsigned int`.  The result is the
number of calls made and the answer of the successful one, if any; `none`
when the rounds run out. -/
def retryLoop (attempt : Nat → Attempt) (maxRetries : Nat) :
    Nat → Nat → Nat → Option (Nat × Option (List Byte))
  | 0, _, _ => none
  | fuel + 1, issued, retry =>
    match attempt issued with
    | .answered answer => some (issued + 1, some answer)
    | _ =>
      let retry := (retry + 1) % UINT_MOD
      if retry ≤ maxRetries then retryLoop attempt maxRetries fuel (issued + 1) retry
      else some (issued + 1, none)

/-- Method `HttpQueriesQueue::ExecuteOneQuery` run by one worker without
interruption; `none` when the rounds of the loop run out. -/
def ExecuteOneQuery (attempt : Nat → Attempt) (fuel : Nat) (q : HttpQueriesQueue) :
    Option Execution :=
  match q.takeQuery with
  | none => some { queue := q, result := .ok false, networkTraffic := 0, requests := [] }
  | some (query, q) =>
    let body : Except ErrorCode (List Byte) :=
      if query.method = .Post ∨ query.method = .Put then query.ReadBody else .ok []
    match body with
    | .error e => some { queue := q, result := .error e, networkTraffic := 0, requests := [] }
    | .ok body =>
      let request : HttpRequest :=
        { method := query.method, peer := query.peer, uri := query.uri
          body := if query.method = .Post ∨ query.method = .Put then body else [] }
      match retryLoop attempt q.maxRetries fuel 0 0 with
      | none => none
      | some (issued, none) =>
        some { queue := q.recordFailure, result := .ok false, networkTraffic := 0
               requests := List.replicate issued request }
      | some (issued, some answer) =>
        let handled : Option ErrorCode :=
          if query.method = .Get ∨ query.method = .Post then query.HandleAnswer answer else none
        match handled with
        | some e =>
          some { queue := q, result := .error e, networkTraffic := 0
                 requests := List.replicate issued request }
        | none =>
          let downloaded :=
            if query.method = .Get ∨ query.method = .Post then answer.length else 0
          let uploaded :=
            if query.method = .Put ∨ query.method = .Post then body.length else 0
          some { queue := q.recordSuccess downloaded uploaded, result := .ok true
                 networkTraffic := addSz downloaded uploaded
                 requests := List.replicate issued request }

end HttpQueriesQueue

/-! ## Vocabulary of the claims on the queue -/

/-- The queue and the workers that are inside `ExecuteOneQuery`: `inflight`
counts the workers between the first locked section and the last, `dropped`
the requests whose worker has set `isFailure` or has raised. -/
structure Workers where
  queue : HttpQueriesQueue
  inflight : Nat := 0
  dropped : Nat := 0

/-- A locked section of `ExecuteOneQuery` run by some worker, or the exit of a
worker by an exception. -/
inductive WorkerStep where
  | take
  | success (downloaded uploaded : Nat)
  | failure
  | raise

/-- The effect of a step; a step that no worker can take leaves everything as
it is. -/
def Workers.step (w : Workers) : WorkerStep → Workers
  | .take =>
    match w.queue.takeQuery with
    | some (_, queue) => { w with queue := queue, inflight := w.inflight + 1 }
    | none => w
  | .success downloaded uploaded =>
    if w.inflight = 0 then w
    else { w with queue := w.queue.recordSuccess downloaded uploaded, inflight := w.inflight - 1 }
  | .failure =>
    if w.inflight = 0 then w
    else { queue := w.queue.recordFailure, inflight := w.inflight - 1, dropped := w.dropped + 1 }
  | .raise =>
    if w.inflight = 0 then w
    else { w with inflight := w.inflight - 1, dropped := w.dropped + 1 }

/-- The state after a sequence of steps of the workers. -/
def Workers.run (w : Workers) (steps : List WorkerStep) : Workers :=
  steps.foldl Workers.step w

/-- The freshly built queue that holds `queries`. -/
def queueOf (queries : List IHttpQuery) (maxRetries : Nat) : HttpQueriesQueue :=
  { queries := queries, maxRetries := maxRetries }

/-- The state that the workers reach from the freshly built queue by a
sequence of steps. -/
def reachedBy (queries : List IHttpQuery) (maxRetries : Nat) (steps : List WorkerStep) :
    Workers :=
  Workers.run { queue := queueOf queries maxRetries } steps

/-- The request that `ExecuteOneQuery` sends for a query whose body is
`body`. -/
def requestOf (query : IHttpQuery) (body : List Byte) : HttpRequest :=
  { method := query.method, peer := query.peer, uri := query.uri
    body := if query.method = .Post ∨ query.method = .Put then body else [] }

/-- A GET query of the examples, whose `HandleAnswer` raises nothing. -/
def exampleQuery : IHttpQuery :=
  { method := .Get, peer := "peer", uri := "/transfers/chunks/d1?offset=0&size=2&compression=none"
    ReadBody := .ok [], HandleAnswer := fun _ => none }

/-- A transport of the examples: the first two calls return `false`, the
third one answers two bytes. -/
def exampleAttempts : Nat → Attempt := fun i => if i < 2 then .refused else .answered [1, 2]

/-! ## `ActivePushTransactions`

The index `index_` is the list of the registered identifiers, the oldest
first.  In `Orthanc::LeastRecentlyUsedIndex`, `RemoveOldest` on an empty index
and `Add` of an identifier already present raise bad-sequence-of-calls. -/

/-- The class `ActivePushTransactions::Transaction`. -/
structure Transaction where
  area : DownloadArea
  buckets : List TransferBucket
  compression : BucketCompression

namespace Transaction

/-- Constructor `Transaction::Transaction`. -/
def create (instances : List DicomInstanceInfo) (buckets : List TransferBucket)
    (compression : BucketCompression) : Transaction :=
  { area := DownloadArea.Setup instances, buckets := buckets, compression := compression }

/-- Method `Transaction::GetBucket`. -/
def GetBucket (t : Transaction) (index : Nat) : Except ErrorCode TransferBucket :=
  if h : index ≥ t.buckets.length then .error .ParameterOutOfRange
  else .ok (t.buckets.get ⟨index, by omega⟩)

/-- Method `Transaction::Store`: the transaction afterwards and the exception
raised, if any. -/
def Store (uncompress : List Byte → Except ErrorCode (List Byte)) (t : Transaction)
    (bucketIndex : Nat) (data : List Byte) : Transaction × Option ErrorCode :=
  match t.GetBucket bucketIndex with
  | .error e => (t, some e)
  | .ok bucket =>
    match t.area.WriteBucket uncompress bucket data t.compression with
    | (area, raised) => ({ t with area := area }, raised)

end Transaction

/-- The class `ActivePushTransactions`. -/
structure ActivePushTransactions where
  content : List (String × Transaction) := []
  index : List String := []
  maxSize : Nat

namespace ActivePushTransactions

/-- Method `ActivePushTransactions::CreateTransaction`; `uuid` is the value of
`Orthanc::Toolbox::GenerateUuid()`.  The result is the registry afterwards and
the identifier returned, or the exception. -/
def CreateTransaction (r : ActivePushTransactions) (uuid : String)
    (instances : List DicomInstanceInfo) (buckets : List TransferBucket)
    (compression : BucketCompression) : ActivePushTransactions × Except ErrorCode String :=
  let tmp := Transaction.create instances buckets compression
  let dropped : Except ErrorCode ActivePushTransactions :=
    if r.content.length = r.maxSize then
      match r.index with
      | [] => .error .BadSequenceOfCalls
      | oldest :: rest => .ok ⟨mapErase oldest r.content, rest, r.maxSize⟩
    else .ok r
  match dropped with
  | .error e => (r, .error e)
  | .ok r =>
    if r.index.contains uuid then (r, .error .BadSequenceOfCalls)
    else (⟨mapInsert uuid tmp r.content, r.index ++ [uuid], r.maxSize⟩, .ok uuid)

/-- Method `ActivePushTransactions::Store`. -/
def Store (uncompress : List Byte → Except ErrorCode (List Byte)) (r : ActivePushTransactions)
    (transactionUuid : String) (bucketIndex : Nat) (data : List Byte) :
    ActivePushTransactions × Option ErrorCode :=
  match mapFind transactionUuid r.content with
  | none => (r, some .UnknownResource)
  | some found =>
    match found.Store uncompress bucketIndex data with
    | (found, raised) =>
      (⟨mapSet transactionUuid found r.content, MakeMostRecent transactionUuid r.index,
        r.maxSize⟩, raised)

/-- Method `ActivePushTransactions::FinalizeTransaction`: the registry, the
bodies posted to the archive and the exception raised, if any. -/
def FinalizeTransaction (md5 : List Byte → String)
    (accepts : List (List Byte) → List Byte → Bool) (r : ActivePushTransactions)
    (transactionUuid : String) (commit : Bool) (posted : List (List Byte)) :
    ActivePushTransactions × List (List Byte) × Option ErrorCode :=
  match mapFind transactionUuid r.content with
  | none => (r, posted, some .UnknownResource)
  | some found =>
    let committed : DownloadArea × List (List Byte) × Option ErrorCode :=
      if commit then found.area.Commit md5 accepts posted else (found.area, posted, none)
    match committed with
    | (area, posted, some e) =>
      (⟨mapSet transactionUuid { found with area := area } r.content, r.index, r.maxSize⟩,
        posted, some e)
    | (_, posted, none) =>
      (⟨mapErase transactionUuid r.content, r.index.erase transactionUuid, r.maxSize⟩,
        posted, none)

/-- Method `ActivePushTransactions::Commit`. -/
def Commit (md5 : List Byte → String) (accepts : List (List Byte) → List Byte → Bool)
    (r : ActivePushTransactions) (transactionUuid : String) (posted : List (List Byte)) :
    ActivePushTransactions × List (List Byte) × Option ErrorCode :=
  r.FinalizeTransaction md5 accepts transactionUuid true posted

/-- Method `ActivePushTransactions::Discard`. -/
def Discard (md5 : List Byte → String) (accepts : List (List Byte) → List Byte → Bool)
    (r : ActivePushTransactions) (transactionUuid : String) (posted : List (List Byte)) :
    ActivePushTransactions × List (List Byte) × Option ErrorCode :=
  r.FinalizeTransaction md5 accepts transactionUuid false posted

end ActivePushTransactions

/-! ## Vocabulary of the claims on the registry -/

/-- The library functions that the registry calls: the digest, the archive
and the inflater. -/
structure Host where
  md5 : List Byte → String
  accepts : List (List Byte) → List Byte → Bool
  uncompress : List Byte → Except ErrorCode (List Byte)

/-- A call on the registry. -/
inductive RegistryOp where
  | create (uuid : String) (instances : List DicomInstanceInfo) (buckets : List TransferBucket)
      (compression : BucketCompression)
  | store (uuid : String) (bucketIndex : Nat) (data : List Byte)
  | commit (uuid : String)
  | discard (uuid : String)

/-- The registry and the bodies posted to the archive after a call, whether
it returns or raises. -/
def registryStep (host : Host) (state : ActivePushTransactions × List (List Byte)) :
    RegistryOp → ActivePushTransactions × List (List Byte)
  | .create uuid instances buckets compression =>
    ((state.1.CreateTransaction uuid instances buckets compression).1, state.2)
  | .store uuid bucketIndex data =>
    ((state.1.Store host.uncompress uuid bucketIndex data).1, state.2)
  | .commit uuid =>
    ((state.1.Commit host.md5 host.accepts uuid state.2).1,
      (state.1.Commit host.md5 host.accepts uuid state.2).2.1)
  | .discard uuid =>
    ((state.1.Discard host.md5 host.accepts uuid state.2).1,
      (state.1.Discard host.md5 host.accepts uuid state.2).2.1)

/-- The registry of capacity `maxSize` after a sequence of calls. -/
def registryAfter (host : Host) (maxSize : Nat) (ops : List RegistryOp) :
    ActivePushTransactions × List (List Byte) :=
  ops.foldl (registryStep host) ({ maxSize := maxSize }, [])

/-- Whether the call creates the transaction `id` or stores into it. -/
def RegistryOp.touches : RegistryOp → String → Bool
  | .create uuid _ _ _, id => uuid == id
  | .store uuid _ _, id => uuid == id
  | .commit _, _ => false
  | .discard _, _ => false

/-- The rank of the last call of `ops` that creates `id` or stores into it,
from 1; 0 when there is none. -/
def lastTouch (ops : List RegistryOp) (id : String) : Nat :=
  (ops.foldl (fun (acc : Nat × Nat) op =>
    (acc.1 + 1, if op.touches id then acc.1 + 1 else acc.2)) (0, 0)).2

/-- Every identifier that `CreateTransaction` generates is not registered at
that time. -/
def uuidsFresh (host : Host) (maxSize : Nat) (ops : List RegistryOp) : Prop :=
  ∀ k uuid instances buckets compression,
    ops[k]? = some (.create uuid instances buckets compression) →
    uuid ∉ (registryAfter host maxSize (ops.take k)).1.index

/-- The representation invariant of the registry: the index has no
duplicate, the map is sorted, both hold the same identifiers, and the map
holds at most `maxSize` transactions. -/
def ActivePushTransactions.Consistent (r : ActivePushTransactions) : Prop :=
  r.index.Nodup ∧
  (r.content.map Prod.fst).Pairwise (fun a b => a.data < b.data) ∧
  (∀ id, id ∈ r.index ↔ (mapFind id r.content).isSome) ∧
  r.content.length ≤ r.maxSize

/-- The area of one empty instance `d1`, whose descriptor carries the digest
of the empty file. -/
def areaOfEmptyInstance : DownloadArea :=
  DownloadArea.Setup [⟨"d1", 0, exampleDigest []⟩]

/-- The host of the examples. -/
def exampleHost : Host :=
  { md5 := exampleDigest, accepts := acceptAll, uncompress := exampleUncompress }

/-- The calls of the examples, on a registry of capacity 2: the transactions
`t1` and `t2` are created, one byte is stored into `t1`, and `t3` is
created. -/
def opsOfExample : List RegistryOp :=
  [.create "t1" [⟨"d1", 1, exampleDigest [7]⟩] [bucketOfChunks [⟨"d1", 0, 1⟩]] .None,
   .create "t2" [] [] .None,
   .store "t1" 0 [7]]

/-! ## `StatefulOrthancJob` -/

/-- The enumeration `OrthancPluginJobStepStatus`. -/
inductive JobStepStatus where
  | Success
  | Failure
  | Continue
  deriving DecidableEq, Repr

/-- The enumeration `OrthancPluginJobStopReason`. -/
inductive JobStopReason where
  | Success
  | Paused
  | Failure
  | Canceled
  deriving DecidableEq, Repr

/-- The class `StatefulOrthancJob::StateUpdate`, by its four factories. -/
inductive StateUpdate (State : Type) where
  | Next (state : State)
  | Continue
  | Success
  | Failure

/-- The class `StatefulOrthancJob::JobInfo` together with what it forwards to
the job: the content and its `updated_` flag, the content last passed to
`UpdateContent`, and the progress last passed to `UpdateProgress`. -/
structure JobInfo where
  updated : Bool := true
  content : List (String × Json) := []
  published : List (String × Json) := []
  progress : Rat := 0

namespace JobInfo

/-- Method `JobInfo::SetProgress`. -/
def SetProgress (info : JobInfo) (progress : Rat) : JobInfo :=
  { info with progress := progress }

/-- Method `JobInfo::SetContent`. -/
def SetContent (info : JobInfo) (key : String) (value : Json) : JobInfo :=
  { info with content := mapInsert key value info.content, updated := true }

/-- Method `JobInfo::Update`. -/
def Update (info : JobInfo) : JobInfo :=
  if info.updated then { info with published := info.content, updated := false } else info

end JobInfo

/-- The virtual methods of a job and of its states: `CreateInitialState`,
`IState::Step` and `IState::Stop`.  A state is an object: `Step` and `Stop`
return it as they leave it; `Step` returns the update (possibly `NULL`) or
raises. -/
structure JobBehaviour (State : Type) where
  CreateInitialState : JobInfo → JobInfo × Except ErrorCode (Option (StateUpdate State))
  Step : State → JobInfo → State × JobInfo × Except ErrorCode (Option (StateUpdate State))
  Stop : State → JobStopReason → State

/-- The class `StatefulOrthancJob`: the current state `state_` and `info_`. -/
structure StatefulOrthancJob (State : Type) where
  state : Option State := none
  info : JobInfo := {}

namespace StatefulOrthancJob

/-- The second half of `StatefulOrthancJob::Step`, from `info_.Update()` on. -/
def applyUpdate {State : Type} (state : Option State) (info : JobInfo)
    (update : Option (StateUpdate State)) :
    StatefulOrthancJob State × Except ErrorCode JobStepStatus :=
  let info := info.Update
  match update with
  | none => (⟨state, info⟩, .error .NullPointer)
  | some (.Next other) => (⟨some other, info⟩, .ok .Continue)
  | some .Continue => (⟨state, info⟩, .ok .Continue)
  | some .Success => (⟨none, info.SetProgress 1⟩, .ok .Success)
  | some .Failure => (⟨none, info⟩, .ok .Failure)

/-- Method `StatefulOrthancJob::Step`: the job afterwards and the status
returned, or the exception. -/
def Step {State : Type} (b : JobBehaviour State) (job : StatefulOrthancJob State) :
    StatefulOrthancJob State × Except ErrorCode JobStepStatus :=
  match job.state with
  | none =>
    match b.CreateInitialState job.info with
    | (info, .error e) => (⟨none, info⟩, .error e)
    | (info, .ok update) => applyUpdate none info update
  | some state =>
    match b.Step state job.info with
    | (state, info, .error e) => (⟨some state, info⟩, .error e)
    | (state, info, .ok update) => applyUpdate (some state) info update

/-- Method `StatefulOrthancJob::Stop`. -/
def Stop {State : Type} (b : JobBehaviour State) (job : StatefulOrthancJob State)
    (reason : JobStopReason) : StatefulOrthancJob State :=
  match job.state with
  | some state =>
    let state := b.Stop state reason
    if reason ≠ .Paused then ⟨none, job.info⟩ else ⟨some state, job.info⟩
  | none => job

/-- Method `StatefulOrthancJob::Reset`: the exception raised, if any. -/
def Reset {State : Type} (job : StatefulOrthancJob State) : Option ErrorCode :=
  match job.state with
  | some _ => some .BadSequenceOfCalls
  | none => none

end StatefulOrthancJob

/-! ## `DoPostPeer`, `DoDeletePeer` and the states of `PushJob` -/

/-- The loop of `DoPostPeer` and of `DoDeletePeer`, for at most `fuel`
rounds: `attempt i` is the answer of the call number `i`, `none` when it
returns `false` or raises.  The result is the answer, if any, and the number
of calls; `none` when the rounds run out. -/
def peerLoop {α : Type} (attempt : Nat → Option α) (maxRetries : Nat) :
    Nat → Nat → Nat → Option (Option α × Nat)
  | 0, _, _ => none
  | fuel + 1, issued, retry =>
    match attempt issued with
    | some answer => some (some answer, issued + 1)
    | none =>
      if retry ≥ maxRetries then some (none, issued + 1)
      else peerLoop attempt maxRetries fuel (issued + 1) ((retry + 1) % UINT_MOD)

/-- Function `DoPostPeer`. -/
def DoPostPeer (attempt : Nat → Option Json) (maxRetries fuel : Nat) : Option (Option Json × Nat) :=
  peerLoop attempt maxRetries fuel 0 0

/-- Function `DoDeletePeer`. -/
def DoDeletePeer (attempt : Nat → Option Unit) (maxRetries fuel : Nat) :
    Option (Option Unit × Nat) :=
  peerLoop attempt maxRetries fuel 0 0

/-- The states of `PushJob`: `CreateTransactionState`, `PushBucketsState` and
`FinalState`, by their members. -/
inductive PushState where
  | CreateTransaction (createTransaction : String) (buckets : List TransferBucket)
  | PushBuckets (transactionUri : String) (queue : HttpQueriesQueue) (runner : Bool)
  | Final (transactionUri : String) (isCommit : Bool)

/-- Method `PushJob::FinalState::Step`: the update returned and the requests
sent, each by its method and URI. -/
def FinalState.Step (post : Nat → Option Json) (delete : Nat → Option Unit)
    (maxHttpRetries fuel : Nat) (transactionUri : String) (isCommit : Bool) :
    Option (StateUpdate PushState × List (HttpMethod × String)) :=
  let outcome : Option (Bool × List (HttpMethod × String)) :=
    if isCommit then
      (DoPostPeer post maxHttpRetries fuel).map (fun r =>
        (r.1.isSome, List.replicate r.2 (HttpMethod.Post, transactionUri ++ "/commit")))
    else
      (DoDeletePeer delete maxHttpRetries fuel).map (fun r =>
        (r.1.isSome, List.replicate r.2 (HttpMethod.Delete, transactionUri)))
  match outcome with
  | none => none
  | some (success, requests) =>
    if !success then some (.Failure, requests)
    else if isCommit then some (.Success, requests)
    else some (.Failure, requests)

/-- Method `PushJob::PushBucketsState::Step`, from the status that
`queue_.WaitComplete(200)` returns. -/
def PushBucketsState.Step (transactionUri : String) (status : Status) : StateUpdate PushState :=
  match status with
  | .Running => .Continue
  | .Success => .Next (.Final transactionUri true)
  | .Failure => .Next (.Final transactionUri false)

/-! ## `TransferQuery` -/

/-- The constant `KEY_RESOURCES`. -/
def KEY_RESOURCES : String := "Resources"

/-- The constant `KEY_PEER`. -/
def KEY_PEER : String := "Peer"

/-- The constant `KEY_COMPRESSION`. -/
def KEY_COMPRESSION : String := "Compression"

/-- The constant `KEY_ORIGINATOR_UUID`. -/
def KEY_ORIGINATOR_UUID : String := "Originator"

/-- The constant `KEY_PRIORITY`. -/
def KEY_PRIORITY : String := "Priority"

/-- The constant `KEY_INSTANCES`. -/
def KEY_INSTANCES : String := "Instances"

/-- Function `StringToBucketCompression`. -/
def StringToBucketCompression (value : String) : Except ErrorCode BucketCompression :=
  if value = "gzip" then .ok .Gzip
  else if value = "none" then .ok .None
  else .error .ParameterOutOfRange

/-- Function `EnumerationToString(BucketCompression)`. -/
def EnumerationToString : BucketCompression → String
  | .Gzip => "gzip"
  | .None => "none"

/-- Method `Json::Value::asInt` on an integer value: it raises when the value
is not an `int`. -/
def Json.asInt : Json → Except ErrorCode Int
  | .int v => if -2 ^ 31 ≤ v ∧ v < 2 ^ 31 then .ok v else .error .JsonException
  | .uint v => if v < 2 ^ 31 then .ok (v : Int) else .error .JsonException
  | _ => .error .JsonException

/-- The class `TransferQuery`. -/
structure TransferQuery where
  peer : String
  resources : Json
  compression : BucketCompression
  hasOriginator : Bool
  originator : String
  priority : Int

namespace TransferQuery

/-- Constructor `TransferQuery::TransferQuery(const Json::Value&)`. -/
def ofJson (body : Json) : Except ErrorCode TransferQuery :=
  if body.type != .objectValue ||
      !body.isMember KEY_RESOURCES ||
      !body.isMember KEY_PEER ||
      !body.isMember KEY_COMPRESSION ||
      (body.get KEY_RESOURCES).type != .arrayValue ||
      (body.get KEY_PEER).type != .stringValue ||
      (body.get KEY_COMPRESSION).type != .stringValue then
    .error .BadFileFormat
  else
    match StringToBucketCompression (body.get KEY_COMPRESSION).asString with
    | .error e => .error e
    | .ok compression =>
      let originator : Except ErrorCode (Bool × String) :=
        if body.isMember KEY_ORIGINATOR_UUID then
          if (body.get KEY_ORIGINATOR_UUID).type != .stringValue then .error .BadFileFormat
          else .ok (true, (body.get KEY_ORIGINATOR_UUID).asString)
        else .ok (false, "")
      match originator with
      | .error e => .error e
      | .ok (hasOriginator, originator) =>
        let priority : Except ErrorCode Int :=
          if body.isMember KEY_PRIORITY then
            if (body.get KEY_PRIORITY).type != .intValue &&
                (body.get KEY_PRIORITY).type != .uintValue then .error .BadFileFormat
            else (body.get KEY_PRIORITY).asInt
          else .ok 0
        match priority with
        | .error e => .error e
        | .ok priority =>
          .ok { peer := (body.get KEY_PEER).asString
                resources := body.get KEY_RESOURCES
                compression := compression
                hasOriginator := hasOriginator
                originator := originator
                priority := priority }

/-- Method `TransferQuery::Serialize`. -/
def Serialize (q : TransferQuery) : Json :=
  let target := (((Json.object []).set KEY_PEER (.string q.peer)).set KEY_RESOURCES
    q.resources).set KEY_COMPRESSION (.string (EnumerationToString q.compression))
  if q.hasOriginator then target.set KEY_ORIGINATOR_UUID (.string q.originator) else target

end TransferQuery

/-! ## The states of `PullJob` -/

/-- Method `TransferScheduler::GetInstancesCount`. -/
def TransferScheduler.GetInstancesCount (s : TransferScheduler) : Nat := s.instances.length

/-- The states of `PullJob`: `LookupInstancesState`, `PullBucketsState` (its
download area, its buckets and the URI of its queries) and `CommitState`. -/
inductive PullState where
  | LookupInstances
  | PullBuckets (area : DownloadArea) (buckets : List TransferBucket) (uris : List String)
  | Commit (area : DownloadArea)

/-- The constructor of `BucketPullQuery` for each bucket, which computes the
pull URI. -/
def pullUris (compression : BucketCompression) :
    List TransferBucket → Except ErrorCode (List String)
  | [] => .ok []
  | bucket :: rest =>
    match bucket.ComputePullUri compression with
    | .error e => .error e
    | .ok uri =>
      match pullUris compression rest with
      | .error e => .error e
      | .ok uris => .ok (uri :: uris)

/-- Constructor `PullJob::PullBucketsState::PullBucketsState`. -/
def PullBucketsState.create (scheduler : TransferScheduler) (targetBucketSize : Nat)
    (baseUrl : String) (compression : BucketCompression) : Except ErrorCode PullState :=
  match scheduler.ComputePullBuckets [] targetBucketSize ((2 * targetBucketSize) % SIZE_MOD)
      baseUrl compression with
  | (_, some e) => .error e
  | (buckets, none) =>
    match pullUris compression buckets with
    | .error e => .error e
    | .ok uris => .ok (.PullBuckets (DownloadArea.ofScheduler scheduler) buckets uris)

/-- The loop of `LookupInstancesState::Step` over the instances of the
answer. -/
def addInstances (lexicalCast : String → Option Nat) :
    List Json → TransferScheduler → Except ErrorCode TransferScheduler
  | [], scheduler => .ok scheduler
  | item :: rest, scheduler =>
    match DicomInstanceInfo.ofJson lexicalCast item with
    | .error e => .error e
    | .ok info => addInstances lexicalCast rest (scheduler.AddInstance info)

/-- The items of a JSON array. -/
def Json.items : Json → List Json
  | .array items => items
  | _ => []

/-- The end of `LookupInstancesState::Step`, from the declaration of the
scheduler on. -/
def LookupInstancesState.plan (lexicalCast : String → Option Nat) (targetBucketSize : Nat)
    (baseUrl : String) (compression : BucketCompression) (instances : List Json) :
    Except ErrorCode (StateUpdate PullState) :=
  match addInstances lexicalCast instances {} with
  | .error e => .error e
  | .ok scheduler =>
    if scheduler.GetInstancesCount = 0 then .ok .Success
    else
      match PullBucketsState.create scheduler targetBucketSize baseUrl compression with
      | .error e => .error e
      | .ok state => .ok (.Next state)

/-- Method `PullJob::LookupInstancesState::Step`; `answer` is the answer of
`DoPostPeer`, `none` when it returns `false`. -/
def LookupInstancesState.Step (lexicalCast : String → Option Nat) (query : TransferQuery)
    (targetBucketSize : Nat) (baseUrl : String) (answer : Option Json) :
    Except ErrorCode (StateUpdate PullState) :=
  match answer with
  | none => .ok .Failure
  | some answer =>
    if answer.type != .objectValue ||
        !answer.isMember KEY_INSTANCES ||
        !answer.isMember KEY_ORIGINATOR_UUID ||
        (answer.get KEY_INSTANCES).type != .arrayValue ||
        (answer.get KEY_ORIGINATOR_UUID).type != .stringValue then
      .ok .Failure
    else if query.hasOriginator &&
        query.originator != (answer.get KEY_ORIGINATOR_UUID).asString then
      .ok .Failure
    else
      LookupInstancesState.plan lexicalCast targetBucketSize baseUrl query.compression
        (answer.get KEY_INSTANCES).items

/-! ## The arguments of the chunk endpoint -/

/-- Function `ReadSizeArgument` of `Plugin.cpp`; `lexicalCastInt` is
`boost::lexical_cast<int>`, `none` standing for `bad_lexical_cast`. -/
def ReadSizeArgument (lexicalCastInt : String → Option Int) (value : String) :
    Except ErrorCode Nat :=
  match lexicalCastInt value with
  | some tmp => if tmp ≥ 0 then .ok tmp.toNat else .error .BadParameterType
  | none => .error .BadParameterType

/-- The loop of `ServeChunks` over the GET arguments: the values of `offset`,
`requestedSize` and `compression` after it. -/
def readArguments (lexicalCastInt : String → Option Int) :
    List (String × String) → Nat × Nat × BucketCompression →
    Except ErrorCode (Nat × Nat × BucketCompression)
  | [], state => .ok state
  | (key, value) :: rest, (offset, requestedSize, compression) =>
    if key = "offset" then
      match ReadSizeArgument lexicalCastInt value with
      | .error e => .error e
      | .ok offset => readArguments lexicalCastInt rest (offset, requestedSize, compression)
    else if key = "size" then
      match ReadSizeArgument lexicalCastInt value with
      | .error e => .error e
      | .ok requestedSize =>
        readArguments lexicalCastInt rest (offset, requestedSize, compression)
    else if key = "compression" then
      match StringToBucketCompression value with
      | .error e => .error e
      | .ok compression => readArguments lexicalCastInt rest (offset, requestedSize, compression)
    else readArguments lexicalCastInt rest (offset, requestedSize, compression)

/-! ## Vocabulary of the claims on the jobs and on the queries -/

/-- Whether the values of an integer parser are values of `int`. -/
def returnsInt (lexicalCastInt : String → Option Int) : Prop :=
  ∀ s v, lexicalCastInt s = some v → -2 ^ 31 ≤ v ∧ v < 2 ^ 31

/-- A parser of `int` for the examples: the strings of decimal digits whose
value is below `2^31`. -/
def exampleLexicalCastInt (s : String) : Option Int :=
  match exampleLexicalCast s with
  | some n => if n < 2 ^ 31 then some (n : Int) else none
  | none => none

/-- A peer of the examples for `DoPostPeer`: the first call fails, the second
one answers the empty object. -/
def examplePost : Nat → Option Json := fun i => if i < 1 then none else some (.object [])

/-- A peer of the examples for `DoDeletePeer`, which answers at once. -/
def exampleDelete : Nat → Option Unit := fun _ => some ()

/-- The body of a query of the examples, with an originator and the priority
5. -/
def bodyOfExample : Json :=
  .object [("Compression", .string "gzip"), ("Originator", .string "u1"), ("Peer", .string "p"),
    ("Priority", .int 5), ("Resources", .array [])]

/-- The query that the body of the examples is parsed into. -/
def queryOfExample : TransferQuery :=
  { peer := "p", resources := .array [], compression := .Gzip, hasOriginator := true
    originator := "u1", priority := 5 }

/-- An answer to the lookup of a pull job, in the words of the
specification: an object with the array `Instances` and the string
`Originator`. -/
def lookupAnswer (instances : List Json) (originator : String) : Json :=
  .object [("Instances", .array instances), ("Originator", .string originator)]

/-! ## `TransferScheduler::FormatPushTransaction` -/

/-- The constant `KEY_BUCKETS`. -/
def KEY_BUCKETS : String := "Buckets"

/-- Method `TransferScheduler::FormatPushTransaction`: the arguments `target`
and `buckets` after the call, and the exception raised, if any. -/
def TransferScheduler.FormatPushTransaction (s : TransferScheduler) (target : Json)
    (buckets : List TransferBucket) (groupThreshold separateThreshold : Nat)
    (compression : BucketCompression) : Json × List TransferBucket × Option ErrorCode :=
  match s.FormatPushTransactionBuckets buckets groupThreshold separateThreshold with
  | (buckets, some e) => (target, buckets, some e)
  | (buckets, none) =>
    let target := Json.object []
    let tmp := s.instances.foldl (fun tmp e => tmp.append e.2.Serialize) (Json.array [])
    let target := target.set KEY_INSTANCES tmp
    let tmp := buckets.foldl (fun tmp b => tmp.append b.Serialize) (Json.array [])
    let target := target.set KEY_BUCKETS tmp
    match compression with
    | .Gzip => (target.set KEY_COMPRESSION (.string "gzip"), buckets, none)
    | .None => (target.set KEY_COMPRESSION (.string "none"), buckets, none)

/-! ## The chunk endpoint and the body of a push request -/

/-- Constructor `SourceDicomInstance::SourceDicomInstance(instanceId)`:
`archive` gives the bytes of the instance that `GetDicomInstance` reads, and
the descriptor is built from these bytes. -/
def SourceDicomInstance.ofArchive (md5 : List Byte → String) (archive : String → List Byte)
    (instanceId : String) : SourceDicomInstance :=
  { info := { id := instanceId, size := (archive instanceId).length
              md5 := md5 (archive instanceId) }
    buffer := archive instanceId }

/-- What a REST callback sends: `OrthancPluginSendMethodNotAllowed` or
`OrthancPluginAnswerBuffer` with its content and its MIME type. -/
inductive RestAnswer where
  | methodNotAllowed (allowed : String)
  | buffer (content : List Byte) (mimeType : String)
  deriving DecidableEq, Repr

/-- The second loop of `ServeChunks`, over the instances still to visit; the
state is the cache, `offset` and the bytes of `buffer`.  The subtractions of
the source are taken where the first operand is not below the second. -/
def serveLoop (md5 : List Byte → String) (load : String → SourceDicomInstance)
    (requestedSize : Nat) :
    List String → OrthancInstancesCache → Nat → List Byte →
    OrthancInstancesCache × Except ErrorCode (List Byte)
  | [], cache, _, buffer => (cache, .ok buffer)
  | instanceId :: rest, cache, offset, buffer =>
    if requestedSize = 0 ∨ buffer.length < requestedSize then
      match cache.GetInstanceInfo load instanceId with
      | (cache, instanceSize, _) =>
        if offset ≥ instanceSize then
          serveLoop md5 load requestedSize rest cache (offset - instanceSize) buffer
        else
          let toRead :=
            if requestedSize = 0 then instanceSize - offset
            else if requestedSize - buffer.length > instanceSize - offset then
              instanceSize - offset
            else requestedSize - buffer.length
          match cache.GetChunk md5 load instanceId offset toRead with
          | (cache, .error e) => (cache, .error e)
          | (cache, .ok (chunk, _)) =>
            serveLoop md5 load requestedSize rest cache 0 (buffer ++ chunk)
    else (cache, .ok buffer)

/-- The REST callback `ServeChunks`.  `tokenize` is
`Orthanc::Toolbox::TokenizeString` with the separator `'.'`, `compress` the
gzip compressor; `group` is `request->groups[0]` and `getArguments` the GET
arguments.  The result is the cache and the answer sent, or the exception. -/
def ServeChunks (lexicalCastInt : String → Option Int) (tokenize : String → List String)
    (compress : List Byte → List Byte) (md5 : List Byte → String)
    (load : String → SourceDicomInstance) (cache : OrthancInstancesCache)
    (method : HttpMethod) (group : String) (getArguments : List (String × String)) :
    OrthancInstancesCache × Except ErrorCode RestAnswer :=
  if method ≠ .Get then (cache, .ok (.methodNotAllowed "GET"))
  else
    let instances := tokenize group
    match readArguments lexicalCastInt getArguments (0, 0, .None) with
    | .error e => (cache, .error e)
    | .ok (offset, requestedSize, compression) =>
      match serveLoop md5 load requestedSize instances cache offset [] with
      | (cache, .error e) => (cache, .error e)
      | (cache, .ok chunk) =>
        match compression with
        | .None => (cache, .ok (.buffer chunk "application/octet-stream"))
        | .Gzip => (cache, .ok (.buffer (compress chunk) "application/gzip"))

/-- The loop of `BucketPushQuery::ReadBody` over the chunks of the bucket. -/
def readBodyLoop (md5 : List Byte → String) (load : String → SourceDicomInstance) :
    List Chunk → OrthancInstancesCache → List Byte →
    OrthancInstancesCache × Except ErrorCode (List Byte)
  | [], cache, buffer => (cache, .ok buffer)
  | c :: rest, cache, buffer =>
    match cache.GetChunk md5 load c.instanceId c.offset c.size with
    | (cache, .error e) => (cache, .error e)
    | (cache, .ok (chunk, _)) => readBodyLoop md5 load rest cache (buffer ++ chunk)

/-- Method `BucketPushQuery::ReadBody`: the cache and the body, or the
exception. -/
def BucketPushQuery.ReadBody (compress : List Byte → List Byte) (md5 : List Byte → String)
    (load : String → SourceDicomInstance) (cache : OrthancInstancesCache)
    (bucket : TransferBucket) (compression : BucketCompression) :
    OrthancInstancesCache × Except ErrorCode (List Byte) :=
  match readBodyLoop md5 load bucket.chunks cache [] with
  | (cache, .error e) => (cache, .error e)
  | (cache, .ok raw) =>
    match compression with
    | .None => (cache, .ok raw)
    | .Gzip => (cache, .ok (compress raw))

/-! ## The commit state of `PullJob` -/

/-- Method `PullJob::CommitState::Step`: the state is the download area, seen
together with the bodies posted to the archive. -/
def CommitState.Step (md5 : List Byte → String) (accepts : List (List Byte) → List Byte → Bool)
    (state : DownloadArea × List (List Byte)) :
    (DownloadArea × List (List Byte)) ×
      Except ErrorCode (Option (StateUpdate (DownloadArea × List (List Byte)))) :=
  match state.1.Commit md5 accepts state.2 with
  | (area, posted, some e) => ((area, posted), .error e)
  | (area, posted, none) => ((area, posted), .ok (some .Success))

/-! ## Vocabulary of the last claims -/

/-- A job whose states are commit states of `PullJob`; its initial state is
not looked at. -/
def commitBehaviour (md5 : List Byte → String) (accepts : List (List Byte) → List Byte → Bool) :
    JobBehaviour (DownloadArea × List (List Byte)) :=
  { CreateInitialState := fun info => (info, .ok (some .Failure))
    Step := fun state info =>
      ((CommitState.Step md5 accepts state).1, info, (CommitState.Step md5 accepts state).2)
    Stop := fun state _ => state }

/-- Whether every instance of the cache is the one that `load` builds: the
cache holds what the archive holds. -/
def OrthancInstancesCache.Mirrors (load : String → SourceDicomInstance)
    (c : OrthancInstancesCache) : Prop :=
  ∀ id source, mapFind id c.content = some source → source = load id

/-- Whether the chunk endpoint can serve the chunks as one range: every chunk
is non-empty and lies inside its instance, whose length is `len`; every chunk
but the first starts at 0, and every chunk but the last runs to the end of its
instance. -/
def chunksServable (len : String → Nat) : List Chunk → Prop
  | [] => True
  | [c] => 0 < c.size ∧ c.offset + c.size ≤ len c.instanceId ∧ len c.instanceId < SIZE_MOD
  | c :: d :: rest =>
    0 < c.size ∧ c.offset + c.size = len c.instanceId ∧ len c.instanceId < SIZE_MOD ∧
      d.offset = 0 ∧ chunksServable len (d :: rest)

/-- The items between dots of a list of characters; `current` holds the
characters of the item being read, the last first. -/
def tokenizeDots : List Char → List Char → List String
  | [], current => [String.mk current.reverse]
  | c :: rest, current =>
    if c = '.' then String.mk current.reverse :: tokenizeDots rest []
    else tokenizeDots rest (c :: current)

/-- A tokenizer for the examples, which cuts a string at its dots. -/
def exampleTokenize (s : String) : List String := tokenizeDots s.data []

/-- A compressor for the examples, which returns its input. -/
def exampleCompress : List Byte → List Byte := fun data => data

/-- A scheduler of the two instances of the unit test `DownloadArea.Basic`. -/
def schedulerOfSources : TransferScheduler :=
  (({} : TransferScheduler).AddInstance ⟨"d1", 5, exampleDigest helloBytes⟩).AddInstance
    ⟨"d2", 13, exampleDigest helloWorldBytes⟩

/-- A registry of capacity 2 with the transaction `t1`, whose only instance
has one byte and a descriptor that does not carry the digest of a zero
byte. -/
def registryOfExample : ActivePushTransactions :=
  ({ maxSize := 2 } : ActivePushTransactions).CreateTransaction "t1" [⟨"a", 1, "x"⟩] [] .None |>.1

/-- A GET query of the examples whose `HandleAnswer` raises the
network-protocol error, as the one of `BucketPullQuery` does when the answer
has not the size of the bucket. -/
def raisingQuery : IHttpQuery :=
  { method := .Get, peer := "peer", uri := "/transfers/chunks/d1?offset=0&size=2&compression=none"
    ReadBody := .ok [], HandleAnswer := fun _ => some .NetworkProtocol }

/-- A POST query of the examples whose `ReadBody` raises. -/
def unreadableQuery : IHttpQuery :=
  { method := .Post, peer := "peer", uri := "/transfers/push"
    ReadBody := .error .ParameterOutOfRange, HandleAnswer := fun _ => none }

/-- A parser for the examples with the sign rule of `boost::lexical_cast` to
an unsigned type: an optional sign in front of the decimal digits, and the
value after a minus sign is negated as an unsigned integer. -/
def signedLexicalCast (s : String) : Option Nat :=
  match s.data with
  | '-' :: digits => (exampleLexicalCast (String.mk digits)).map (fun n => (SIZE_MOD - n) % SIZE_MOD)
  | '+' :: digits => exampleLexicalCast (String.mk digits)
  | _ => exampleLexicalCast s

/-! ## Facts on machine integers -/

theorem addSz_of_lt {a b : Nat} (h : a + b < SIZE_MOD) : addSz a b = a + b := by
  unfold addSz; exact Nat.mod_eq_of_lt h

theorem subSz_of_le {a b : Nat} (hba : b ≤ a) (ha : a < SIZE_MOD) : subSz a b = a - b := by
  unfold subSz
  have h1 : a + SIZE_MOD - b = (a - b) + SIZE_MOD := by omega
  rw [h1, Nat.add_mod_right]
  exact Nat.mod_eq_of_lt (by omega)

theorem ceilDiv_eq (a b : Nat) (hb : 0 < b) :
    ceilDiv a b = if a % b = 0 then a / b else a / b + 1 := by
  unfold ceilDiv
  have hdm := Nat.div_add_mod a b
  split
  · rename_i h0
    apply Nat.div_eq_of_lt_le
    · rw [Nat.mul_comm]; omega
    · have : (a / b + 1) * b = b * (a / b) + b := by ring
      omega
  · rename_i h0
    have hlt := Nat.mod_lt a hb
    apply Nat.div_eq_of_lt_le
    · have : (a / b + 1) * b = b * (a / b) + b := by ring
      omega
    · have : (a / b + 1 + 1) * b = b * (a / b) + b + b := by ring
      omega

/-! ## `AddChunk` from the empty bucket -/

theorem AddChunk_empty (info : DicomInstanceInfo) (offset size : Nat)
    (hpos : 0 < size) (hin : offset + size ≤ info.size) (hsz : info.size < SIZE_MOD) :
    TransferBucket.AddChunk {} info offset size
      = .ok (singleChunkBucket ⟨info.id, offset, size⟩) := by
  have h1 : addSz offset size = offset + size := addSz_of_lt (by omega)
  have h2 : addSz 0 size = size := by rw [addSz_of_lt (by omega)]; omega
  have h3 : ¬ (offset + size > info.size) := by omega
  have h4 : size ≠ 0 := by omega
  simp [TransferBucket.AddChunk, h1, h2, h3, h4, singleChunkBucket]

theorem splitLoop_eq (info : DicomInstanceInfo) (k cs : Nat)
    (hcs : 0 < cs) (hle : k * cs ≤ info.size) (hsz : info.size < SIZE_MOD) :
    ∀ (n i : Nat) (target : List TransferBucket), i + n = k →
      TransferScheduler.splitLoop info info.size k cs n i (i * cs) target
        = (target ++ (List.range' i n).map (fun j => singleChunkBucket
            ⟨info.id, j * cs, if j = k - 1 then info.size - (k - 1) * cs else cs⟩), none) := by
  intro n
  induction n with
  | zero => intro i target _; simp [TransferScheduler.splitLoop]
  | succ n ih =>
    intro i target hik
    have h1 : (i + 1) * cs ≤ k * cs := Nat.mul_le_mul_right cs (by omega)
    have h2 : (i + 1) * cs = i * cs + cs := by ring
    have hnext : addSz (i * cs) cs = (i + 1) * cs := by rw [addSz_of_lt (by omega)]; omega
    unfold TransferScheduler.splitLoop
    by_cases hlast : i = k - 1
    · obtain rfl : n = 0 := by omega
      have hk : k - 1 = i := hlast.symm
      have hsub : subSz info.size (i * cs) = info.size - i * cs :=
        subSz_of_le (by omega) hsz
      have hadd := AddChunk_empty info (i * cs) (info.size - i * cs) (by omega) (by omega) hsz
      simp [hk, hsub, hadd, TransferScheduler.splitLoop]
    · have hadd := AddChunk_empty info (i * cs) cs hcs (by omega) hsz
      simp only [hlast, if_false, hadd, hnext]
      rw [ih (i + 1) _ (by omega)]
      simp [List.range'_succ, hlast]

theorem ceilDiv_pos_le (a b : Nat) (hb : 0 < b) (hba : b ≤ a) :
    0 < ceilDiv a b ∧ ceilDiv a b ≤ a := by
  rw [ceilDiv_eq a b hb]
  split
  · exact ⟨Nat.div_pos hba hb, Nat.div_le_self a b⟩
  · rename_i h0
    have hb2 : 2 ≤ b := by
      rcases Nat.lt_or_ge b 2 with h | h
      · have : b = 1 := by omega
        subst this
        exact absurd (Nat.mod_one a) h0
      · exact h
    have h1 : a / b ≤ a / 2 := Nat.div_le_div_left hb2 (by omega)
    exact ⟨Nat.succ_pos _, by omega⟩

theorem ceilDiv_pos (a b : Nat) (ha : 0 < a) (hb : 0 < b) : 0 < ceilDiv a b := by
  unfold ceilDiv
  exact Nat.div_pos (by omega) hb

theorem ceilDiv_of_lt (a b : Nat) (ha : 0 < a) (hab : a < b) : ceilDiv a b = 1 := by
  rw [ceilDiv_eq a b (by omega), Nat.mod_eq_of_lt hab, Nat.div_eq_of_lt hab]
  simp; omega

theorem splitBuckets_of_lt (sep : Nat) (info : DicomInstanceInfo)
    (hpos : 0 < info.size) (hlt : info.size < sep) :
    splitBuckets sep info = [singleChunkBucket ⟨info.id, 0, info.size⟩] := by
  simp [splitBuckets, ceilDiv_of_lt _ _ hpos hlt, splitChunk, List.range_succ]

theorem classifyLoop_eq (g sep : Nat) (hg : 0 < g) (hgs : g ≤ sep) :
    ∀ (insts : List (String × DicomInstanceInfo)) (target : List TransferBucket)
      (toGroup : List String), (∀ e ∈ insts, e.2.size < SIZE_MOD) →
      TransferScheduler.classifyLoop g sep insts target toGroup
        = (target ++ ((insts.map Prod.snd).filter (fun info => decide (g ≤ info.size))).flatMap
              (splitBuckets sep),
           toGroup ++ (insts.filter (fun e => decide (e.2.size < g))).map Prod.fst,
           none) := by
  intro insts
  induction insts with
  | nil => intro target toGroup _; simp [TransferScheduler.classifyLoop]
  | cons e rest ih =>
    intro target toGroup hsz
    obtain ⟨key, info⟩ := e
    have hinfo : info.size < SIZE_MOD := hsz (key, info) (List.mem_cons_self _ _)
    have hrest : ∀ e ∈ rest, e.2.size < SIZE_MOD := fun e he => hsz e (List.mem_cons_of_mem _ he)
    unfold TransferScheduler.classifyLoop
    by_cases hsmall : info.size < g
    · have hng : ¬ g ≤ info.size := by omega
      simp [hsmall, hng, ih _ _ hrest]
    · have hge : g ≤ info.size := by omega
      by_cases hmed : info.size < sep
      · have hadd := AddChunk_empty info 0 info.size (by omega) (by omega) hinfo
        simp [hsmall, hmed, hadd, hge, ih _ _ hrest, splitBuckets_of_lt sep info (by omega) hmed]
      · have hsep : sep ≤ info.size := by omega
        have hk := ceilDiv_pos_le info.size sep (by omega) hsep
        have hkeq : (if info.size % sep = 0 then info.size / sep
            else addSz (info.size / sep) 1) = ceilDiv info.size sep := by
          rw [ceilDiv_eq _ _ (by omega)]
          split
          · rfl
          · rename_i h0
            have := hk
            rw [ceilDiv_eq _ _ (by omega), if_neg h0] at this
            exact addSz_of_lt (by omega)
        have hcs : 0 < info.size / ceilDiv info.size sep := Nat.div_pos hk.2 hk.1
        have hle : ceilDiv info.size sep * (info.size / ceilDiv info.size sep) ≤ info.size :=
          Nat.mul_div_le _ _
        have hsplit := splitLoop_eq info (ceilDiv info.size sep)
          (info.size / ceilDiv info.size sep) hcs hle hinfo (ceilDiv info.size sep) 0 target
          (by omega)
        simp only [Nat.zero_mul] at hsplit
        simp only [hsmall, hmed, if_false, hkeq, hsplit]
        rw [ih _ _ hrest]
        simp [hge, splitBuckets, splitChunk, List.range_eq_range']

/-! ## The grouping loop -/

theorem totalSizeOf_append (w : List Chunk) (c : Chunk) :
    totalSizeOf (w ++ [c]) = addSz (totalSizeOf w) c.size := by
  simp [totalSizeOf, List.foldl_append]

theorem AddChunk_whole (w : List Chunk) (info : DicomInstanceInfo)
    (hpos : 0 < info.size) (hsz : info.size < SIZE_MOD) :
    (bucketOfChunks w).AddChunk info 0 info.size
      = .ok (bucketOfChunks (w ++ [⟨info.id, 0, info.size⟩])) := by
  have h1 : addSz 0 info.size = info.size := by rw [addSz_of_lt (by omega)]; omega
  have h4 : info.size ≠ 0 := by omega
  simp [TransferBucket.AddChunk, h1, h4, bucketOfChunks, totalSizeOf_append]

theorem AddChunk_whole_zero (b : TransferBucket) (info : DicomInstanceInfo)
    (hzero : info.size = 0) (hext : b.extensible = true) :
    b.AddChunk info 0 info.size = .ok b := by
  have h1 : addSz 0 0 = 0 := by decide
  simp [TransferBucket.AddChunk, hzero, h1, hext]

theorem ComputePullUri_isOk (w : List Chunk) (t : Nat) (e : Bool) (compression : BucketCompression)
    (hne : w ≠ []) :
    ∃ uri, TransferBucket.ComputePullUri ⟨w, t, e⟩ compression = .ok uri := by
  cases w with
  | nil => exact absurd rfl hne
  | cons c cs => cases compression <;> simp [TransferBucket.ComputePullUri]

theorem ComputePullUri_nil (t : Nat) (e : Bool) (compression : BucketCompression) :
    TransferBucket.ComputePullUri ⟨[], t, e⟩ compression = .error .InternalError := by
  simp [TransferBucket.ComputePullUri]

/-- The test run by the grouping loop after an addition is the closing test
of the reference packing, as long as the working bucket is not empty. -/
theorem computeFull_eq (g : Nat) (baseUrl : String) (compression : BucketCompression)
    (w : List Chunk) (hne : w ≠ []) :
    TransferScheduler.computeFull g baseUrl compression (bucketOfChunks w)
      = .ok (closesBucket g baseUrl compression w) := by
  obtain ⟨uri, huri⟩ := ComputePullUri_isOk w (totalSizeOf w) true compression hne
  have huri' : (bucketOfChunks w).ComputePullUri compression = .ok uri := huri
  have hT : (bucketOfChunks w).GetTotalSize = totalSizeOf w := rfl
  have hM : TransferScheduler.MAX_URL_LENGTH = 1956 := by decide
  unfold closesBucket TransferScheduler.computeFull
  rw [huri', hT, hM]
  by_cases h1 : totalSizeOf w ≥ g <;> by_cases h2 : baseUrl.isEmpty = true <;> simp [h1, h2]

theorem computeFull_nil (g : Nat) (hg : 0 < g) (baseUrl : String)
    (compression : BucketCompression) :
    TransferScheduler.computeFull g baseUrl compression (bucketOfChunks [])
      = if baseUrl.isEmpty then .ok false else .error .InternalError := by
  have hT : (bucketOfChunks []).GetTotalSize = 0 := rfl
  have hng : ¬ (0 ≥ g) := by omega
  have hU : (bucketOfChunks []).ComputePullUri compression = .error .InternalError :=
    ComputePullUri_nil _ _ _
  unfold TransferScheduler.computeFull
  by_cases hb : baseUrl.isEmpty = true <;> simp [hT, hng, hb, hU]

theorem flushBucket_bucketOfChunks (w : List Chunk) :
    flushBucket (bucketOfChunks w) = if w.isEmpty then [] else [bucketOfChunks w] := by
  cases w <;> simp [flushBucket, bucketOfChunks, TransferBucket.GetChunksCount]

theorem groupLoop_ok (insts : List (String × DicomInstanceInfo)) (g : Nat) (hg : 0 < g)
    (baseUrl : String) (compression : BucketCompression) :
    ∀ (keys : List String) (w : List Chunk) (target : List TransferBucket),
      (w = [] ∨ closesBucket g baseUrl compression w = false) →
      (∀ key ∈ keys, ∃ info, mapFind key insts = some info ∧ info.size < SIZE_MOD) →
      ∀ (b' : TransferBucket) (t' : List TransferBucket),
        TransferScheduler.groupLoop insts g baseUrl compression keys (bucketOfChunks w) target
          = (b', t', none) →
        t' ++ flushBucket b' = target ++ referencePacking g baseUrl compression
          ((lookupAll insts keys).filter (fun i => decide (0 < i.size))) w := by
  intro keys
  induction keys with
  | nil =>
    intro w target _ _ b' t' h
    simp only [TransferScheduler.groupLoop, Prod.mk.injEq, and_true] at h
    obtain ⟨rfl, rfl⟩ := h
    simp [flushBucket_bucketOfChunks, lookupAll, referencePacking]
  | cons key rest ih =>
    intro w target hinv hkeys b' t' h
    obtain ⟨info, hfind, hsz⟩ := hkeys key (List.mem_cons_self _ _)
    have hrest : ∀ key ∈ rest, ∃ info, mapFind key insts = some info ∧ info.size < SIZE_MOD :=
      fun k hk => hkeys k (List.mem_cons_of_mem _ hk)
    have hlook : lookupAll insts (key :: rest) = info :: lookupAll insts rest := by
      simp [lookupAll, List.filterMap_cons, hfind]
    rw [TransferScheduler.groupLoop] at h
    simp only [hfind] at h
    by_cases hzero : info.size = 0
    · rw [AddChunk_whole_zero _ info hzero rfl] at h
      have hfilter : (lookupAll insts (key :: rest)).filter (fun i => decide (0 < i.size))
          = (lookupAll insts rest).filter (fun i => decide (0 < i.size)) := by
        rw [hlook]; simp [hzero]
      rw [hfilter]
      by_cases hw : w = []
      · subst hw
        by_cases hb : baseUrl.isEmpty = true
        · simp only [computeFull_nil g hg, hb, if_true, Bool.false_eq_true, if_false] at h
          exact ih [] target (Or.inl rfl) hrest b' t' h
        · simp [computeFull_nil g hg, hb] at h
      · have hc : closesBucket g baseUrl compression w = false := by
          rcases hinv with h0 | h0
          · exact absurd h0 hw
          · exact h0
        simp only [computeFull_eq g baseUrl compression w hw, hc, Bool.false_eq_true,
          if_false] at h
        exact ih w target (Or.inr hc) hrest b' t' h
    · have hpos : 0 < info.size := by omega
      have hfilter : (lookupAll insts (key :: rest)).filter (fun i => decide (0 < i.size))
          = info :: (lookupAll insts rest).filter (fun i => decide (0 < i.size)) := by
        rw [hlook]; simp [hpos]
      rw [hfilter]
      rw [AddChunk_whole w info hpos hsz] at h
      have hne : w ++ [(⟨info.id, 0, info.size⟩ : Chunk)] ≠ [] := by simp
      simp only [computeFull_eq g baseUrl compression _ hne] at h
      rw [referencePacking]
      by_cases hc : closesBucket g baseUrl compression (w ++ [⟨info.id, 0, info.size⟩]) = true
      · simp only [hc, if_true] at h ⊢
        have := ih [] _ (Or.inl rfl) hrest b' t' h
        rw [this]; simp
      · have hc' : closesBucket g baseUrl compression (w ++ [⟨info.id, 0, info.size⟩]) = false := by
          simpa using hc
        simp only [hc', Bool.false_eq_true, if_false] at h ⊢
        exact ih _ target (Or.inr hc') hrest b' t' h

theorem groupLoop_returns (insts : List (String × DicomInstanceInfo)) (g : Nat) (hg : 0 < g)
    (baseUrl : String) (compression : BucketCompression) :
    ∀ (keys : List String) (w : List Chunk) (target : List TransferBucket),
      (∀ key ∈ keys, ∃ info, mapFind key insts = some info ∧ info.size < SIZE_MOD ∧
        (baseUrl.isEmpty = true ∨ 0 < info.size)) →
      (TransferScheduler.groupLoop insts g baseUrl compression keys (bucketOfChunks w) target).2.2
        = none := by
  intro keys
  induction keys with
  | nil => intro w target _; simp [TransferScheduler.groupLoop]
  | cons key rest ih =>
    intro w target hkeys
    obtain ⟨info, hfind, hsz, hcase⟩ := hkeys key (List.mem_cons_self _ _)
    have hrest := fun k hk => hkeys k (List.mem_cons_of_mem _ hk)
    rw [TransferScheduler.groupLoop]
    simp only [hfind]
    by_cases hzero : info.size = 0
    · have hb : baseUrl.isEmpty = true := by
        rcases hcase with h | h
        · exact h
        · omega
      rw [AddChunk_whole_zero _ info hzero rfl]
      by_cases hw : w = []
      · subst hw
        simp only [computeFull_nil g hg, hb, if_true, Bool.false_eq_true, if_false]
        exact ih [] target hrest
      · simp only [computeFull_eq g baseUrl compression w hw]
        split
        · exact ih [] _ hrest
        · exact ih w target hrest
    · have hpos : 0 < info.size := by omega
      rw [AddChunk_whole w info hpos hsz]
      have hne : w ++ [(⟨info.id, 0, info.size⟩ : Chunk)] ≠ [] := by simp
      simp only [computeFull_eq g baseUrl compression _ hne]
      split
      · exact ih [] _ hrest
      · exact ih _ target hrest

/-- The chunk list of a bucket after a successful `AddChunk`. -/
theorem AddChunk_chunks (b b' : TransferBucket) (info : DicomInstanceInfo) (offset size : Nat)
    (h : b.AddChunk info offset size = .ok b') :
    b'.chunks = b.chunks ∨ b'.chunks = b.chunks ++ [⟨info.id, offset, size⟩] := by
  unfold TransferBucket.AddChunk at h
  split at h
  · cases h
  · split at h
    · cases h
    · split at h
      · cases h
      · split at h
        · left; cases h; rfl
        · right; cases h; rfl

/-- Whatever its outcome, the grouping loop only appends buckets to `target`,
and the chunks it stores name instances of `toGroup_`. -/
theorem groupLoop_names (insts : List (String × DicomInstanceInfo)) (g : Nat)
    (baseUrl : String) (compression : BucketCompression) (P : String → Prop) :
    ∀ (keys : List String) (bucket : TransferBucket) (target : List TransferBucket),
      (∀ key ∈ keys, ∀ info, mapFind key insts = some info → P info.id) →
      (∀ c ∈ bucket.chunks, P c.instanceId) →
      ∃ extra, (TransferScheduler.groupLoop insts g baseUrl compression keys bucket target).2.1
          = target ++ extra ∧
        (∀ b ∈ extra, ∀ c ∈ b.chunks, P c.instanceId) ∧
        (∀ c ∈ (TransferScheduler.groupLoop insts g baseUrl compression keys bucket target).1.chunks,
          P c.instanceId) := by
  intro keys
  induction keys with
  | nil =>
    intro bucket target _ hb
    exact ⟨[], by simp [TransferScheduler.groupLoop], by simp, by simpa [TransferScheduler.groupLoop] using hb⟩
  | cons key rest ih =>
    intro bucket target hkeys hb
    have hrest := fun k hk => hkeys k (List.mem_cons_of_mem _ hk)
    rw [TransferScheduler.groupLoop]
    cases hfind : mapFind key insts with
    | none => exact ⟨[], by simp, by simp, by simpa using hb⟩
    | some info =>
      have hP : P info.id := hkeys key (List.mem_cons_self _ _) info hfind
      simp only []
      cases hadd : bucket.AddChunk info 0 info.size with
      | error e => exact ⟨[], by simp, by simp, by simpa using hb⟩
      | ok b2 =>
        have hb2 : ∀ c ∈ b2.chunks, P c.instanceId := by
          intro c hc
          rcases AddChunk_chunks _ _ _ _ _ hadd with h | h
          · rw [h] at hc; exact hb c hc
          · rw [h] at hc
            rcases List.mem_append.mp hc with h1 | h1
            · exact hb c h1
            · simp at h1; subst h1; exact hP
        simp only []
        cases hfull : TransferScheduler.computeFull g baseUrl compression b2 with
        | error e => exact ⟨[], by simp, by simp, by simpa using hb2⟩
        | ok full =>
          cases full with
          | true =>
            obtain ⟨extra, h1, h2, h3⟩ := ih b2.Clear (target ++ [b2]) hrest
              (by simp [TransferBucket.Clear])
            refine ⟨b2 :: extra, ?_, ?_, ?_⟩
            · simpa using h1
            · intro b hbm
              rcases List.mem_cons.mp hbm with h | h
              · subst h; exact hb2
              · exact h2 b h
            · simpa using h3
          | false =>
            obtain ⟨extra, h1, h2, h3⟩ := ih b2 target hrest hb2
            exact ⟨extra, by simpa using h1, h2, by simpa using h3⟩

/-! ## The map of a scheduler -/

theorem mapFind_of_mem {α : Type} :
    ∀ (l : List (String × α)) (k : String) (v : α),
      (l.map Prod.fst).Pairwise (fun a b => a.data < b.data) → (k, v) ∈ l →
      mapFind k l = some v := by
  intro l
  induction l with
  | nil => intro k v _ h; cases h
  | cons e rest ih =>
    intro k v hp hmem
    obtain ⟨k0, v0⟩ := e
    simp only [List.map_cons, List.pairwise_cons] at hp
    rcases List.mem_cons.mp hmem with h | h
    · cases h; simp [mapFind]
    · have hlt : k0.data < k.data := hp.1 k (List.mem_map.mpr ⟨(k, v), h, rfl⟩)
      have hne : k0 ≠ k := by rintro rfl; exact lt_irrefl _ hlt
      simp [mapFind, hne, ih k v hp.2 h]

theorem mapFind_mem {α : Type} :
    ∀ (l : List (String × α)) (k : String) (v : α), mapFind k l = some v → (k, v) ∈ l := by
  intro l
  induction l with
  | nil => intro k v h; cases h
  | cons e rest ih =>
    intro k v h
    obtain ⟨k0, v0⟩ := e
    unfold mapFind at h
    split at h
    · rename_i hk; cases h; subst hk; exact List.mem_cons_self _ _
    · exact List.mem_cons_of_mem _ (ih k v h)

theorem keys_nodup {α : Type} (l : List (String × α))
    (hp : (l.map Prod.fst).Pairwise (fun a b => a.data < b.data)) : (l.map Prod.fst).Nodup := by
  refine List.Pairwise.imp ?_ hp
  intro a b hlt
  rintro rfl
  exact lt_irrefl _ hlt

theorem WellFormed.ids_nodup (s : TransferScheduler) (hwf : s.WellFormed) :
    (s.ListInstances.map (fun i => i.id)).Nodup := by
  have h := keys_nodup s.instances hwf.1
  have heq : s.ListInstances.map (fun i => i.id) = s.instances.map Prod.fst := by
    unfold TransferScheduler.ListInstances
    rw [List.map_map]
    apply List.map_congr_left
    intro e he
    exact (hwf.2 e he).1.symm
  rw [heq]; exact h

theorem lookupAll_filter (l : List (String × DicomInstanceInfo)) (p : DicomInstanceInfo → Bool)
    (hp : (l.map Prod.fst).Pairwise (fun a b => a.data < b.data)) :
    lookupAll l ((l.filter (fun e => p e.2)).map Prod.fst) = (l.map Prod.snd).filter p := by
  have key : ∀ (sub : List (String × DicomInstanceInfo)), (∀ e ∈ sub, e ∈ l) →
      lookupAll l ((sub.filter (fun e => p e.2)).map Prod.fst) = (sub.map Prod.snd).filter p := by
    intro sub
    induction sub with
    | nil => intro _; simp [lookupAll]
    | cons e rest ih =>
      intro hsub
      have hrest := ih (fun e he => hsub e (List.mem_cons_of_mem _ he))
      have hfind := mapFind_of_mem l e.1 e.2 hp (hsub e (List.mem_cons_self _ _))
      by_cases hpe : p e.2 = true
      · simp only [List.filter_cons, hpe, if_true, List.map_cons]
        unfold lookupAll at hrest ⊢
        rw [List.filterMap_cons, hfind]
        simp [hrest]
      · simp only [List.filter_cons, hpe, List.map_cons]
        simpa using hrest
  exact key l (fun e he => he)

/-! ## `ComputeBucketsInternal` -/

theorem ComputeBucketsInternal_unfold (s : TransferScheduler) (hwf : s.WellFormed)
    (g sep : Nat) (hg : 0 < g) (hgs : g ≤ sep) (target0 : List TransferBucket)
    (baseUrl : String) (compression : BucketCompression) :
    s.ComputeBucketsInternal target0 g sep baseUrl compression
      = (match TransferScheduler.groupLoop s.instances g baseUrl compression
            ((s.instances.filter (fun e => decide (e.2.size < g))).map Prod.fst)
            (bucketOfChunks []) (separateBuckets s g sep) with
          | (_, target, some e) => (target, some e)
          | (bucket, target, none) => (target ++ flushBucket bucket, none)) := by
  have hcond : (decide (g > sep) || sep == 0) = false := by
    have h1 : ¬ g > sep := by omega
    have h2 : sep ≠ 0 := by omega
    simp [h1, h2]
  have hcl := classifyLoop_eq g sep hg hgs s.instances [] []
    (fun e he => (hwf.2 e he).2)
  unfold TransferScheduler.ComputeBucketsInternal
  rw [hcond, hcl]
  simp only [Bool.false_eq_true, if_false, List.nil_append]
  have hb : ({} : TransferBucket) = bucketOfChunks [] := rfl
  rw [hb]
  have hsep : (List.filter (fun info => decide (g ≤ info.size))
      (List.map Prod.snd s.instances)).flatMap (splitBuckets sep) = separateBuckets s g sep := rfl
  rw [hsep]
  generalize TransferScheduler.groupLoop s.instances g baseUrl compression
      ((s.instances.filter (fun e => decide (e.2.size < g))).map Prod.fst)
      (bucketOfChunks []) (separateBuckets s g sep) = r
  obtain ⟨bucket, target, err⟩ := r
  cases err with
  | some e => rfl
  | none =>
    simp only [flushBucket]
    split <;> simp

theorem toGroup_found (s : TransferScheduler) (hwf : s.WellFormed) (g : Nat) :
    ∀ key ∈ (s.instances.filter (fun e => decide (e.2.size < g))).map Prod.fst,
      ∃ info, mapFind key s.instances = some info ∧ info ∈ s.ListInstances ∧
        info.size < SIZE_MOD ∧ info.size < g := by
  intro key hkey
  obtain ⟨e, he, rfl⟩ := List.mem_map.mp hkey
  have hmem := (List.mem_filter.mp he).1
  have hsmall : e.2.size < g := by simpa using (List.mem_filter.mp he).2
  exact ⟨e.2, mapFind_of_mem s.instances e.1 e.2 hwf.1 hmem,
    List.mem_map.mpr ⟨e, hmem, rfl⟩, (hwf.2 e hmem).2, hsmall⟩

/-- When the planner raises nothing, its buckets are those of the instances
that are not grouped, followed by the reference packing of the small
instances of non-zero size. -/
theorem ComputeBucketsInternal_ok (s : TransferScheduler) (hwf : s.WellFormed)
    (g sep : Nat) (hg : 0 < g) (hgs : g ≤ sep) (target0 : List TransferBucket)
    (baseUrl : String) (compression : BucketCompression) (buckets : List TransferBucket)
    (h : s.ComputeBucketsInternal target0 g sep baseUrl compression = (buckets, none)) :
    buckets = separateBuckets s g sep ++ referencePacking g baseUrl compression
      (s.ListInstances.filter (fun i => decide (i.size < g) && decide (0 < i.size))) [] := by
  rw [ComputeBucketsInternal_unfold s hwf g sep hg hgs] at h
  have hkeys : ∀ key ∈ (s.instances.filter (fun e => decide (e.2.size < g))).map Prod.fst,
      ∃ info, mapFind key s.instances = some info ∧ info.size < SIZE_MOD := by
    intro key hkey
    obtain ⟨info, h1, _, h2, _⟩ := toGroup_found s hwf g key hkey
    exact ⟨info, h1, h2⟩
  have hlook := lookupAll_filter s.instances (fun i => decide (i.size < g)) hwf.1
  have hfilter : (s.ListInstances.filter (fun i => decide (i.size < g) && decide (0 < i.size)))
      = ((s.instances.map Prod.snd).filter (fun i => decide (i.size < g))).filter
          (fun i => decide (0 < i.size)) := by
    rw [List.filter_filter]
    unfold TransferScheduler.ListInstances
    congr 1
    funext i
    exact Bool.and_comm _ _
  rw [hfilter, ← hlook]
  generalize hr : TransferScheduler.groupLoop s.instances g baseUrl compression
      ((s.instances.filter (fun e => decide (e.2.size < g))).map Prod.fst)
      (bucketOfChunks []) (separateBuckets s g sep) = r at h
  obtain ⟨bucket, target, err⟩ := r
  cases err with
  | some e => simp at h
  | none =>
    simp only [Prod.mk.injEq, and_true] at h
    rw [← h]
    exact groupLoop_ok s.instances g hg baseUrl compression _ [] _ (Or.inl rfl) hkeys _ _ hr

/-- The planner raises nothing in push mode, and in pull mode when no
instance is empty. -/
theorem ComputeBucketsInternal_returns (s : TransferScheduler) (hwf : s.WellFormed)
    (g sep : Nat) (hg : 0 < g) (hgs : g ≤ sep) (target0 : List TransferBucket)
    (baseUrl : String) (compression : BucketCompression)
    (hcase : baseUrl.isEmpty = true ∨ ∀ info ∈ s.ListInstances, 0 < info.size) :
    (s.ComputeBucketsInternal target0 g sep baseUrl compression).2 = none := by
  rw [ComputeBucketsInternal_unfold s hwf g sep hg hgs]
  have hkeys : ∀ key ∈ (s.instances.filter (fun e => decide (e.2.size < g))).map Prod.fst,
      ∃ info, mapFind key s.instances = some info ∧ info.size < SIZE_MOD ∧
        (baseUrl.isEmpty = true ∨ 0 < info.size) := by
    intro key hkey
    obtain ⟨info, h1, hmem, h2, _⟩ := toGroup_found s hwf g key hkey
    refine ⟨info, h1, h2, ?_⟩
    rcases hcase with h | h
    · exact Or.inl h
    · exact Or.inr (h info hmem)
  have hret := groupLoop_returns s.instances g hg baseUrl compression _ []
    (separateBuckets s g sep) hkeys
  generalize hr : TransferScheduler.groupLoop s.instances g baseUrl compression
      ((s.instances.filter (fun e => decide (e.2.size < g))).map Prod.fst)
      (bucketOfChunks []) (separateBuckets s g sep) = r at hret
  obtain ⟨bucket, target, err⟩ := r
  simp only at hret
  subst hret
  rfl

/-- Whatever its outcome, the planner leaves in `target` the buckets of the
instances that are not grouped, followed by buckets whose chunks name small
instances. -/
theorem ComputeBucketsInternal_target (s : TransferScheduler) (hwf : s.WellFormed)
    (g sep : Nat) (hg : 0 < g) (hgs : g ≤ sep) (target0 : List TransferBucket)
    (baseUrl : String) (compression : BucketCompression) :
    ∃ extra, (s.ComputeBucketsInternal target0 g sep baseUrl compression).1
        = separateBuckets s g sep ++ extra ∧
      ∀ b ∈ extra, ∀ c ∈ b.chunks, ∃ info ∈ s.ListInstances,
        info.size < g ∧ c.instanceId = info.id := by
  rw [ComputeBucketsInternal_unfold s hwf g sep hg hgs]
  have hkeys : ∀ key ∈ (s.instances.filter (fun e => decide (e.2.size < g))).map Prod.fst,
      ∀ info, mapFind key s.instances = some info →
        ∃ i ∈ s.ListInstances, i.size < g ∧ info.id = i.id := by
    intro key hkey info hfind
    obtain ⟨info', h1, hmem, _, h3⟩ := toGroup_found s hwf g key hkey
    rw [hfind] at h1
    cases h1
    exact ⟨info, hmem, h3, rfl⟩
  obtain ⟨extra, h1, h2, h3⟩ := groupLoop_names s.instances g baseUrl compression
    (fun id => ∃ i ∈ s.ListInstances, i.size < g ∧ id = i.id) _ (bucketOfChunks [])
    (separateBuckets s g sep) hkeys (by simp [bucketOfChunks])
  generalize hr : TransferScheduler.groupLoop s.instances g baseUrl compression
      ((s.instances.filter (fun e => decide (e.2.size < g))).map Prod.fst)
      (bucketOfChunks []) (separateBuckets s g sep) = r at h1 h3
  obtain ⟨bucket, target, err⟩ := r
  simp only at h1 h3
  subst h1
  cases err with
  | some e => exact ⟨extra, rfl, h2⟩
  | none =>
    refine ⟨extra ++ flushBucket bucket, by simp, ?_⟩
    intro b hb
    rcases List.mem_append.mp hb with h | h
    · exact h2 b h
    · unfold flushBucket at h
      split at h
      · simp at h; subst h; exact h3
      · cases h

/-! ## The buckets of one instance among the planner's buckets -/

theorem splitBuckets_names (sep : Nat) (info : DicomInstanceInfo) :
    ∀ b ∈ splitBuckets sep info, ∀ id, b.names id = decide (info.id = id) := by
  intro b hb id
  unfold splitBuckets at hb
  obtain ⟨j, _, rfl⟩ := List.mem_map.mp hb
  by_cases h : info.id = id <;>
    simp [TransferBucket.names, singleChunkBucket, splitChunk, h]

theorem filter_flatMap_splitBuckets (sep : Nat) (info : DicomInstanceInfo) :
    ∀ (l : List DicomInstanceInfo), (l.map (fun i => i.id)).Nodup → info ∈ l →
      (l.flatMap (splitBuckets sep)).filter (fun b => b.names info.id) = splitBuckets sep info := by
  have hnone : ∀ (l : List DicomInstanceInfo), info.id ∉ l.map (fun i => i.id) →
      (l.flatMap (splitBuckets sep)).filter (fun b => b.names info.id) = [] := by
    intro l hl
    rw [List.filter_eq_nil_iff]
    intro b hb
    obtain ⟨i, hi, hbi⟩ := List.mem_flatMap.mp hb
    rw [splitBuckets_names sep i b hbi]
    have : i.id ≠ info.id := by
      rintro heq
      exact hl (List.mem_map.mpr ⟨i, hi, heq⟩)
    simpa using this
  intro l
  induction l with
  | nil => intro _ h; cases h
  | cons i rest ih =>
    intro hnd hmem
    simp only [List.map_cons, List.nodup_cons] at hnd
    rw [List.flatMap_cons, List.filter_append]
    by_cases hi : i = info
    · subst hi
      rw [hnone rest hnd.1, List.append_nil, List.filter_eq_self]
      intro b hb
      rw [splitBuckets_names sep i b hb]
      simp
    · have hin : info ∈ rest := by
        rcases List.mem_cons.mp hmem with h | h
        · exact absurd h.symm hi
        · exact h
      have hne : i.id ≠ info.id := by
        intro heq
        exact hnd.1 (List.mem_map.mpr ⟨info, hin, heq.symm⟩)
      have h1 : (splitBuckets sep i).filter (fun b => b.names info.id) = [] := by
        rw [List.filter_eq_nil_iff]
        intro b hb
        rw [splitBuckets_names sep i b hb]
        simpa using hne
      rw [h1, List.nil_append]
      exact ih hnd.2 hin

theorem planner_buckets_of_instance (s : TransferScheduler) (hwf : s.WellFormed)
    (g sep : Nat) (hg : 0 < g) (hgs : g ≤ sep) (target0 : List TransferBucket)
    (baseUrl : String) (compression : BucketCompression)
    (info : DicomInstanceInfo) (hmem : info ∈ s.ListInstances) (hbig : g ≤ info.size) :
    (s.ComputeBucketsInternal target0 g sep baseUrl compression).1.filter
      (fun b => b.names info.id) = splitBuckets sep info := by
  obtain ⟨extra, h1, h2⟩ := ComputeBucketsInternal_target s hwf g sep hg hgs target0 baseUrl
    compression
  have hnd := WellFormed.ids_nodup s hwf
  rw [h1, List.filter_append]
  have hextra : extra.filter (fun b => b.names info.id) = [] := by
    rw [List.filter_eq_nil_iff]
    intro b hb hn
    simp only [TransferBucket.names, List.any_eq_true, beq_iff_eq] at hn
    obtain ⟨c, hc, hcid⟩ := hn
    obtain ⟨i, hi, hsmall, hid⟩ := h2 b hb c hc
    have : i = info := List.inj_on_of_nodup_map hnd hi hmem (by rw [← hid, hcid])
    subst this
    omega
  rw [hextra, List.append_nil]
  unfold separateBuckets
  apply filter_flatMap_splitBuckets
  · exact (List.Nodup.sublist ((List.filter_sublist _).map _) hnd)
  · exact List.mem_filter.mpr ⟨hmem, by simpa using hbig⟩

/-! ## Coverage of the instances by the planner's chunks -/

theorem allChunks_append (a b : List TransferBucket) :
    allChunks (a ++ b) = allChunks a ++ allChunks b := by
  simp [allChunks]

theorem allChunks_map_single (f : Nat → Chunk) (l : List Nat) :
    allChunks (l.map (fun j => singleChunkBucket (f j))) = l.map f := by
  unfold allChunks
  induction l with
  | nil => rfl
  | cons j rest ih => simp only [List.map_cons, List.flatMap_cons, ih]; rfl

theorem allChunks_splitBuckets (sep : Nat) (info : DicomInstanceInfo) :
    allChunks (splitBuckets sep info)
      = (List.range (ceilDiv info.size sep)).map (splitChunk info (ceilDiv info.size sep)) :=
  allChunks_map_single _ _

theorem allChunks_referencePacking (g : Nat) (baseUrl : String) (compression : BucketCompression) :
    ∀ (infos : List DicomInstanceInfo) (w : List Chunk),
      allChunks (referencePacking g baseUrl compression infos w)
        = w ++ infos.map (fun i => (⟨i.id, 0, i.size⟩ : Chunk)) := by
  intro infos
  induction infos with
  | nil => intro w; cases w <;> simp [referencePacking, allChunks, bucketOfChunks]
  | cons i rest ih =>
    intro w
    rw [referencePacking]
    split
    · have h := ih []
      simp only [allChunks, List.flatMap_cons] at h ⊢
      rw [h]; simp [bucketOfChunks]
    · rw [ih]; simp

theorem coverCount_single (c : Chunk) (id : String) (p : Nat) :
    coverCount [c] id p
      = if c.instanceId = id ∧ c.offset ≤ p ∧ p < c.offset + c.size then 1 else 0 := by
  by_cases h1 : c.instanceId = id <;> by_cases h2 : c.offset ≤ p <;>
    by_cases h3 : p < c.offset + c.size <;> simp [coverCount, Chunk.covers, h1, h2, h3]

theorem coverCount_append (a b : List Chunk) (id : String) (p : Nat) :
    coverCount (a ++ b) id p = coverCount a id p + coverCount b id p := by
  simp [coverCount, List.countP_append]

/-- Coverage and total size of `m` consecutive chunks of `cs` bytes. -/
theorem uniform_cover (id0 : String) (cs : Nat) (id : String) (p : Nat) :
    ∀ m, coverCount ((List.range m).map (fun j => (⟨id0, j * cs, cs⟩ : Chunk))) id p
        = (if id0 = id ∧ p < m * cs then 1 else 0) ∧
      (((List.range m).map (fun j => (⟨id0, j * cs, cs⟩ : Chunk))).map (fun c => c.size)).sum
        = m * cs := by
  intro m
  induction m with
  | zero => simp [coverCount]
  | succ m ih =>
    obtain ⟨ih1, ih2⟩ := ih
    have hmul : (m + 1) * cs = m * cs + cs := Nat.succ_mul _ _
    constructor
    · rw [List.range_succ, List.map_append, coverCount_append, ih1, List.map_cons, List.map_nil,
        coverCount_single, hmul]
      generalize m * cs = t
      by_cases hid : id0 = id
      · simp only [hid, true_and]
        split <;> split <;> split <;> omega
      · simp [hid]
    · rw [List.range_succ, List.map_append, List.map_append, List.sum_append, ih2]
      simp [hmul]

theorem chunksOfInstance_facts (g sep : Nat) (hg : 0 < g) (hgs : g ≤ sep)
    (info : DicomInstanceInfo) (id : String) (p : Nat) :
    coverCount (chunksOfInstance g sep info) id p
        = (if info.id = id ∧ p < info.size then 1 else 0) ∧
      ((chunksOfInstance g sep info).map (fun c => c.size)).sum = info.size := by
  unfold chunksOfInstance
  by_cases hbig : g ≤ info.size
  · simp only [hbig, if_true]
    have hkpos : 0 < ceilDiv info.size sep := ceilDiv_pos info.size sep (by omega) (by omega)
    generalize ceilDiv info.size sep = k at hkpos
    have hle : k * (info.size / k) ≤ info.size := Nat.mul_div_le _ _
    have hk1 : k - 1 + 1 = k := by omega
    have hrange : List.range k = List.range (k - 1) ++ [k - 1] := by
      have h := List.range_succ (k - 1)
      rw [Nat.succ_eq_add_one, hk1] at h
      exact h
    have hkm : k * (info.size / k) = (k - 1) * (info.size / k) + info.size / k := by
      have h := Nat.succ_mul (k - 1) (info.size / k)
      rw [Nat.succ_eq_add_one, hk1] at h
      exact h
    have hfront : (List.range (k - 1)).map (splitChunk info k)
        = (List.range (k - 1)).map (fun j => (⟨info.id, j * (info.size / k), info.size / k⟩ : Chunk)) := by
      apply List.map_congr_left
      intro j hj
      have : j ≠ k - 1 := by
        have := List.mem_range.mp hj
        omega
      simp [splitChunk, this]
    have hlastc : splitChunk info k (k - 1)
        = ⟨info.id, (k - 1) * (info.size / k), info.size - (k - 1) * (info.size / k)⟩ := by
      simp [splitChunk]
    obtain ⟨h1, h2⟩ := uniform_cover info.id (info.size / k) id p (k - 1)
    rw [hrange, List.map_append, hfront, List.map_cons, List.map_nil, hlastc]
    generalize info.size / k = cs at *
    generalize (k - 1) * cs = t at *
    generalize k * cs = u at *
    constructor
    · rw [coverCount_append, h1, coverCount_single]
      by_cases hid : info.id = id
      · simp only [hid, true_and]
        split <;> split <;> split <;> omega
      · simp [hid]
    · rw [List.map_append, List.sum_append, h2]
      simp only [List.map_cons, List.map_nil, List.sum_cons, List.sum_nil]
      omega
  · simp only [hbig, if_false]
    by_cases hpos : 0 < info.size
    · simp only [hpos, if_true]
      constructor
      · rw [coverCount_single]
        by_cases hid : info.id = id
        · simp only [hid, true_and]
          split <;> split <;> omega
        · simp [hid]
      · simp
    · have hz : info.size = 0 := by omega
      simp [hpos, coverCount, hz]

/-- The chunks of the planner's buckets, instance by instance: an additive
measure of chunk lists takes on them the sum of its values on the chunks of
each instance. -/
theorem measure_planner_chunks (g sep : Nat) (φ : List Chunk → Nat)
    (hnil : φ [] = 0) (happ : ∀ a b, φ (a ++ b) = φ a + φ b) :
    ∀ (l : List DicomInstanceInfo),
      φ (allChunks ((l.filter (fun info => decide (g ≤ info.size))).flatMap (splitBuckets sep))
          ++ (l.filter (fun i => decide (i.size < g) && decide (0 < i.size))).map
              (fun i => (⟨i.id, 0, i.size⟩ : Chunk)))
        = (l.map (fun i => φ (chunksOfInstance g sep i))).sum := by
  intro l
  induction l with
  | nil => simp [allChunks, hnil]
  | cons i rest ih =>
    rw [happ] at ih
    rw [List.map_cons, List.sum_cons, ← ih, happ]
    by_cases hbig : g ≤ i.size
    · have hns : ¬ i.size < g := by omega
      have hf1 : (i :: rest).filter (fun info => decide (g ≤ info.size))
          = i :: rest.filter (fun info => decide (g ≤ info.size)) := by simp [hbig]
      have hf2 : (i :: rest).filter (fun i => decide (i.size < g) && decide (0 < i.size))
          = rest.filter (fun i => decide (i.size < g) && decide (0 < i.size)) := by simp [hns]
      have hc : chunksOfInstance g sep i = allChunks (splitBuckets sep i) := by
        rw [allChunks_splitBuckets]; simp [chunksOfInstance, hbig]
      rw [hf1, hf2, List.flatMap_cons, allChunks_append, happ, hc]
      ring
    · have hs : i.size < g := by omega
      have hf1 : (i :: rest).filter (fun info => decide (g ≤ info.size))
          = rest.filter (fun info => decide (g ≤ info.size)) := by simp [hbig]
      by_cases hpos : 0 < i.size
      · have hf2 : (i :: rest).filter (fun i => decide (i.size < g) && decide (0 < i.size))
            = i :: rest.filter (fun i => decide (i.size < g) && decide (0 < i.size)) := by
          simp [hs, hpos]
        have hc : chunksOfInstance g sep i = [⟨i.id, 0, i.size⟩] := by
          simp [chunksOfInstance, hbig, hpos]
        rw [hf1, hf2, List.map_cons, ← List.singleton_append, happ, hc]
        ring
      · have hf2 : (i :: rest).filter (fun i => decide (i.size < g) && decide (0 < i.size))
            = rest.filter (fun i => decide (i.size < g) && decide (0 < i.size)) := by
          simp [hpos]
        have hc : chunksOfInstance g sep i = [] := by
          simp [chunksOfInstance, hbig, hpos]
        rw [hf1, hf2, hc, hnil]
        ring

theorem sum_indicator_of_nodup (info : DicomInstanceInfo) (p : Nat) :
    ∀ (l : List DicomInstanceInfo), (l.map (fun i => i.id)).Nodup → info ∈ l →
      (l.map (fun i => if i.id = info.id ∧ p < i.size then 1 else 0)).sum
        = if p < info.size then 1 else 0 := by
  have hnone : ∀ (l : List DicomInstanceInfo), info.id ∉ l.map (fun i => i.id) →
      (l.map (fun i => if i.id = info.id ∧ p < i.size then 1 else 0)).sum = 0 := by
    intro l hl
    apply List.sum_eq_zero
    intro x hx
    obtain ⟨i, hi, rfl⟩ := List.mem_map.mp hx
    have : i.id ≠ info.id := fun heq => hl (List.mem_map.mpr ⟨i, hi, heq⟩)
    simp [this]
  intro l
  induction l with
  | nil => intro _ h; cases h
  | cons i rest ih =>
    intro hnd hmem
    simp only [List.map_cons, List.nodup_cons] at hnd
    rw [List.map_cons, List.sum_cons]
    by_cases hi : i = info
    · subst hi
      rw [hnone rest hnd.1]
      simp
    · have hin : info ∈ rest := by
        rcases List.mem_cons.mp hmem with h | h
        · exact absurd h.symm hi
        · exact h
      have hne : i.id ≠ info.id := fun heq =>
        hnd.1 (List.mem_map.mpr ⟨info, hin, heq.symm⟩)
      rw [ih hnd.2 hin]
      simp [hne]

/-! ## Claims on the planner -/

/-- C1. For a scheduler whose map is well formed (distinct identifiers) and
thresholds `0 < group ≤ separate`, whenever `ComputePullBuckets`, or the
planning step of `FormatPushTransaction`, returns without raising, the chunk
sizes of the returned buckets add up to the sum of the instance sizes, and
every byte `p` of every instance is held by exactly one chunk naming the
instance, while no chunk naming it holds a byte at or beyond its size: the
chunks of an instance are pairwise disjoint and their union is `[0, size)`. -/
theorem planner_covers_every_byte_once (s : TransferScheduler) (hwf : s.WellFormed)
    (g sep : Nat) (hg : 0 < g) (hgs : g ≤ sep) (target0 : List TransferBucket)
    (baseUrl : String) (compression : BucketCompression) (buckets : List TransferBucket)
    (hret : s.ComputePullBuckets target0 g sep baseUrl compression = (buckets, none) ∨
      s.FormatPushTransactionBuckets target0 g sep = (buckets, none)) :
    ((allChunks buckets).map (fun c => c.size)).sum = (s.ListInstances.map (fun i => i.size)).sum ∧
    ∀ info ∈ s.ListInstances, ∀ p : Nat,
      coverCount (allChunks buckets) info.id p = if p < info.size then 1 else 0 := by
  have hform : ∃ url c, buckets = separateBuckets s g sep ++ referencePacking g url c
      (s.ListInstances.filter (fun i => decide (i.size < g) && decide (0 < i.size))) [] := by
    rcases hret with h | h
    · exact ⟨baseUrl, compression,
        ComputeBucketsInternal_ok s hwf g sep hg hgs target0 baseUrl compression buckets h⟩
    · exact ⟨"", .None, ComputeBucketsInternal_ok s hwf g sep hg hgs target0 "" .None buckets h⟩
  obtain ⟨url, c, hb⟩ := hform
  have hchunks : allChunks buckets
      = allChunks ((s.ListInstances.filter (fun info => decide (g ≤ info.size))).flatMap
          (splitBuckets sep))
        ++ (s.ListInstances.filter (fun i => decide (i.size < g) && decide (0 < i.size))).map
          (fun i => (⟨i.id, 0, i.size⟩ : Chunk)) := by
    rw [hb, allChunks_append, allChunks_referencePacking]
    rfl
  rw [hchunks]
  constructor
  · rw [measure_planner_chunks g sep (fun cs => (cs.map (fun c => c.size)).sum) rfl
      (fun a b => by simp)]
    congr 1
    apply List.map_congr_left
    intro i _
    exact (chunksOfInstance_facts g sep hg hgs i "" 0).2
  · intro info hmem p
    rw [measure_planner_chunks g sep (fun cs => coverCount cs info.id p) rfl
      (fun a b => coverCount_append a b info.id p)]
    have hcongr : s.ListInstances.map (fun i => coverCount (chunksOfInstance g sep i) info.id p)
        = s.ListInstances.map (fun i => if i.id = info.id ∧ p < i.size then 1 else 0) := by
      apply List.map_congr_left
      intro i _
      exact (chunksOfInstance_facts g sep hg hgs i info.id p).1
    rw [hcongr]
    exact sum_indicator_of_nodup info p s.ListInstances (WellFormed.ids_nodup s hwf) hmem

/-- Witness of C1: the three instances of the unit tests, grouped with
`group = 20` and `separate = 1000` in push mode. -/
theorem planner_covers_every_byte_once_witness :
    ((allChunks (schedulerOfTests.FormatPushTransactionBuckets [] 20 1000).1).map
        (fun c => c.size)).sum = (schedulerOfTests.ListInstances.map (fun i => i.size)).sum ∧
    ∀ info ∈ schedulerOfTests.ListInstances, ∀ p : Nat,
      coverCount (allChunks (schedulerOfTests.FormatPushTransactionBuckets [] 20 1000).1)
        info.id p = if p < info.size then 1 else 0 :=
  planner_covers_every_byte_once schedulerOfTests (by decide) 20 1000 (by decide) (by decide)
    [] "" .None _ (Or.inr (by decide))

/-- C8. For thresholds `1 ≤ group ≤ separate` and an instance of the
scheduler with `size ≥ group`, the buckets that name the instance in the list
filled by the planner (pull or push) are, in order, the `k = ceil(size /
separate)` buckets of `splitBuckets`: bucket `j` holds the single chunk that
starts at `j * floor(size / k)`, of size `floor(size / k)` except for the last
one, of size `size - (k - 1) * floor(size / k)`.  For `size < separate` this
is the single bucket holding `(id, 0, size)`. -/
theorem planner_splits_instance (s : TransferScheduler) (hwf : s.WellFormed)
    (g sep : Nat) (hg : 1 ≤ g) (hgs : g ≤ sep) (target0 : List TransferBucket)
    (baseUrl : String) (compression : BucketCompression)
    (info : DicomInstanceInfo) (hmem : info ∈ s.ListInstances) (hbig : g ≤ info.size) :
    (s.ComputePullBuckets target0 g sep baseUrl compression).1.filter
        (fun b => b.names info.id) = splitBuckets sep info ∧
    (s.FormatPushTransactionBuckets target0 g sep).1.filter
        (fun b => b.names info.id) = splitBuckets sep info ∧
    (splitBuckets sep info).length = ceilDiv info.size sep ∧
    (∀ j, (hj : j < (splitBuckets sep info).length) →
      (splitBuckets sep info)[j] = singleChunkBucket
        ⟨info.id, j * (info.size / ceilDiv info.size sep),
          if j = ceilDiv info.size sep - 1
          then info.size - (ceilDiv info.size sep - 1) * (info.size / ceilDiv info.size sep)
          else info.size / ceilDiv info.size sep⟩) ∧
    (info.size < sep → splitBuckets sep info = [singleChunkBucket ⟨info.id, 0, info.size⟩]) := by
  refine ⟨?_, ?_, ?_, ?_, ?_⟩
  · exact planner_buckets_of_instance s hwf g sep hg hgs target0 baseUrl compression info hmem hbig
  · exact planner_buckets_of_instance s hwf g sep hg hgs target0 "" .None info hmem hbig
  · simp [splitBuckets]
  · intro j hj
    simp [splitBuckets, splitChunk]
  · intro hlt
    exact splitBuckets_of_lt sep info (by omega) hlt

/-- Witness of C8: an instance of 11 bytes with `group = 1` and
`separate = 4` is cut in three buckets. -/
theorem planner_splits_instance_witness :
    (schedulerOfEleven.ComputePullBuckets [] 1 4 "http://localhost/" .None).1.filter
        (fun b => b.names "dicom") = splitBuckets 4 ⟨"dicom", 11, ""⟩ ∧
    (splitBuckets 4 ⟨"dicom", 11, ""⟩).length = 3 :=
  have h := planner_splits_instance schedulerOfEleven (by decide) 1 4 (by decide) (by decide)
    [] "http://localhost/" .None ⟨"dicom", 11, ""⟩ (by decide) (by decide)
  ⟨h.1, h.2.2.1⟩

/-- In the reference packing started from a working bucket that was kept
open, every bucket is made of chunks that did not close it, followed by one
last chunk. -/
theorem referencePacking_front (g : Nat) (baseUrl : String) (compression : BucketCompression) :
    ∀ (infos : List DicomInstanceInfo) (w : List Chunk),
      (w = [] ∨ (closesBucket g baseUrl compression w = false ∧
        ∃ W c, w = W ++ [c] ∧ (W = [] ∨ closesBucket g baseUrl compression W = false))) →
      ∀ B ∈ referencePacking g baseUrl compression infos w,
        ∃ W c, B = bucketOfChunks (W ++ [c]) ∧
          (W = [] ∨ closesBucket g baseUrl compression W = false) := by
  intro infos
  induction infos with
  | nil =>
    intro w hinv B hB
    rcases hinv with rfl | ⟨_, W, c, rfl, hW⟩
    · simp [referencePacking] at hB
    · simp [referencePacking] at hB
      exact ⟨W, c, hB, hW⟩
  | cons i rest ih =>
    intro w hinv B hB
    have hw : w = [] ∨ closesBucket g baseUrl compression w = false := by
      rcases hinv with h | h
      · exact Or.inl h
      · exact Or.inr h.1
    rw [referencePacking] at hB
    by_cases hc : closesBucket g baseUrl compression (w ++ [⟨i.id, 0, i.size⟩]) = true
    · simp only [hc, if_true, List.mem_cons] at hB
      rcases hB with h | h
      · exact ⟨w, _, h, hw⟩
      · exact ih [] (Or.inl rfl) B h
    · have hc' : closesBucket g baseUrl compression (w ++ [⟨i.id, 0, i.size⟩]) = false := by
        simpa using hc
      simp only [hc', Bool.false_eq_true, if_false] at hB
      exact ih _ (Or.inr ⟨hc', w, _, rfl, hw⟩) B hB

theorem utf8ByteSize_append (a b : String) :
    (a ++ b).utf8ByteSize = a.utf8ByteSize + b.utf8ByteSize := by
  obtain ⟨a⟩ := a
  obtain ⟨b⟩ := b
  show String.utf8ByteSize ⟨a ++ b⟩ = _
  simp [String.utf8ByteSize_mk, String.utf8Len_append]

theorem utf8Len_replicate (n : Nat) : String.utf8Len (List.replicate n '_') = n := by
  induction n with
  | zero => rfl
  | succ n ih =>
    rw [List.replicate_succ, String.utf8Len_cons, ih]
    rfl

theorem longBase_size : longBase.utf8ByteSize = 2048 := by
  unfold longBase
  rw [String.utf8ByteSize_mk, utf8Len_replicate]

/-- Counterexample to C7: with the base URL of 2048 characters of the unit
test `TransferScheduler.Grouping`, the bucket that the planner returns for an
instance of 10 bytes has a URL of more than 1956 bytes. -/
theorem planner_url_exceeds_limit :
    longBase.isEmpty = false ∧
    ((({} : TransferScheduler).AddInstance ⟨"d1", 10, "md1"⟩).ComputePullBuckets [] 10 1000
        longBase .None)
      = ([bucketOfChunks [⟨"d1", 0, 10⟩]], none) ∧
    (bucketOfChunks [⟨"d1", 0, 10⟩]).ComputePullUri .None
      = .ok "/transfers/chunks/d1?offset=0&size=10&compression=none" ∧
    ¬ (longBase ++ "/transfers/chunks/d1?offset=0&size=10&compression=none").utf8ByteSize < 1956 := by
  refine ⟨?_, ?_, ?_, ?_⟩
  · simp only [String.isEmpty, String.endPos, longBase_size]
    decide
  · decide
  · rfl
  · rw [utf8ByteSize_append, longBase_size]
    omega

/-- C7, amended. For a non-empty `baseUrl`, every bucket returned by
`ComputePullBuckets` that holds two chunks or more was still below the limit
before its last chunk was added: the bucket made of its chunks but the last
has a pull URL and `baseUrl` followed by that URL has fewer than 1956 bytes. -/
theorem planner_url_below_limit_before_last_chunk (s : TransferScheduler) (hwf : s.WellFormed)
    (g sep : Nat) (hg : 0 < g) (hgs : g ≤ sep) (target0 : List TransferBucket)
    (baseUrl : String) (compression : BucketCompression) (buckets : List TransferBucket)
    (hbase : baseUrl.isEmpty = false)
    (hret : s.ComputePullBuckets target0 g sep baseUrl compression = (buckets, none))
    (B : TransferBucket) (hB : B ∈ buckets) (hlen : 2 ≤ B.GetChunksCount) :
    ∃ uri, (bucketOfChunks B.chunks.dropLast).ComputePullUri compression = .ok uri ∧
      (baseUrl ++ uri).utf8ByteSize < 1956 := by
  have hb := ComputeBucketsInternal_ok s hwf g sep hg hgs target0 baseUrl compression buckets hret
  rw [hb] at hB
  rcases List.mem_append.mp hB with h | h
  · exfalso
    unfold separateBuckets at h
    obtain ⟨i, _, hi⟩ := List.mem_flatMap.mp h
    unfold splitBuckets at hi
    obtain ⟨j, _, rfl⟩ := List.mem_map.mp hi
    simp [TransferBucket.GetChunksCount, singleChunkBucket] at hlen
  · obtain ⟨W, c, rfl, hW⟩ := referencePacking_front g baseUrl compression _ [] (Or.inl rfl) B h
    have hne : W ≠ [] := by
      rintro rfl
      simp [TransferBucket.GetChunksCount, bucketOfChunks] at hlen
    have hclose : closesBucket g baseUrl compression W = false := by
      rcases hW with h0 | h0
      · exact absurd h0 hne
      · exact h0
    obtain ⟨uri, huri⟩ := ComputePullUri_isOk W (totalSizeOf W) true compression hne
    have huri' : (bucketOfChunks W).ComputePullUri compression = .ok uri := huri
    have hdrop : (bucketOfChunks (W ++ [c])).chunks.dropLast = W := by
      simp [bucketOfChunks]
    rw [hdrop]
    refine ⟨uri, huri', ?_⟩
    unfold closesBucket at hclose
    rw [huri', hbase] at hclose
    simp at hclose
    omega

/-- Witness of the amended C7: the bucket `[d1, d2]` of the unit test
`TransferScheduler.Grouping`. -/
theorem planner_url_below_limit_before_last_chunk_witness :
    ∃ uri, (bucketOfChunks
        (bucketOfChunks [⟨"d1", 0, 10⟩, ⟨"d2", 0, 10⟩]).chunks.dropLast).ComputePullUri .None
        = .ok uri ∧
      ("http://localhost/" ++ uri).utf8ByteSize < 1956 :=
  planner_url_below_limit_before_last_chunk schedulerOfTests (by decide) 20 1000 (by decide)
    (by decide) [] "http://localhost/" .None
    [bucketOfChunks [⟨"d1", 0, 10⟩, ⟨"d2", 0, 10⟩], bucketOfChunks [⟨"d3", 0, 10⟩]]
    (by decide) (by decide) (bucketOfChunks [⟨"d1", 0, 10⟩, ⟨"d2", 0, 10⟩]) (by decide) (by decide)

/-- Counterexample to C9: an empty instance adds no chunk to the working
bucket of the planner, while the reference packing appends its chunk
`(id, 0, 0)`. -/
theorem planner_skips_empty_instance :
    schedulerWithEmptyInstance.ComputePullBuckets [] 10 10 "http://localhost/" .None
      = ([bucketOfChunks [⟨"a", 0, 5⟩]], none) ∧
    separateBuckets schedulerWithEmptyInstance 10 10 ++
      referencePacking 10 "http://localhost/" .None
        (schedulerWithEmptyInstance.ListInstances.filter (fun i => decide (i.size < 10))) []
      = [bucketOfChunks [⟨"a", 0, 5⟩, ⟨"b", 0, 0⟩]] := by
  decide

/-- C9, amended. For thresholds `0 < group ≤ separate`, the list that the
planner returns is made of the buckets of the medium and large instances
followed by the reference packing of the small instances of non-zero size,
visited in the order of the map (increasing identifiers): an empty instance
adds no chunk.  The planner returns that list, raising nothing, in push mode
and whenever no instance is empty. -/
theorem planner_packs_small_instances (s : TransferScheduler) (hwf : s.WellFormed)
    (g sep : Nat) (hg : 0 < g) (hgs : g ≤ sep) (target0 : List TransferBucket)
    (baseUrl : String) (compression : BucketCompression) :
    (∀ buckets, s.ComputePullBuckets target0 g sep baseUrl compression = (buckets, none) →
      buckets = separateBuckets s g sep ++ referencePacking g baseUrl compression
        (s.ListInstances.filter (fun i => decide (i.size < g) && decide (0 < i.size))) []) ∧
    ((baseUrl.isEmpty = true ∨ ∀ info ∈ s.ListInstances, 0 < info.size) →
      s.ComputePullBuckets target0 g sep baseUrl compression
        = (separateBuckets s g sep ++ referencePacking g baseUrl compression
            (s.ListInstances.filter (fun i => decide (i.size < g) && decide (0 < i.size))) [],
           none)) := by
  refine ⟨fun buckets h =>
    ComputeBucketsInternal_ok s hwf g sep hg hgs target0 baseUrl compression buckets h, ?_⟩
  intro hcase
  have hnone := ComputeBucketsInternal_returns s hwf g sep hg hgs target0 baseUrl compression hcase
  have hpair : s.ComputePullBuckets target0 g sep baseUrl compression
      = ((s.ComputePullBuckets target0 g sep baseUrl compression).1, none) := by
    rw [← hnone]; rfl
  rw [hpair]
  congr 1
  exact ComputeBucketsInternal_ok s hwf g sep hg hgs target0 baseUrl compression _ hpair

/-- Witness of the amended C9: the three instances of the unit test
`TransferScheduler.Grouping` with `group = 20`. -/
theorem planner_packs_small_instances_witness :
    schedulerOfTests.ComputePullBuckets [] 20 1000 "http://localhost/" .None
      = (separateBuckets schedulerOfTests 20 1000 ++ referencePacking 20 "http://localhost/" .None
          (schedulerOfTests.ListInstances.filter
            (fun i => decide (i.size < 20) && decide (0 < i.size))) [], none) ∧
    schedulerOfTests.ComputePullBuckets [] 20 1000 "http://localhost/" .None
      = ([bucketOfChunks [⟨"d1", 0, 10⟩, ⟨"d2", 0, 10⟩], bucketOfChunks [⟨"d3", 0, 10⟩]], none) :=
  ⟨(planner_packs_small_instances schedulerOfTests (by decide) 20 1000 (by decide) (by decide) []
      "http://localhost/" .None).2 (Or.inr (by decide)), by decide⟩

/-- C10, the failing input: in pull mode the planner raises `InternalError`
on a scheduler whose only instance is empty, although `AddChunk` accepts the
empty chunk and the same scheduler is planned without error in push mode. -/
theorem planner_raises_on_empty_instance :
    schedulerOfEmptyInstance.ComputePullBuckets [] 1 1 "http://localhost/" .None
      = ([], some .InternalError) ∧
    schedulerOfEmptyInstance.FormatPushTransactionBuckets [] 1 1 = ([], none) := by
  decide

/-! ## Files and slots -/

theorem fileWrite_of_le (file : List Byte) (offset : Nat) (data : List Byte)
    (h : offset + data.length ≤ file.length) :
    fileWrite file offset data
      = file.take offset ++ data ++ file.drop (offset + data.length) := by
  have h0 : offset - file.length = 0 := by omega
  simp [fileWrite, h0]

theorem fileWrite_length (file : List Byte) (offset : Nat) (data : List Byte)
    (h : offset + data.length ≤ file.length) :
    (fileWrite file offset data).length = file.length := by
  rw [fileWrite_of_le file offset data h]
  simp
  omega

theorem fileWrite_getElem? (file : List Byte) (offset : Nat) (data : List Byte)
    (h : offset + data.length ≤ file.length) (q : Nat) :
    (fileWrite file offset data)[q]?
      = if offset ≤ q ∧ q < offset + data.length then data[q - offset]? else file[q]? := by
  rw [fileWrite_of_le file offset data h]
  by_cases h1 : q < offset
  · have h2 : ¬ (offset ≤ q ∧ q < offset + data.length) := by omega
    rw [if_neg h2, List.append_assoc, List.getElem?_append_left (by simp; omega),
      List.getElem?_take]
    simp [h1]
  · by_cases h3 : q < offset + data.length
    · have h2 : offset ≤ q ∧ q < offset + data.length := by omega
      rw [if_pos h2, List.append_assoc, List.getElem?_append_right (by simp; omega),
        List.getElem?_append_left (by simp; omega)]
      congr 1
      simp
      omega
    · have h2 : ¬ (offset ≤ q ∧ q < offset + data.length) := by omega
      rw [if_neg h2, List.getElem?_append_right (by simp; omega), List.getElem?_drop]
      congr 1
      simp
      omega

theorem create_eq (info : DicomInstanceInfo) (hsz : info.size < SIZE_MOD) :
    DownloadArea.Instance.create info = ⟨info, List.replicate info.size 0⟩ := by
  unfold DownloadArea.Instance.create
  by_cases h0 : info.size = 0
  · simp [h0]
  · have hsub : subSz info.size 1 = info.size - 1 := subSz_of_le (by omega) hsz
    have hrep : List.replicate info.size (0 : Byte)
        = List.replicate (info.size - 1) 0 ++ [0] := by
      have : info.size = (info.size - 1) + 1 := by omega
      conv_lhs => rw [this]
      exact List.replicate_succ' _ _
    simp [h0, hsub, fileWrite, hrep]

/-! ## The effect of the chunk loop, byte by byte -/

theorem overlay_length (chunks : List Chunk) (pos : Nat) (payload : List Byte) (id : String)
    (file : List Byte) : (overlay chunks pos payload id file).length = file.length := by
  simp [overlay]

theorem overlay_getElem? (chunks : List Chunk) (pos : Nat) (payload : List Byte) (id : String)
    (file : List Byte) (q : Nat) :
    (overlay chunks pos payload id file)[q]?
      = match writerOf chunks pos id q with
        | some i => file[q]?.map (fun _ => payload.getD i 0)
        | none => file[q]? := by
  unfold overlay
  rw [List.getElem?_mapIdx]
  cases writerOf chunks pos id q <;> cases file[q]? <;> rfl

theorem overlay_nil (pos : Nat) (payload : List Byte) (id : String) (file : List Byte) :
    overlay [] pos payload id file = file := by
  apply List.ext_getElem?
  intro q
  rw [overlay_getElem?]
  rfl

theorem overlay_cons (c : Chunk) (rest : List Chunk) (pos : Nat) (payload : List Byte)
    (id : String) (file : List Byte) :
    overlay (c :: rest) pos payload id file
      = overlay rest (pos + c.size) payload id (overlay [c] pos payload id file) := by
  apply List.ext_getElem?
  intro q
  rw [overlay_getElem?, overlay_getElem?, overlay_getElem?]
  simp only [writerOf]
  cases writerOf rest (pos + c.size) id q with
  | some i => cases hc : c.covers id q <;> cases file[q]? <;> simp
  | none => cases hc : c.covers id q <;> simp

theorem writerOf_other (chunks : List Chunk) (id : String)
    (h : ∀ c ∈ chunks, c.instanceId ≠ id) :
    ∀ pos q, writerOf chunks pos id q = none := by
  induction chunks with
  | nil => intro pos q; rfl
  | cons c rest ih =>
    intro pos q
    have hc : c.covers id q = false := by
      have := h c (List.mem_cons_self _ _)
      simp [Chunk.covers, this]
    simp [writerOf, ih (fun d hd => h d (List.mem_cons_of_mem _ hd)), hc]

theorem overlay_other (chunks : List Chunk) (pos : Nat) (payload : List Byte) (id : String)
    (file : List Byte) (h : ∀ c ∈ chunks, c.instanceId ≠ id) :
    overlay chunks pos payload id file = file := by
  apply List.ext_getElem?
  intro q
  rw [overlay_getElem?, writerOf_other chunks id h]

theorem overlay_empty_chunk (c : Chunk) (pos : Nat) (payload : List Byte) (id : String)
    (file : List Byte) (h : c.size = 0) : overlay [c] pos payload id file = file := by
  apply List.ext_getElem?
  intro q
  have hc : c.covers id q = false := by
    by_cases h1 : c.offset ≤ q <;> simp [Chunk.covers, h, h1]
  rw [overlay_getElem?]
  simp [writerOf, hc]

theorem fileWrite_eq_overlay (c : Chunk) (pos : Nat) (payload file : List Byte)
    (hin : c.offset + c.size ≤ file.length) (hpay : pos + c.size ≤ payload.length) :
    fileWrite file c.offset ((payload.drop pos).take c.size)
      = overlay [c] pos payload c.instanceId file := by
  have hlen : ((payload.drop pos).take c.size).length = c.size := by
    simp; omega
  apply List.ext_getElem?
  intro q
  rw [fileWrite_getElem? _ _ _ (by rw [hlen]; exact hin), overlay_getElem?, hlen]
  by_cases hq : c.offset ≤ q ∧ q < c.offset + c.size
  · have hc : c.covers c.instanceId q = true := by simp [Chunk.covers, hq.1, hq.2]
    have hqf : q < file.length := by omega
    have hidx : pos + (q - c.offset) < payload.length := by omega
    simp only [writerOf, hc, if_true, hq, and_self]
    rw [List.getElem?_take, List.getElem?_drop, List.getElem?_eq_getElem hqf,
      List.getElem?_eq_getElem hidx]
    have : q - c.offset < c.size := by omega
    simp [this, List.getD_eq_getElem?_getD, List.getElem?_eq_getElem hidx]
  · have hc : c.covers c.instanceId q = false := by
      simp only [Chunk.covers, beq_self_eq_true, Bool.true_and, Bool.and_eq_false_imp,
        decide_eq_true_eq, decide_eq_false_iff_not]
      intro h1 h2
      exact hq ⟨h1, h2⟩
    simp [writerOf, hc, hq]

/-! ## Map lemmas for the download area -/

theorem mapFind_map {α β : Type} (f : String → α → β) (k : String) :
    ∀ (l : List (String × α)),
      mapFind k (l.map (fun e => (e.1, f e.1 e.2))) = (mapFind k l).map (f k) := by
  intro l
  induction l with
  | nil => rfl
  | cons e rest ih =>
    obtain ⟨k0, v0⟩ := e
    by_cases h : k0 = k
    · subst h; simp [mapFind]
    · simp [mapFind, h, ih]

theorem mapSet_eq_map {α : Type} (f : String → α → α) (k : String) (v : α) :
    ∀ (l : List (String × α)),
      (l.map Prod.fst).Pairwise (fun a b => a.data < b.data) →
      mapFind k l = some v →
      (∀ e ∈ l, e.1 ≠ k → f e.1 e.2 = e.2) →
      mapSet k (f k v) l = l.map (fun e => (e.1, f e.1 e.2)) := by
  intro l
  induction l with
  | nil => intro _ h; cases h
  | cons e rest ih =>
    intro hp hfind hother
    obtain ⟨k0, v0⟩ := e
    simp only [List.map_cons, List.pairwise_cons] at hp
    by_cases h : k0 = k
    · subst h
      have hv : v0 = v := by simpa [mapFind] using hfind
      subst hv
      have hrest : rest.map (fun e => (e.1, f e.1 e.2)) = rest := by
        conv_rhs => rw [← List.map_id rest]
        apply List.map_congr_left
        intro e he
        have hne : e.1 ≠ k0 := by
          have hlt := hp.1 e.1 (List.mem_map.mpr ⟨e, he, rfl⟩)
          rintro heq
          rw [heq] at hlt
          exact lt_irrefl _ hlt
        rw [hother e (List.mem_cons_of_mem _ he) hne]
        rfl
      simp [mapSet, hrest]
    · have hfind' : mapFind k rest = some v := by simpa [mapFind, h] using hfind
      have h0 : f k0 v0 = v0 := hother (k0, v0) (List.mem_cons_self _ _) h
      simp [mapSet, h, h0, ih hp.2 hfind' (fun e he => hother e (List.mem_cons_of_mem _ he))]

/-! ## The chunk loop of `WriteUncompressedBucket` -/

theorem slotOf_eq_some (area : DownloadArea) (id : String) (slot : DownloadArea.Instance) :
    area.slotOf id = some slot ↔ mapFind id area.instances = some (some slot) := by
  unfold DownloadArea.slotOf
  cases h : mapFind id area.instances with
  | none => simp
  | some v => cases v <;> simp

theorem applyWrites_nil (pos : Nat) (payload : List Byte) (area : DownloadArea) :
    applyWrites [] pos payload area = area := by
  unfold applyWrites
  have : area.instances.map (fun e =>
      (e.1, e.2.map (fun slot => ({ slot with file := overlay [] pos payload e.1 slot.file } :
        DownloadArea.Instance)))) = area.instances := by
    conv_rhs => rw [← List.map_id area.instances]
    apply List.map_congr_left
    intro e _
    obtain ⟨k, v⟩ := e
    cases v <;> simp [overlay_nil]
  rw [this]

theorem applyWrites_cons (c : Chunk) (rest : List Chunk) (pos : Nat) (payload : List Byte)
    (area : DownloadArea) :
    applyWrites rest (pos + c.size) payload (applyWrites [c] pos payload area)
      = applyWrites (c :: rest) pos payload area := by
  unfold applyWrites
  simp only [List.map_map]
  congr 1
  apply List.map_congr_left
  intro e _
  obtain ⟨k, v⟩ := e
  cases v <;> simp [overlay_cons c rest]

theorem applyWrites_mapFind (chunks : List Chunk) (pos : Nat) (payload : List Byte)
    (area : DownloadArea) (id : String) :
    mapFind id (applyWrites chunks pos payload area).instances
      = (mapFind id area.instances).map (fun v => v.map (fun slot =>
          ({ slot with file := overlay chunks pos payload id slot.file } :
            DownloadArea.Instance))) := by
  unfold applyWrites
  exact mapFind_map (fun k v => v.map (fun slot =>
    ({ slot with file := overlay chunks pos payload k slot.file } : DownloadArea.Instance))) id
    area.instances

theorem applyWrites_slotOf (chunks : List Chunk) (pos : Nat) (payload : List Byte)
    (area : DownloadArea) (id : String) :
    (applyWrites chunks pos payload area).slotOf id
      = (area.slotOf id).map (fun slot =>
          ({ slot with file := overlay chunks pos payload id slot.file } :
            DownloadArea.Instance)) := by
  unfold DownloadArea.slotOf
  rw [applyWrites_mapFind]
  cases mapFind id area.instances with
  | none => rfl
  | some v => cases v <;> rfl

theorem applyWrites_wellFormed (chunks : List Chunk) (pos : Nat) (payload : List Byte)
    (area : DownloadArea) (hwf : area.WellFormed) :
    (applyWrites chunks pos payload area).WellFormed := by
  constructor
  · have : (applyWrites chunks pos payload area).instances.map Prod.fst
        = area.instances.map Prod.fst := by
      simp [applyWrites, List.map_map, Function.comp_def]
    rw [this]; exact hwf.1
  · intro e he slot hslot
    simp only [applyWrites, List.mem_map] at he
    obtain ⟨e0, he0, rfl⟩ := he
    obtain ⟨k, v⟩ := e0
    cases v with
    | none => simp at hslot
    | some s0 =>
      simp only [Option.map_some', Option.some.injEq] at hslot
      subst hslot
      have h := hwf.2 (k, some s0) he0 s0 rfl
      exact ⟨h.1, by rw [overlay_length]; exact h.2.1, h.2.2⟩

theorem chunksValid_applyWrites (chunks : List Chunk) (pos : Nat) (payload : List Byte)
    (area : DownloadArea) (cs : List Chunk) (h : chunksValid area cs) :
    chunksValid (applyWrites chunks pos payload area) cs := by
  intro c hc
  obtain ⟨slot, h1, h2⟩ := h c hc
  refine ⟨{ slot with file := overlay chunks pos payload c.instanceId slot.file }, ?_, h2⟩
  rw [applyWrites_slotOf, h1]
  rfl

/-- One iteration of the chunk loop on a valid chunk. -/
theorem writeChunk_step (area : DownloadArea) (hwf : area.WellFormed) (c : Chunk) (pos : Nat)
    (payload : List Byte) (slot : DownloadArea.Instance)
    (hslot : area.slotOf c.instanceId = some slot)
    (hin : c.offset + c.size ≤ slot.info.size) (hpay : pos + c.size ≤ payload.length) :
    area.LookupInstance c.instanceId = .ok slot ∧
    slot.WriteChunk c.offset (payload.drop pos) c.size
      = .ok { slot with file := overlay [c] pos payload c.instanceId slot.file } ∧
    (⟨mapSet c.instanceId
        (some { slot with file := overlay [c] pos payload c.instanceId slot.file })
        area.instances, area.totalSize⟩ : DownloadArea) = applyWrites [c] pos payload area := by
  have hfind := (slotOf_eq_some area c.instanceId slot).mp hslot
  have hmem := mapFind_mem _ _ _ hfind
  obtain ⟨_, hlen, hsz⟩ := hwf.2 _ hmem slot rfl
  refine ⟨?_, ?_, ?_⟩
  · simp [DownloadArea.LookupInstance, hfind]
  · have hadd : addSz c.offset c.size = c.offset + c.size := addSz_of_lt (by omega)
    have hng : ¬ (c.offset + c.size > slot.info.size) := by omega
    unfold DownloadArea.Instance.WriteChunk
    rw [hadd, if_neg hng]
    by_cases h0 : c.size > 0
    · rw [if_pos h0, fileWrite_eq_overlay c pos payload slot.file (by omega) hpay]
    · rw [if_neg h0, overlay_empty_chunk c pos payload _ _ (by omega)]
  · unfold applyWrites
    congr 1
    exact mapSet_eq_map (fun k v => v.map (fun s =>
        ({ s with file := overlay [c] pos payload k s.file } : DownloadArea.Instance)))
      c.instanceId (some slot) area.instances hwf.1 hfind (by
        intro e _ hne
        obtain ⟨k, v⟩ := e
        cases v with
        | none => rfl
        | some s =>
          simp only [Option.map_some', Option.some.injEq]
          rw [overlay_other [c] pos payload k s.file (by
            intro d hd
            simp only [List.mem_singleton] at hd
            subst hd
            exact fun h => hne h.symm)])

/-- On valid chunks the loop raises nothing and leaves the area described by
`applyWrites`. -/
theorem writeChunksLoop_eq (payload : List Byte) (hsize : payload.length < SIZE_MOD) :
    ∀ (chunks : List Chunk) (pos : Nat) (area : DownloadArea), area.WellFormed →
      chunksValid area chunks → pos + sumSizes chunks ≤ payload.length →
      DownloadArea.writeChunksLoop payload payload.length chunks pos area
        = (applyWrites chunks pos payload area, .ok (pos + sumSizes chunks)) := by
  intro chunks
  induction chunks with
  | nil =>
    intro pos area _ _ _
    simp [DownloadArea.writeChunksLoop, applyWrites_nil, sumSizes]
  | cons c rest ih =>
    intro pos area hwf hvalid hpos
    have hsum : sumSizes (c :: rest) = c.size + sumSizes rest := by simp [sumSizes]
    rw [hsum] at hpos
    obtain ⟨slot, hslot, hin⟩ := hvalid c (List.mem_cons_self _ _)
    obtain ⟨h1, h2, h3⟩ := writeChunk_step area hwf c pos payload slot hslot hin (by omega)
    have hadd : addSz pos c.size = pos + c.size := addSz_of_lt (by omega)
    have hng : ¬ (pos + c.size > payload.length) := by omega
    rw [DownloadArea.writeChunksLoop, hadd, if_neg hng, h1]
    simp only [h2, h3]
    rw [ih (pos + c.size) _ (applyWrites_wellFormed [c] pos payload area hwf)
      (chunksValid_applyWrites [c] pos payload area rest
        (fun d hd => hvalid d (List.mem_cons_of_mem _ hd))) (by omega),
      applyWrites_cons, hsum]
    congr 2
    omega

/-! ## `WriteUncompressedBucket` and `WriteBucket` on a valid bucket -/

theorem writerOf_none (id : String) (q : Nat) :
    ∀ (chunks : List Chunk) (pos : Nat), (∀ c ∈ chunks, c.covers id q = false) →
      writerOf chunks pos id q = none := by
  intro chunks
  induction chunks with
  | nil => intro pos _; rfl
  | cons c rest ih =>
    intro pos h
    simp [writerOf, ih (pos + c.size) (fun d hd => h d (List.mem_cons_of_mem _ hd)),
      h c (List.mem_cons_self _ _)]

theorem covers_false_of_empty (c : Chunk) (id : String) (q : Nat) (h : c.size = 0) :
    c.covers id q = false := by
  by_cases h1 : c.offset ≤ q <;> simp [Chunk.covers, h, h1]

theorem applyWrites_of_empty (chunks : List Chunk) (pos : Nat) (payload : List Byte)
    (area : DownloadArea) (h : sumSizes chunks = 0) :
    applyWrites chunks pos payload area = area := by
  have hsizes : ∀ c ∈ chunks, c.size = 0 := by
    intro c hc
    have := List.sum_eq_zero_iff.mp h c.size (List.mem_map.mpr ⟨c, hc, rfl⟩)
    exact this
  have hov : ∀ id file, overlay chunks pos payload id file = file := by
    intro id file
    apply List.ext_getElem?
    intro q
    rw [overlay_getElem?, writerOf_none id q chunks pos
      (fun c hc => covers_false_of_empty c id q (hsizes c hc))]
  unfold applyWrites
  have : area.instances.map (fun e =>
      (e.1, e.2.map (fun slot => ({ slot with file := overlay chunks pos payload e.1 slot.file } :
        DownloadArea.Instance)))) = area.instances := by
    conv_rhs => rw [← List.map_id area.instances]
    apply List.map_congr_left
    intro e _
    obtain ⟨k, v⟩ := e
    cases v <;> simp [hov]
  rw [this]

theorem WriteUncompressedBucket_eq (area : DownloadArea) (hwf : area.WellFormed)
    (bucket : TransferBucket) (payload : List Byte)
    (htotal : bucket.GetTotalSize = sumSizes bucket.chunks)
    (hlen : payload.length = bucket.GetTotalSize) (hsize : payload.length < SIZE_MOD)
    (hvalid : chunksValid area bucket.chunks) :
    area.WriteUncompressedBucket bucket payload
      = (applyWrites bucket.chunks 0 payload area, none) := by
  unfold DownloadArea.WriteUncompressedBucket
  simp only [hlen, bne_self_eq_false, Bool.false_eq_true, if_false]
  by_cases h0 : bucket.GetTotalSize = 0
  · rw [applyWrites_of_empty bucket.chunks 0 payload area (by rw [← htotal]; exact h0)]
    simp [h0]
  · have hloop := writeChunksLoop_eq payload hsize bucket.chunks 0 area hwf hvalid
      (by rw [← htotal, hlen]; omega)
    rw [hlen] at hloop
    simp [h0, hloop, ← htotal]

theorem WriteBucket_eq (uncompress : List Byte → Except ErrorCode (List Byte))
    (area : DownloadArea) (hwf : area.WellFormed)
    (bucket : TransferBucket) (data payload : List Byte) (compression : BucketCompression)
    (hinfl : inflate uncompress compression data = .ok payload)
    (htotal : bucket.GetTotalSize = sumSizes bucket.chunks)
    (hlen : payload.length = bucket.GetTotalSize) (hsize : payload.length < SIZE_MOD)
    (hvalid : chunksValid area bucket.chunks) :
    area.WriteBucket uncompress bucket data compression
      = (applyWrites bucket.chunks 0 payload area, none) := by
  cases compression with
  | None =>
    simp only [inflate, Except.ok.injEq] at hinfl
    subst hinfl
    exact WriteUncompressedBucket_eq area hwf bucket data htotal hlen hsize hvalid
  | Gzip =>
    simp only [inflate] at hinfl
    simp only [DownloadArea.WriteBucket, hinfl]
    exact WriteUncompressedBucket_eq area hwf bucket payload htotal hlen hsize hvalid

theorem covers_false_of_overlaps (c d : Chunk) (id : String) (q : Nat)
    (h : c.overlaps d = false) (hc : c.covers id q = true) : d.covers id q = false := by
  simp only [Chunk.covers, Bool.and_eq_true, beq_iff_eq, decide_eq_true_eq] at hc
  obtain ⟨hid, h1, h2⟩ := hc
  by_cases hd : d.instanceId = id
  · have hcd : c.instanceId = d.instanceId := by rw [hid, hd]
    simp only [Chunk.overlaps, hcd, beq_self_eq_true, Bool.true_and, decide_eq_false_iff_not,
      not_lt] at h
    simp only [Chunk.covers, hd, beq_self_eq_true, Bool.true_and, Bool.and_eq_false_imp,
      decide_eq_true_eq, decide_eq_false_iff_not]
    intro h3 h4
    have : max c.offset d.offset < min (c.offset + c.size) (d.offset + d.size) := by
      rw [max_lt_iff, lt_min_iff, lt_min_iff]
      omega
    omega
  · simp [Chunk.covers, hd]

theorem overlaps_comm (c d : Chunk) : c.overlaps d = d.overlaps c := by
  simp only [Chunk.overlaps, max_comm c.offset d.offset,
    min_comm (c.offset + c.size) (d.offset + d.size)]
  by_cases h : c.instanceId = d.instanceId
  · simp [h]
  · have h1 : (c.instanceId == d.instanceId) = false := by simpa using h
    have h2 : (d.instanceId == c.instanceId) = false := by
      simpa using fun e : d.instanceId = c.instanceId => h e.symm
    rw [h1, h2]

/-- In a list of chunks that do not overlap, a byte held by chunk number `i`
is written from the part of the payload that belongs to that chunk. -/
theorem writerOf_of_disjoint (id : String) (q : Nat) :
    ∀ (chunks : List Chunk) (pos i : Nat) (hi : i < chunks.length),
      chunks.Pairwise (fun c d => c.overlaps d = false) →
      chunks[i].covers id q = true →
      writerOf chunks pos id q
        = some (pos + sumSizes (chunks.take i) + (q - chunks[i].offset)) := by
  intro chunks
  induction chunks with
  | nil => intro pos i hi; simp at hi
  | cons c rest ih =>
    intro pos i hi hp hc
    rw [List.pairwise_cons] at hp
    cases i with
    | zero =>
      simp only [List.getElem_cons_zero] at hc
      have hnone := writerOf_none id q rest (pos + c.size)
        (fun d hd => covers_false_of_overlaps c d id q (hp.1 d hd) hc)
      simp [writerOf, hnone, hc, sumSizes]
    | succ j =>
      simp only [List.getElem_cons_succ] at hc ⊢
      have hj : j < rest.length := by simpa using hi
      rw [writerOf, ih (pos + c.size) j hj hp.2 hc]
      simp [sumSizes]
      omega

theorem sumSizes_take_le :
    ∀ (chunks : List Chunk) (i : Nat) (hi : i < chunks.length),
      sumSizes (chunks.take i) + chunks[i].size ≤ sumSizes chunks := by
  intro chunks
  induction chunks with
  | nil => intro i hi; simp at hi
  | cons c rest ih =>
    intro i hi
    cases i with
    | zero => simp [sumSizes]
    | succ j =>
      have hj : j < rest.length := by simpa using hi
      have := ih j hj
      simp only [sumSizes, List.take_succ_cons, List.map_cons, List.sum_cons,
        List.getElem_cons_succ] at this ⊢
      omega

/-! ## Claims on `WriteBucket` -/

/-- C4. On a well-formed area, for a bucket whose `totalSize` is the sum of
its chunk sizes, whose chunks name live slots, lie inside them and do not
overlap, and for a payload (after inflation) whose length is
`bucket.totalSize`, `WriteBucket` raises nothing; afterwards, for each chunk
`i`, byte `offset_i + j` of the slot of `chunkInstanceId_i` is byte `p_i + j`
of the payload for every `j < size_i`, where `p_i` is the sum of the sizes of
the chunks before `i`; every slot keeps its descriptor and its length, every
byte that no chunk holds is unchanged, and the map keeps its keys and its
released slots. -/
theorem writeBucket_scatters_payload (uncompress : List Byte → Except ErrorCode (List Byte))
    (area : DownloadArea) (hwf : area.WellFormed)
    (bucket : TransferBucket) (data payload : List Byte) (compression : BucketCompression)
    (hinfl : inflate uncompress compression data = .ok payload)
    (htotal : bucket.GetTotalSize = sumSizes bucket.chunks)
    (hlen : payload.length = bucket.GetTotalSize) (hsize : payload.length < SIZE_MOD)
    (hvalid : chunksValid area bucket.chunks)
    (hdisj : bucket.chunks.Pairwise (fun c d => c.overlaps d = false)) :
    (area.WriteBucket uncompress bucket data compression).2 = none ∧
    (∀ i, (hi : i < bucket.chunks.length) →
      ∃ slot, (area.WriteBucket uncompress bucket data compression).1.slotOf
          bucket.chunks[i].instanceId = some slot ∧
        ∀ j, j < bucket.chunks[i].size →
          slot.file[bucket.chunks[i].offset + j]?
            = payload[sumSizes (bucket.chunks.take i) + j]?) ∧
    (∀ id slot, area.slotOf id = some slot →
      ∃ slot', (area.WriteBucket uncompress bucket data compression).1.slotOf id = some slot' ∧
        slot'.info = slot.info ∧ slot'.file.length = slot.file.length ∧
        ∀ q, (∀ c ∈ bucket.chunks, c.covers id q = false) → slot'.file[q]? = slot.file[q]?) ∧
    (area.WriteBucket uncompress bucket data compression).1.instances.map
        (fun e => (e.1, e.2.isSome)) = area.instances.map (fun e => (e.1, e.2.isSome)) ∧
    (area.WriteBucket uncompress bucket data compression).1.totalSize = area.totalSize := by
  rw [WriteBucket_eq uncompress area hwf bucket data payload compression hinfl htotal hlen hsize
    hvalid]
  refine ⟨rfl, ?_, ?_, ?_, rfl⟩
  · intro i hi
    obtain ⟨slot, hslot, hin⟩ := hvalid bucket.chunks[i] (List.getElem_mem hi)
    refine ⟨⟨slot.info, overlay bucket.chunks 0 payload bucket.chunks[i].instanceId slot.file⟩,
      ?_, ?_⟩
    · simp only [applyWrites_slotOf, hslot, Option.map_some']
    · intro j hj
      have hfind := (slotOf_eq_some area _ slot).mp hslot
      obtain ⟨_, hflen, _⟩ := hwf.2 _ (mapFind_mem _ _ _ hfind) slot rfl
      have hc : bucket.chunks[i].covers bucket.chunks[i].instanceId (bucket.chunks[i].offset + j)
          = true := by
        simp [Chunk.covers, hj]
      have hsum := sumSizes_take_le bucket.chunks i hi
      have hq : bucket.chunks[i].offset + j < slot.file.length := by omega
      have hidx : sumSizes (bucket.chunks.take i) + j < payload.length := by
        rw [hlen, htotal]; omega
      simp only [overlay_getElem?, writerOf_of_disjoint _ _ bucket.chunks 0 i hi hdisj hc,
        List.getElem?_eq_getElem hq, Option.map_some', Nat.add_sub_cancel_left, Nat.zero_add,
        List.getElem?_eq_getElem hidx, List.getD_eq_getElem?_getD, Option.getD_some]
  · intro id slot hslot
    refine ⟨⟨slot.info, overlay bucket.chunks 0 payload id slot.file⟩, ?_, rfl, ?_, ?_⟩
    · simp only [applyWrites_slotOf, hslot, Option.map_some']
    · exact overlay_length _ _ _ _ _
    · intro q hq
      simp only [overlay_getElem?, writerOf_none id q bucket.chunks 0 hq]
  · simp only [applyWrites, List.map_map]
    apply List.map_congr_left
    intro e _
    obtain ⟨k, v⟩ := e
    cases v <;> rfl

theorem WriteChunk_error (slot : DownloadArea.Instance) (offset : Nat) (data : List Byte)
    (size : Nat) (e : ErrorCode) (h : slot.WriteChunk offset data size = .error e) :
    e = .ParameterOutOfRange := by
  unfold DownloadArea.Instance.WriteChunk at h
  split at h
  · cases h; rfl
  · split at h <;> cases h

theorem writeChunksLoop_not_protocol (data : List Byte) (size : Nat) :
    ∀ (chunks : List Chunk) (pos : Nat) (area : DownloadArea),
      (DownloadArea.writeChunksLoop data size chunks pos area).2 ≠ .error .NetworkProtocol := by
  intro chunks
  induction chunks with
  | nil => intro pos area; simp [DownloadArea.writeChunksLoop]
  | cons c rest ih =>
    intro pos area
    rw [DownloadArea.writeChunksLoop]
    split
    · simp
    · unfold DownloadArea.LookupInstance
      cases mapFind c.instanceId area.instances with
      | none => simp
      | some v =>
        cases v with
        | none => simp
        | some slot =>
          simp only []
          cases hw : slot.WriteChunk c.offset (List.drop pos data) c.size with
          | error e =>
            have := WriteChunk_error _ _ _ _ _ hw
            subst this
            simp
          | ok slot' => exact ih _ _

theorem WriteUncompressedBucket_protocol (area : DownloadArea) (bucket : TransferBucket)
    (payload : List Byte) :
    ((area.WriteUncompressedBucket bucket payload).2 = some .NetworkProtocol ↔
      payload.length ≠ bucket.GetTotalSize) ∧
    ((area.WriteUncompressedBucket bucket payload).2 = some .NetworkProtocol →
      (area.WriteUncompressedBucket bucket payload).1 = area) := by
  unfold DownloadArea.WriteUncompressedBucket
  by_cases hlen : payload.length = bucket.GetTotalSize
  · have hb : (payload.length != bucket.GetTotalSize) = false := by simp [hlen]
    simp only [hb, Bool.false_eq_true, if_false]
    have key : (if (payload.length == 0) = true then (area, none)
        else match DownloadArea.writeChunksLoop payload payload.length bucket.chunks 0 area with
          | (area, Except.error e) => (area, some e)
          | (area, Except.ok pos) =>
            if (pos != payload.length) = true then (area, some ErrorCode.InternalError)
            else (area, none)).2 ≠ some ErrorCode.NetworkProtocol := by
      split
      · simp
      · have hnp := writeChunksLoop_not_protocol payload payload.length bucket.chunks 0 area
        generalize DownloadArea.writeChunksLoop payload payload.length bucket.chunks 0 area = r
          at hnp
        obtain ⟨a, res⟩ := r
        cases res with
        | error e =>
          simp only [ne_eq, Option.some.injEq]
          intro he
          exact hnp (by rw [he])
        | ok pos =>
          simp only []
          split <;> simp
    exact ⟨⟨fun h => absurd h key, fun h => absurd hlen h⟩, fun h => absurd h key⟩
  · have hb : (payload.length != bucket.GetTotalSize) = true := by simp [hlen]
    simp [hb, hlen]

/-- C5. `WriteBucket` raises the network-protocol error if and only if the
length of the payload, after inflation when the compression is gzip, differs
from `bucket.totalSize`; and when it raises this error the area is left as it
was.  (The statement needs no assumption on the chunks.) -/
theorem writeBucket_protocol_error_iff (uncompress : List Byte → Except ErrorCode (List Byte))
    (area : DownloadArea) (bucket : TransferBucket) (data payload : List Byte)
    (compression : BucketCompression)
    (hinfl : inflate uncompress compression data = .ok payload) :
    ((area.WriteBucket uncompress bucket data compression).2 = some .NetworkProtocol ↔
      payload.length ≠ bucket.GetTotalSize) ∧
    ((area.WriteBucket uncompress bucket data compression).2 = some .NetworkProtocol →
      (area.WriteBucket uncompress bucket data compression).1 = area) := by
  cases compression with
  | None =>
    simp only [inflate, Except.ok.injEq] at hinfl
    subst hinfl
    exact WriteUncompressedBucket_protocol area bucket data
  | Gzip =>
    simp only [inflate] at hinfl
    simp only [DownloadArea.WriteBucket, hinfl]
    exact WriteUncompressedBucket_protocol area bucket payload

/-! ## The loop of `CommitInternal` -/

/-- The loop of `CommitInternal` stops at the first entry that fails: the
entries before it are live slots whose digest matches, they are released, and
their bodies are the ones handed to the archive, followed by the body of the
failing slot when the archive was the one to refuse it. -/
theorem commitLoop_raise (md5 : List Byte → String)
    (accepts : List (List Byte) → List Byte → Bool) (simulate : Bool) :
    ∀ (todo done : List (String × Option DownloadArea.Instance)) (posted : List (List Byte))
      (e : ErrorCode),
      (DownloadArea.commitLoop md5 accepts simulate todo done posted).2.2 = some e →
      ∃ pre key v post, todo = pre ++ (key, v) :: post ∧
        (∀ x ∈ pre, ∃ slot, x.2 = some slot ∧ md5 slot.file = slot.info.md5) ∧
        (DownloadArea.commitLoop md5 accepts simulate todo done posted).1
          = done ++ pre.map (fun x => (x.1, none)) ++ (key, v) :: post ∧
        ((v = none ∧ e = .InternalError ∧
            (DownloadArea.commitLoop md5 accepts simulate todo done posted).2.1
              = posted ++ (if simulate then [] else filesOf pre)) ∨
          (∃ slot, v = some slot ∧ e = .CorruptedFile ∧
            ((md5 slot.file ≠ slot.info.md5 ∧
                (DownloadArea.commitLoop md5 accepts simulate todo done posted).2.1
                  = posted ++ (if simulate then [] else filesOf pre)) ∨
              (md5 slot.file = slot.info.md5 ∧ simulate = false ∧
                (DownloadArea.commitLoop md5 accepts simulate todo done posted).2.1
                  = posted ++ filesOf pre ++ [slot.file])))) := by
  intro todo
  induction todo with
  | nil => intro done posted e h; simp [DownloadArea.commitLoop] at h
  | cons x rest ih =>
    intro done posted e h
    obtain ⟨key, v⟩ := x
    cases v with
    | none =>
      simp only [DownloadArea.commitLoop, Option.some.injEq] at h
      refine ⟨[], key, none, rest, rfl, by simp, by simp [DownloadArea.commitLoop], ?_⟩
      left
      refine ⟨rfl, h.symm, ?_⟩
      cases simulate <;> simp [DownloadArea.commitLoop, filesOf]
    | some slot =>
      by_cases hd : md5 slot.file = slot.info.md5
      · by_cases hs : simulate = true
        · subst hs
          have hc : slot.Commit md5 accepts true posted = (posted, none) := by
            simp [DownloadArea.Instance.Commit, hd]
          rw [DownloadArea.commitLoop] at h ⊢
          simp only [hc] at h ⊢
          obtain ⟨pre, k, v, post, h1, h2, h3, h4⟩ := ih (done ++ [(key, none)]) posted e h
          refine ⟨(key, some slot) :: pre, k, v, post, by simp [h1], ?_, by simp [h3], ?_⟩
          · intro y hy
            rcases List.mem_cons.mp hy with hy | hy
            · subst hy; exact ⟨slot, rfl, hd⟩
            · exact h2 y hy
          · simpa using h4
        · have hs' : simulate = false := by simpa using hs
          subst hs'
          by_cases ha : accepts posted slot.file = true
          · have hc : slot.Commit md5 accepts false posted = (posted ++ [slot.file], none) := by
              simp [DownloadArea.Instance.Commit, hd, ha]
            rw [DownloadArea.commitLoop] at h ⊢
            simp only [hc] at h ⊢
            obtain ⟨pre, k, v, post, h1, h2, h3, h4⟩ :=
              ih (done ++ [(key, none)]) (posted ++ [slot.file]) e h
            refine ⟨(key, some slot) :: pre, k, v, post, by simp [h1], ?_, by simp [h3], ?_⟩
            · intro y hy
              rcases List.mem_cons.mp hy with hy | hy
              · subst hy; exact ⟨slot, rfl, hd⟩
              · exact h2 y hy
            · simpa [filesOf, List.filterMap_cons] using h4
          · have hc : slot.Commit md5 accepts false posted
                = (posted ++ [slot.file], some .CorruptedFile) := by
              simp [DownloadArea.Instance.Commit, hd, ha]
            rw [DownloadArea.commitLoop] at h ⊢
            simp only [hc, Option.some.injEq] at h ⊢
            refine ⟨[], key, some slot, rest, rfl, by simp, by simp, ?_⟩
            right
            exact ⟨slot, rfl, h.symm, Or.inr ⟨hd, trivial, by simp [filesOf]⟩⟩
      · have hc : slot.Commit md5 accepts simulate posted = (posted, some .CorruptedFile) := by
          simp [DownloadArea.Instance.Commit, hd]
        rw [DownloadArea.commitLoop] at h ⊢
        simp only [hc, Option.some.injEq] at h ⊢
        refine ⟨[], key, some slot, rest, rfl, by simp, by simp, ?_⟩
        right
        refine ⟨slot, rfl, h.symm, Or.inl ⟨hd, ?_⟩⟩
        cases simulate <;> simp [filesOf]

/-- Every body handed to the archive by the loop of `CommitInternal` is the
file of a live slot whose digest matches its descriptor. -/
theorem commitLoop_handed (md5 : List Byte → String)
    (accepts : List (List Byte) → List Byte → Bool) (simulate : Bool) :
    ∀ (todo done : List (String × Option DownloadArea.Instance)) (posted : List (List Byte)),
      ∃ extra, (DownloadArea.commitLoop md5 accepts simulate todo done posted).2.1
          = posted ++ extra ∧
        ∀ body ∈ extra, ∃ x ∈ todo, ∃ slot, x.2 = some slot ∧ body = slot.file ∧
          md5 slot.file = slot.info.md5 := by
  intro todo
  induction todo with
  | nil => intro done posted; exact ⟨[], by simp [DownloadArea.commitLoop], by simp⟩
  | cons x rest ih =>
    intro done posted
    obtain ⟨key, v⟩ := x
    cases v with
    | none => exact ⟨[], by simp [DownloadArea.commitLoop], by simp⟩
    | some slot =>
      rw [DownloadArea.commitLoop]
      by_cases hd : md5 slot.file = slot.info.md5
      · by_cases hs : simulate = true
        · have hc : slot.Commit md5 accepts simulate posted = (posted, none) := by
            simp [DownloadArea.Instance.Commit, hd, hs]
          simp only [hc]
          obtain ⟨extra, h1, h2⟩ := ih (done ++ [(key, none)]) posted
          exact ⟨extra, h1, fun body hb => by
            obtain ⟨y, hy, rest'⟩ := h2 body hb
            exact ⟨y, List.mem_cons_of_mem _ hy, rest'⟩⟩
        · have hs' : simulate = false := by simpa using hs
          by_cases ha : accepts posted slot.file = true
          · have hc : slot.Commit md5 accepts simulate posted = (posted ++ [slot.file], none) := by
              simp [DownloadArea.Instance.Commit, hd, hs', ha]
            simp only [hc]
            obtain ⟨extra, h1, h2⟩ := ih (done ++ [(key, none)]) (posted ++ [slot.file])
            refine ⟨slot.file :: extra, by simp [h1], ?_⟩
            intro body hb
            rcases List.mem_cons.mp hb with hb | hb
            · exact ⟨(key, some slot), List.mem_cons_self _ _, slot, rfl, hb, hd⟩
            · obtain ⟨y, hy, rest'⟩ := h2 body hb
              exact ⟨y, List.mem_cons_of_mem _ hy, rest'⟩
          · have hc : slot.Commit md5 accepts simulate posted
                = (posted ++ [slot.file], some .CorruptedFile) := by
              simp [DownloadArea.Instance.Commit, hd, hs', ha]
            simp only [hc]
            refine ⟨[slot.file], rfl, ?_⟩
            intro body hb
            simp only [List.mem_singleton] at hb
            exact ⟨(key, some slot), List.mem_cons_self _ _, slot, rfl, hb, hd⟩
      · have hc : slot.Commit md5 accepts simulate posted = (posted, some .CorruptedFile) := by
          simp [DownloadArea.Instance.Commit, hd]
        simp only [hc]
        exact ⟨[], by simp, by simp⟩

/-- When the entries before a slot whose digest does not match are all live,
the loop of `CommitInternal` raises the corrupted-file error. -/
theorem commitLoop_mismatch (md5 : List Byte → String)
    (accepts : List (List Byte) → List Byte → Bool) (simulate : Bool)
    (key : String) (slot : DownloadArea.Instance)
    (post : List (String × Option DownloadArea.Instance))
    (hbad : md5 slot.file ≠ slot.info.md5) :
    ∀ (pre done : List (String × Option DownloadArea.Instance)) (posted : List (List Byte)),
      (∀ x ∈ pre, x.2 ≠ none) →
      (DownloadArea.commitLoop md5 accepts simulate (pre ++ (key, some slot) :: post) done
        posted).2.2 = some .CorruptedFile := by
  intro pre
  induction pre with
  | nil =>
    intro done posted _
    simp [DownloadArea.commitLoop, DownloadArea.Instance.Commit, hbad]
  | cons x rest ih =>
    intro done posted hlive
    obtain ⟨k, v⟩ := x
    cases v with
    | none => exact absurd rfl (hlive (k, none) (List.mem_cons_self _ _))
    | some s =>
      have hrest : ∀ x ∈ rest, x.2 ≠ none := fun y hy => hlive y (List.mem_cons_of_mem _ hy)
      rw [List.cons_append, DownloadArea.commitLoop]
      unfold DownloadArea.Instance.Commit
      by_cases hd : md5 s.file = s.info.md5
      · cases simulate with
        | true =>
          simp only [hd, if_true, Bool.not_true, Bool.false_eq_true, if_false]
          exact ih _ _ hrest
        | false =>
          by_cases ha : accepts posted s.file = true
          · simp only [hd, ha, if_true, Bool.not_false, Bool.not_true, Bool.false_eq_true,
              if_false]
            exact ih _ _ hrest
          · have ha' : accepts posted s.file = false := by simpa using ha
            simp [hd, ha']
      · simp [hd]

/-- In simulation mode, on entries that are all live, the loop of
`CommitInternal` raises nothing exactly when every digest matches. -/
theorem commitLoop_simulate_ok (md5 : List Byte → String)
    (accepts : List (List Byte) → List Byte → Bool) :
    ∀ (todo done : List (String × Option DownloadArea.Instance)) (posted : List (List Byte)),
      (∀ x ∈ todo, x.2 ≠ none) →
      ((DownloadArea.commitLoop md5 accepts true todo done posted).2.2 = none ↔
        ∀ x ∈ todo, ∀ slot, x.2 = some slot → md5 slot.file = slot.info.md5) := by
  intro todo
  induction todo with
  | nil => intro done posted _; simp [DownloadArea.commitLoop]
  | cons x rest ih =>
    intro done posted hlive
    obtain ⟨k, v⟩ := x
    cases v with
    | none => exact absurd rfl (hlive (k, none) (List.mem_cons_self _ _))
    | some s =>
      have hrest : ∀ x ∈ rest, x.2 ≠ none := fun y hy => hlive y (List.mem_cons_of_mem _ hy)
      rw [DownloadArea.commitLoop]
      unfold DownloadArea.Instance.Commit
      by_cases hd : md5 s.file = s.info.md5
      · simp only [hd, if_true, Bool.not_true, Bool.false_eq_true, if_false]
        rw [ih _ _ hrest]
        constructor
        · intro h y hy slot hslot
          rcases List.mem_cons.mp hy with hy | hy
          · subst hy
            cases hslot
            exact hd
          · exact h y hy slot hslot
        · intro h y hy slot hslot
          exact h y (List.mem_cons_of_mem _ hy) slot hslot
      · simp only [hd, if_false]
        constructor
        · intro h; cases h
        · intro h
          exact absurd (h (k, some s) (List.mem_cons_self _ _) s rfl) hd

/-! ## Claims on `Commit` -/

/-- The area of the example is the one that `Setup` builds from its two
descriptors. -/
theorem areaWithCorruptedSlot_eq_Setup (md5 : List Byte → String) :
    areaWithCorruptedSlot md5
      = DownloadArea.Setup [⟨"d1", 0, md5 []⟩, ⟨"d2", 1, md5 [0] ++ "x"⟩] := by
  have h1 : ¬ ("d2" : String).data < ("d1" : String).data := by decide
  have h2 : ¬ ("d2" : String) = "d1" := by decide
  have h4 : addSz 0 0 = 0 := by decide
  have h5 : addSz 0 1 = 1 := by decide
  have c1 := create_eq ⟨"d1", 0, md5 []⟩ (by unfold SIZE_MOD; norm_num)
  have c2 := create_eq ⟨"d2", 1, md5 [0] ++ "x"⟩ (by unfold SIZE_MOD; norm_num)
  simp only [List.replicate] at c1 c2
  simp only [areaWithCorruptedSlot, DownloadArea.Setup, List.foldl, mapInsert, c1, c2, h1, h2,
    h4, h5, if_false]

/-- For every digest function, `Commit` on the area of the example hands the
empty instance `d1` to an archive that accepts it and then raises the
corrupted-file error on `d2`. -/
theorem commit_example (md5 : List Byte → String)
    (accepts : List (List Byte) → List Byte → Bool) (hacc : accepts [] [] = true) :
    ((areaWithCorruptedSlot md5).Commit md5 accepts []).2 = ([[]], some .CorruptedFile) := by
  have hne : ¬ md5 [0] = md5 [0] ++ "x" := by
    intro h
    have := congrArg String.length h
    simp at this
    exact absurd this (by decide)
  simp [areaWithCorruptedSlot, DownloadArea.Commit, DownloadArea.CommitInternal, DownloadArea.commitLoop,
    DownloadArea.Instance.Commit, hacc, hne]

/-- Counterexample to C2: with the digest of the examples and an archive that
accepts everything, `Commit` raises the corrupted-file error on the second
slot after the first instance has been handed to the archive. -/
theorem commit_hands_first_instance_then_raises :
    ((areaWithCorruptedSlot exampleDigest).Commit exampleDigest acceptAll []).2
      = ([[]], some .CorruptedFile) :=
  commit_example exampleDigest acceptAll rfl

/-- C2, amended. `Commit` visits the slots in the order of the identifiers and
stops at the first one that fails.  When `Commit` raises, the map is
`pre ++ (key, v) :: post` where the entries of `pre` are live slots whose
digest matches; the bodies handed to the archive are exactly those of `pre`,
in order, followed by the body of the failing slot when its digest matches
(the archive refused it).  Nothing of `post` is handed. -/
theorem commit_hands_slots_before_failure (md5 : List Byte → String)
    (accepts : List (List Byte) → List Byte → Bool) (area : DownloadArea)
    (posted : List (List Byte))
    (hraise : (area.Commit md5 accepts posted).2.2 ≠ none) :
    ∃ pre key v post, area.instances = pre ++ (key, v) :: post ∧
      (∀ x ∈ pre, ∃ slot, x.2 = some slot ∧ md5 slot.file = slot.info.md5) ∧
      (area.Commit md5 accepts posted).2.1
        = posted ++ filesOf pre ++
            (match v with
              | some slot => if md5 slot.file = slot.info.md5 then [slot.file] else []
              | none => []) := by
  cases he : (area.Commit md5 accepts posted).2.2 with
  | none => exact absurd he hraise
  | some e =>
    have he' : (DownloadArea.commitLoop md5 accepts false area.instances [] posted).2.2 = some e := he
    obtain ⟨pre, key, v, post, h1, h2, _, h4⟩ :=
      commitLoop_raise md5 accepts false area.instances [] posted e he'
    refine ⟨pre, key, v, post, h1, h2, ?_⟩
    have hposted : (area.Commit md5 accepts posted).2.1
        = (DownloadArea.commitLoop md5 accepts false area.instances [] posted).2.1 := rfl
    rw [hposted]
    rcases h4 with ⟨hv, _, hp⟩ | ⟨slot, hv, _, ⟨hd, hp⟩ | ⟨hd, _, hp⟩⟩
    · subst hv; simpa using hp
    · subst hv; simpa [hd] using hp
    · subst hv; simpa [hd] using hp

/-- Witness of the amended C2: the area of the example. -/
theorem commit_hands_slots_before_failure_witness :
    ∃ pre key v post, (areaWithCorruptedSlot exampleDigest).instances = pre ++ (key, v) :: post ∧
      (∀ x ∈ pre, ∃ slot, x.2 = some slot ∧ exampleDigest slot.file = slot.info.md5) ∧
      ((areaWithCorruptedSlot exampleDigest).Commit exampleDigest acceptAll []).2.1
        = [] ++ filesOf pre ++
            (match v with
              | some slot => if exampleDigest slot.file = slot.info.md5 then [slot.file] else []
              | none => []) :=
  commit_hands_slots_before_failure exampleDigest acceptAll (areaWithCorruptedSlot exampleDigest) []
    (by rw [commit_example exampleDigest acceptAll rfl]; simp)

/-! ## The area built by `Setup` -/

theorem mapFind_mapInsert {α : Type} (k : String) (v : α) (k' : String) :
    ∀ (l : List (String × α)),
      mapFind k' (mapInsert k v l) = if k = k' then some v else mapFind k' l := by
  intro l
  induction l with
  | nil => simp [mapInsert, mapFind]
  | cons e rest ih =>
    obtain ⟨k0, v0⟩ := e
    unfold mapInsert
    by_cases h1 : k.data < k0.data
    · simp only [h1, if_true]
      by_cases hk : k = k'
      · simp [mapFind, hk]
      · simp [mapFind, hk]
    · simp only [h1, if_false]
      by_cases h2 : k = k0
      · subst h2
        by_cases hk : k = k'
        · simp [mapFind, hk]
        · simp [mapFind, hk]
      · simp only [h2, if_false]
        by_cases hk : k = k'
        · subst hk
          have h0 : ¬ k0 = k := fun e => h2 e.symm
          simp [mapFind, h0, ih]
        · by_cases h0 : k0 = k'
          · simp [mapFind, h0, hk]
          · simp [mapFind, h0, hk, ih]

theorem mem_mapInsert {α : Type} (k : String) (v : α) (e : String × α) :
    ∀ (l : List (String × α)), e ∈ mapInsert k v l → e = (k, v) ∨ e ∈ l := by
  intro l
  induction l with
  | nil => intro h; simp [mapInsert] at h; exact Or.inl h
  | cons e0 rest ih =>
    obtain ⟨k0, v0⟩ := e0
    intro h
    unfold mapInsert at h
    split at h
    · rcases List.mem_cons.mp h with h | h
      · exact Or.inl h
      · exact Or.inr h
    · split at h
      · rcases List.mem_cons.mp h with h | h
        · exact Or.inl h
        · exact Or.inr (List.mem_cons_of_mem _ h)
      · rcases List.mem_cons.mp h with h | h
        · exact Or.inr (h ▸ List.mem_cons_self _ _)
        · rcases ih h with h | h
          · exact Or.inl h
          · exact Or.inr (List.mem_cons_of_mem _ h)

theorem mapInsert_sorted {α : Type} (k : String) (v : α) :
    ∀ (l : List (String × α)),
      (l.map Prod.fst).Pairwise (fun a b => a.data < b.data) →
      ((mapInsert k v l).map Prod.fst).Pairwise (fun a b => a.data < b.data) := by
  intro l
  induction l with
  | nil => intro _; simp [mapInsert]
  | cons e0 rest ih =>
    obtain ⟨k0, v0⟩ := e0
    intro hp
    have hp' := hp
    simp only [List.map_cons, List.pairwise_cons] at hp'
    unfold mapInsert
    by_cases h1 : k.data < k0.data
    · simp only [h1, if_true, List.map_cons, List.pairwise_cons]
      refine ⟨?_, hp'⟩
      intro b hb
      rcases List.mem_cons.mp hb with hb | hb
      · rw [hb]; exact h1
      · exact lt_trans h1 (hp'.1 b hb)
    · simp only [h1, if_false]
      by_cases h2 : k = k0
      · subst h2
        simpa using hp
      · simp only [h2, if_false, List.map_cons, List.pairwise_cons]
        refine ⟨?_, ih hp'.2⟩
        intro b hb
        obtain ⟨e, he, rfl⟩ := List.mem_map.mp hb
        rcases mem_mapInsert k v e rest he with h | h
        · rw [h]
          have hne : k.data ≠ k0.data := fun heq => h2 (String.ext heq)
          rcases lt_trichotomy k.data k0.data with h3 | h3 | h3
          · exact absurd h3 h1
          · exact absurd h3 hne
          · exact h3
        · exact hp'.1 e.1 (List.mem_map.mpr ⟨e, h, rfl⟩)

theorem setupFrom_facts :
    ∀ (infos : List DicomInstanceInfo) (area : DownloadArea),
      (infos.map (fun i => i.id)).Nodup →
      ((area.instances.map Prod.fst).Pairwise (fun a b => a.data < b.data) →
        ((setupFrom area infos).instances.map Prod.fst).Pairwise (fun a b => a.data < b.data)) ∧
      (∀ e ∈ (setupFrom area infos).instances,
        e ∈ area.instances ∨ ∃ info ∈ infos, e = (info.id, some (DownloadArea.Instance.create info))) ∧
      (∀ info ∈ infos, mapFind info.id (setupFrom area infos).instances
        = some (some (DownloadArea.Instance.create info))) ∧
      (∀ k, k ∉ infos.map (fun i => i.id) →
        mapFind k (setupFrom area infos).instances = mapFind k area.instances) := by
  intro infos
  induction infos with
  | nil =>
    intro area _
    exact ⟨fun h => h, fun e he => Or.inl he, fun info hi => absurd hi (List.not_mem_nil _),
      fun k _ => rfl⟩
  | cons i rest ih =>
    intro area hnd
    simp only [List.map_cons, List.nodup_cons] at hnd
    obtain ⟨h1, h2, h3, h4⟩ := ih
      { instances := mapInsert i.id (some (DownloadArea.Instance.create i)) area.instances
        totalSize := addSz area.totalSize i.size } hnd.2
    have hstep : setupFrom area (i :: rest) = setupFrom
        { instances := mapInsert i.id (some (DownloadArea.Instance.create i)) area.instances
          totalSize := addSz area.totalSize i.size } rest := rfl
    rw [hstep]
    refine ⟨fun hp => h1 (mapInsert_sorted _ _ _ hp), ?_, ?_, ?_⟩
    · intro e he
      rcases h2 e he with h | ⟨info, hi, h⟩
      · rcases mem_mapInsert _ _ _ _ h with h | h
        · exact Or.inr ⟨i, List.mem_cons_self _ _, h⟩
        · exact Or.inl h
      · exact Or.inr ⟨info, List.mem_cons_of_mem _ hi, h⟩
    · intro info hi
      rcases List.mem_cons.mp hi with hi | hi
      · subst hi
        rw [h4 info.id hnd.1, mapFind_mapInsert]
        simp
      · exact h3 info hi
    · intro k hk
      simp only [List.map_cons, List.mem_cons, not_or] at hk
      rw [h4 k hk.2, mapFind_mapInsert]
      have hne : ¬ i.id = k := fun e => hk.1 e.symm
      simp [hne]

theorem Setup_facts (infos : List DicomInstanceInfo)
    (hnd : (infos.map (fun i => i.id)).Nodup) (hsz : ∀ info ∈ infos, info.size < SIZE_MOD) :
    (DownloadArea.Setup infos).WellFormed ∧
    (∀ e ∈ (DownloadArea.Setup infos).instances,
      ∃ info ∈ infos, e = (info.id, some ⟨info, List.replicate info.size 0⟩)) ∧
    (∀ info ∈ infos, (DownloadArea.Setup infos).slotOf info.id
      = some ⟨info, List.replicate info.size 0⟩) := by
  obtain ⟨h1, h2, h3, _⟩ := setupFrom_facts infos { instances := [], totalSize := 0 } hnd
  have hentries : ∀ e ∈ (DownloadArea.Setup infos).instances,
      ∃ info ∈ infos, e = (info.id, some ⟨info, List.replicate info.size 0⟩) := by
    intro e he
    rcases h2 e he with h | ⟨info, hi, h⟩
    · cases h
    · exact ⟨info, hi, by rw [h, create_eq info (hsz info hi)]⟩
  refine ⟨⟨h1 (by simp), ?_⟩, hentries, ?_⟩
  · intro e he slot hslot
    obtain ⟨info, hi, rfl⟩ := hentries e he
    simp only [Option.some.injEq] at hslot
    subst hslot
    exact ⟨rfl, by simp, hsz info hi⟩
  · intro info hi
    rw [slotOf_eq_some]
    have := h3 info hi
    rw [create_eq info (hsz info hi)] at this
    exact this

/-! ## Claims on the digest check -/

/-- For every digest function, the `Commit` of the example leaves the area
`areaAfterFailedCommit`, on which `Commit` and `CheckMD5` raise the
internal error although the digest of the slot `d2` does not match. -/
theorem retried_commit_example (md5 : List Byte → String)
    (accepts : List (List Byte) → List Byte → Bool) (hacc : accepts [] [] = true)
    (posted : List (List Byte)) :
    ((areaWithCorruptedSlot md5).Commit md5 accepts []).1 = areaAfterFailedCommit md5 ∧
    md5 [0] ≠ md5 [0] ++ "x" ∧
    ((areaAfterFailedCommit md5).Commit md5 accepts posted).2 = (posted, some .InternalError) ∧
    ((areaAfterFailedCommit md5).CheckMD5 md5 accepts posted).2 = (posted, some .InternalError) := by
  have hne : ¬ md5 [0] = md5 [0] ++ "x" := by
    intro h
    have := congrArg String.length h
    simp at this
    exact absurd this (by decide)
  refine ⟨?_, hne, ?_, ?_⟩
  · simp [areaWithCorruptedSlot, areaAfterFailedCommit, DownloadArea.Commit,
      DownloadArea.CommitInternal, DownloadArea.commitLoop, DownloadArea.Instance.Commit, hacc, hne]
  · simp [areaAfterFailedCommit, DownloadArea.Commit, DownloadArea.CommitInternal,
      DownloadArea.commitLoop]
  · simp [areaAfterFailedCommit, DownloadArea.CheckMD5, DownloadArea.CommitInternal,
      DownloadArea.commitLoop]

/-- Counterexample to C3: on the area left by a `Commit` that raised on its
second slot, the digest of the slot `d2` still differs from its descriptor's,
yet `Commit` and `CheckMD5` raise the internal error, not the corrupted-file
error, because the slot of `d1` has been released. -/
theorem commit_raises_internal_error_after_release :
    ((areaWithCorruptedSlot exampleDigest).Commit exampleDigest acceptAll []).1
      = areaAfterFailedCommit exampleDigest ∧
    exampleDigest [0] ≠ exampleDigest [0] ++ "x" ∧
    ((areaAfterFailedCommit exampleDigest).Commit exampleDigest acceptAll []).2
      = ([], some .InternalError) ∧
    ((areaAfterFailedCommit exampleDigest).CheckMD5 exampleDigest acceptAll []).2
      = ([], some .InternalError) :=
  retried_commit_example exampleDigest acceptAll rfl []

/-- C3, amended. For every download area, `Commit` hands a body to the host
archive only if it is the file of a live slot whose MD5 equals the MD5 of its
descriptor.  If the digest of some slot differs from its descriptor's and no
slot before it, in the order of the identifiers, has been released, `Commit`
and `CheckMD5` raise the corrupted-file error.  In particular `CheckMD5`
raises it on an area freshly built from descriptors one of which does not
carry the digest of the all-zero buffer of its size. -/
theorem commit_checks_digests (md5 : List Byte → String)
    (accepts : List (List Byte) → List Byte → Bool) (area : DownloadArea)
    (posted : List (List Byte)) :
    (∃ extra, (area.Commit md5 accepts posted).2.1 = posted ++ extra ∧
      ∀ body ∈ extra, ∃ x ∈ area.instances, ∃ slot, x.2 = some slot ∧ body = slot.file ∧
        md5 slot.file = slot.info.md5) ∧
    (∀ pre key slot post, area.instances = pre ++ (key, some slot) :: post →
      (∀ x ∈ pre, x.2 ≠ none) → md5 slot.file ≠ slot.info.md5 →
      (area.Commit md5 accepts posted).2.2 = some .CorruptedFile ∧
      (area.CheckMD5 md5 accepts posted).2.2 = some .CorruptedFile) ∧
    (∀ infos : List DicomInstanceInfo, (infos.map (fun i => i.id)).Nodup →
      (∀ info ∈ infos, info.size < SIZE_MOD) →
      (∃ info ∈ infos, md5 (List.replicate info.size 0) ≠ info.md5) →
      ((DownloadArea.Setup infos).CheckMD5 md5 accepts posted).2.2 = some .CorruptedFile) := by
  refine ⟨commitLoop_handed md5 accepts false area.instances [] posted, ?_, ?_⟩
  · intro pre key slot post hsplit hlive hbad
    constructor
    · show (DownloadArea.commitLoop md5 accepts false area.instances [] posted).2.2 = _
      rw [hsplit]
      exact commitLoop_mismatch md5 accepts false key slot post hbad pre [] posted hlive
    · show (DownloadArea.commitLoop md5 accepts true area.instances [] posted).2.2 = _
      rw [hsplit]
      exact commitLoop_mismatch md5 accepts true key slot post hbad pre [] posted hlive
  · intro infos hnd hsz ⟨info, hi, hbad⟩
    obtain ⟨_, hentries, hslot⟩ := Setup_facts infos hnd hsz
    have hmem := mapFind_mem _ _ _ ((slotOf_eq_some _ _ _).mp (hslot info hi))
    obtain ⟨pre, post, hsplit⟩ := List.append_of_mem hmem
    show (DownloadArea.commitLoop md5 accepts true (DownloadArea.Setup infos).instances []
      posted).2.2 = _
    rw [hsplit]
    apply commitLoop_mismatch md5 accepts true info.id ⟨info, List.replicate info.size 0⟩ post
      hbad pre [] posted
    intro x hx
    obtain ⟨i, _, rfl⟩ := hentries x (by rw [hsplit]; exact List.mem_append_left _ hx)
    simp

/-- Witness of the amended C3: on the area of the example, whose slots are
live, `Commit` and `CheckMD5` raise the corrupted-file error. -/
theorem commit_checks_digests_witness :
    ((areaWithCorruptedSlot exampleDigest).Commit exampleDigest acceptAll []).2.2
      = some .CorruptedFile ∧
    ((areaWithCorruptedSlot exampleDigest).CheckMD5 exampleDigest acceptAll []).2.2
      = some .CorruptedFile :=
  (commit_checks_digests exampleDigest acceptAll (areaWithCorruptedSlot exampleDigest) []).2.1
    [("d1", some ⟨⟨"d1", 0, exampleDigest []⟩, []⟩)] "d2"
    ⟨⟨"d2", 1, exampleDigest [0] ++ "x"⟩, [0]⟩ [] rfl (by simp) (by decide)

/-! ## Writing the bytes of the source instances -/

theorem payloadOf_length (src : String → List Byte) :
    ∀ (chunks : List Chunk), (∀ c ∈ chunks, c.offset + c.size ≤ (src c.instanceId).length) →
      (payloadOf src chunks).length = sumSizes chunks := by
  intro chunks
  induction chunks with
  | nil => intro _; rfl
  | cons c rest ih =>
    intro h
    have hc := h c (List.mem_cons_self _ _)
    have hrest := ih (fun d hd => h d (List.mem_cons_of_mem _ hd))
    simp only [payloadOf, List.flatMap_cons, List.length_append, List.length_take,
      List.length_drop, sumSizes, List.map_cons, List.sum_cons] at hrest ⊢
    rw [hrest]
    omega

theorem writerOf_isSome (id : String) (q : Nat) :
    ∀ (chunks : List Chunk) (pos : Nat), (∃ c ∈ chunks, c.covers id q = true) →
      ∃ i, writerOf chunks pos id q = some i := by
  intro chunks
  induction chunks with
  | nil => intro pos ⟨c, hc, _⟩; cases hc
  | cons c rest ih =>
    intro pos ⟨d, hd, hcov⟩
    rw [writerOf]
    cases hw : writerOf rest (pos + c.size) id q with
    | some i => exact ⟨i, rfl⟩
    | none =>
      rcases List.mem_cons.mp hd with h | h
      · subst h
        simp [hcov]
      · obtain ⟨i, hi⟩ := ih (pos + c.size) ⟨d, h, hcov⟩
        rw [hi] at hw
        cases hw

theorem writerOf_covered (id : String) (q : Nat) :
    ∀ (chunks : List Chunk) (pos i : Nat), writerOf chunks pos id q = some i →
      ∃ c ∈ chunks, c.covers id q = true := by
  intro chunks
  induction chunks with
  | nil => intro pos i h; cases h
  | cons c rest ih =>
    intro pos i h
    rw [writerOf] at h
    cases hw : writerOf rest (pos + c.size) id q with
    | some j =>
      obtain ⟨d, hd, hcov⟩ := ih (pos + c.size) j hw
      exact ⟨d, List.mem_cons_of_mem _ hd, hcov⟩
    | none =>
      rw [hw] at h
      by_cases hc : c.covers id q = true
      · exact ⟨c, List.mem_cons_self _ _, hc⟩
      · simp [hc] at h

/-- The byte that the chunk loop writes at byte `q` of slot `id` from the
payload of the source instances is byte `q` of the source of `id`. -/
theorem writerOf_payloadOf (src : String → List Byte) (id : String) (q : Nat) :
    ∀ (chunks : List Chunk) (pos i : Nat),
      (∀ c ∈ chunks, c.offset + c.size ≤ (src c.instanceId).length) →
      writerOf chunks pos id q = some i →
      pos ≤ i ∧ (payloadOf src chunks)[i - pos]? = (src id)[q]? ∧ q < (src id).length := by
  intro chunks
  induction chunks with
  | nil => intro pos i _ h; cases h
  | cons c rest ih =>
    intro pos i hin h
    have hc := hin c (List.mem_cons_self _ _)
    have hlen : (((src c.instanceId).drop c.offset).take c.size).length = c.size := by
      simp; omega
    rw [writerOf] at h
    cases hw : writerOf rest (pos + c.size) id q with
    | some j =>
      rw [hw] at h
      simp only [Option.some.injEq] at h
      subst h
      obtain ⟨h1, h2, h3⟩ := ih (pos + c.size) j
        (fun d hd => hin d (List.mem_cons_of_mem _ hd)) hw
      refine ⟨by omega, ?_, h3⟩
      simp only [payloadOf, List.flatMap_cons] at h2 ⊢
      rw [List.getElem?_append_right (by rw [hlen]; omega), hlen, ← h2]
      congr 1
      omega
    | none =>
      rw [hw] at h
      by_cases hcov : c.covers id q = true
      · simp only [hcov, if_true, Option.some.injEq] at h
        subst h
        simp only [Chunk.covers, Bool.and_eq_true, beq_iff_eq, decide_eq_true_eq] at hcov
        obtain ⟨hid, h1, h2⟩ := hcov
        subst hid
        refine ⟨by omega, ?_, by omega⟩
        simp only [payloadOf, List.flatMap_cons]
        rw [List.getElem?_append_left (by rw [hlen]; omega), List.getElem?_take,
          List.getElem?_drop]
        have h3 : pos + (q - c.offset) - pos < c.size := by omega
        simp only [h3, if_true]
        congr 1
        omega
      · simp [hcov] at h

/-- Writing the payload of the source instances over a file of the size of
its source keeps the bytes that already agree with the source and makes the
bytes held by the chunks agree with it. -/
theorem overlay_payloadOf (src : String → List Byte) (chunks : List Chunk) (id : String)
    (file : List Byte) (hin : ∀ c ∈ chunks, c.offset + c.size ≤ (src c.instanceId).length)
    (hlen : file.length = (src id).length) (q : Nat)
    (h : file[q]? = (src id)[q]? ∨ ∃ c ∈ chunks, c.covers id q = true) :
    (overlay chunks 0 (payloadOf src chunks) id file)[q]? = (src id)[q]? := by
  rw [overlay_getElem?]
  cases hw : writerOf chunks 0 id q with
  | some i =>
    obtain ⟨_, h2, h3⟩ := writerOf_payloadOf src id q chunks 0 i hin hw
    simp only [Nat.sub_zero] at h2
    have hq : q < file.length := by omega
    simp only [List.getElem?_eq_getElem hq, Option.map_some', List.getD_eq_getElem?_getD, h2,
      List.getElem?_eq_getElem h3, Option.getD_some]
  | none =>
    rcases h with h | h
    · exact h
    · obtain ⟨i, hi⟩ := writerOf_isSome id q chunks 0 h
      rw [hi] at hw
      cases hw

/-! ## Areas that differ from a built area by their files -/

theorem applyWrites_mapFiles (chunks : List Chunk) (pos : Nat) (payload : List Byte)
    (files : String → List Byte) (area : DownloadArea) :
    applyWrites chunks pos payload (mapFiles files area)
      = mapFiles (fun id => overlay chunks pos payload id (files id)) area := by
  simp only [applyWrites, mapFiles, List.map_map]
  congr 1
  apply List.map_congr_left
  intro e _
  obtain ⟨k, v⟩ := e
  cases v <;> rfl

theorem mapFiles_slotOf (files : String → List Byte) (area : DownloadArea) (id : String) :
    (mapFiles files area).slotOf id = (area.slotOf id).map (fun s => ⟨s.info, files id⟩) := by
  unfold DownloadArea.slotOf mapFiles
  rw [mapFind_map (fun k v => v.map (fun slot =>
    ({ slot with file := files k } : DownloadArea.Instance))) id area.instances]
  cases mapFind id area.instances with
  | none => rfl
  | some v => cases v <;> rfl

theorem mapFiles_wellFormed (files : String → List Byte) (area : DownloadArea)
    (hwf : area.WellFormed)
    (hlen : ∀ e ∈ area.instances, ∀ slot, e.2 = some slot → (files e.1).length = slot.info.size) :
    (mapFiles files area).WellFormed := by
  constructor
  · have : (mapFiles files area).instances.map Prod.fst = area.instances.map Prod.fst := by
      simp [mapFiles, List.map_map, Function.comp_def]
    rw [this]; exact hwf.1
  · intro e he slot hslot
    simp only [mapFiles, List.mem_map] at he
    obtain ⟨e0, he0, rfl⟩ := he
    obtain ⟨k, v⟩ := e0
    cases v with
    | none => simp at hslot
    | some s0 =>
      simp only [Option.map_some', Option.some.injEq] at hslot
      subst hslot
      have h := hwf.2 (k, some s0) he0 s0 rfl
      exact ⟨h.1, hlen (k, some s0) he0 s0 rfl, h.2.2⟩

theorem mapFiles_congr (f g : String → List Byte) (area : DownloadArea)
    (h : ∀ e ∈ area.instances, e.2 ≠ none → f e.1 = g e.1) :
    mapFiles f area = mapFiles g area := by
  unfold mapFiles
  congr 1
  apply List.map_congr_left
  intro e he
  obtain ⟨k, v⟩ := e
  cases v with
  | none => rfl
  | some s => simp [h (k, some s) he (by simp)]

theorem mapFiles_self (f : String → List Byte) (area : DownloadArea)
    (h : ∀ e ∈ area.instances, ∀ slot, e.2 = some slot → f e.1 = slot.file) :
    mapFiles f area = area := by
  unfold mapFiles
  have : area.instances.map (fun e =>
      (e.1, e.2.map (fun slot => ({ slot with file := f e.1 } : DownloadArea.Instance))))
      = area.instances := by
    conv_rhs => rw [← List.map_id area.instances]
    apply List.map_congr_left
    intro e he
    obtain ⟨k, v⟩ := e
    cases v with
    | none => rfl
    | some s => simp [h (k, some s) he s rfl]
  rw [this]

/-! ## Sequences of writes of the source bytes -/

/-- A sequence of calls, each of which writes the source bytes of its chunks,
keeps the area in the shape of the built area, keeps the bytes that agree with
the sources and makes the bytes of its chunks agree with them. -/
theorem runCalls_sources (src : String → List Byte) (infos : List DicomInstanceInfo)
    (hsrc : ∀ info ∈ infos, (src info.id).length = info.size) (A0 : DownloadArea) :
    ∀ (calls : List ((DownloadArea → DownloadArea × Option ErrorCode) × List Chunk))
      (F : String → List Byte),
      (∀ info ∈ infos, (F info.id).length = info.size) →
      (∀ call ∈ calls,
        (∀ c ∈ call.2, ∃ info ∈ infos, c.instanceId = info.id ∧ c.offset + c.size ≤ info.size) ∧
        ∀ G : String → List Byte, (∀ info ∈ infos, (G info.id).length = info.size) →
          call.1 (mapFiles G A0)
            = (applyWrites call.2 0 (payloadOf src call.2) (mapFiles G A0), none)) →
      ∃ F' : String → List Byte,
        runCalls (mapFiles F A0) (calls.map Prod.fst) = (mapFiles F' A0, none) ∧
        (∀ info ∈ infos, (F' info.id).length = info.size) ∧
        (∀ info ∈ infos, ∀ q,
          ((F info.id)[q]? = (src info.id)[q]? ∨
            ∃ call ∈ calls, ∃ c ∈ call.2, c.covers info.id q = true) →
          (F' info.id)[q]? = (src info.id)[q]?) := by
  intro calls
  induction calls with
  | nil =>
    intro F hF _
    refine ⟨F, rfl, hF, ?_⟩
    intro info _ q h
    rcases h with h | ⟨call, hc, _⟩
    · exact h
    · cases hc
  | cons call rest ih =>
    intro F hF hcalls
    obtain ⟨hinside, hcall⟩ := hcalls call (List.mem_cons_self _ _)
    have hvalid : ∀ c ∈ call.2, c.offset + c.size ≤ (src c.instanceId).length := by
      intro c hc
      obtain ⟨info, hi, hid, hle⟩ := hinside c hc
      rw [hid, hsrc info hi]
      exact hle
    have hF1 : ∀ info ∈ infos,
        (overlay call.2 0 (payloadOf src call.2) info.id (F info.id)).length = info.size := by
      intro info hi
      rw [overlay_length]
      exact hF info hi
    obtain ⟨F', h1, h2, h3⟩ := ih
      (fun id => overlay call.2 0 (payloadOf src call.2) id (F id)) hF1
      (fun c hc => hcalls c (List.mem_cons_of_mem _ hc))
    refine ⟨F', ?_, h2, ?_⟩
    · rw [List.map_cons, runCalls, hcall F hF, applyWrites_mapFiles]
      exact h1
    · intro info hi q h
      apply h3 info hi q
      rcases h with h | ⟨c0, hc0, c, hc, hcov⟩
      · left
        exact overlay_payloadOf src call.2 info.id (F info.id) hvalid
          (by rw [hF info hi, hsrc info hi]) q (Or.inl h)
      · rcases List.mem_cons.mp hc0 with h0 | h0
        · subst h0
          left
          exact overlay_payloadOf src c0.2 info.id (F info.id) hvalid
            (by rw [hF info hi, hsrc info hi]) q (Or.inr ⟨c, hc, hcov⟩)
        · right
          exact ⟨c0, h0, c, hc, hcov⟩

/-- A sequence of calls that write the source bytes of chunks holding every
byte of every instance turns the built area into the area of the sources. -/
theorem runCalls_rebuilds (src : String → List Byte) (infos : List DicomInstanceInfo)
    (hnd : (infos.map (fun i => i.id)).Nodup) (hsz : ∀ info ∈ infos, info.size < SIZE_MOD)
    (hsrc : ∀ info ∈ infos, (src info.id).length = info.size)
    (calls : List ((DownloadArea → DownloadArea × Option ErrorCode) × List Chunk))
    (hcalls : ∀ call ∈ calls,
      (∀ c ∈ call.2, ∃ info ∈ infos, c.instanceId = info.id ∧ c.offset + c.size ≤ info.size) ∧
      ∀ G : String → List Byte, (∀ info ∈ infos, (G info.id).length = info.size) →
        call.1 (mapFiles G (DownloadArea.Setup infos))
          = (applyWrites call.2 0 (payloadOf src call.2) (mapFiles G (DownloadArea.Setup infos)),
              none))
    (hcover : ∀ info ∈ infos, ∀ q, q < info.size →
      ∃ call ∈ calls, ∃ c ∈ call.2, c.covers info.id q = true) :
    runCalls (DownloadArea.Setup infos) (calls.map Prod.fst) = (sourceArea src infos, none) := by
  obtain ⟨_, hentries, _⟩ := Setup_facts infos hnd hsz
  have hF0 : ∀ info ∈ infos, (List.replicate (src info.id).length (0 : Byte)).length = info.size :=
    fun info hi => by rw [List.length_replicate, hsrc info hi]
  have hself : mapFiles (fun id => List.replicate (src id).length (0 : Byte))
      (DownloadArea.Setup infos) = DownloadArea.Setup infos := by
    apply mapFiles_self
    intro e he slot hslot
    obtain ⟨info, hi, rfl⟩ := hentries e he
    simp only [Option.some.injEq] at hslot
    subst hslot
    simp [hsrc info hi]
  obtain ⟨F', h1, h2, h3⟩ := runCalls_sources src infos hsrc (DownloadArea.Setup infos) calls
    (fun id => List.replicate (src id).length (0 : Byte)) hF0 hcalls
  rw [hself] at h1
  rw [h1]
  congr 1
  unfold sourceArea
  apply mapFiles_congr
  intro e he _
  obtain ⟨info, hi, rfl⟩ := hentries e he
  apply List.ext_getElem?
  intro q
  by_cases hq : q < info.size
  · exact h3 info hi q (Or.inr (hcover info hi q hq))
  · rw [List.getElem?_eq_none (by rw [h2 info hi]; omega),
      List.getElem?_eq_none (by rw [hsrc info hi]; omega)]

/-- `WriteBucket` with the bytes of the sources is a call of the kind that
`runCalls_sources` takes. -/
theorem WriteBucket_call (uncompress : List Byte → Except ErrorCode (List Byte))
    (compress : List Byte → List Byte) (hgzip : ∀ x, uncompress (compress x) = .ok x)
    (src : String → List Byte) (infos : List DicomInstanceInfo)
    (hnd : (infos.map (fun i => i.id)).Nodup) (hsz : ∀ info ∈ infos, info.size < SIZE_MOD)
    (hsrc : ∀ info ∈ infos, (src info.id).length = info.size)
    (bucket : TransferBucket) (compression : BucketCompression)
    (htotal : bucket.GetTotalSize = sumSizes bucket.chunks)
    (hsize : bucket.GetTotalSize < SIZE_MOD)
    (hinside : ∀ c ∈ bucket.chunks, ∃ info ∈ infos, c.instanceId = info.id ∧
      c.offset + c.size ≤ info.size)
    (G : String → List Byte) (hG : ∀ info ∈ infos, (G info.id).length = info.size) :
    (mapFiles G (DownloadArea.Setup infos)).WriteBucket uncompress bucket
        (encodePayload compress compression (payloadOf src bucket.chunks)) compression
      = (applyWrites bucket.chunks 0 (payloadOf src bucket.chunks)
          (mapFiles G (DownloadArea.Setup infos)), none) := by
  obtain ⟨hwf, hentries, hslot⟩ := Setup_facts infos hnd hsz
  have hlen : (payloadOf src bucket.chunks).length = bucket.GetTotalSize := by
    rw [htotal]
    apply payloadOf_length
    intro c hc
    obtain ⟨info, hi, hid, hle⟩ := hinside c hc
    rw [hid, hsrc info hi]
    exact hle
  apply WriteBucket_eq uncompress _ _ bucket _ (payloadOf src bucket.chunks) compression
  · cases compression with
    | None => rfl
    | Gzip => exact hgzip _
  · exact htotal
  · exact hlen
  · rw [hlen]; exact hsize
  · intro c hc
    obtain ⟨info, hi, hid, hle⟩ := hinside c hc
    refine ⟨⟨info, G c.instanceId⟩, ?_, hle⟩
    rw [mapFiles_slotOf, hid, hslot info hi]
    rfl
  · apply mapFiles_wellFormed G _ hwf
    intro e he slot hs
    obtain ⟨info, hi, rfl⟩ := hentries e he
    simp only [Option.some.injEq] at hs
    subst hs
    exact hG info hi

/-- `WriteInstance` with the bytes of a source whose digest is the one of the
descriptor is a call of the kind that `runCalls_sources` takes, for the chunk
that holds the whole instance. -/
theorem WriteInstance_call (md5 : List Byte → String)
    (src : String → List Byte) (infos : List DicomInstanceInfo)
    (hnd : (infos.map (fun i => i.id)).Nodup) (hsz : ∀ info ∈ infos, info.size < SIZE_MOD)
    (hsrc : ∀ info ∈ infos, (src info.id).length = info.size)
    (info : DicomInstanceInfo) (hi : info ∈ infos) (hmd5 : md5 (src info.id) = info.md5)
    (G : String → List Byte) (hG : ∀ info ∈ infos, (G info.id).length = info.size) :
    (mapFiles G (DownloadArea.Setup infos)).WriteInstance md5 info.id (src info.id)
      = (applyWrites [⟨info.id, 0, info.size⟩] 0 (payloadOf src [⟨info.id, 0, info.size⟩])
          (mapFiles G (DownloadArea.Setup infos)), none) := by
  obtain ⟨hwf, hentries, hslot⟩ := Setup_facts infos hnd hsz
  have hwfG : (mapFiles G (DownloadArea.Setup infos)).WellFormed := by
    apply mapFiles_wellFormed G _ hwf
    intro e he slot hs
    obtain ⟨i, hi', rfl⟩ := hentries e he
    simp only [Option.some.injEq] at hs
    subst hs
    exact hG i hi'
  have hslotG : (mapFiles G (DownloadArea.Setup infos)).slotOf info.id
      = some ⟨info, G info.id⟩ := by
    rw [mapFiles_slotOf, hslot info hi]
    rfl
  have hpay : payloadOf src [⟨info.id, 0, info.size⟩] = src info.id := by
    simp [payloadOf, ← hsrc info hi]
  have hlen := hsrc info hi
  obtain ⟨_, h2, h3⟩ := writeChunk_step _ hwfG ⟨info.id, 0, info.size⟩ 0 (src info.id)
    ⟨info, G info.id⟩ hslotG (by simp) (by simp [hlen])
  simp only [List.drop_zero] at h2
  have hfind := (slotOf_eq_some _ _ _).mp hslotG
  unfold DownloadArea.WriteInstance
  simp only [hfind, hlen, hmd5, bne_self_eq_false, Bool.or_self, Bool.false_eq_true, if_false,
    h2, hpay]
  rw [← h3]

/-! ## Writes on ranges that do not overlap -/

theorem overlay_comm (cs1 cs2 : List Chunk) (pos1 pos2 : Nat) (p1 p2 : List Byte) (id : String)
    (file : List Byte) (hcross : ∀ c ∈ cs1, ∀ d ∈ cs2, c.overlaps d = false) :
    overlay cs2 pos2 p2 id (overlay cs1 pos1 p1 id file)
      = overlay cs1 pos1 p1 id (overlay cs2 pos2 p2 id file) := by
  apply List.ext_getElem?
  intro q
  simp only [overlay_getElem?]
  cases h1 : writerOf cs1 pos1 id q with
  | none => cases h2 : writerOf cs2 pos2 id q <;> rfl
  | some i =>
    cases h2 : writerOf cs2 pos2 id q with
    | none => rfl
    | some j =>
      exfalso
      obtain ⟨c, hc, hcc⟩ := writerOf_covered id q cs1 pos1 i h1
      obtain ⟨d, hd, hdc⟩ := writerOf_covered id q cs2 pos2 j h2
      have := covers_false_of_overlaps c d id q (hcross c hc d hd) hcc
      rw [hdc] at this
      cases this

theorem applyWrites_comm (cs1 cs2 : List Chunk) (pos1 pos2 : Nat) (p1 p2 : List Byte)
    (area : DownloadArea) (hcross : ∀ c ∈ cs1, ∀ d ∈ cs2, c.overlaps d = false) :
    applyWrites cs2 pos2 p2 (applyWrites cs1 pos1 p1 area)
      = applyWrites cs1 pos1 p1 (applyWrites cs2 pos2 p2 area) := by
  simp only [applyWrites, List.map_map]
  congr 1
  apply List.map_congr_left
  intro e _
  obtain ⟨k, v⟩ := e
  cases v with
  | none => rfl
  | some s =>
    simp only [Function.comp_apply, Option.map_some', Prod.mk.injEq, Option.some.injEq, true_and]
    congr 1
    exact overlay_comm cs1 cs2 pos1 pos2 p1 p2 k s.file hcross

/-- Two `WriteBucket` calls with valid buckets write one after the other
without raising, and leave the area described by `applyWrites`. -/
theorem WriteBucket_twice (uncompress : List Byte → Except ErrorCode (List Byte))
    (area : DownloadArea) (hwf : area.WellFormed)
    (b1 b2 : TransferBucket) (d1 d2 p1 p2 : List Byte) (c1 c2 : BucketCompression)
    (hinfl1 : inflate uncompress c1 d1 = .ok p1) (hinfl2 : inflate uncompress c2 d2 = .ok p2)
    (ht1 : b1.GetTotalSize = sumSizes b1.chunks) (ht2 : b2.GetTotalSize = sumSizes b2.chunks)
    (hl1 : p1.length = b1.GetTotalSize) (hl2 : p2.length = b2.GetTotalSize)
    (hs1 : p1.length < SIZE_MOD) (hs2 : p2.length < SIZE_MOD)
    (hv1 : chunksValid area b1.chunks) (hv2 : chunksValid area b2.chunks) :
    runCalls area [fun a => a.WriteBucket uncompress b1 d1 c1,
        fun a => a.WriteBucket uncompress b2 d2 c2]
      = (applyWrites b2.chunks 0 p2 (applyWrites b1.chunks 0 p1 area), none) := by
  have h1 := WriteBucket_eq uncompress area hwf b1 d1 p1 c1 hinfl1 ht1 hl1 hs1 hv1
  have h2 := WriteBucket_eq uncompress (applyWrites b1.chunks 0 p1 area)
    (applyWrites_wellFormed _ _ _ _ hwf) b2 d2 p2 c2 hinfl2 ht2 hl2 hs2
    (chunksValid_applyWrites _ _ _ _ _ hv2)
  simp only [runCalls, h1, h2]

/-! ## Claim on the order of the writes -/

theorem sourceArea_entries (src : String → List Byte) (infos : List DicomInstanceInfo)
    (hnd : (infos.map (fun i => i.id)).Nodup) (hsz : ∀ info ∈ infos, info.size < SIZE_MOD) :
    (∀ e ∈ (sourceArea src infos).instances,
      ∃ info ∈ infos, e = (info.id, some ⟨info, src info.id⟩)) ∧
    (∀ info ∈ infos, (info.id, some ⟨info, src info.id⟩) ∈ (sourceArea src infos).instances) := by
  obtain ⟨_, hentries, hslot⟩ := Setup_facts infos hnd hsz
  constructor
  · intro e he
    simp only [sourceArea, mapFiles, List.mem_map] at he
    obtain ⟨e0, he0, rfl⟩ := he
    obtain ⟨info, hi, rfl⟩ := hentries e0 he0
    exact ⟨info, hi, rfl⟩
  · intro info hi
    have h : (sourceArea src infos).slotOf info.id = some ⟨info, src info.id⟩ := by
      unfold sourceArea
      rw [mapFiles_slotOf, hslot info hi]
      rfl
    exact mapFind_mem _ _ _ ((slotOf_eq_some _ _ _).mp h)

/-- C6. Let `infos` be instances with distinct identifiers, `src` their
bytes, and `writes` a family of buckets, each sent compressed or not, whose
chunks lie inside the instances and together hold every byte of every
instance exactly once.  Writing each bucket once with the concatenation of the
source bytes of its chunks (compressed when the bucket says so, for an
inflater that undoes the compressor) raises nothing and leaves, for every
order of the writes, the area whose slots hold the source instances.  On that
area `CheckMD5` raises nothing exactly when every descriptor carries the
digest of its source, and then writing each instance whole with
`WriteInstance` gives the same area.  More generally two `WriteBucket` calls
whose chunks do not overlap give the same area in both orders. -/
theorem bucket_writes_rebuild_instances (md5 : List Byte → String)
    (accepts : List (List Byte) → List Byte → Bool)
    (uncompress : List Byte → Except ErrorCode (List Byte)) (compress : List Byte → List Byte)
    (hgzip : ∀ x, uncompress (compress x) = .ok x)
    (infos : List DicomInstanceInfo) (hnd : (infos.map (fun i => i.id)).Nodup)
    (hsz : ∀ info ∈ infos, info.size < SIZE_MOD)
    (src : String → List Byte) (hsrc : ∀ info ∈ infos, (src info.id).length = info.size)
    (writes : List (TransferBucket × BucketCompression))
    (htotal : ∀ w ∈ writes, w.1.GetTotalSize = sumSizes w.1.chunks ∧ w.1.GetTotalSize < SIZE_MOD)
    (hinside : ∀ w ∈ writes, ∀ c ∈ w.1.chunks, ∃ info ∈ infos, c.instanceId = info.id ∧
      c.offset + c.size ≤ info.size)
    (hpart : ∀ info ∈ infos, ∀ q, coverCount (allChunks (writes.map Prod.fst)) info.id q
      = if q < info.size then 1 else 0) :
    (∀ order : List (TransferBucket × BucketCompression), order.Perm writes →
      runCalls (DownloadArea.Setup infos)
          (order.map (fun w area => area.WriteBucket uncompress w.1
            (encodePayload compress w.2 (payloadOf src w.1.chunks)) w.2))
        = (sourceArea src infos, none)) ∧
    (∀ posted, ((sourceArea src infos).CheckMD5 md5 accepts posted).2.2 = none ↔
      ∀ info ∈ infos, md5 (src info.id) = info.md5) ∧
    ((∀ info ∈ infos, md5 (src info.id) = info.md5) →
      runCalls (DownloadArea.Setup infos)
          (infos.map (fun info area => area.WriteInstance md5 info.id (src info.id)))
        = (sourceArea src infos, none)) ∧
    (∀ (area : DownloadArea) (b1 b2 : TransferBucket) (d1 d2 p1 p2 : List Byte)
        (c1 c2 : BucketCompression), area.WellFormed →
      inflate uncompress c1 d1 = .ok p1 → inflate uncompress c2 d2 = .ok p2 →
      b1.GetTotalSize = sumSizes b1.chunks → b2.GetTotalSize = sumSizes b2.chunks →
      p1.length = b1.GetTotalSize → p2.length = b2.GetTotalSize →
      p1.length < SIZE_MOD → p2.length < SIZE_MOD →
      chunksValid area b1.chunks → chunksValid area b2.chunks →
      (∀ c ∈ b1.chunks, ∀ d ∈ b2.chunks, c.overlaps d = false) →
      runCalls area [fun a => a.WriteBucket uncompress b1 d1 c1,
          fun a => a.WriteBucket uncompress b2 d2 c2]
        = runCalls area [fun a => a.WriteBucket uncompress b2 d2 c2,
          fun a => a.WriteBucket uncompress b1 d1 c1] ∧
      (runCalls area [fun a => a.WriteBucket uncompress b1 d1 c1,
          fun a => a.WriteBucket uncompress b2 d2 c2]).2 = none) := by
  refine ⟨?_, ?_, ?_, ?_⟩
  · intro order hperm
    have h := runCalls_rebuilds src infos hnd hsz hsrc
      (order.map (fun w => ((fun area : DownloadArea => area.WriteBucket uncompress w.1
        (encodePayload compress w.2 (payloadOf src w.1.chunks)) w.2), w.1.chunks)))
      (by
        intro call hcall
        obtain ⟨w, hw, rfl⟩ := List.mem_map.mp hcall
        have hw' : w ∈ writes := hperm.mem_iff.mp hw
        exact ⟨hinside w hw', fun G hG =>
          WriteBucket_call uncompress compress hgzip src infos hnd hsz hsrc w.1 w.2
            (htotal w hw').1 (htotal w hw').2 (hinside w hw') G hG⟩)
      (by
        intro info hi q hq
        have hcount := hpart info hi q
        rw [if_pos hq] at hcount
        have hpos : 0 < List.countP (fun c => c.covers info.id q)
            (allChunks (writes.map Prod.fst)) := by
          unfold coverCount at hcount
          omega
        obtain ⟨c, hc, hcov⟩ := List.countP_pos_iff.mp hpos
        simp only [allChunks, List.mem_flatMap, List.mem_map] at hc
        obtain ⟨b, ⟨w, hw, rfl⟩, hcb⟩ := hc
        exact ⟨_, List.mem_map.mpr ⟨w, hperm.mem_iff.mpr hw, rfl⟩, c, hcb, hcov⟩)
    simpa [List.map_map, Function.comp_def] using h
  · intro posted
    obtain ⟨h1, h2⟩ := sourceArea_entries src infos hnd hsz
    have hlive : ∀ x ∈ (sourceArea src infos).instances, x.2 ≠ none := by
      intro x hx
      obtain ⟨info, _, rfl⟩ := h1 x hx
      simp
    have hiff := commitLoop_simulate_ok md5 accepts (sourceArea src infos).instances [] posted
      hlive
    have hck : ((sourceArea src infos).CheckMD5 md5 accepts posted).2.2
        = (DownloadArea.commitLoop md5 accepts true (sourceArea src infos).instances []
            posted).2.2 := rfl
    rw [hck, hiff]
    constructor
    · intro h info hi
      exact h _ (h2 info hi) ⟨info, src info.id⟩ rfl
    · intro h x hx slot hslot
      obtain ⟨info, hi, rfl⟩ := h1 x hx
      simp only [Option.some.injEq] at hslot
      subst hslot
      exact h info hi
  · intro hmd5
    have h := runCalls_rebuilds src infos hnd hsz hsrc
      (infos.attach.map (fun info => ((fun area : DownloadArea =>
        area.WriteInstance md5 info.1.id (src info.1.id)),
        [(⟨info.1.id, 0, info.1.size⟩ : Chunk)])))
      (by
        intro call hcall
        obtain ⟨⟨info, hi⟩, _, rfl⟩ := List.mem_map.mp hcall
        refine ⟨?_, fun G hG =>
          WriteInstance_call md5 src infos hnd hsz hsrc info hi (hmd5 info hi) G hG⟩
        intro c hc
        simp only [List.mem_singleton] at hc
        subst hc
        exact ⟨info, hi, rfl, by simp⟩)
      (by
        intro info hi q hq
        refine ⟨_, List.mem_map.mpr ⟨⟨info, hi⟩, List.mem_attach _ _, rfl⟩, _,
          List.mem_singleton.mpr rfl, ?_⟩
        simp [Chunk.covers, hq])
    have hmap : (infos.attach.map (fun info => ((fun area : DownloadArea =>
        area.WriteInstance md5 info.1.id (src info.1.id)),
        [(⟨info.1.id, 0, info.1.size⟩ : Chunk)]))).map Prod.fst
        = infos.map (fun info area => area.WriteInstance md5 info.id (src info.id)) := by
      rw [List.map_map]
      conv_rhs => rw [← List.attach_map_subtype_val infos, List.map_map]
      rfl
    rw [hmap] at h
    exact h
  · intro area b1 b2 d1 d2 p1 p2 c1 c2 hwf hi1 hi2 ht1 ht2 hl1 hl2 hs1 hs2 hv1 hv2 hcross
    rw [WriteBucket_twice uncompress area hwf b1 b2 d1 d2 p1 p2 c1 c2 hi1 hi2 ht1 ht2 hl1 hl2
        hs1 hs2 hv1 hv2,
      WriteBucket_twice uncompress area hwf b2 b1 d2 d1 p2 p1 c2 c1 hi2 hi1 ht2 ht1 hl2 hl1
        hs2 hs1 hv2 hv1,
      applyWrites_comm b1.chunks b2.chunks 0 0 p1 p2 area hcross]
    exact ⟨rfl, rfl⟩

/-! ## The unit test `DownloadArea.Basic` -/

theorem infosOfTest_facts :
    (infosOfTest.map (fun i => i.id)).Nodup ∧ (∀ info ∈ infosOfTest, info.size < SIZE_MOD) ∧
    (∀ info ∈ infosOfTest, (sourcesOfTest info.id).length = info.size) := by
  refine ⟨by decide, by decide, by decide⟩

theorem writesOfTest_partition :
    ∀ info ∈ infosOfTest, ∀ q, coverCount (allChunks (writesOfTest.map Prod.fst)) info.id q
      = if q < info.size then 1 else 0 := by
  intro info hi q
  have hchunks : allChunks (writesOfTest.map Prod.fst)
      = [⟨"d1", 0, 2⟩, ⟨"d1", 2, 3⟩, ⟨"d2", 0, 4⟩, ⟨"d2", 4, 9⟩] := by decide
  rw [hchunks]
  have h12 : (("d1" : String) == "d2") = false := by decide
  have h21 : (("d2" : String) == "d1") = false := by decide
  have h11 : (("d1" : String) == "d1") = true := by decide
  have h22 : (("d2" : String) == "d2") = true := by decide
  simp only [infosOfTest, List.mem_cons, List.mem_singleton, List.not_mem_nil, or_false] at hi
  rcases hi with rfl | rfl
  · simp only [coverCount, Chunk.covers, List.countP_cons, List.countP_nil, h11, h21,
      Bool.true_and, Bool.false_and, Bool.false_eq_true, if_false, Bool.and_eq_true,
      decide_eq_true_eq]
    split <;> split <;> split <;> omega
  · simp only [coverCount, Chunk.covers, List.countP_cons, List.countP_nil, h22, h12,
      Bool.true_and, Bool.false_and, Bool.false_eq_true, if_false, Bool.and_eq_true,
      decide_eq_true_eq]
    split <;> split <;> split <;> omega

/-- Witness of C6: the three buckets of the unit test, written in the reverse
order, rebuild `"Hello"` and `"Hello, World!"`, and `CheckMD5` then raises
nothing. -/
theorem bucket_writes_rebuild_instances_witness :
    runCalls (DownloadArea.Setup infosOfTest)
        (writesOfTest.reverse.map (fun w area => area.WriteBucket exampleUncompress w.1
          (encodePayload (fun x => x) w.2 (payloadOf sourcesOfTest w.1.chunks)) w.2))
      = (sourceArea sourcesOfTest infosOfTest, none) ∧
    ((sourceArea sourcesOfTest infosOfTest).CheckMD5 exampleDigest acceptAll []).2.2 = none :=
  have h := bucket_writes_rebuild_instances exampleDigest acceptAll exampleUncompress (fun x => x)
    (fun _ => rfl) infosOfTest infosOfTest_facts.1 infosOfTest_facts.2.1 sourcesOfTest
    infosOfTest_facts.2.2 writesOfTest (by decide) (by decide) writesOfTest_partition
  ⟨h.1 writesOfTest.reverse (List.reverse_perm _), (h.2.1 []).mpr (by decide)⟩

/-- Witness of C4: the second bucket of the unit test, written on the fresh
area, leaves `"llo"` at offset 2 of `d1` and `"Hell"` at offset 0 of `d2`. -/
theorem writeBucket_scatters_payload_witness :
    ((DownloadArea.Setup infosOfTest).WriteBucket exampleUncompress
        (bucketOfChunks [⟨"d1", 2, 3⟩, ⟨"d2", 0, 4⟩])
        [108, 108, 111, 72, 101, 108, 108] .None).2 = none ∧
    ((DownloadArea.Setup infosOfTest).WriteBucket exampleUncompress
        (bucketOfChunks [⟨"d1", 2, 3⟩, ⟨"d2", 0, 4⟩])
        [108, 108, 111, 72, 101, 108, 108] .None).1.instances.map
          (fun e => (e.1, e.2.map (fun slot => slot.file)))
      = [("d1", some [0, 0, 108, 108, 111]),
         ("d2", some [72, 101, 108, 108, 0, 0, 0, 0, 0, 0, 0, 0, 0])] :=
  ⟨(writeBucket_scatters_payload exampleUncompress (DownloadArea.Setup infosOfTest)
      (Setup_facts infosOfTest infosOfTest_facts.1 infosOfTest_facts.2.1).1
      (bucketOfChunks [⟨"d1", 2, 3⟩, ⟨"d2", 0, 4⟩]) [108, 108, 111, 72, 101, 108, 108]
      [108, 108, 111, 72, 101, 108, 108] .None rfl (by decide) (by decide) (by decide)
      (by
        intro c hc
        simp only [bucketOfChunks, List.mem_cons, List.mem_singleton, List.not_mem_nil,
          or_false] at hc
        rcases hc with rfl | rfl
        · exact ⟨_, (Setup_facts infosOfTest infosOfTest_facts.1 infosOfTest_facts.2.1).2.2
            ⟨"d1", 5, exampleDigest helloBytes⟩ (by decide), by decide⟩
        · exact ⟨_, (Setup_facts infosOfTest infosOfTest_facts.1 infosOfTest_facts.2.1).2.2
            ⟨"d2", 13, exampleDigest helloWorldBytes⟩ (by decide), by decide⟩)
      (by decide)).1,
    by decide⟩

/-- Witness of C5: a payload of one byte for the first bucket of the unit
test, whose total size is 2, sent as gzip to the inflater of the examples. -/
theorem writeBucket_protocol_error_iff_witness :
    (((DownloadArea.Setup infosOfTest).WriteBucket exampleUncompress
        (bucketOfChunks [⟨"d1", 0, 2⟩]) [72] .Gzip).2 = some .NetworkProtocol ↔
      [(72 : Byte)].length ≠ (bucketOfChunks [⟨"d1", 0, 2⟩]).GetTotalSize) ∧
    ((DownloadArea.Setup infosOfTest).WriteBucket exampleUncompress
        (bucketOfChunks [⟨"d1", 0, 2⟩]) [72] .Gzip)
      = (DownloadArea.Setup infosOfTest, some .NetworkProtocol) :=
  ⟨(writeBucket_protocol_error_iff exampleUncompress (DownloadArea.Setup infosOfTest)
      (bucketOfChunks [⟨"d1", 0, 2⟩]) [72] [72] .Gzip rfl).1, by decide⟩

/-! ## Invariants of `TransferBucket` -/

theorem sumSizes_append (xs ys : List Chunk) :
    sumSizes (xs ++ ys) = sumSizes xs + sumSizes ys := by
  simp [sumSizes]

theorem AddChunk_cases (b : TransferBucket) (instance_ : DicomInstanceInfo)
    (chunkOffset chunkSize : Nat) (b' : TransferBucket)
    (h : b.AddChunk instance_ chunkOffset chunkSize = .ok b') :
    addSz chunkOffset chunkSize ≤ instance_.size ∧ b.extensible = true ∧
    (b.chunks = [] ∨ chunkOffset = 0) ∧
    ((chunkSize = 0 ∧ b' = b) ∨
     (chunkSize ≠ 0 ∧ b' =
        { chunks := b.chunks ++ [{ instanceId := instance_.id, offset := chunkOffset,
                                   size := chunkSize }]
          totalSize := addSz b.totalSize chunkSize
          extensible := if !b.chunks.isEmpty && chunkSize != instance_.size then false
            else b.extensible })) := by
  unfold TransferBucket.AddChunk at h
  by_cases h1 : addSz chunkOffset chunkSize > instance_.size
  · simp [h1] at h
  · simp only [h1, if_false] at h
    by_cases h2 : b.extensible = true
    · simp only [h2, Bool.not_true, Bool.false_eq_true, if_false] at h
      by_cases h3 : (!b.chunks.isEmpty && chunkOffset != 0) = true
      · simp [h3] at h
      · simp only [h3, if_false] at h
        have h3' : b.chunks = [] ∨ chunkOffset = 0 := by
          cases hc : b.chunks with
          | nil => exact Or.inl rfl
          | cons c cs =>
            right
            by_contra hne
            exact h3 (by simp [hc, hne])
        refine ⟨by omega, h2, h3', ?_⟩
        by_cases h4 : chunkSize = 0
        · left
          simp [h4] at h
          exact ⟨h4, h.symm⟩
        · right
          have h4' : (chunkSize == 0) = false := by simp [h4]
          simp only [h4', Bool.false_eq_true, if_false, Except.ok.injEq] at h
          exact ⟨h4, by rw [← h, h2]⟩
    · simp [h2] at h

theorem AddChunk_invariant (b : TransferBucket) (instance_ : DicomInstanceInfo)
    (chunkOffset chunkSize : Nat) (b' : TransferBucket)
    (h : b.AddChunk instance_ chunkOffset chunkSize = .ok b')
    (h1 : ∀ c ∈ b.chunks.tail, c.offset = 0) (h2 : ∀ c ∈ b.chunks, 0 < c.size)
    (h3 : b.totalSize = sumSizes b.chunks % SIZE_MOD) :
    (∀ c ∈ b'.chunks.tail, c.offset = 0) ∧ (∀ c ∈ b'.chunks, 0 < c.size) ∧
    b'.totalSize = sumSizes b'.chunks % SIZE_MOD := by
  obtain ⟨_, _, hfirst, hcase⟩ := AddChunk_cases b instance_ chunkOffset chunkSize b' h
  rcases hcase with ⟨_, rfl⟩ | ⟨hne, rfl⟩
  · exact ⟨h1, h2, h3⟩
  · refine ⟨?_, ?_, ?_⟩
    · intro c hc
      simp only at hc
      cases hb : b.chunks with
      | nil => rw [hb] at hc; simp at hc
      | cons c0 cs =>
        rw [hb] at hc h1
        simp only [List.cons_append, List.tail_cons, List.mem_append, List.mem_singleton] at hc h1
        rcases hc with hc | hc
        · exact h1 c hc
        · rcases hfirst with hf | hf
          · rw [hb] at hf; cases hf
          · rw [hc]; exact hf
    · intro c hc
      simp only [List.mem_append, List.mem_singleton] at hc
      rcases hc with hc | hc
      · exact h2 c hc
      · rw [hc]; exact Nat.pos_of_ne_zero hne
    · simp only [sumSizes_append, addSz, h3]
      simp [sumSizes, SIZE_MOD, Nat.add_mod]

theorem run_snoc (b : TransferBucket) (calls : List BucketCall) (call : BucketCall) :
    b.run (calls ++ [call]) = ((b.run calls).applyCall call).1 := by
  simp [TransferBucket.run, List.foldl_append]

theorem run_invariant (calls : List BucketCall) :
    (∀ c ∈ (TransferBucket.run {} calls).chunks.tail, c.offset = 0) ∧
    (∀ c ∈ (TransferBucket.run {} calls).chunks, 0 < c.size) ∧
    (TransferBucket.run {} calls).totalSize
      = sumSizes (TransferBucket.run {} calls).chunks % SIZE_MOD := by
  induction calls using List.reverseRecOn with
  | nil => simp [TransferBucket.run, sumSizes]
  | append_singleton calls call ih =>
    rw [run_snoc]
    cases call with
    | clear => simp [TransferBucket.applyCall, TransferBucket.Clear, sumSizes]
    | addChunk instance_ chunkOffset chunkSize =>
      simp only [TransferBucket.applyCall]
      cases h : (TransferBucket.run {} calls).AddChunk instance_ chunkOffset chunkSize with
      | error e => exact ih
      | ok b' => exact AddChunk_invariant _ _ _ _ _ h ih.1 ih.2.1 ih.2.2

/-- The invariants of a bucket in `size_t` arithmetic.  Every bucket reached from the empty bucket by a sequence of
`AddChunk` and `Clear` calls, returning or raising, satisfies: every chunk
after the first has offset 0; every stored chunk has a size above 0;
`GetTotalSize` is the sum of the stored chunk sizes in `size_t` arithmetic,
that is modulo `2^64`, hence the sum itself when that sum is below `2^64`; and
`GetChunksCount` is the number of stored chunks. -/
theorem bucket_invariants (calls : List BucketCall) :
    (∀ i c, 0 < i → (TransferBucket.run {} calls).chunks[i]? = some c → c.offset = 0) ∧
    (∀ c ∈ (TransferBucket.run {} calls).chunks, 0 < c.size) ∧
    (TransferBucket.run {} calls).GetTotalSize
      = sumSizes (TransferBucket.run {} calls).chunks % SIZE_MOD ∧
    (sumSizes (TransferBucket.run {} calls).chunks < SIZE_MOD →
      (TransferBucket.run {} calls).GetTotalSize
        = sumSizes (TransferBucket.run {} calls).chunks) ∧
    (TransferBucket.run {} calls).GetChunksCount
      = (TransferBucket.run {} calls).chunks.length := by
  obtain ⟨h1, h2, h3⟩ := run_invariant calls
  refine ⟨?_, h2, h3, fun hlt => ?_, rfl⟩
  · intro i c hi hc
    apply h1
    cases hb : (TransferBucket.run {} calls).chunks with
    | nil => rw [hb] at hc; simp at hc
    | cons c0 cs =>
      rw [hb] at hc
      obtain ⟨j, rfl⟩ : ∃ j, i = j + 1 := ⟨i - 1, by omega⟩
      simp only [List.getElem?_cons_succ] at hc
      exact List.mem_iff_getElem?.mpr ⟨j, hc⟩
  · show (TransferBucket.run {} calls).totalSize = _
    rw [h3, Nat.mod_eq_of_lt hlt]

/-! ## The rejections of `AddChunk` -/

theorem AddChunk_sealed (b : TransferBucket) (instance_ : DicomInstanceInfo)
    (chunkOffset chunkSize : Nat) (hs : b.extensible = false) :
    b.AddChunk instance_ chunkOffset chunkSize
      = .error (if addSz chunkOffset chunkSize > instance_.size then .ParameterOutOfRange
          else .BadSequenceOfCalls) := by
  unfold TransferBucket.AddChunk
  by_cases h1 : addSz chunkOffset chunkSize > instance_.size
  · simp [h1]
  · simp [h1, hs]

/-- C12. The rejection contract of `AddChunk`.  A successful `AddChunk` that
adds a chunk which is not the first of the bucket and whose size differs from
(in particular is less than) the size of its instance seals the bucket.  On a
sealed bucket every `AddChunk` with an in-range chunk raises
bad-sequence-of-calls, and any sequence of `AddChunk` calls leaves the bucket
as it is, so only `Clear` ends the sealing.  On a non-empty bucket that is not
sealed, `AddChunk` with a non-zero offset raises parameter-out-of-range.  A
call that raises leaves the bucket unchanged.  `Clear` gives the empty bucket,
which accepts any in-range chunk of non-zero size, also one with a non-zero
offset. -/
theorem addChunk_rejection_contract (b : TransferBucket) (instance_ : DicomInstanceInfo)
    (chunkOffset chunkSize : Nat) :
    (∀ b', b.AddChunk instance_ chunkOffset chunkSize = .ok b' → b.chunks ≠ [] →
      chunkSize ≠ 0 → chunkSize ≠ instance_.size →
      b'.extensible = false ∧ b'.chunks = b.chunks ++ [⟨instance_.id, chunkOffset, chunkSize⟩]) ∧
    (b.extensible = false → addSz chunkOffset chunkSize ≤ instance_.size →
      b.AddChunk instance_ chunkOffset chunkSize = .error .BadSequenceOfCalls) ∧
    (b.extensible = false → ∀ calls : List BucketCall,
      (∀ call ∈ calls, call ≠ .clear) → b.run calls = b) ∧
    (b.extensible = true → b.chunks ≠ [] → chunkOffset ≠ 0 →
      b.AddChunk instance_ chunkOffset chunkSize = .error .ParameterOutOfRange) ∧
    (∀ call, (b.applyCall call).2 ≠ none → (b.applyCall call).1 = b) ∧
    b.Clear = {} ∧
    (chunkSize ≠ 0 → addSz chunkOffset chunkSize ≤ instance_.size →
      b.Clear.AddChunk instance_ chunkOffset chunkSize
        = .ok { chunks := [⟨instance_.id, chunkOffset, chunkSize⟩]
                totalSize := addSz 0 chunkSize, extensible := true }) := by
  refine ⟨?_, ?_, ?_, ?_, ?_, rfl, ?_⟩
  · intro b' h hne hs0 hsz
    obtain ⟨_, _, _, hcase⟩ := AddChunk_cases b instance_ chunkOffset chunkSize b' h
    rcases hcase with ⟨h0, _⟩ | ⟨_, rfl⟩
    · exact absurd h0 hs0
    · have he : b.chunks.isEmpty = false := by
        cases hb : b.chunks with
        | nil => exact absurd hb hne
        | cons _ _ => rfl
      simp [he, hsz]
  · intro hs hin
    rw [AddChunk_sealed b instance_ chunkOffset chunkSize hs, if_neg (by omega)]
  · intro hs calls
    induction calls using List.reverseRecOn with
    | nil => intro _; rfl
    | append_singleton calls call ih =>
      intro hc
      rw [run_snoc, ih (fun c hc' => hc c (List.mem_append_left _ hc'))]
      cases call with
      | clear => exact absurd rfl (hc .clear (by simp))
      | addChunk i o s =>
        simp only [TransferBucket.applyCall, AddChunk_sealed b i o s hs]
  · intro he hne ho
    unfold TransferBucket.AddChunk
    by_cases h1 : addSz chunkOffset chunkSize > instance_.size
    · simp [h1]
    · have hemp : b.chunks.isEmpty = false := by
        cases hb : b.chunks with
        | nil => exact absurd hb hne
        | cons _ _ => rfl
      simp [h1, he, hemp, ho]
  · intro call hr
    cases call with
    | clear => simp [TransferBucket.applyCall] at hr
    | addChunk i o s =>
      simp only [TransferBucket.applyCall] at hr ⊢
      cases h : b.AddChunk i o s with
      | error e => rfl
      | ok b' => rw [h] at hr; simp at hr
  · intro hs0 hin
    unfold TransferBucket.AddChunk TransferBucket.Clear
    have h1 : ¬ addSz chunkOffset chunkSize > instance_.size := by omega
    simp [h1, hs0]

/-! ## The bound test in `size_t` arithmetic -/

/-- C13. The bound test `offset + size > instance.size` is done in `size_t`
arithmetic and wraps around: for the instance `d1` of 10 bytes, the chunk of
offset `2^64 - 1` and size 2 passes the test of `AddChunk`, which stores it, of
`WriteChunk` on the slot of `d1`, and of `GetChunk` on the 10 bytes of `d1`,
although `offset + size` is `2^64 + 1`. -/
theorem chunk_bound_test_wraps_around :
    TransferBucket.AddChunk {} ⟨"d1", 10, ""⟩ (2^64 - 1) 2
      = .ok { chunks := [⟨"d1", 2^64 - 1, 2⟩], totalSize := 2, extensible := true } ∧
    (DownloadArea.Instance.create ⟨"d1", 10, ""⟩).WriteChunk (2^64 - 1) [1, 2] 2
      = .ok ⟨⟨"d1", 10, ""⟩, fileWrite (List.replicate 10 0) (2^64 - 1) [1, 2]⟩ ∧
    SourceDicomInstance.GetChunk exampleDigest
        ⟨⟨"d1", 10, ""⟩, List.replicate 10 0⟩ (2^64 - 1) 2
      = .ok (((List.replicate 10 (0 : Byte)).drop (2^64 - 1)).take 2,
          exampleDigest (((List.replicate 10 (0 : Byte)).drop (2^64 - 1)).take 2)) ∧
    ¬ ((2^64 - 1) + 2 ≤ (10 : Nat)) := by
  have h : addSz (2^64 - 1) 2 = 1 := by decide
  refine ⟨?_, ?_, ?_, by decide⟩
  · have h2 : addSz 0 2 = 2 := by decide
    simp only [TransferBucket.AddChunk, h, h2]
    rfl
  · rw [create_eq ⟨"d1", 10, ""⟩ (by unfold SIZE_MOD; norm_num)]
    simp only [DownloadArea.Instance.WriteChunk, h]
    rfl
  · simp only [SourceDicomInstance.GetChunk, h, List.length_replicate]
    rfl

/-! ## The pull URL -/

theorem joinIds_eq_go (cs : List Chunk) :
    ∀ (uri : String), TransferBucket.joinIds false uri cs
      = String.intercalate.go uri "." (cs.map (fun c => c.instanceId)) := by
  induction cs with
  | nil => intro uri; rfl
  | cons c cs ih =>
    intro uri
    simp only [TransferBucket.joinIds, List.map_cons, String.intercalate.go, ih]
    rfl

theorem intercalate_go_append (s : String) (xs : List String) :
    ∀ (acc pre : String), String.intercalate.go (pre ++ acc) s xs
      = pre ++ String.intercalate.go acc s xs := by
  induction xs with
  | nil => intro acc pre; rfl
  | cons x xs ih =>
    intro acc pre
    simp only [String.intercalate.go]
    rw [String.append_assoc, String.append_assoc, ih, String.append_assoc]

/-- C14. For a non-empty bucket with chunk identifiers `id_1 .. id_n`,
first-chunk offset `o` and total size `t`, `ComputePullUri` returns
`"/transfers/chunks/" ++ id_1 ++ "." ++ ... ++ "." ++ id_n ++ "?offset=" ++
decimal o ++ "&size=" ++ decimal t ++ "&compression=" ++ c` where `c` is `none`
or `gzip`; on an empty bucket it raises the internal error. -/
theorem pull_uri_format (b : TransferBucket) (compression : BucketCompression) :
    (∀ c0 rest, b.chunks = c0 :: rest →
      b.ComputePullUri compression
        = .ok ("/transfers/chunks/" ++ ".".intercalate (b.chunks.map (fun c => c.instanceId))
            ++ "?offset=" ++ toString c0.offset ++ "&size=" ++ toString b.GetTotalSize
            ++ "&compression=" ++ compressionName compression)) ∧
    (b.chunks = [] → b.ComputePullUri compression = .error .InternalError) := by
  constructor
  · intro c0 rest hb
    have hjoin : TransferBucket.joinIds true (URI_CHUNKS ++ "/") (c0 :: rest)
        = "/transfers/chunks/" ++ ".".intercalate ((c0 :: rest).map (fun c => c.instanceId)) := by
      simp only [TransferBucket.joinIds, if_true, List.map_cons, String.intercalate, joinIds_eq_go]
      have : URI_CHUNKS ++ "/" = "/transfers/chunks/" := by decide
      rw [this, intercalate_go_append]
    unfold TransferBucket.ComputePullUri
    rw [hb]
    simp only [hjoin, TransferBucket.GetTotalSize]
    cases compression <;> simp only [compressionName, String.append_assoc] <;> rfl
  · intro hb
    unfold TransferBucket.ComputePullUri
    rw [hb]

/-! ## JSON round trip -/

theorem mapFind_cons {α : Type} (key k : String) (v : α) (rest : List (String × α)) :
    mapFind key ((k, v) :: rest) = if k = key then some v else mapFind key rest := rfl

theorem Serialize_info_eq (info : DicomInstanceInfo) :
    info.Serialize = .object [("ID", .string info.id), ("MD5", .string info.md5),
      ("Size", .string (toString info.size))] := by
  have h1 : ¬ ("Size" : String).data < ("ID" : String).data := by decide
  have h2 : ¬ ("Size" : String) = "ID" := by decide
  have h3 : ¬ ("MD5" : String).data < ("ID" : String).data := by decide
  have h4 : ¬ ("MD5" : String) = "ID" := by decide
  have h5 : ("MD5" : String).data < ("Size" : String).data := by decide
  simp only [DicomInstanceInfo.Serialize, Json.set, KEY_ID, KEY_SIZE, KEY_MD5, mapInsert, h1, h2,
    h3, h4, h5, if_false, if_true]

theorem chunkToJson_eq (c : Chunk) :
    (((Json.object []).set KEY_ID (.string c.instanceId)).set KEY_OFFSET
        (.string (toString c.offset))).set KEY_SIZE (.string (toString c.size))
      = chunkToJson c := by
  have h1 : ¬ ("Offset" : String).data < ("ID" : String).data := by decide
  have h2 : ¬ ("Offset" : String) = "ID" := by decide
  have h3 : ¬ ("Size" : String).data < ("ID" : String).data := by decide
  have h4 : ¬ ("Size" : String) = "ID" := by decide
  have h5 : ¬ ("Size" : String).data < ("Offset" : String).data := by decide
  have h6 : ¬ ("Size" : String) = "Offset" := by decide
  simp only [chunkToJson, Json.set, KEY_ID, KEY_SIZE, KEY_OFFSET, mapInsert, h1, h2,
    h3, h4, h5, h6, if_false]

theorem Serialize_fold (cs : List Chunk) :
    ∀ acc : List Json,
      cs.foldl (fun target c => Json.append target
          ((((Json.object []).set KEY_ID (.string c.instanceId)).set KEY_OFFSET
            (.string (toString c.offset))).set KEY_SIZE (.string (toString c.size))))
        (.array acc) = .array (acc ++ cs.map chunkToJson) := by
  induction cs with
  | nil => intro acc; simp
  | cons c cs ih =>
    intro acc
    rw [List.foldl_cons, chunkToJson_eq]
    show List.foldl _ (Json.array (acc ++ [chunkToJson c])) cs = _
    rw [ih]
    simp

theorem Serialize_bucket_eq (b : TransferBucket) :
    b.Serialize = .array (b.chunks.map chunkToJson) := by
  unfold TransferBucket.Serialize
  rw [Serialize_fold]
  rfl

theorem ofJsonLoop_chunkToJson (lexicalCast : String → Option Nat) (c : Chunk)
    (rest : List Json) (b : TransferBucket)
    (ho : lexicalCast (toString c.offset) = some c.offset)
    (hs : lexicalCast (toString c.size) = some c.size) :
    TransferBucket.ofJsonLoop lexicalCast (chunkToJson c :: rest) b
      = TransferBucket.ofJsonLoop lexicalCast rest
          { chunks := b.chunks ++ [c], totalSize := addSz b.totalSize c.size,
            extensible := b.extensible } := by
  have h1 : ¬ ("ID" : String) = "Offset" := by decide
  have h2 : ¬ ("ID" : String) = "Size" := by decide
  have h3 : ¬ ("Offset" : String) = "Size" := by decide
  simp [TransferBucket.ofJsonLoop, chunkToJson, Json.type, Json.isMember, Json.get, Json.asString,
    KEY_ID, KEY_OFFSET, KEY_SIZE, mapFind_cons, h1, h2, h3, ho, hs]

theorem ofJsonLoop_map (lexicalCast : String → Option Nat) (cs : List Chunk) :
    ∀ b : TransferBucket,
      (∀ c ∈ cs, lexicalCast (toString c.offset) = some c.offset ∧
        lexicalCast (toString c.size) = some c.size) →
      TransferBucket.ofJsonLoop lexicalCast (cs.map chunkToJson) b
        = .ok { chunks := b.chunks ++ cs
                totalSize := cs.foldl (fun total c => addSz total c.size) b.totalSize
                extensible := b.extensible } := by
  induction cs with
  | nil => intro b _; simp [TransferBucket.ofJsonLoop]
  | cons c cs ih =>
    intro b h
    have hc := h c (List.mem_cons_self _ _)
    rw [List.map_cons, ofJsonLoop_chunkToJson lexicalCast c _ b hc.1 hc.2,
      ih _ (fun d hd => h d (List.mem_cons_of_mem _ hd))]
    simp

theorem foldl_addSz (cs : List Chunk) :
    ∀ acc, acc < SIZE_MOD →
      cs.foldl (fun total c => addSz total c.size) acc = (acc + sumSizes cs) % SIZE_MOD := by
  induction cs with
  | nil => intro acc h; simp [sumSizes, Nat.mod_eq_of_lt h]
  | cons c cs ih =>
    intro acc _
    have hlt : addSz acc c.size < SIZE_MOD := Nat.mod_lt _ (by unfold SIZE_MOD; norm_num)
    rw [List.foldl_cons, ih _ hlt]
    simp only [addSz, sumSizes, List.map_cons, List.sum_cons]
    rw [Nat.add_mod, Nat.mod_mod, ← Nat.add_mod, Nat.add_assoc]

theorem ComputePullUri_congr (b b' : TransferBucket) (hc : b'.chunks = b.chunks)
    (ht : b'.totalSize = b.totalSize) (compression : BucketCompression) :
    b'.ComputePullUri compression = b.ComputePullUri compression := by
  unfold TransferBucket.ComputePullUri
  rw [hc, ht]

/-- C15. JSON round trip.  Deserialising `Serialize(i)` gives back the
descriptor `i`, identifier, size and MD5, as soon as the integer parser reads
the decimal text of `i.size` as `i.size`.  For a bucket `b` built from the
empty bucket by `AddChunk` and `Clear` calls, deserialising `Serialize(b)`
gives the bucket with the chunks of `b`, in order, and the total size of `b`,
sealed against additions, hence with the pull URL of `b`, as soon as the
parser reads the decimal text of the offset and of the size of every chunk of
`b` as that number. -/
theorem json_round_trip (lexicalCast : String → Option Nat) (info : DicomInstanceInfo)
    (calls : List BucketCall)
    (hinfo : lexicalCast (toString info.size) = some info.size)
    (hchunks : ∀ c ∈ (TransferBucket.run {} calls).chunks,
      lexicalCast (toString c.offset) = some c.offset ∧
      lexicalCast (toString c.size) = some c.size) :
    DicomInstanceInfo.ofJson lexicalCast info.Serialize = .ok info ∧
    TransferBucket.ofJson lexicalCast (TransferBucket.run {} calls).Serialize
      = .ok { chunks := (TransferBucket.run {} calls).chunks
              totalSize := (TransferBucket.run {} calls).totalSize
              extensible := false } ∧
    ∀ b', TransferBucket.ofJson lexicalCast (TransferBucket.run {} calls).Serialize = .ok b' →
      b'.chunks = (TransferBucket.run {} calls).chunks ∧
      b'.GetTotalSize = (TransferBucket.run {} calls).GetTotalSize ∧
      ∀ compression, b'.ComputePullUri compression
        = (TransferBucket.run {} calls).ComputePullUri compression := by
  have hb : TransferBucket.ofJson lexicalCast (TransferBucket.run {} calls).Serialize
      = .ok { chunks := (TransferBucket.run {} calls).chunks
              totalSize := (TransferBucket.run {} calls).totalSize
              extensible := false } := by
    rw [Serialize_bucket_eq]
    simp only [TransferBucket.ofJson, Json.type]
    rw [if_neg (by decide), ofJsonLoop_map lexicalCast _ _ hchunks,
      foldl_addSz _ 0 (by unfold SIZE_MOD; norm_num), (run_invariant calls).2.2]
    simp
  refine ⟨?_, hb, ?_⟩
  · have h1 : ¬ ("ID" : String) = "MD5" := by decide
    have h2 : ¬ ("ID" : String) = "Size" := by decide
    have h3 : ¬ ("MD5" : String) = "Size" := by decide
    have h4 : ¬ ("MD5" : String) = "ID" := by decide
    rw [Serialize_info_eq]
    simp [DicomInstanceInfo.ofJson, Json.type, Json.isMember, Json.get, Json.asString,
      KEY_ID, KEY_MD5, KEY_SIZE, mapFind_cons, h1, h2, h3, h4, hinfo]
  · intro b' hb'
    rw [hb] at hb'
    simp only [Except.ok.injEq] at hb'
    subst hb'
    exact ⟨rfl, rfl, fun compression => ComputePullUri_congr _ _ rfl rfl compression⟩

/-- Witness of C15: the descriptor `(d1, 10, "")` and the bucket of the unit
test `TransferBucket.Serialization`, with the parser of the examples. -/
theorem json_round_trip_witness :
    DicomInstanceInfo.ofJson exampleLexicalCast (DicomInstanceInfo.Serialize ⟨"d1", 10, ""⟩)
      = .ok ⟨"d1", 10, ""⟩ ∧
    TransferBucket.ofJson exampleLexicalCast
        (TransferBucket.run {} callsOfSerializationTest).Serialize
      = .ok { chunks := [⟨"d1", 5, 5⟩, ⟨"d2", 0, 20⟩, ⟨"d3", 0, 7⟩]
              totalSize := 32, extensible := false } :=
  have h := json_round_trip exampleLexicalCast ⟨"d1", 10, ""⟩ callsOfSerializationTest
    (by decide) (by decide)
  ⟨h.1, h.2.1⟩

/-! ## Rejections of the deserialisers -/

theorem member_test (members : List (String × Json)) (key : String) :
    ((Json.object members).isMember key = true ∧
        ((Json.object members).get key).type = .stringValue)
      ↔ ∃ s, mapFind key members = some (.string s) := by
  simp only [Json.isMember, Json.get]
  cases h : mapFind key members with
  | none => simp
  | some v => cases v <;> simp [Json.type]

theorem member_asString (members : List (String × Json)) (key s : String)
    (h : mapFind key members = some (.string s)) :
    ((Json.object members).get key).asString = s := by
  simp [Json.get, h, Json.asString]

theorem ofJson_info_object (lexicalCast : String → Option Nat) (members : List (String × Json)) :
    (∃ id size md5, mapFind "ID" members = some (.string id) ∧
        mapFind "Size" members = some (.string size) ∧
        mapFind "MD5" members = some (.string md5) ∧
        DicomInstanceInfo.ofJson lexicalCast (.object members)
          = match lexicalCast size with
            | some n => .ok ⟨id, n, md5⟩
            | none => .error .BadFileFormat) ∨
    ((¬ ∃ id size md5, mapFind "ID" members = some (.string id) ∧
        mapFind "Size" members = some (.string size) ∧
        mapFind "MD5" members = some (.string md5)) ∧
      DicomInstanceInfo.ofJson lexicalCast (.object members) = .error .BadFileFormat) := by
  have m1 := member_test members "ID"
  have m2 := member_test members "Size"
  have m3 := member_test members "MD5"
  by_cases h1 : ∃ s, mapFind "ID" members = some (.string s)
  · by_cases h2 : ∃ s, mapFind "Size" members = some (.string s)
    · by_cases h3 : ∃ s, mapFind "MD5" members = some (.string s)
      · left
        obtain ⟨id, hid⟩ := h1
        obtain ⟨size, hsize⟩ := h2
        obtain ⟨md5, hmd5⟩ := h3
        refine ⟨id, size, md5, hid, hsize, hmd5, ?_⟩
        simp only [DicomInstanceInfo.ofJson, KEY_ID, KEY_SIZE, KEY_MD5, Json.isMember, Json.get,
          hid, hsize, hmd5, Json.type, Json.asString]
        simp <;> (cases lexicalCast size <;> rfl)
      · right
        refine ⟨fun ⟨_, _, md5, _, _, h⟩ => h3 ⟨md5, h⟩, ?_⟩
        have := mt m3.mp h3
        simp only [DicomInstanceInfo.ofJson, KEY_ID, KEY_SIZE, KEY_MD5]
        rw [if_pos]
        simp only [Bool.or_eq_true, Bool.not_eq_true', bne_iff_ne, ne_eq]
        by_cases hm : (Json.object members).isMember "MD5" = true
        · exact Or.inr (fun ht => this ⟨hm, ht⟩)
        · left; left; left; right
          simpa using hm
    · right
      refine ⟨fun ⟨_, size, _, _, h, _⟩ => h2 ⟨size, h⟩, ?_⟩
      have := mt m2.mp h2
      simp only [DicomInstanceInfo.ofJson, KEY_ID, KEY_SIZE, KEY_MD5]
      rw [if_pos]
      simp only [Bool.or_eq_true, Bool.not_eq_true', bne_iff_ne, ne_eq]
      by_cases hm : (Json.object members).isMember "Size" = true
      · exact Or.inl (Or.inr (fun ht => this ⟨hm, ht⟩))
      · left; left; left; left; right
        simpa using hm
  · right
    refine ⟨fun ⟨id, _, _, h, _, _⟩ => h1 ⟨id, h⟩, ?_⟩
    have := mt m1.mp h1
    simp only [DicomInstanceInfo.ofJson, KEY_ID, KEY_SIZE, KEY_MD5]
    rw [if_pos]
    simp only [Bool.or_eq_true, Bool.not_eq_true', bne_iff_ne, ne_eq]
    by_cases hm : (Json.object members).isMember "ID" = true
    · exact Or.inl (Or.inl (Or.inr (fun ht => this ⟨hm, ht⟩)))
    · left; left; left; left; left; right
      simpa using hm

theorem ofJsonLoop_object (lexicalCast : String → Option Nat) (members : List (String × Json))
    (rest : List Json) (b : TransferBucket) :
    (∃ id offset size, mapFind "ID" members = some (.string id) ∧
        mapFind "Offset" members = some (.string offset) ∧
        mapFind "Size" members = some (.string size) ∧
        TransferBucket.ofJsonLoop lexicalCast (.object members :: rest) b
          = match lexicalCast offset with
            | none => .error .BadFileFormat
            | some o =>
              match lexicalCast size with
              | none => .error .BadFileFormat
              | some s =>
                TransferBucket.ofJsonLoop lexicalCast rest
                  { chunks := b.chunks ++ [⟨id, o, s⟩], totalSize := addSz b.totalSize s,
                    extensible := b.extensible }) ∨
    ((¬ ∃ id offset size, mapFind "ID" members = some (.string id) ∧
        mapFind "Offset" members = some (.string offset) ∧
        mapFind "Size" members = some (.string size)) ∧
      TransferBucket.ofJsonLoop lexicalCast (.object members :: rest) b
        = .error .BadFileFormat) := by
  have m1 := member_test members "ID"
  have m2 := member_test members "Offset"
  have m3 := member_test members "Size"
  by_cases h1 : ∃ s, mapFind "ID" members = some (.string s)
  · by_cases h2 : ∃ s, mapFind "Offset" members = some (.string s)
    · by_cases h3 : ∃ s, mapFind "Size" members = some (.string s)
      · left
        obtain ⟨id, hid⟩ := h1
        obtain ⟨offset, hoffset⟩ := h2
        obtain ⟨size, hsize⟩ := h3
        refine ⟨id, offset, size, hid, hoffset, hsize, ?_⟩
        simp only [TransferBucket.ofJsonLoop, KEY_ID, KEY_SIZE, KEY_OFFSET, Json.isMember,
          Json.get, hid, hsize, hoffset, Json.type, Json.asString]
        simp <;> (cases lexicalCast offset <;> cases lexicalCast size <;> rfl)
      · right
        refine ⟨fun ⟨_, _, size, _, _, h⟩ => h3 ⟨size, h⟩, ?_⟩
        have := mt m3.mp h3
        simp only [TransferBucket.ofJsonLoop, KEY_ID, KEY_SIZE, KEY_OFFSET]
        rw [if_pos]
        simp only [Bool.or_eq_true, Bool.not_eq_true', bne_iff_ne, ne_eq]
        by_cases hm : (Json.object members).isMember "Size" = true
        · exact Or.inr (fun ht => this ⟨hm, ht⟩)
        · left; left; left; right
          simpa using hm
    · right
      refine ⟨fun ⟨_, offset, _, _, h, _⟩ => h2 ⟨offset, h⟩, ?_⟩
      have := mt m2.mp h2
      simp only [TransferBucket.ofJsonLoop, KEY_ID, KEY_SIZE, KEY_OFFSET]
      rw [if_pos]
      simp only [Bool.or_eq_true, Bool.not_eq_true', bne_iff_ne, ne_eq]
      by_cases hm : (Json.object members).isMember "Offset" = true
      · exact Or.inl (Or.inr (fun ht => this ⟨hm, ht⟩))
      · left; left; left; left; right
        simpa using hm
  · right
    refine ⟨fun ⟨id, _, _, h, _, _⟩ => h1 ⟨id, h⟩, ?_⟩
    have := mt m1.mp h1
    simp only [TransferBucket.ofJsonLoop, KEY_ID, KEY_SIZE, KEY_OFFSET]
    rw [if_pos]
    simp only [Bool.or_eq_true, Bool.not_eq_true', bne_iff_ne, ne_eq]
    by_cases hm : (Json.object members).isMember "ID" = true
    · exact Or.inl (Or.inl (Or.inr (fun ht => this ⟨hm, ht⟩)))
    · left; left; left; left; left; right
      simpa using hm

theorem ofJsonLoop_not_object (lexicalCast : String → Option Nat) (item : Json)
    (rest : List Json) (b : TransferBucket) (h : ∀ members, item ≠ .object members) :
    TransferBucket.ofJsonLoop lexicalCast (item :: rest) b = .error .BadFileFormat := by
  cases item with
  | object members => exact absurd rfl (h members)
  | _ => simp [TransferBucket.ofJsonLoop, Json.type]

theorem ofJsonLoop_outcome (lexicalCast : String → Option Nat) (items : List Json) :
    ∀ b : TransferBucket,
      ((∀ item ∈ items, isChunkElement lexicalCast item) ∧
        ∃ b', TransferBucket.ofJsonLoop lexicalCast items b = .ok b') ∨
      ((¬ ∀ item ∈ items, isChunkElement lexicalCast item) ∧
        TransferBucket.ofJsonLoop lexicalCast items b = .error .BadFileFormat) := by
  induction items with
  | nil => intro b; left; exact ⟨by simp, b, rfl⟩
  | cons item rest ih =>
    intro b
    by_cases hobj : ∃ members, item = .object members
    · obtain ⟨members, rfl⟩ := hobj
      rcases ofJsonLoop_object lexicalCast members rest b with
        ⟨id, offset, size, hid, hoffset, hsize, heq⟩ | ⟨hno, heq⟩
      · cases ho : lexicalCast offset with
        | none =>
          right
          rw [heq, ho]
          refine ⟨fun hall => ?_, rfl⟩
          obtain ⟨m, i, o, s, hm, _, h2, _, h4, _⟩ := hall _ (List.mem_cons_self _ _)
          cases hm
          rw [hoffset] at h2
          cases h2
          rw [ho] at h4
          cases h4
        | some o =>
          cases hs : lexicalCast size with
          | none =>
            right
            rw [heq, ho, hs]
            refine ⟨fun hall => ?_, rfl⟩
            obtain ⟨m, i, o, s, hm, _, _, h3, _, h5⟩ := hall _ (List.mem_cons_self _ _)
            cases hm
            rw [hsize] at h3
            cases h3
            rw [hs] at h5
            cases h5
          | some s =>
            have helem : isChunkElement lexicalCast (.object members) :=
              ⟨members, id, offset, size, rfl, hid, hoffset, hsize, by simp [ho], by simp [hs]⟩
            rw [heq, ho, hs]
            rcases ih { chunks := b.chunks ++ [⟨id, o, s⟩], totalSize := addSz b.totalSize s,
                        extensible := b.extensible } with ⟨hall, hok⟩ | ⟨hnot, herr⟩
            · left
              refine ⟨fun x hx => ?_, hok⟩
              rcases List.mem_cons.mp hx with rfl | hx
              · exact helem
              · exact hall x hx
            · right
              exact ⟨fun hall => hnot (fun x hx => hall x (List.mem_cons_of_mem _ hx)), herr⟩
      · right
        rw [heq]
        refine ⟨fun hall => ?_, rfl⟩
        obtain ⟨m, i, o, s, hm, h1, h2, h3, _, _⟩ := hall _ (List.mem_cons_self _ _)
        cases hm
        exact hno ⟨i, o, s, h1, h2, h3⟩
    · right
      rw [ofJsonLoop_not_object lexicalCast item rest b (fun m hm => hobj ⟨m, hm⟩)]
      refine ⟨fun hall => ?_, rfl⟩
      obtain ⟨m, _, _, _, hm, _⟩ := hall _ (List.mem_cons_self _ _)
      exact hobj ⟨m, hm⟩

theorem ofJson_info_outcome (lexicalCast : String → Option Nat) (j : Json) :
    (isInstanceElement lexicalCast j ∧ ∃ info, DicomInstanceInfo.ofJson lexicalCast j = .ok info) ∨
    (¬ isInstanceElement lexicalCast j ∧
      DicomInstanceInfo.ofJson lexicalCast j = .error .BadFileFormat) := by
  by_cases hobj : ∃ members, j = .object members
  · obtain ⟨members, rfl⟩ := hobj
    rcases ofJson_info_object lexicalCast members with
      ⟨id, size, md5, hid, hsize, hmd5, heq⟩ | ⟨hno, heq⟩
    · cases hs : lexicalCast size with
      | none =>
        right
        rw [heq, hs]
        refine ⟨fun ⟨m, i, s, d, hm, _, h2, _, h4⟩ => ?_, rfl⟩
        cases hm
        rw [hsize] at h2
        cases h2
        rw [hs] at h4
        cases h4
      | some n =>
        left
        rw [heq, hs]
        exact ⟨⟨members, id, size, md5, rfl, hid, hsize, hmd5, by simp [hs]⟩, _, rfl⟩
    · right
      refine ⟨fun ⟨m, i, s, d, hm, h1, h2, h3, _⟩ => ?_, heq⟩
      cases hm
      exact hno ⟨i, s, d, h1, h2, h3⟩
  · right
    refine ⟨fun ⟨m, _, _, _, hm, _⟩ => hobj ⟨m, hm⟩, ?_⟩
    cases j with
    | object members => exact absurd ⟨members, rfl⟩ hobj
    | _ => simp [DicomInstanceInfo.ofJson, Json.type]

theorem ofJson_bucket_outcome (lexicalCast : String → Option Nat) (j : Json) :
    ((∃ items, j = .array items ∧ ∀ item ∈ items, isChunkElement lexicalCast item) ∧
      ∃ b, TransferBucket.ofJson lexicalCast j = .ok b) ∨
    ((¬ ∃ items, j = .array items ∧ ∀ item ∈ items, isChunkElement lexicalCast item) ∧
      TransferBucket.ofJson lexicalCast j = .error .BadFileFormat) := by
  cases j with
  | array items =>
    have hj : TransferBucket.ofJson lexicalCast (.array items)
        = TransferBucket.ofJsonLoop lexicalCast items
            { chunks := [], totalSize := 0, extensible := false } := by
      simp [TransferBucket.ofJson, Json.type]
    rw [hj]
    rcases ofJsonLoop_outcome lexicalCast items
        { chunks := [], totalSize := 0, extensible := false } with ⟨hall, hok⟩ | ⟨hnot, herr⟩
    · left; exact ⟨⟨items, rfl, hall⟩, hok⟩
    · right
      refine ⟨fun ⟨items', hi, hall⟩ => ?_, herr⟩
      cases hi
      exact hnot hall
  | _ =>
    right
    exact ⟨fun ⟨_, hi, _⟩ => (by cases hi), by simp [TransferBucket.ofJson, Json.type]⟩

/-- The outcome of the constructors from JSON for an arbitrary parser.
Deserialising an instance descriptor raises bad-file-format if and
only if the value is not an object whose members `ID`, `Size` and `MD5` are
strings with a `Size` that the integer parser reads, and returns a descriptor
otherwise.  Deserialising a bucket raises bad-file-format if and only if the
value is not an array of objects whose members `ID`, `Offset` and `Size` are
strings with an `Offset` and a `Size` that the parser reads, and returns a
bucket otherwise.  In particular a `Size` or an `Offset` that is not of string
type, such as a JSON number, is rejected. -/
theorem deserialisers_reject_bad_format (lexicalCast : String → Option Nat) (j : Json) :
    (DicomInstanceInfo.ofJson lexicalCast j = .error .BadFileFormat
      ↔ ¬ isInstanceElement lexicalCast j) ∧
    ((∃ info, DicomInstanceInfo.ofJson lexicalCast j = .ok info)
      ↔ isInstanceElement lexicalCast j) ∧
    (TransferBucket.ofJson lexicalCast j = .error .BadFileFormat
      ↔ ¬ ∃ items, j = .array items ∧ ∀ item ∈ items, isChunkElement lexicalCast item) ∧
    ((∃ b, TransferBucket.ofJson lexicalCast j = .ok b)
      ↔ ∃ items, j = .array items ∧ ∀ item ∈ items, isChunkElement lexicalCast item) ∧
    (∀ members v, j = .object members → mapFind "Size" members = some v →
      v.type ≠ .stringValue →
      DicomInstanceInfo.ofJson lexicalCast j = .error .BadFileFormat) ∧
    (∀ items members v, j = .array items → .object members ∈ items →
      mapFind "Size" members = some v ∨ mapFind "Offset" members = some v →
      v.type ≠ .stringValue →
      TransferBucket.ofJson lexicalCast j = .error .BadFileFormat) := by
  have hi := ofJson_info_outcome lexicalCast j
  have hb := ofJson_bucket_outcome lexicalCast j
  have hi1 : DicomInstanceInfo.ofJson lexicalCast j = .error .BadFileFormat
      ↔ ¬ isInstanceElement lexicalCast j := by
    rcases hi with ⟨h1, info, h2⟩ | ⟨h1, h2⟩
    · rw [h2]; exact ⟨fun h => (by cases h), fun h => absurd h1 h⟩
    · exact ⟨fun _ => h1, fun _ => h2⟩
  have hb1 : TransferBucket.ofJson lexicalCast j = .error .BadFileFormat
      ↔ ¬ ∃ items, j = .array items ∧ ∀ item ∈ items, isChunkElement lexicalCast item := by
    rcases hb with ⟨h1, b, h2⟩ | ⟨h1, h2⟩
    · rw [h2]; exact ⟨fun h => (by cases h), fun h => absurd h1 h⟩
    · exact ⟨fun _ => h1, fun _ => h2⟩
  refine ⟨hi1, ?_, hb1, ?_, ?_, ?_⟩
  · rcases hi with ⟨h1, h2⟩ | ⟨h1, h2⟩
    · exact ⟨fun _ => h1, fun _ => h2⟩
    · rw [h2]; exact ⟨fun ⟨_, h⟩ => (by cases h), fun h => absurd h h1⟩
  · rcases hb with ⟨h1, h2⟩ | ⟨h1, h2⟩
    · exact ⟨fun _ => h1, fun _ => h2⟩
    · rw [h2]; exact ⟨fun ⟨_, h⟩ => (by cases h), fun h => absurd h h1⟩
  · intro members v hj hv hty
    apply hi1.mpr
    rintro ⟨m, _, size, _, hm, _, h2, _⟩
    rw [hj] at hm
    cases hm
    rw [hv] at h2
    cases h2
    exact hty rfl
  · intro items members v hj hmem hv hty
    apply hb1.mpr
    rintro ⟨items', hi', hall⟩
    rw [hj] at hi'
    cases hi'
    obtain ⟨m, _, offset, size, hm, _, h2, h3, _⟩ := hall _ hmem
    cases hm
    rcases hv with hv | hv
    · rw [hv] at h3; cases h3; exact hty rfl
    · rw [hv] at h2; cases h2; exact hty rfl

/-! ## The cache of source instances -/

theorem size_mod_eq : SIZE_MOD = 18446744073709551616 := by
  unfold SIZE_MOD; norm_num

theorem two_pow_32 : (2 : Nat) ^ 32 = 4294967296 := by norm_num

theorem mapFind_mapErase {α : Type} (k key : String) :
    ∀ (l : List (String × α)),
      mapFind k (mapErase key l) = if k = key then none else mapFind k l := by
  intro l
  induction l with
  | nil => simp [mapErase, mapFind]
  | cons e rest ih =>
    obtain ⟨k0, v0⟩ := e
    unfold mapErase at ih ⊢
    by_cases h0 : k0 = key
    · subst h0
      simp only [List.filter_cons, bne_self_eq_false, Bool.false_eq_true, if_false, ih]
      by_cases hk : k = k0
      · simp [hk]
      · have hk' : ¬ k0 = k := fun e => hk e.symm
        simp [hk, mapFind, hk']
    · have hb : (k0 != key) = true := by simp [h0]
      simp only [List.filter_cons, hb, if_true, mapFind, ih]
      by_cases hk : k0 = k
      · subst hk
        simp [h0]
      · simp [hk]

theorem mapErase_sorted {α : Type} (key : String) (l : List (String × α))
    (h : (l.map Prod.fst).Pairwise (fun a b => a.data < b.data)) :
    ((mapErase key l).map Prod.fst).Pairwise (fun a b => a.data < b.data) :=
  List.Pairwise.sublist (List.Sublist.map _ (List.filter_sublist _)) h

theorem mapFind_isSome_iff {α : Type} (k : String) :
    ∀ (l : List (String × α)), (mapFind k l).isSome ↔ k ∈ l.map Prod.fst := by
  intro l
  induction l with
  | nil => simp [mapFind]
  | cons e rest ih =>
    obtain ⟨k0, v0⟩ := e
    by_cases h : k0 = k
    · simp [mapFind, h]
    · have h' : ¬ k = k0 := fun e => h e.symm
      simp [mapFind, h, h', ih]

theorem cachedSize_congr (c1 c2 : List (String × SourceDicomInstance)) (id : String)
    (h : mapFind id c1 = mapFind id c2) : cachedSize c1 id = cachedSize c2 id := by
  simp [cachedSize, h]

theorem residency_congr (c1 c2 : List (String × SourceDicomInstance)) (ids : List String)
    (h : ∀ id ∈ ids, mapFind id c1 = mapFind id c2) : residency c1 ids = residency c2 ids := by
  unfold residency
  congr 1
  exact List.map_congr_left (fun id hid => cachedSize_congr c1 c2 id (h id hid))

theorem residency_cons (c : List (String × SourceDicomInstance)) (id : String)
    (ids : List String) : residency c (id :: ids) = cachedSize c id + residency c ids := by
  simp [residency]

theorem residency_perm (c : List (String × SourceDicomInstance)) (l1 l2 : List String)
    (h : l1.Perm l2) : residency c l1 = residency c l2 :=
  List.Perm.sum_eq (List.Perm.map _ h)

theorem Consistent.memorySize_lt (c : OrthancInstancesCache) (h : c.Consistent) :
    c.memorySize < SIZE_MOD - 2^32 + 2^32 ∧ c.memorySize + 2^32 ≤ SIZE_MOD := by
  obtain ⟨_, _, _, hmem, hres, hsz, hmax⟩ := h
  have hM := size_mod_eq
  have h32 := two_pow_32
  rcases hres with hres | hres
  · omega
  · cases hi : c.index with
    | nil => rw [hi] at hres; simp at hres
    | cons o rest =>
      rw [hi] at hres
      have hrest : rest = [] := by
        cases rest with
        | nil => rfl
        | cons _ _ => simp at hres
      rw [hi, hrest] at hmem
      have := hsz o
      simp [residency] at hmem
      omega

theorem RemoveOldest_spec (c : OrthancInstancesCache) (h : c.Consistent) (o : String)
    (rest : List String) (hi : c.index = o :: rest) :
    c.RemoveOldest.Consistent ∧ c.RemoveOldest.index = rest ∧
    (∀ id, mapFind id c.RemoveOldest.content = if id = o then none else mapFind id c.content) ∧
    c.RemoveOldest.memorySize = residency c.content rest ∧
    c.RemoveOldest.maxMemorySize = c.maxMemorySize := by
  have hlt := (Consistent.memorySize_lt c h).2
  obtain ⟨hnd, hsort, hids, hmem, hres, hsz, hmax⟩ := h
  have hM := size_mod_eq
  have h32 := two_pow_32
  have hsome : (mapFind o c.content).isSome := (hids o).mp (by rw [hi]; exact List.mem_cons_self _ _)
  obtain ⟨source, hfind⟩ := Option.isSome_iff_exists.mp hsome
  rw [hi] at hnd
  have hnotin : o ∉ rest := (List.nodup_cons.mp hnd).1
  have hrw : c.RemoveOldest = (⟨rest, mapErase o c.content,
      subSz c.memorySize source.info.size, c.maxMemorySize⟩ : OrthancInstancesCache) := by
    unfold OrthancInstancesCache.RemoveOldest
    rw [hi]
    simp only [hfind]
  have hcs : cachedSize c.content o = source.info.size := by simp [cachedSize, hfind]
  have hsplit : c.memorySize = source.info.size + residency c.content rest := by
    rw [hmem, hi, residency_cons, hcs]
  have hsub : subSz c.memorySize source.info.size = residency c.content rest := by
    rw [subSz_of_le (by omega) (by omega)]
    omega
  have hcongr : residency (mapErase o c.content) rest = residency c.content rest := by
    apply residency_congr
    intro id hid
    rw [mapFind_mapErase, if_neg]
    rintro rfl
    exact hnotin hid
  rw [hrw]
  refine ⟨⟨(List.nodup_cons.mp hnd).2, mapErase_sorted _ _ hsort, ?_, ?_, ?_, ?_, hmax⟩, rfl,
    fun id => mapFind_mapErase id o c.content, hsub, rfl⟩
  · intro id
    simp only [mapFind_mapErase]
    by_cases hid : id = o
    · subst hid
      simp [hnotin]
    · rw [if_neg hid, ← hids id, hi]
      simp [hid]
  · simp only
    rw [hsub, hcongr]
  · simp only
    rw [hsub]
    rcases hres with hres | hres
    · left; omega
    · rw [hi] at hres
      have hrest : rest = [] := by
        cases rest with
        | nil => rfl
        | cons _ _ => simp at hres
      left
      rw [hrest]
      simp [residency]
  · intro id
    simp only [cachedSize, mapFind_mapErase]
    by_cases hid : id = o
    · simp [hid]
    · have := hsz id
      simp only [cachedSize] at this
      simpa [hid] using this

theorem iterate_RemoveOldest_spec (c : OrthancInstancesCache) (h : c.Consistent) :
    ∀ k, k ≤ c.index.length →
      (OrthancInstancesCache.RemoveOldest^[k] c).Consistent ∧
      (OrthancInstancesCache.RemoveOldest^[k] c).index = c.index.drop k ∧
      (∀ id, mapFind id (OrthancInstancesCache.RemoveOldest^[k] c).content
        = if id ∈ c.index.drop k then mapFind id c.content else none) ∧
      (OrthancInstancesCache.RemoveOldest^[k] c).memorySize
        = residency c.content (c.index.drop k) ∧
      (OrthancInstancesCache.RemoveOldest^[k] c).maxMemorySize = c.maxMemorySize := by
  intro k
  induction k with
  | zero =>
    intro _
    refine ⟨h, rfl, ?_, ?_, rfl⟩
    · intro id
      simp only [Function.iterate_zero, id_eq, List.drop_zero]
      by_cases hid : id ∈ c.index
      · simp [hid]
      · have := mt (h.2.2.1 id).mpr hid
        simp only [Option.not_isSome_iff_eq_none] at this
        simp [hid, this]
    · simpa using h.2.2.2.1
  | succ k ih =>
    intro hk
    obtain ⟨hc, hidx, hfind, hmem, hmax⟩ := ih (by omega)
    have hdrop : c.index.drop k = c.index[k] :: c.index.drop (k + 1) :=
      List.drop_eq_getElem_cons (by omega)
    rw [hdrop] at hidx
    obtain ⟨hc', hidx', hfind', hmem', hmax'⟩ :=
      RemoveOldest_spec _ hc _ _ hidx
    rw [Function.iterate_succ_apply']
    have hnd : (c.index.drop k).Nodup := List.Nodup.sublist (List.drop_sublist _ _) h.1
    rw [hdrop] at hnd
    have hnotin := (List.nodup_cons.mp hnd).1
    have hfind2 : ∀ id, mapFind id
        (OrthancInstancesCache.RemoveOldest (OrthancInstancesCache.RemoveOldest^[k] c)).content
          = if id ∈ c.index.drop (k + 1) then mapFind id c.content else none := by
      intro id
      have hmemdrop : id ∈ c.index.drop k ↔ id = c.index[k] ∨ id ∈ c.index.drop (k + 1) := by
        rw [hdrop]; exact List.mem_cons
      rw [hfind', hfind]
      by_cases hid : id = c.index[k]
      · rw [if_pos hid, if_neg]
        rw [hid]
        exact hnotin
      · rw [if_neg hid]
        simp only [hmemdrop, hid, false_or]
    refine ⟨hc', hidx', hfind2, ?_, by rw [hmax', hmax]⟩
    rw [hmem']
    apply residency_congr
    intro id hid
    rw [hfind, hdrop, if_pos (List.mem_cons_of_mem _ hid)]

theorem removeWhile_eq_iterate (test : OrthancInstancesCache → Bool) :
    ∀ (fuel : Nat) (c : OrthancInstancesCache),
      ∃ k, k ≤ fuel ∧
        OrthancInstancesCache.removeWhile test fuel c = OrthancInstancesCache.RemoveOldest^[k] c ∧
        (∀ j, j < k → test (OrthancInstancesCache.RemoveOldest^[j] c) = true) ∧
        (k = fuel ∨ test (OrthancInstancesCache.RemoveOldest^[k] c) = false) := by
  intro fuel
  induction fuel with
  | zero => intro c; exact ⟨0, le_refl _, rfl, fun j hj => absurd hj (by omega), Or.inl rfl⟩
  | succ fuel ih =>
    intro c
    by_cases ht : test c = true
    · obtain ⟨k, hk, heq, hall, hend⟩ := ih c.RemoveOldest
      refine ⟨k + 1, by omega, ?_, ?_, ?_⟩
      · simp only [OrthancInstancesCache.removeWhile, ht, if_true, heq,
          Function.iterate_succ_apply]
      · intro j hj
        cases j with
        | zero => exact ht
        | succ j =>
          rw [Function.iterate_succ_apply]
          exact hall j (by omega)
      · rcases hend with hend | hend
        · left; omega
        · right
          rw [Function.iterate_succ_apply]
          exact hend
    · refine ⟨0, by omega, ?_, fun j hj => absurd hj (by omega), Or.inr ?_⟩
      · simp [OrthancInstancesCache.removeWhile, ht]
      · simpa using ht

theorem residency_append (c : List (String × SourceDicomInstance)) (l1 l2 : List String) :
    residency c (l1 ++ l2) = residency c l1 + residency c l2 := by
  simp [residency]

theorem MakeMostRecent_perm (id : String) (index : List String) (h : id ∈ index) :
    (MakeMostRecent id index).Perm index := by
  unfold MakeMostRecent
  exact (List.perm_append_comm.trans (List.perm_cons_erase h).symm)

theorem MakeMostRecent_of_not_mem (id : String) (index : List String) (h : id ∉ index) :
    MakeMostRecent id index = index ++ [id] := by
  unfold MakeMostRecent
  rw [List.erase_of_not_mem h]

theorem Consistent_of_perm (c : OrthancInstancesCache) (h : c.Consistent) (index : List String)
    (hp : index.Perm c.index) :
    OrthancInstancesCache.Consistent
      ⟨index, c.content, c.memorySize, c.maxMemorySize⟩ := by
  obtain ⟨hnd, hsort, hids, hmem, hres, hsz, hmax⟩ := h
  refine ⟨hp.nodup_iff.mpr hnd, hsort, fun id => ?_, ?_, ?_, hsz, hmax⟩
  · rw [← hids id]; exact hp.mem_iff
  · simp only
    rw [hmem]
    exact (residency_perm _ _ _ hp).symm
  · rcases hres with hres | hres
    · exact Or.inl hres
    · right
      simp only
      rw [hp.length_eq]
      exact hres

theorem contains_iff (id : String) (index : List String) :
    index.contains id = true ↔ id ∈ index := by
  simp

theorem Store_hit (c : OrthancInstancesCache) (instanceId : String)
    (source : SourceDicomInstance) (h : instanceId ∈ c.index) :
    c.Store instanceId source
      = ⟨MakeMostRecent instanceId c.index, c.content, c.memorySize, c.maxMemorySize⟩ := by
  unfold OrthancInstancesCache.Store
  rw [if_pos ((contains_iff _ _).mpr h)]

theorem access_hit (c : OrthancInstancesCache) (instanceId : String) (h : instanceId ∈ c.index) :
    c.access instanceId
      = (⟨MakeMostRecent instanceId c.index, c.content, c.memorySize, c.maxMemorySize⟩,
          mapFind instanceId c.content) := by
  unfold OrthancInstancesCache.access
  rw [if_pos ((contains_iff _ _).mpr h)]

theorem access_miss (c : OrthancInstancesCache) (instanceId : String) (h : instanceId ∉ c.index) :
    c.access instanceId = (c, none) := by
  unfold OrthancInstancesCache.access
  rw [if_neg (fun hc => h ((contains_iff _ _).mp hc))]

theorem Store_miss_spec (c : OrthancInstancesCache) (h : c.Consistent) (instanceId : String)
    (source : SourceDicomInstance) (hs : source.info.size < 2^32) (hid : instanceId ∉ c.index) :
    ∃ k, k ≤ c.index.length ∧
      (∀ j, j < k → residency c.content (c.index.drop j) + source.info.size > c.maxMemorySize) ∧
      (k = c.index.length ∨
        residency c.content (c.index.drop k) + source.info.size ≤ c.maxMemorySize) ∧
      (c.Store instanceId source).index = c.index.drop k ++ [instanceId] ∧
      (∀ id, mapFind id (c.Store instanceId source).content
        = if instanceId = id then some source
          else if id ∈ c.index.drop k then mapFind id c.content else none) ∧
      (c.Store instanceId source).memorySize
        = residency c.content (c.index.drop k) + source.info.size ∧
      (c.Store instanceId source).maxMemorySize = c.maxMemorySize ∧
      (c.Store instanceId source).Consistent := by
  have hM := size_mod_eq
  have h32 := two_pow_32
  obtain ⟨k, hk, heq, hall, hend⟩ :=
    removeWhile_eq_iterate (OrthancInstancesCache.storeTest source.info.size) c.index.length c
  have hstore : c.Store instanceId source
      = ⟨MakeMostRecent instanceId (OrthancInstancesCache.RemoveOldest^[k] c).index,
          mapInsert instanceId source (OrthancInstancesCache.RemoveOldest^[k] c).content,
          addSz (OrthancInstancesCache.RemoveOldest^[k] c).memorySize source.info.size,
          (OrthancInstancesCache.RemoveOldest^[k] c).maxMemorySize⟩ := by
    unfold OrthancInstancesCache.Store
    rw [if_neg (fun hc => hid ((contains_iff _ _).mp hc))]
    simp only [heq]
  obtain ⟨hck, hidx, hfind, hmem, hmax⟩ := iterate_RemoveOldest_spec c h k hk
  have hltk := (Consistent.memorySize_lt _ hck).2
  have hnotin : instanceId ∉ c.index.drop k := fun hm => hid (List.mem_of_mem_drop hm)
  have hadd : addSz (OrthancInstancesCache.RemoveOldest^[k] c).memorySize source.info.size
      = residency c.content (c.index.drop k) + source.info.size := by
    rw [addSz_of_lt (by omega), hmem]
  rw [hstore, hidx, MakeMostRecent_of_not_mem _ _ hnotin, hadd, hmax]
  have hfind2 : ∀ id, mapFind id
      (mapInsert instanceId source (OrthancInstancesCache.RemoveOldest^[k] c).content)
        = if instanceId = id then some source
          else if id ∈ c.index.drop k then mapFind id c.content else none := by
    intro id
    rw [mapFind_mapInsert, hfind]
  have hendk : k = c.index.length ∨
      residency c.content (c.index.drop k) + source.info.size ≤ c.maxMemorySize := by
    rcases hend with hend | hend
    · exact Or.inl hend
    · simp only [OrthancInstancesCache.storeTest, hidx, hmax, Bool.and_eq_false_iff,
        Bool.not_eq_false', decide_eq_false_iff_not, List.isEmpty_iff] at hend
      rcases hend with hend | hend
      · left
        have := congrArg List.length hend
        simp at this
        omega
      · right
        rw [addSz_of_lt (by omega), hmem] at hend
        omega
  refine ⟨k, hk, ?_, hendk, rfl, hfind2, rfl, rfl, ?_⟩
  · intro j hj
    have ht := hall j hj
    obtain ⟨hcj, hidxj, _, hmemj, hmaxj⟩ := iterate_RemoveOldest_spec c h j (by omega)
    have hltj := (Consistent.memorySize_lt _ hcj).2
    simp only [OrthancInstancesCache.storeTest, hmaxj, Bool.and_eq_true, decide_eq_true_eq] at ht
    rw [addSz_of_lt (by omega), hmemj] at ht
    exact ht.2
  · obtain ⟨hnd, hsort, hids, hmemk, hres, hsz, hmaxk⟩ := hck
    rw [hidx] at hnd hids
    refine ⟨?_, mapInsert_sorted _ _ _ hsort, ?_, ?_, ?_, ?_, ?_⟩
    · exact List.nodup_append.mpr ⟨hnd, List.nodup_singleton _, by
        intro a ha hb
        simp only [List.mem_singleton] at hb
        subst hb
        exact hnotin ha⟩
    · intro id
      simp only [mapFind_mapInsert, List.mem_append, List.mem_singleton]
      by_cases hi : instanceId = id
      · simp [hi]
      · have hi' : ¬ id = instanceId := fun e => hi e.symm
        simp only [hi, hi', or_false, if_false]
        exact hids id
    · simp only [residency_append]
      have h1 : residency (mapInsert instanceId source
            (OrthancInstancesCache.RemoveOldest^[k] c).content) (c.index.drop k)
          = residency c.content (c.index.drop k) := by
        apply residency_congr
        intro id hi
        rw [hfind2, if_neg (by rintro rfl; exact hnotin hi), if_pos hi]
      have h2 : residency (mapInsert instanceId source
            (OrthancInstancesCache.RemoveOldest^[k] c).content) [instanceId]
          = source.info.size := by
        simp [residency, cachedSize, hfind2]
      rw [h1, h2]
    · rcases hendk with hendk | hendk
      · right
        simp [hendk]
      · left
        simp only
        rw [hmax] at hmaxk
        omega
    · intro id
      simp only [cachedSize, mapFind_mapInsert]
      by_cases hi : instanceId = id
      · simp only [hi, if_true]
        omega
      · simp only [hi, if_false]
        exact hsz id
    · simp only
      rw [← hmax]
      exact hmaxk

theorem SetMaxMemorySize_spec (c : OrthancInstancesCache) (h : c.Consistent) (size : Nat)
    (hpos : 0 < size) (hsize : size + 2^32 ≤ SIZE_MOD) :
    ∃ k, k ≤ c.index.length ∧
      (∀ j, j < k → residency c.content (c.index.drop j) > size) ∧
      residency c.content (c.index.drop k) ≤ size ∧
      (c.SetMaxMemorySize size).2 = none ∧
      (c.SetMaxMemorySize size).1.index = c.index.drop k ∧
      (∀ id, mapFind id (c.SetMaxMemorySize size).1.content
        = if id ∈ c.index.drop k then mapFind id c.content else none) ∧
      (c.SetMaxMemorySize size).1.memorySize = residency c.content (c.index.drop k) ∧
      (c.SetMaxMemorySize size).1.maxMemorySize = size ∧
      (c.SetMaxMemorySize size).1.Consistent := by
  obtain ⟨k, hk, heq, hall, hend⟩ :=
    removeWhile_eq_iterate (fun c => decide (c.memorySize > size)) c.index.length c
  have hset : c.SetMaxMemorySize size
      = (⟨(OrthancInstancesCache.RemoveOldest^[k] c).index,
          (OrthancInstancesCache.RemoveOldest^[k] c).content,
          (OrthancInstancesCache.RemoveOldest^[k] c).memorySize, size⟩, none) := by
    unfold OrthancInstancesCache.SetMaxMemorySize
    rw [if_neg (by omega)]
    simp only [heq]
  obtain ⟨hck, hidx, hfind, hmem, hmax⟩ := iterate_RemoveOldest_spec c h k hk
  have hfit : residency c.content (c.index.drop k) ≤ size := by
    rcases hend with hend | hend
    · rw [hend]
      simp [residency]
    · simp only [decide_eq_false_iff_not, hmem] at hend
      omega
  rw [hset]
  refine ⟨k, hk, ?_, hfit, rfl, hidx, hfind, hmem, rfl, ?_⟩
  · intro j hj
    have ht := hall j hj
    obtain ⟨_, _, _, hmemj, _⟩ := iterate_RemoveOldest_spec c h j (by omega)
    simp only [decide_eq_true_eq, hmemj] at ht
    exact ht
  · obtain ⟨hnd, hsort, hids, hmemk, hres, hsz, hmaxk⟩ := hck
    exact ⟨hnd, hsort, hids, hmemk, Or.inl (by simp only; rw [hmem]; exact hfit), hsz, hsize⟩

theorem initial_consistent : OrthancInstancesCache.Consistent {} := by
  refine ⟨List.nodup_nil, List.Pairwise.nil, fun id => by simp [mapFind], rfl,
    Or.inl (Nat.zero_le _), fun id => by simp [cachedSize, mapFind], ?_⟩
  have hM := size_mod_eq
  have h32 := two_pow_32
  show 512 * MB + 2 ^ 32 ≤ SIZE_MOD
  unfold MB
  omega

theorem step_consistent (c : OrthancInstancesCache) (h : c.Consistent) (s : CacheStep)
    (hs : s.representable) : (c.step s).Consistent := by
  cases s with
  | access id =>
    simp only [OrthancInstancesCache.step]
    by_cases hid : id ∈ c.index
    · rw [access_hit c id hid]
      exact Consistent_of_perm c h _ (MakeMostRecent_perm id c.index hid)
    · rw [access_miss c id hid]
      exact h
  | store id source =>
    simp only [OrthancInstancesCache.step]
    by_cases hid : id ∈ c.index
    · rw [Store_hit c id source hid]
      exact Consistent_of_perm c h _ (MakeMostRecent_perm id c.index hid)
    · obtain ⟨_, _, _, _, _, _, _, _, hc⟩ := Store_miss_spec c h id source hs hid
      exact hc
  | setMaxMemorySize size =>
    simp only [OrthancInstancesCache.step]
    by_cases hpos : 0 < size
    · obtain ⟨_, _, _, _, _, _, _, _, _, hc⟩ := SetMaxMemorySize_spec c h size hpos hs
      exact hc
    · have h0 : size ≤ 0 := by omega
      simp only [OrthancInstancesCache.SetMaxMemorySize, h0, if_true]
      exact h

theorem run_consistent (steps : List CacheStep) :
    ∀ (c : OrthancInstancesCache), c.Consistent → (∀ s ∈ steps, s.representable) →
      (c.run steps).Consistent := by
  induction steps with
  | nil => intro c h _; exact h
  | cons s rest ih =>
    intro c h hrep
    exact ih (c.step s) (step_consistent c h s (hrep s (List.mem_cons_self _ _)))
      (fun x hx => hrep x (List.mem_cons_of_mem _ hx))

theorem foldl_addSz_content (content : List (String × SourceDicomInstance)) :
    ∀ acc, acc < SIZE_MOD →
      content.foldl (fun s e => addSz s e.2.info.size) acc
        = (acc + (content.map (fun e => e.2.info.size)).sum) % SIZE_MOD := by
  induction content with
  | nil => intro acc h; simp [Nat.mod_eq_of_lt h]
  | cons e rest ih =>
    intro acc _
    have hlt : addSz acc e.2.info.size < SIZE_MOD :=
      Nat.mod_lt _ (by unfold SIZE_MOD; norm_num)
    rw [List.foldl_cons, ih _ hlt]
    simp only [addSz, List.map_cons, List.sum_cons]
    rw [Nat.add_mod, Nat.mod_mod, ← Nat.add_mod, Nat.add_assoc]

theorem Consistent.facts (c : OrthancInstancesCache) (h : c.Consistent) :
    (c.content.map Prod.fst).Perm c.index ∧
    c.memorySize = (c.content.map (fun e => e.2.info.size)).sum := by
  obtain ⟨hnd, hsort, hids, hmem, hres, hsz, hmax⟩ := h
  have hperm : (c.content.map Prod.fst).Perm c.index := by
    rw [List.perm_ext_iff_of_nodup (keys_nodup _ hsort) hnd]
    intro id
    rw [hids id, mapFind_isSome_iff]
  refine ⟨hperm, ?_⟩
  rw [hmem, ← residency_perm _ _ _ hperm]
  unfold residency
  rw [List.map_map]
  congr 1
  apply List.map_congr_left
  intro e he
  simp only [Function.comp, cachedSize]
  rw [mapFind_of_mem c.content e.1 e.2 hsort he]

theorem CheckInvariants_of_Consistent (c : OrthancInstancesCache) (h : c.Consistent) :
    c.CheckInvariants := by
  obtain ⟨hperm, hsum⟩ := Consistent.facts c h
  have hlt := (Consistent.memorySize_lt c h).2
  have hM := size_mod_eq
  have h32 := two_pow_32
  have hlen : c.content.length = c.index.length := by
    have := hperm.length_eq
    simpa using this
  refine ⟨hlen, ?_, ?_, ?_⟩
  · intro e he
    exact hperm.mem_iff.mp (List.mem_map.mpr ⟨e, he, rfl⟩)
  · rw [foldl_addSz_content _ 0 (by omega), Nat.zero_add, ← hsum, Nat.mod_eq_of_lt (by omega)]
  · intro hgt
    have h1 : c.index.length = 1 := by
      rcases h.2.2.2.2.1 with hres | hres
      · omega
      · exact hres
    refine ⟨h1, by omega, ?_⟩
    cases hc : c.content with
    | nil => rw [hc] at hlen; simp at hlen; omega
    | cons e rest =>
      have hrest : rest = [] := by
        cases rest with
        | nil => rfl
        | cons _ _ => rw [hc] at hlen; simp at hlen; omega
      refine ⟨e, rfl, ?_⟩
      rw [hsum, hc, hrest]
      simp

/-- C17. After construction and after every step taken under the mutex of the
cache (the lookup of `GetInstanceInfo` or `GetChunk`, their `Store`,
`SetMaxMemorySize`), in any order, the assertions of `CheckInvariants` hold:
the accounted memory size is the sum of the sizes of the cached instances,
the index and the map hold the same identifiers, and either the accounted
size is at most the limit or the cache holds exactly one entry.  The sizes are
those of plugin memory buffers (below `2^32`) and the limits are at most
`2^64 - 2^32`, so that no counter wraps around. -/
theorem cache_invariants (steps : List CacheStep) (hrep : ∀ s ∈ steps, s.representable) :
    (OrthancInstancesCache.run {} steps).CheckInvariants ∧
    (OrthancInstancesCache.run {} steps).memorySize
      = ((OrthancInstancesCache.run {} steps).content.map (fun e => e.2.info.size)).sum ∧
    (∀ id, id ∈ (OrthancInstancesCache.run {} steps).index
      ↔ id ∈ (OrthancInstancesCache.run {} steps).content.map Prod.fst) ∧
    (OrthancInstancesCache.run {} steps).index.Nodup ∧
    ((OrthancInstancesCache.run {} steps).memorySize
        ≤ (OrthancInstancesCache.run {} steps).maxMemorySize ∨
      (OrthancInstancesCache.run {} steps).content.length = 1) := by
  have hc := run_consistent steps {} initial_consistent hrep
  obtain ⟨hperm, hsum⟩ := Consistent.facts _ hc
  refine ⟨CheckInvariants_of_Consistent _ hc, hsum, fun id => hperm.mem_iff.symm, hc.1, ?_⟩
  rcases hc.2.2.2.2.1 with hres | hres
  · exact Or.inl hres
  · right
    have := hperm.length_eq
    simp only [List.length_map] at this
    omega

theorem stepsOfExample_representable : ∀ s ∈ stepsOfExample, s.representable := by
  intro s hs
  simp only [stepsOfExample, List.mem_cons, List.mem_singleton, List.not_mem_nil, or_false] at hs
  rcases hs with rfl | rfl | rfl
  · show 25 + 2 ^ 32 ≤ SIZE_MOD
    unfold SIZE_MOD; norm_num
  · show (10 : Nat) < 2 ^ 32
    norm_num
  · show (10 : Nat) < 2 ^ 32
    norm_num

/-- Witness of C17: the limit is set to 25 bytes and two instances of 10
bytes are stored. -/
theorem cache_invariants_witness :
    (OrthancInstancesCache.run {} stepsOfExample).CheckInvariants ∧
    (OrthancInstancesCache.run {} stepsOfExample).index = ["a", "b"] ∧
    (OrthancInstancesCache.run {} stepsOfExample).memorySize = 20 :=
  ⟨(cache_invariants stepsOfExample stepsOfExample_representable).1, rfl, rfl⟩

/-! ## `SetMaxMemorySize` -/

/-- Counterexample to C18: the cache holds the single instance `a` of 10
bytes; `SetMaxMemorySize(5)` raises nothing and evicts it, although it is a
single entry larger than the new limit. -/
theorem setMaxMemorySize_evicts_single_oversized_entry :
    (OrthancInstancesCache.Store {} "a" (sourceOfSize "a" 10)).index = ["a"] ∧
    (OrthancInstancesCache.Store {} "a" (sourceOfSize "a" 10)).memorySize = 10 ∧
    ((OrthancInstancesCache.Store {} "a" (sourceOfSize "a" 10)).SetMaxMemorySize 5).2 = none ∧
    ((OrthancInstancesCache.Store {} "a" (sourceOfSize "a" 10)).SetMaxMemorySize 5).1.index = [] ∧
    ((OrthancInstancesCache.Store {} "a" (sourceOfSize "a" 10)).SetMaxMemorySize 5).1.content.length
      = 0 ∧
    ((OrthancInstancesCache.Store {} "a" (sourceOfSize "a" 10)).SetMaxMemorySize 5).1.memorySize
      = 0 :=
  ⟨rfl, rfl, rfl, rfl, rfl, rfl⟩

/-- C18, amended. On every cache reached from the empty cache,
`SetMaxMemorySize(0)` raises parameter-out-of-range and leaves the cache
unchanged; `SetMaxMemorySize(newMax)` with `newMax > 0` raises nothing, sets
the limit to `newMax` and evicts the shortest run of least recently used
entries after which the residency is at most `newMax`: the `k` oldest entries
go, every shorter run leaves a residency above `newMax`, the other entries
stay in the same order, and no entry is spared, so that the residency is at
most `newMax` afterwards. -/
theorem setMaxMemorySize_evicts_until_fit (steps : List CacheStep)
    (hrep : ∀ s ∈ steps, s.representable) (newMax : Nat) (hmax : newMax + 2^32 ≤ SIZE_MOD) :
    (newMax = 0 → (OrthancInstancesCache.run {} steps).SetMaxMemorySize newMax
      = (OrthancInstancesCache.run {} steps, some .ParameterOutOfRange)) ∧
    (0 < newMax → ∃ k, k ≤ (OrthancInstancesCache.run {} steps).index.length ∧
      (∀ j, j < k → residency (OrthancInstancesCache.run {} steps).content
        ((OrthancInstancesCache.run {} steps).index.drop j) > newMax) ∧
      residency (OrthancInstancesCache.run {} steps).content
        ((OrthancInstancesCache.run {} steps).index.drop k) ≤ newMax ∧
      ((OrthancInstancesCache.run {} steps).SetMaxMemorySize newMax).2 = none ∧
      ((OrthancInstancesCache.run {} steps).SetMaxMemorySize newMax).1.index
        = (OrthancInstancesCache.run {} steps).index.drop k ∧
      (∀ id, mapFind id ((OrthancInstancesCache.run {} steps).SetMaxMemorySize newMax).1.content
        = if id ∈ (OrthancInstancesCache.run {} steps).index.drop k
          then mapFind id (OrthancInstancesCache.run {} steps).content else none) ∧
      ((OrthancInstancesCache.run {} steps).SetMaxMemorySize newMax).1.memorySize
        = residency (OrthancInstancesCache.run {} steps).content
            ((OrthancInstancesCache.run {} steps).index.drop k) ∧
      ((OrthancInstancesCache.run {} steps).SetMaxMemorySize newMax).1.memorySize ≤ newMax ∧
      ((OrthancInstancesCache.run {} steps).SetMaxMemorySize newMax).1.maxMemorySize = newMax) := by
  have hc := run_consistent steps {} initial_consistent hrep
  constructor
  · intro h0
    simp [OrthancInstancesCache.SetMaxMemorySize, h0]
  · intro hpos
    obtain ⟨k, hk, hall, hfit, herr, hidx, hfind, hmem, hmx, _⟩ :=
      SetMaxMemorySize_spec _ hc newMax hpos hmax
    exact ⟨k, hk, hall, hfit, herr, hidx, hfind, hmem, by rw [hmem]; exact hfit, hmx⟩

/-- Witness of the amended C18: the cache of the examples, which holds `a`
and `b`, 10 bytes each, and the new limit 15. -/
theorem setMaxMemorySize_evicts_until_fit_witness :
    ∃ k, k ≤ (OrthancInstancesCache.run {} stepsOfExample).index.length ∧
      (∀ j, j < k → residency (OrthancInstancesCache.run {} stepsOfExample).content
        ((OrthancInstancesCache.run {} stepsOfExample).index.drop j) > 15) ∧
      residency (OrthancInstancesCache.run {} stepsOfExample).content
        ((OrthancInstancesCache.run {} stepsOfExample).index.drop k) ≤ 15 ∧
      ((OrthancInstancesCache.run {} stepsOfExample).SetMaxMemorySize 15).2 = none ∧
      ((OrthancInstancesCache.run {} stepsOfExample).SetMaxMemorySize 15).1.index
        = (OrthancInstancesCache.run {} stepsOfExample).index.drop k ∧
      (∀ id, mapFind id ((OrthancInstancesCache.run {} stepsOfExample).SetMaxMemorySize 15).1.content
        = if id ∈ (OrthancInstancesCache.run {} stepsOfExample).index.drop k
          then mapFind id (OrthancInstancesCache.run {} stepsOfExample).content else none) ∧
      ((OrthancInstancesCache.run {} stepsOfExample).SetMaxMemorySize 15).1.memorySize
        = residency (OrthancInstancesCache.run {} stepsOfExample).content
            ((OrthancInstancesCache.run {} stepsOfExample).index.drop k) ∧
      ((OrthancInstancesCache.run {} stepsOfExample).SetMaxMemorySize 15).1.memorySize ≤ 15 ∧
      ((OrthancInstancesCache.run {} stepsOfExample).SetMaxMemorySize 15).1.maxMemorySize = 15 :=
  (setMaxMemorySize_evicts_until_fit stepsOfExample stepsOfExample_representable 15
    (by unfold SIZE_MOD; norm_num)).2 (by decide)

/-! ## `Store` and the lookups -/

/-- C19. On every cache reached from the empty cache, storing an instance of
`s` bytes whose identifier is not cached evicts the `k` least recently used
entries, where `k` is the least number for which the cache is empty or the
residency plus `s` is at most the limit, keeps the others in order, and admits
the new entry as the most recent one, whatever `s` is.  A lookup that finds
the identifier, by `GetInstanceInfo` or `GetChunk`, makes the entry the most
recent one and changes nothing else.  `Store` on an identifier that is cached
drops the newcomer, keeps the map and the accounted size, and makes the
existing entry the most recent one. -/
theorem store_evicts_least_recently_used (steps : List CacheStep)
    (hrep : ∀ s ∈ steps, s.representable) (instanceId : String) (source : SourceDicomInstance)
    (hs : source.info.size < 2^32) :
    (instanceId ∉ (OrthancInstancesCache.run {} steps).index →
      ∃ k, k ≤ (OrthancInstancesCache.run {} steps).index.length ∧
        (∀ j, j < k → residency (OrthancInstancesCache.run {} steps).content
            ((OrthancInstancesCache.run {} steps).index.drop j) + source.info.size
          > (OrthancInstancesCache.run {} steps).maxMemorySize) ∧
        (k = (OrthancInstancesCache.run {} steps).index.length ∨
          residency (OrthancInstancesCache.run {} steps).content
              ((OrthancInstancesCache.run {} steps).index.drop k) + source.info.size
            ≤ (OrthancInstancesCache.run {} steps).maxMemorySize) ∧
        ((OrthancInstancesCache.run {} steps).Store instanceId source).index
          = (OrthancInstancesCache.run {} steps).index.drop k ++ [instanceId] ∧
        (∀ id, mapFind id ((OrthancInstancesCache.run {} steps).Store instanceId source).content
          = if instanceId = id then some source
            else if id ∈ (OrthancInstancesCache.run {} steps).index.drop k
              then mapFind id (OrthancInstancesCache.run {} steps).content else none) ∧
        ((OrthancInstancesCache.run {} steps).Store instanceId source).memorySize
          = residency (OrthancInstancesCache.run {} steps).content
              ((OrthancInstancesCache.run {} steps).index.drop k) + source.info.size ∧
        ((OrthancInstancesCache.run {} steps).Store instanceId source).maxMemorySize
          = (OrthancInstancesCache.run {} steps).maxMemorySize) ∧
    (instanceId ∈ (OrthancInstancesCache.run {} steps).index →
      (OrthancInstancesCache.run {} steps).Store instanceId source
        = ⟨(OrthancInstancesCache.run {} steps).index.erase instanceId ++ [instanceId],
            (OrthancInstancesCache.run {} steps).content,
            (OrthancInstancesCache.run {} steps).memorySize,
            (OrthancInstancesCache.run {} steps).maxMemorySize⟩ ∧
      (∀ load, ((OrthancInstancesCache.run {} steps).GetInstanceInfo load instanceId).1
        = ⟨(OrthancInstancesCache.run {} steps).index.erase instanceId ++ [instanceId],
            (OrthancInstancesCache.run {} steps).content,
            (OrthancInstancesCache.run {} steps).memorySize,
            (OrthancInstancesCache.run {} steps).maxMemorySize⟩) ∧
      (∀ md5 load offset size,
        ((OrthancInstancesCache.run {} steps).GetChunk md5 load instanceId offset size).1
        = ⟨(OrthancInstancesCache.run {} steps).index.erase instanceId ++ [instanceId],
            (OrthancInstancesCache.run {} steps).content,
            (OrthancInstancesCache.run {} steps).memorySize,
            (OrthancInstancesCache.run {} steps).maxMemorySize⟩)) := by
  have hc := run_consistent steps {} initial_consistent hrep
  constructor
  · intro hid
    obtain ⟨k, hk, hall, hend, hidx, hfind, hmem, hmax, _⟩ :=
      Store_miss_spec _ hc instanceId source hs hid
    exact ⟨k, hk, hall, hend, hidx, hfind, hmem, hmax⟩
  · intro hid
    have hsome : (mapFind instanceId (OrthancInstancesCache.run {} steps).content).isSome :=
      (hc.2.2.1 instanceId).mp hid
    obtain ⟨cached, hcached⟩ := Option.isSome_iff_exists.mp hsome
    refine ⟨Store_hit _ instanceId source hid, ?_, ?_⟩
    · intro load
      simp only [OrthancInstancesCache.GetInstanceInfo, access_hit _ instanceId hid, hcached]
      rfl
    · intro md5 load offset size
      simp only [OrthancInstancesCache.GetChunk, access_hit _ instanceId hid, hcached]
      rfl

/-- Witness of C19: the cache of the examples holds `a` and `b`, 10 bytes
each, under a limit of 25 bytes; storing `c`, 10 bytes, evicts `a` only. -/
theorem store_evicts_least_recently_used_witness :
    ((OrthancInstancesCache.run {} stepsOfExample).Store "c" (sourceOfSize "c" 10)).index
      = ["b", "c"] ∧
    ((OrthancInstancesCache.run {} stepsOfExample).Store "b" (sourceOfSize "b" 10))
      = ⟨(OrthancInstancesCache.run {} stepsOfExample).index.erase "b" ++ ["b"],
          (OrthancInstancesCache.run {} stepsOfExample).content,
          (OrthancInstancesCache.run {} stepsOfExample).memorySize,
          (OrthancInstancesCache.run {} stepsOfExample).maxMemorySize⟩ :=
  ⟨rfl, ((store_evicts_least_recently_used stepsOfExample stepsOfExample_representable "b"
    (sourceOfSize "b" 10) (by show (10 : Nat) < 2 ^ 32; norm_num)).2 (by decide)).1⟩

/-! ## The queue of HTTP queries -/

theorem takeQuery_some (q : HttpQueriesQueue) (query : IHttpQuery) (q' : HttpQueriesQueue)
    (h : q.takeQuery = some (query, q')) :
    q.position < q.queries.length ∧ q.isFailure = false ∧
    q.queries[q.position]? = some query ∧
    q' = { q with position := q.position + 1 } := by
  unfold HttpQueriesQueue.takeQuery at h
  by_cases hc : (decide (q.position = q.queries.length) || q.isFailure) = true
  · rw [if_pos hc] at h
    cases h
  · rw [if_neg hc] at h
    simp only [Bool.or_eq_true, decide_eq_true_eq, not_or, Bool.not_eq_true] at hc
    cases hq : q.queries[q.position]? with
    | none => rw [hq] at h; cases h
    | some x =>
      rw [hq] at h
      simp only [Option.some.injEq, Prod.mk.injEq] at h
      have hlt : q.position < q.queries.length := by
        by_contra hge
        rw [List.getElem?_eq_none (by omega)] at hq
        cases hq
      exact ⟨hlt, hc.2, by rw [h.1], h.2.symm⟩

theorem takeQuery_none (q : HttpQueriesQueue)
    (h : q.position = q.queries.length ∨ q.isFailure = true) : q.takeQuery = none := by
  unfold HttpQueriesQueue.takeQuery
  rw [if_pos]
  simpa using h

theorem takeQuery_of (q : HttpQueriesQueue) (query : IHttpQuery)
    (hf : q.isFailure = false) (hq : q.queries[q.position]? = some query) :
    q.takeQuery = some (query, { q with position := q.position + 1 }) := by
  have hlt : q.position < q.queries.length := by
    by_contra hge
    rw [List.getElem?_eq_none (by omega)] at hq
    cases hq
  unfold HttpQueriesQueue.takeQuery
  rw [if_neg, hq]
  simp only [Bool.or_eq_true, decide_eq_true_eq, not_or, Bool.not_eq_true]
  exact ⟨by omega, hf⟩

theorem step_invariant (n : Nat) (w : Workers) (s : WorkerStep)
    (h : w.queue.successQueries + w.inflight + w.dropped = w.queue.position ∧
      w.queue.position ≤ n ∧ w.queue.queries.length = n ∧
      (w.queue.isFailure = true → 1 ≤ w.dropped)) :
    (w.step s).queue.successQueries + (w.step s).inflight + (w.step s).dropped
        = (w.step s).queue.position ∧
    (w.step s).queue.position ≤ n ∧ (w.step s).queue.queries.length = n ∧
    ((w.step s).queue.isFailure = true → 1 ≤ (w.step s).dropped) ∧
    (w.step s).queue.queries = w.queue.queries ∧
    (w.step s).queue.maxRetries = w.queue.maxRetries ∧
    (w.queue.isFailure = true → (w.step s).queue.isFailure = true) ∧
    (w.queue.successQueries = n → w.step s = w) := by
  obtain ⟨h1, h2, h3, h4⟩ := h
  cases s with
  | take =>
    simp only [Workers.step]
    cases ht : w.queue.takeQuery with
    | none => exact ⟨h1, h2, h3, h4, rfl, rfl, fun h => h, fun _ => rfl⟩
    | some r =>
      obtain ⟨query, q'⟩ := r
      obtain ⟨hlt, hf, _, rfl⟩ := takeQuery_some _ _ _ ht
      refine ⟨by simp only; omega, by simp only; omega, h3, ?_, rfl, rfl, ?_, ?_⟩
      · intro hfail
        simp only at hfail
        rw [hf] at hfail
        cases hfail
      · intro hfail
        rw [hf] at hfail
        cases hfail
      · intro hs
        omega
  | success d u =>
    by_cases hi : w.inflight = 0
    · have hstep : w.step (.success d u) = w := by simp [Workers.step, hi]
      rw [hstep]
      exact ⟨h1, h2, h3, h4, rfl, rfl, fun h => h, fun _ => rfl⟩
    · have hstep : w.step (.success d u)
          = ⟨w.queue.recordSuccess d u, w.inflight - 1, w.dropped⟩ := by
        simp [Workers.step, hi]
      rw [hstep]
      exact ⟨by simp only [HttpQueriesQueue.recordSuccess]; omega, h2, h3, h4, rfl, rfl,
        fun h => h, fun hs => by omega⟩
  | failure =>
    by_cases hi : w.inflight = 0
    · have hstep : w.step .failure = w := by simp [Workers.step, hi]
      rw [hstep]
      exact ⟨h1, h2, h3, h4, rfl, rfl, fun h => h, fun _ => rfl⟩
    · have hstep : w.step .failure
          = ⟨w.queue.recordFailure, w.inflight - 1, w.dropped + 1⟩ := by
        simp [Workers.step, hi]
      rw [hstep]
      exact ⟨by simp only [HttpQueriesQueue.recordFailure]; omega, h2, h3,
        fun _ => by simp only; omega, rfl, rfl, fun _ => rfl, fun hs => by omega⟩
  | raise =>
    by_cases hi : w.inflight = 0
    · have hstep : w.step .raise = w := by simp [Workers.step, hi]
      rw [hstep]
      exact ⟨h1, h2, h3, h4, rfl, rfl, fun h => h, fun _ => rfl⟩
    · have hstep : w.step .raise = ⟨w.queue, w.inflight - 1, w.dropped + 1⟩ := by
        simp [Workers.step, hi]
      rw [hstep]
      exact ⟨by simp only; omega, h2, h3, fun hf => by have := h4 hf; simp only; omega,
        rfl, rfl, fun h => h, fun hs => by omega⟩

theorem run_invariant_workers (n : Nat) (steps : List WorkerStep) :
    ∀ (w : Workers),
      (w.queue.successQueries + w.inflight + w.dropped = w.queue.position ∧
        w.queue.position ≤ n ∧ w.queue.queries.length = n ∧
        (w.queue.isFailure = true → 1 ≤ w.dropped)) →
      ((w.run steps).queue.successQueries + (w.run steps).inflight + (w.run steps).dropped
          = (w.run steps).queue.position ∧
        (w.run steps).queue.position ≤ n ∧ (w.run steps).queue.queries.length = n ∧
        ((w.run steps).queue.isFailure = true → 1 ≤ (w.run steps).dropped)) ∧
      (w.run steps).queue.queries = w.queue.queries ∧
      (w.queue.isFailure = true → (w.run steps).queue.isFailure = true) ∧
      (w.queue.successQueries = n → w.run steps = w) := by
  induction steps with
  | nil => intro w h; exact ⟨h, rfl, fun h => h, fun _ => rfl⟩
  | cons s rest ih =>
    intro w h
    obtain ⟨s1, s2, s3, s4, s5, _, s7, s8⟩ := step_invariant n w s h
    obtain ⟨r1, r2, r3, r4⟩ := ih (w.step s) ⟨s1, s2, s3, s4⟩
    refine ⟨r1, by rw [← s5]; exact r2, fun hf => r3 (s7 hf), fun hs => ?_⟩
    show (w.step s).run rest = w
    have hw := s8 hs
    rw [hw] at r4 ⊢
    exact r4 hs

theorem run_append_workers (w : Workers) (steps more : List WorkerStep) :
    w.run (steps ++ more) = (w.run steps).run more := by
  simp [Workers.run, List.foldl_append]

/-- C20. In every state that the workers reach from a freshly built queue of
`n` requests, whatever the interleaving of the locked sections of
`ExecuteOneQuery`: `succeeded <= cursor <= n`; the status is `Success` exactly
when `succeeded = n`, `Failure` exactly when `failed` is set and
`succeeded < n`, and `Running` otherwise, so an empty queue is `Success` at
once; once `failed` is set it stays set and `succeeded` stays below `n`, so the
status is `Failure` for ever and never `Success`; and once the status is
`Success` no step changes the state, so it is never `Failure` afterwards. -/
theorem queue_status_invariants (queries : List IHttpQuery) (maxRetries : Nat)
    (steps : List WorkerStep) :
    (reachedBy queries maxRetries steps).queue.successQueries
      ≤ (reachedBy queries maxRetries steps).queue.position ∧
    (reachedBy queries maxRetries steps).queue.position ≤ queries.length ∧
    ((reachedBy queries maxRetries steps).queue.GetStatusInternal = .Success
      ↔ (reachedBy queries maxRetries steps).queue.successQueries = queries.length) ∧
    ((reachedBy queries maxRetries steps).queue.GetStatusInternal = .Failure
      ↔ (reachedBy queries maxRetries steps).queue.isFailure = true ∧
        (reachedBy queries maxRetries steps).queue.successQueries < queries.length) ∧
    ((reachedBy queries maxRetries steps).queue.GetStatusInternal = .Running
      ↔ (reachedBy queries maxRetries steps).queue.isFailure = false ∧
        (reachedBy queries maxRetries steps).queue.successQueries < queries.length) ∧
    (queries = [] → (queueOf queries maxRetries).GetStatusInternal = .Success) ∧
    ((reachedBy queries maxRetries steps).queue.isFailure = true →
      ∀ more, (reachedBy queries maxRetries (steps ++ more)).queue.isFailure = true ∧
        (reachedBy queries maxRetries (steps ++ more)).queue.successQueries < queries.length ∧
        (reachedBy queries maxRetries (steps ++ more)).queue.GetStatusInternal = .Failure) ∧
    ((reachedBy queries maxRetries steps).queue.GetStatusInternal = .Success →
      ∀ more, reachedBy queries maxRetries (steps ++ more)
        = reachedBy queries maxRetries steps) := by
  have hinit : ∀ l,
      ((reachedBy queries maxRetries l).queue.successQueries
          + (reachedBy queries maxRetries l).inflight + (reachedBy queries maxRetries l).dropped
          = (reachedBy queries maxRetries l).queue.position ∧
        (reachedBy queries maxRetries l).queue.position ≤ queries.length ∧
        (reachedBy queries maxRetries l).queue.queries.length = queries.length ∧
        ((reachedBy queries maxRetries l).queue.isFailure = true →
          1 ≤ (reachedBy queries maxRetries l).dropped)) := by
    intro l
    exact (run_invariant_workers queries.length l { queue := queueOf queries maxRetries }
      ⟨rfl, Nat.zero_le _, rfl, fun h => by simp [queueOf] at h⟩).1
  have hstatus : ∀ l,
      ((reachedBy queries maxRetries l).queue.GetStatusInternal = .Success
        ↔ (reachedBy queries maxRetries l).queue.successQueries = queries.length) ∧
      ((reachedBy queries maxRetries l).queue.GetStatusInternal = .Failure
        ↔ (reachedBy queries maxRetries l).queue.isFailure = true ∧
          (reachedBy queries maxRetries l).queue.successQueries < queries.length) ∧
      ((reachedBy queries maxRetries l).queue.GetStatusInternal = .Running
        ↔ (reachedBy queries maxRetries l).queue.isFailure = false ∧
          (reachedBy queries maxRetries l).queue.successQueries < queries.length) := by
    intro l
    obtain ⟨h1, h2, h3, h4⟩ := hinit l
    unfold HttpQueriesQueue.GetStatusInternal
    rw [h3]
    by_cases hs : (reachedBy queries maxRetries l).queue.successQueries = queries.length
    · simp only [hs, if_true, lt_irrefl, and_false, true_iff, reduceCtorEq]
      trivial
    · have hlt : (reachedBy queries maxRetries l).queue.successQueries < queries.length := by
        omega
      by_cases hf : (reachedBy queries maxRetries l).queue.isFailure = true
      · simp [hs, hf, hlt]
      · simp [hs, hf, hlt]
  obtain ⟨h1, h2, h3, h4⟩ := hinit steps
  refine ⟨by omega, h2, (hstatus steps).1, (hstatus steps).2.1, (hstatus steps).2.2, ?_, ?_, ?_⟩
  · intro hq
    subst hq
    rfl
  · intro hf more
    have happ : reachedBy queries maxRetries (steps ++ more)
        = (reachedBy queries maxRetries steps).run more := run_append_workers _ _ _
    have hf' : (reachedBy queries maxRetries (steps ++ more)).queue.isFailure = true := by
      rw [happ]
      exact (run_invariant_workers queries.length more _ ⟨h1, h2, h3, h4⟩).2.2.1 hf
    obtain ⟨g1, g2, g3, g4⟩ := hinit (steps ++ more)
    have hlt : (reachedBy queries maxRetries (steps ++ more)).queue.successQueries
        < queries.length := by
      have := g4 hf'
      omega
    exact ⟨hf', hlt, ((hstatus (steps ++ more)).2.1).mpr ⟨hf', hlt⟩⟩
  · intro hs more
    have happ : reachedBy queries maxRetries (steps ++ more)
        = (reachedBy queries maxRetries steps).run more := run_append_workers _ _ _
    rw [happ]
    exact (run_invariant_workers queries.length more _ ⟨h1, h2, h3, h4⟩).2.2.2
      (((hstatus steps).1).mp hs)

/-! ## One call to `ExecuteOneQuery` -/

theorem retryLoop_answered (attempt : Nat → Attempt) (maxRetries : Nat)
    (hwrap : maxRetries + 1 < UINT_MOD) (i : Nat) (answer : List Byte)
    (hi : i ≤ maxRetries) (hans : attempt i = .answered answer) :
    ∀ (d issued fuel : Nat), issued + d = i → d + 1 ≤ fuel →
      (∀ j, issued ≤ j → j < i → ∀ a, attempt j ≠ .answered a) →
      HttpQueriesQueue.retryLoop attempt maxRetries fuel issued issued
        = some (i + 1, some answer) := by
  intro d
  induction d with
  | zero =>
    intro issued fuel hd hfuel _
    obtain ⟨fuel, rfl⟩ : ∃ f, fuel = f + 1 := ⟨fuel - 1, by omega⟩
    have : issued = i := by omega
    subst this
    simp [HttpQueriesQueue.retryLoop, hans]
  | succ d ih =>
    intro issued fuel hd hfuel hfail
    obtain ⟨fuel, rfl⟩ : ∃ f, fuel = f + 1 := ⟨fuel - 1, by omega⟩
    have hmod : (issued + 1) % UINT_MOD = issued + 1 := Nat.mod_eq_of_lt (by omega)
    have hle : issued + 1 ≤ maxRetries := by omega
    have hnext := ih (issued + 1) fuel (by omega) (by omega)
      (fun j hj1 hj2 => hfail j (by omega) hj2)
    have hno := hfail issued (le_refl _) (by omega)
    unfold HttpQueriesQueue.retryLoop
    cases ha : attempt issued with
    | answered a => exact absurd ha (hno a)
    | refused => simp only [hmod, hle, if_true]; exact hnext
    | raised => simp only [hmod, hle, if_true]; exact hnext

theorem retryLoop_exhausted (attempt : Nat → Attempt) (maxRetries : Nat)
    (hwrap : maxRetries + 1 < UINT_MOD) :
    ∀ (d issued fuel : Nat), issued + d = maxRetries → d + 1 ≤ fuel →
      (∀ j, issued ≤ j → j ≤ maxRetries → ∀ a, attempt j ≠ .answered a) →
      HttpQueriesQueue.retryLoop attempt maxRetries fuel issued issued
        = some (maxRetries + 1, none) := by
  intro d
  induction d with
  | zero =>
    intro issued fuel hd hfuel hfail
    obtain ⟨fuel, rfl⟩ : ∃ f, fuel = f + 1 := ⟨fuel - 1, by omega⟩
    have hi : issued = maxRetries := by omega
    subst hi
    have hmod : (issued + 1) % UINT_MOD = issued + 1 := Nat.mod_eq_of_lt (by omega)
    have hno := hfail issued (le_refl _) (le_refl _)
    unfold HttpQueriesQueue.retryLoop
    cases ha : attempt issued with
    | answered a => exact absurd ha (hno a)
    | refused => simp [hmod]
    | raised => simp [hmod]
  | succ d ih =>
    intro issued fuel hd hfuel hfail
    obtain ⟨fuel, rfl⟩ : ∃ f, fuel = f + 1 := ⟨fuel - 1, by omega⟩
    have hmod : (issued + 1) % UINT_MOD = issued + 1 := Nat.mod_eq_of_lt (by omega)
    have hle : issued + 1 ≤ maxRetries := by omega
    have hnext := ih (issued + 1) fuel (by omega) (by omega)
      (fun j hj1 hj2 => hfail j (by omega) hj2)
    have hno := hfail issued (le_refl _) (by omega)
    unfold HttpQueriesQueue.retryLoop
    cases ha : attempt issued with
    | answered a => exact absurd ha (hno a)
    | refused => simp only [hmod, hle, if_true]; exact hnext
    | raised => simp only [hmod, hle, if_true]; exact hnext

/-- The contract of one call to `ExecuteOneQuery`, for a retry budget below the end of
`unsigned int` and enough rounds of the loop.  When the queue has failed or
the cursor is exhausted, no request is sent, nothing changes and `false` is
returned.  Otherwise the request at the cursor is taken and the cursor
advances by one; with `ReadBody` and `HandleAnswer` raising nothing, if the
call number `i <= maxRetries` is the first that succeeds, the request has been
sent `i + 1` times, `succeeded` grows by one, the length of the answer is
credited to the downloaded bytes for GET and POST, the length of the body to
the uploaded bytes for PUT and POST, and `true` is returned; if none of the
`maxRetries + 1` calls succeeds (each returns `false` or raises), the request
has been sent `maxRetries + 1` times, `failed` is set and `false` is
returned. -/
theorem executeOneQuery_contract (attempt : Nat → Attempt) (q : HttpQueriesQueue) (fuel : Nat)
    (hfuel : q.maxRetries + 1 ≤ fuel) (hwrap : q.maxRetries + 1 < UINT_MOD) :
    ((q.position = q.queries.length ∨ q.isFailure = true) →
      q.ExecuteOneQuery attempt fuel
        = some { queue := q, result := .ok false, networkTraffic := 0, requests := [] }) ∧
    (∀ query body, q.isFailure = false → q.queries[q.position]? = some query →
      (if query.method = .Post ∨ query.method = .Put then query.ReadBody else .ok []) = .ok body →
      (∀ i answer, i ≤ q.maxRetries → (∀ j, j < i → ∀ a, attempt j ≠ .answered a) →
        attempt i = .answered answer →
        (if query.method = .Get ∨ query.method = .Post then query.HandleAnswer answer else none)
          = none →
        q.ExecuteOneQuery attempt fuel
          = some { queue :=
                    { q with
                      position := q.position + 1
                      successQueries := q.successQueries + 1
                      downloadedSize := addSz q.downloadedSize
                        (if query.method = .Get ∨ query.method = .Post then answer.length else 0)
                      uploadedSize := addSz q.uploadedSize
                        (if query.method = .Put ∨ query.method = .Post then body.length else 0) }
                   result := .ok true
                   networkTraffic := addSz
                     (if query.method = .Get ∨ query.method = .Post then answer.length else 0)
                     (if query.method = .Put ∨ query.method = .Post then body.length else 0)
                   requests := List.replicate (i + 1) (requestOf query body) }) ∧
      ((∀ j, j ≤ q.maxRetries → ∀ a, attempt j ≠ .answered a) →
        q.ExecuteOneQuery attempt fuel
          = some { queue := { q with position := q.position + 1, isFailure := true }
                   result := .ok false
                   networkTraffic := 0
                   requests := List.replicate (q.maxRetries + 1) (requestOf query body) })) := by
  constructor
  · intro h
    unfold HttpQueriesQueue.ExecuteOneQuery
    rw [takeQuery_none q h]
  · intro query body hf hq hbody
    have htake := takeQuery_of q query hf hq
    constructor
    · intro i answer hi hfail hans hhandle
      have hloop := retryLoop_answered attempt q.maxRetries hwrap i answer hi hans i 0 fuel
        (by omega) (by omega) (fun j _ hj => hfail j hj)
      unfold HttpQueriesQueue.ExecuteOneQuery
      rw [htake]
      simp only [hbody, hloop, hhandle]
      rfl
    · intro hfail
      have hloop := retryLoop_exhausted attempt q.maxRetries hwrap q.maxRetries 0 fuel
        (by omega) (by omega) (fun j _ hj => hfail j hj)
      unfold HttpQueriesQueue.ExecuteOneQuery
      rw [htake]
      simp only [hbody, hloop]
      rfl

/-- Example of the contract of `ExecuteOneQuery`: a queue of one GET query with two retries; the first two
calls return `false`, the third one answers two bytes. -/
theorem executeOneQuery_contract_witness :
    (queueOf [exampleQuery] 2).ExecuteOneQuery exampleAttempts 3
      = some { queue :=
                { queueOf [exampleQuery] 2 with
                  position := 1, successQueries := 1, downloadedSize := 2, uploadedSize := 0 }
               result := .ok true
               networkTraffic := 2
               requests := List.replicate 3 (requestOf exampleQuery []) } :=
  ((executeOneQuery_contract exampleAttempts (queueOf [exampleQuery] 2) 3 (by decide)
    (by decide)).2 exampleQuery [] rfl rfl rfl).1 2 [1, 2] (by decide)
    (by
      intro j hj a
      have h2 : exampleAttempts j = .refused := by simp [exampleAttempts, hj]
      rw [h2]
      intro h
      cases h)
    rfl rfl

/-! ## The registry of push transactions -/

theorem mapFind_mapSet {α : Type} (k key : String) (v : α) :
    ∀ (l : List (String × α)),
      mapFind k (mapSet key v l) = if k = key then (mapFind k l).map (fun _ => v)
        else mapFind k l := by
  intro l
  induction l with
  | nil => simp [mapSet, mapFind]
  | cons e rest ih =>
    obtain ⟨k0, v0⟩ := e
    unfold mapSet
    by_cases h0 : k0 = key
    · subst h0
      by_cases hk : k = k0
      · subst hk
        simp [mapFind]
      · have hk' : ¬ k0 = k := fun e => hk e.symm
        simp [mapFind, hk, hk']
    · simp only [h0, if_false, mapFind, ih]
      by_cases hk : k0 = k
      · subst hk
        simp [h0]
      · simp [hk]

theorem mapSet_keys {α : Type} (key : String) (v : α) :
    ∀ (l : List (String × α)), (mapSet key v l).map Prod.fst = l.map Prod.fst := by
  intro l
  induction l with
  | nil => rfl
  | cons e rest ih =>
    obtain ⟨k0, v0⟩ := e
    unfold mapSet
    by_cases h0 : k0 = key
    · simp [h0]
    · simp [h0, ih]

theorem keys_perm_index {α : Type} (content : List (String × α)) (index : List String)
    (hnd : index.Nodup)
    (hsort : (content.map Prod.fst).Pairwise (fun a b => a.data < b.data))
    (hids : ∀ id, id ∈ index ↔ (mapFind id content).isSome) :
    (content.map Prod.fst).Perm index := by
  rw [List.perm_ext_iff_of_nodup (keys_nodup _ hsort) hnd]
  intro id
  rw [hids id, mapFind_isSome_iff]

theorem lastTouch_fold_fst (id : String) (ops : List RegistryOp) :
    ∀ acc : Nat × Nat, (ops.foldl (fun (acc : Nat × Nat) op =>
      (acc.1 + 1, if op.touches id then acc.1 + 1 else acc.2)) acc).1 = acc.1 + ops.length := by
  induction ops with
  | nil => intro acc; rfl
  | cons op ops ih =>
    intro acc
    rw [List.foldl_cons, ih]
    simp only [List.length_cons]
    omega

theorem lastTouch_fst (id : String) (ops : List RegistryOp) :
    (ops.foldl (fun (acc : Nat × Nat) op =>
      (acc.1 + 1, if op.touches id then acc.1 + 1 else acc.2)) (0, 0)).1 = ops.length := by
  rw [lastTouch_fold_fst]
  exact Nat.zero_add _

theorem lastTouch_snoc (ops : List RegistryOp) (op : RegistryOp) (id : String) :
    lastTouch (ops ++ [op]) id = if op.touches id then ops.length + 1 else lastTouch ops id := by
  unfold lastTouch
  simp only [List.foldl_append, List.foldl_cons, List.foldl_nil, lastTouch_fst]

theorem lastTouch_le (id : String) (ops : List RegistryOp) : lastTouch ops id ≤ ops.length := by
  induction ops using List.reverseRecOn with
  | nil => simp [lastTouch]
  | append_singleton ops op ih =>
    rw [lastTouch_snoc]
    split
    · simp
    · simp only [List.length_append, List.length_singleton]
      omega

theorem registryAfter_snoc (host : Host) (maxSize : Nat) (ops : List RegistryOp)
    (op : RegistryOp) :
    registryAfter host maxSize (ops ++ [op])
      = registryStep host (registryAfter host maxSize ops) op := by
  simp [registryAfter, List.foldl_append]

theorem uuidsFresh_initial (host : Host) (maxSize : Nat) (ops : List RegistryOp)
    (op : RegistryOp) (h : uuidsFresh host maxSize (ops ++ [op])) :
    uuidsFresh host maxSize ops := by
  intro k uuid instances buckets compression hk
  have hlt : k < ops.length := by
    by_contra hge
    rw [List.getElem?_eq_none (by omega)] at hk
    cases hk
  have := h k uuid instances buckets compression
    (by rw [List.getElem?_append_left hlt]; exact hk)
  rw [List.take_append_of_le_length (by omega)] at this
  exact this

theorem uuidsFresh_last (host : Host) (maxSize : Nat) (ops : List RegistryOp)
    (uuid : String) (instances : List DicomInstanceInfo) (buckets : List TransferBucket)
    (compression : BucketCompression)
    (h : uuidsFresh host maxSize (ops ++ [.create uuid instances buckets compression])) :
    uuid ∉ (registryAfter host maxSize ops).1.index := by
  have := h ops.length uuid instances buckets compression (by simp)
  simpa using this

theorem CreateTransaction_spec (r : ActivePushTransactions) (uuid : String)
    (instances : List DicomInstanceInfo) (buckets : List TransferBucket)
    (compression : BucketCompression) (hfresh : uuid ∉ r.index) :
    (r.content.length ≠ r.maxSize →
      r.CreateTransaction uuid instances buckets compression
        = (⟨mapInsert uuid (Transaction.create instances buckets compression) r.content,
            r.index ++ [uuid], r.maxSize⟩, .ok uuid)) ∧
    (r.content.length = r.maxSize → ∀ oldest rest, r.index = oldest :: rest →
      r.CreateTransaction uuid instances buckets compression
        = (⟨mapInsert uuid (Transaction.create instances buckets compression)
              (mapErase oldest r.content),
            rest ++ [uuid], r.maxSize⟩, .ok uuid)) := by
  constructor
  · intro hne
    have hc : ¬ (r.index.contains uuid = true) := fun h => hfresh ((contains_iff _ _).mp h)
    simp only [ActivePushTransactions.CreateTransaction, hne, if_false, hc, Bool.false_eq_true]
  · intro hfull oldest rest hidx
    have hc : ¬ (rest.contains uuid = true) := fun h =>
      hfresh (by rw [hidx]; exact List.mem_cons_of_mem _ ((contains_iff _ _).mp h))
    simp only [ActivePushTransactions.CreateTransaction, hfull, if_true, hidx, hc, if_false,
      Bool.false_eq_true]

theorem order_keep (ops : List RegistryOp) (op : RegistryOp) (index kept : List String)
    (hsub : kept.Sublist index) (hno : ∀ id ∈ kept, op.touches id = false)
    (h : (index.map (lastTouch ops)).Pairwise (fun a b => a < b)) :
    (kept.map (lastTouch (ops ++ [op]))).Pairwise (fun a b => a < b) := by
  have hmap : kept.map (lastTouch (ops ++ [op])) = kept.map (lastTouch ops) := by
    apply List.map_congr_left
    intro id hid
    rw [lastTouch_snoc, hno id hid]
    simp
  rw [hmap]
  exact List.Pairwise.sublist (List.Sublist.map _ hsub) h

theorem order_bump (ops : List RegistryOp) (op : RegistryOp) (index kept : List String)
    (uuid : String) (hsub : kept.Sublist index) (hno : ∀ id ∈ kept, op.touches id = false)
    (htouch : op.touches uuid = true)
    (h : (index.map (lastTouch ops)).Pairwise (fun a b => a < b)) :
    ((kept ++ [uuid]).map (lastTouch (ops ++ [op]))).Pairwise (fun a b => a < b) := by
  rw [List.map_append, List.pairwise_append]
  refine ⟨order_keep ops op index kept hsub hno h, by simp, ?_⟩
  intro a ha b hb
  simp only [List.map_cons, List.map_nil, List.mem_singleton] at hb
  obtain ⟨id, hid, rfl⟩ := List.mem_map.mp ha
  rw [hb, lastTouch_snoc, lastTouch_snoc, hno id hid, htouch]
  simp only [Bool.false_eq_true, if_false, if_true]
  have := lastTouch_le id ops
  omega

theorem Consistent.index_length (r : ActivePushTransactions) (h : r.Consistent) :
    r.index.length = r.content.length := by
  have := (keys_perm_index r.content r.index h.1 h.2.1 h.2.2.1).length_eq
  simpa using this.symm

theorem Store_registry_spec (uncompress : List Byte → Except ErrorCode (List Byte))
    (r : ActivePushTransactions) (uuid : String) (bucketIndex : Nat) (data : List Byte) :
    (mapFind uuid r.content = none →
      r.Store uncompress uuid bucketIndex data = (r, some .UnknownResource)) ∧
    (∀ found, mapFind uuid r.content = some found →
      r.Store uncompress uuid bucketIndex data
        = (⟨mapSet uuid (found.Store uncompress bucketIndex data).1 r.content,
            MakeMostRecent uuid r.index, r.maxSize⟩,
          (found.Store uncompress bucketIndex data).2)) := by
  constructor
  · intro h
    simp [ActivePushTransactions.Store, h]
  · intro found h
    simp [ActivePushTransactions.Store, h]

theorem Finalize_spec (md5 : List Byte → String) (accepts : List (List Byte) → List Byte → Bool)
    (r : ActivePushTransactions) (uuid : String) (commit : Bool) (posted : List (List Byte)) :
    (mapFind uuid r.content = none →
      r.FinalizeTransaction md5 accepts uuid commit posted
        = (r, posted, some .UnknownResource)) ∧
    (∀ found, mapFind uuid r.content = some found →
      (commit = false ∨ (found.area.Commit md5 accepts posted).2.2 = none) →
      r.FinalizeTransaction md5 accepts uuid commit posted
        = (⟨mapErase uuid r.content, r.index.erase uuid, r.maxSize⟩,
            (if commit then (found.area.Commit md5 accepts posted).2.1 else posted), none)) ∧
    (∀ found e, mapFind uuid r.content = some found → commit = true →
      (found.area.Commit md5 accepts posted).2.2 = some e →
      r.FinalizeTransaction md5 accepts uuid commit posted
        = (⟨mapSet uuid { found with area := (found.area.Commit md5 accepts posted).1 } r.content,
            r.index, r.maxSize⟩,
            (found.area.Commit md5 accepts posted).2.1, some e)) := by
  refine ⟨?_, ?_, ?_⟩
  · intro h
    simp [ActivePushTransactions.FinalizeTransaction, h]
  · intro found h hok
    unfold ActivePushTransactions.FinalizeTransaction
    rw [h]
    rcases hok with hc | hc
    · subst hc
      simp
    · cases commit with
      | false => simp
      | true =>
        rcases hres : found.area.Commit md5 accepts posted with ⟨a, p, e⟩
        rw [hres] at hc
        simp only at hc
        subst hc
        simp [hres]
  · intro found e h hc he
    subst hc
    unfold ActivePushTransactions.FinalizeTransaction
    rw [h]
    rcases hres : found.area.Commit md5 accepts posted with ⟨a, p, e'⟩
    rw [hres] at he
    simp only at he
    subst he
    simp [hres]

theorem Consistent_create (r : ActivePushTransactions) (h : r.Consistent) (hcap : 1 ≤ r.maxSize)
    (uuid : String) (instances : List DicomInstanceInfo) (buckets : List TransferBucket)
    (compression : BucketCompression) (hfresh : uuid ∉ r.index) :
    ∃ kept, kept.Sublist r.index ∧
      (r.content.length = r.maxSize → ∃ oldest, r.index = oldest :: kept) ∧
      (r.content.length ≠ r.maxSize → kept = r.index) ∧
      (r.CreateTransaction uuid instances buckets compression).2 = .ok uuid ∧
      (r.CreateTransaction uuid instances buckets compression).1.index = kept ++ [uuid] ∧
      (r.CreateTransaction uuid instances buckets compression).1.maxSize = r.maxSize ∧
      (∀ id, mapFind id (r.CreateTransaction uuid instances buckets compression).1.content
        = if uuid = id then some (Transaction.create instances buckets compression)
          else if id ∈ kept then mapFind id r.content else none) ∧
      (r.CreateTransaction uuid instances buckets compression).1.Consistent := by
  obtain ⟨hnd, hsort, hids, hlen⟩ := h
  have hil := Consistent.index_length r ⟨hnd, hsort, hids, hlen⟩
  obtain ⟨hnotfull, hfull⟩ := CreateTransaction_spec r uuid instances buckets compression hfresh
  have hnone : ∀ id, id ∉ r.index → mapFind id r.content = none := by
    intro id hid
    have := mt (hids id).mpr hid
    simpa using this
  by_cases hf : r.content.length = r.maxSize
  · cases hidx : r.index with
    | nil => rw [hidx] at hil; simp at hil; omega
    | cons oldest rest =>
      rw [hfull hf oldest rest hidx]
      rw [hidx] at hnd hfresh
      have hnotin : oldest ∉ rest := (List.nodup_cons.mp hnd).1
      have hrest : rest.Nodup := (List.nodup_cons.mp hnd).2
      have hfind : ∀ id, mapFind id (mapInsert uuid (Transaction.create instances buckets
          compression) (mapErase oldest r.content))
            = if uuid = id then some (Transaction.create instances buckets compression)
              else if id ∈ rest then mapFind id r.content else none := by
        intro id
        rw [mapFind_mapInsert, mapFind_mapErase]
        by_cases h1 : uuid = id
        · simp [h1]
        · simp only [h1, if_false]
          by_cases h2 : id = oldest
          · subst h2
            simp [hnotin]
          · simp only [h2, if_false]
            by_cases h3 : id ∈ rest
            · simp [h3]
            · simp only [h3, if_false]
              exact hnone id (by rw [hidx]; simp [h2, h3])
      have hids' : ∀ id, id ∈ rest ++ [uuid] ↔ (mapFind id (mapInsert uuid
          (Transaction.create instances buckets compression)
          (mapErase oldest r.content))).isSome := by
        intro id
        rw [hfind]
        by_cases h1 : uuid = id
        · simp [h1]
        · have h1' : ¬ id = uuid := fun e => h1 e.symm
          simp only [h1, if_false, List.mem_append, List.mem_singleton, h1', or_false]
          by_cases h3 : id ∈ rest
          · simp only [h3, if_true, true_iff]
            exact (hids id).mp (by rw [hidx]; exact List.mem_cons_of_mem _ h3)
          · simp [h3]
      have hnd' : (rest ++ [uuid]).Nodup :=
        List.nodup_append.mpr ⟨hrest, List.nodup_singleton _, by
          intro a ha hb
          simp only [List.mem_singleton] at hb
          subst hb
          exact hfresh (List.mem_cons_of_mem _ ha)⟩
      have hsort' := mapInsert_sorted uuid (Transaction.create instances buckets compression) _
        (mapErase_sorted oldest _ hsort)
      have hlen' := (keys_perm_index _ _ hnd' hsort' hids').length_eq
      simp only [List.length_map, List.length_append, List.length_singleton] at hlen'
      rw [hidx] at hil
      simp only [List.length_cons] at hil
      refine ⟨rest, List.sublist_cons_self _ _, fun _ => ⟨oldest, rfl⟩,
        fun hne => absurd hf hne, rfl, rfl, rfl, hfind, hnd', hsort', hids', ?_⟩
      show (mapInsert uuid _ (mapErase oldest r.content)).length ≤ r.maxSize
      omega
  · rw [hnotfull hf]
    have hfind : ∀ id, mapFind id (mapInsert uuid (Transaction.create instances buckets
        compression) r.content)
          = if uuid = id then some (Transaction.create instances buckets compression)
            else if id ∈ r.index then mapFind id r.content else none := by
      intro id
      rw [mapFind_mapInsert]
      by_cases h1 : uuid = id
      · simp [h1]
      · simp only [h1, if_false]
        by_cases h3 : id ∈ r.index
        · simp [h3]
        · simp only [h3, if_false]
          exact hnone id h3
    have hids' : ∀ id, id ∈ r.index ++ [uuid] ↔ (mapFind id (mapInsert uuid
        (Transaction.create instances buckets compression) r.content)).isSome := by
      intro id
      rw [mapFind_mapInsert]
      by_cases h1 : uuid = id
      · simp [h1]
      · have h1' : ¬ id = uuid := fun e => h1 e.symm
        simp only [h1, if_false, List.mem_append, List.mem_singleton, h1', or_false]
        exact hids id
    have hnd' : (r.index ++ [uuid]).Nodup :=
      List.nodup_append.mpr ⟨hnd, List.nodup_singleton _, by
        intro a ha hb
        simp only [List.mem_singleton] at hb
        subst hb
        exact hfresh ha⟩
    have hsort' := mapInsert_sorted uuid (Transaction.create instances buckets compression) _
      hsort
    have hlen' := (keys_perm_index _ _ hnd' hsort' hids').length_eq
    simp only [List.length_map, List.length_append, List.length_singleton] at hlen'
    refine ⟨r.index, List.Sublist.refl _, fun h => absurd h hf, fun _ => rfl, rfl, rfl, rfl,
      hfind, hnd', hsort', hids', ?_⟩
    show (mapInsert uuid _ r.content).length ≤ r.maxSize
    omega

theorem Consistent_touch (r : ActivePushTransactions) (h : r.Consistent) (uuid : String)
    (found found' : Transaction) (hfind : mapFind uuid r.content = some found) :
    ActivePushTransactions.Consistent ⟨mapSet uuid found' r.content, r.index, r.maxSize⟩ ∧
    ActivePushTransactions.Consistent
      ⟨mapSet uuid found' r.content, MakeMostRecent uuid r.index, r.maxSize⟩ := by
  obtain ⟨hnd, hsort, hids, hlen⟩ := h
  have hin : uuid ∈ r.index := (hids uuid).mpr (by simp [hfind])
  have hperm := MakeMostRecent_perm uuid r.index hin
  have hsort' : ((mapSet uuid found' r.content).map Prod.fst).Pairwise
      (fun a b => a.data < b.data) := by
    rw [mapSet_keys]; exact hsort
  have hids' : ∀ id, id ∈ r.index ↔ (mapFind id (mapSet uuid found' r.content)).isSome := by
    intro id
    rw [mapFind_mapSet, hids id]
    by_cases h1 : id = uuid
    · simp [h1, hfind]
    · simp [h1]
  have hlen' : (mapSet uuid found' r.content).length ≤ r.maxSize := by
    have := congrArg List.length (mapSet_keys uuid found' r.content)
    simp only [List.length_map] at this
    omega
  exact ⟨⟨hnd, hsort', hids', hlen'⟩,
    ⟨hperm.nodup_iff.mpr hnd, hsort', fun id => by rw [← hids' id]; exact hperm.mem_iff, hlen'⟩⟩

theorem Consistent_remove (r : ActivePushTransactions) (h : r.Consistent) (uuid : String) :
    ActivePushTransactions.Consistent
      ⟨mapErase uuid r.content, r.index.erase uuid, r.maxSize⟩ := by
  obtain ⟨hnd, hsort, hids, hlen⟩ := h
  refine ⟨hnd.erase _, mapErase_sorted _ _ hsort, ?_, ?_⟩
  · intro id
    simp only [mapFind_mapErase]
    rw [hnd.mem_erase_iff]
    by_cases h1 : id = uuid
    · simp [h1]
    · simp only [h1, if_false, ne_eq, not_false_eq_true, true_and]
      exact hids id
  · have := List.length_filter_le (fun e : String × Transaction => e.1 != uuid) r.content
    show (mapErase uuid r.content).length ≤ r.maxSize
    unfold mapErase
    omega

theorem registry_invariant (host : Host) (maxSize : Nat) (hcap : 1 ≤ maxSize) :
    ∀ (ops : List RegistryOp), uuidsFresh host maxSize ops →
      (registryAfter host maxSize ops).1.Consistent ∧
      (registryAfter host maxSize ops).1.maxSize = maxSize ∧
      ((registryAfter host maxSize ops).1.index.map (lastTouch ops)).Pairwise
        (fun a b => a < b) := by
  intro ops
  induction ops using List.reverseRecOn with
  | nil =>
    intro _
    refine ⟨⟨List.nodup_nil, List.Pairwise.nil, fun id => by simp [registryAfter, mapFind],
      Nat.zero_le _⟩, rfl, List.Pairwise.nil⟩
  | append_singleton ops op ih =>
    intro hfresh
    obtain ⟨hc, hmax, hord⟩ := ih (uuidsFresh_initial host maxSize ops op hfresh)
    rw [registryAfter_snoc]
    have hnotin : ∀ id, mapFind id (registryAfter host maxSize ops).1.content = none →
        id ∉ (registryAfter host maxSize ops).1.index := by
      intro id hn hin
      have := (hc.2.2.1 id).mp hin
      rw [hn] at this
      cases this
    cases op with
    | create uuid instances buckets compression =>
      have hnew := uuidsFresh_last host maxSize ops uuid instances buckets compression hfresh
      obtain ⟨kept, hsub, _, _, _, hidx, hmx, _, hc'⟩ :=
        Consistent_create _ hc (by omega) uuid instances buckets compression hnew
      simp only [registryStep]
      refine ⟨hc', by rw [hmx, hmax], ?_⟩
      rw [hidx]
      refine order_bump ops _ _ kept uuid hsub ?_ (by simp [RegistryOp.touches]) hord
      intro id hid
      have hne : ¬ uuid = id := by
        rintro rfl
        exact hnew (hsub.subset hid)
      simp [RegistryOp.touches, hne]
    | store uuid bucketIndex data =>
      simp only [registryStep]
      obtain ⟨hnone, hsome⟩ :=
        Store_registry_spec host.uncompress (registryAfter host maxSize ops).1 uuid bucketIndex data
      cases hf : mapFind uuid (registryAfter host maxSize ops).1.content with
      | none =>
        rw [hnone hf]
        refine ⟨hc, hmax, order_keep ops _ _ _ (List.Sublist.refl _) ?_ hord⟩
        intro id hid
        have hne : ¬ uuid = id := by
          rintro rfl
          exact hnotin _ hf hid
        simp [RegistryOp.touches, hne]
      | some found =>
        rw [hsome found hf]
        refine ⟨(Consistent_touch _ hc uuid found _ hf).2, hmax, ?_⟩
        show ((MakeMostRecent uuid (registryAfter host maxSize ops).1.index).map _).Pairwise _
        unfold MakeMostRecent
        refine order_bump ops _ _ _ uuid (List.erase_sublist _ _) ?_
          (by simp [RegistryOp.touches]) hord
        intro id hid
        have hne : ¬ uuid = id := by
          rintro rfl
          exact ((hc.1.mem_erase_iff).mp hid).1 rfl
        simp [RegistryOp.touches, hne]
    | commit uuid =>
      simp only [registryStep, ActivePushTransactions.Commit]
      obtain ⟨hnone, hok, hraise⟩ := Finalize_spec host.md5 host.accepts
        (registryAfter host maxSize ops).1 uuid true (registryAfter host maxSize ops).2
      cases hf : mapFind uuid (registryAfter host maxSize ops).1.content with
      | none =>
        rw [hnone hf]
        exact ⟨hc, hmax, order_keep ops _ _ _ (List.Sublist.refl _)
          (fun id _ => rfl) hord⟩
      | some found =>
        cases he : (found.area.Commit host.md5 host.accepts
            (registryAfter host maxSize ops).2).2.2 with
        | none =>
          rw [hok found hf (Or.inr he)]
          exact ⟨Consistent_remove _ hc uuid, hmax,
            order_keep ops _ _ _ (List.erase_sublist _ _) (fun id _ => rfl) hord⟩
        | some e =>
          rw [hraise found e hf rfl he]
          exact ⟨(Consistent_touch _ hc uuid found _ hf).1, hmax,
            order_keep ops _ _ _ (List.Sublist.refl _) (fun id _ => rfl) hord⟩
    | discard uuid =>
      simp only [registryStep, ActivePushTransactions.Discard]
      obtain ⟨hnone, hok, _⟩ := Finalize_spec host.md5 host.accepts
        (registryAfter host maxSize ops).1 uuid false (registryAfter host maxSize ops).2
      cases hf : mapFind uuid (registryAfter host maxSize ops).1.content with
      | none =>
        rw [hnone hf]
        exact ⟨hc, hmax, order_keep ops _ _ _ (List.Sublist.refl _)
          (fun id _ => rfl) hord⟩
      | some found =>
        rw [hok found hf (Or.inl rfl)]
        exact ⟨Consistent_remove _ hc uuid, hmax,
          order_keep ops _ _ _ (List.erase_sublist _ _) (fun id _ => rfl) hord⟩

/-- C22. For a registry of capacity `maxSize >= 1` and every sequence of
calls (`CreateTransaction` with an identifier that is not registered, `Store`,
`Commit`, `Discard`, returning or raising): the registry holds at most
`maxSize` transactions, the index holds exactly the registered identifiers,
without duplicate, and it is ordered by the rank of the last creation or store
of each transaction, the oldest first.  `CreateTransaction` on a full registry
returns its identifier after discarding exactly the transaction at the head of
the index, whose last creation or store is older than that of every other
one; every other transaction is kept and the new one is registered as the
most recent. -/
theorem registry_capacity_and_recency (host : Host) (maxSize : Nat) (hcap : 1 ≤ maxSize)
    (ops : List RegistryOp) (hfresh : uuidsFresh host maxSize ops) :
    (registryAfter host maxSize ops).1.content.length ≤ maxSize ∧
    (registryAfter host maxSize ops).1.index.Nodup ∧
    (∀ id, id ∈ (registryAfter host maxSize ops).1.index
      ↔ (mapFind id (registryAfter host maxSize ops).1.content).isSome) ∧
    ((registryAfter host maxSize ops).1.index.map (lastTouch ops)).Pairwise
      (fun a b => a < b) ∧
    (∀ uuid instances buckets compression,
      uuid ∉ (registryAfter host maxSize ops).1.index →
      (registryAfter host maxSize ops).1.content.length = maxSize →
      ∃ oldest rest, (registryAfter host maxSize ops).1.index = oldest :: rest ∧
        (∀ id ∈ rest, lastTouch ops oldest < lastTouch ops id) ∧
        ((registryAfter host maxSize ops).1.CreateTransaction uuid instances buckets
            compression).2 = .ok uuid ∧
        ((registryAfter host maxSize ops).1.CreateTransaction uuid instances buckets
            compression).1.index = rest ++ [uuid] ∧
        (∀ id, mapFind id ((registryAfter host maxSize ops).1.CreateTransaction uuid instances
            buckets compression).1.content
          = if uuid = id then some (Transaction.create instances buckets compression)
            else if id = oldest then none
            else mapFind id (registryAfter host maxSize ops).1.content)) := by
  obtain ⟨hc, hmax, hord⟩ := registry_invariant host maxSize hcap ops hfresh
  have hlen := hc.2.2.2
  rw [hmax] at hlen
  refine ⟨hlen, hc.1, hc.2.2.1, hord, ?_⟩
  intro uuid instances buckets compression hnew hfull
  obtain ⟨kept, _, hhead, _, hres, hidx, _, hfind, _⟩ :=
    Consistent_create _ hc (by omega) uuid instances buckets compression hnew
  obtain ⟨oldest, hoi⟩ := hhead (by rw [hmax]; exact hfull)
  refine ⟨oldest, kept, hoi, ?_, hres, hidx, ?_⟩
  · rw [hoi] at hord
    simp only [List.map_cons, List.pairwise_cons] at hord
    intro id hid
    exact hord.1 _ (List.mem_map.mpr ⟨id, hid, rfl⟩)
  · intro id
    rw [hfind id]
    by_cases h1 : uuid = id
    · simp [h1]
    · simp only [h1, if_false]
      have hnd := hc.1
      rw [hoi] at hnd
      by_cases h2 : id = oldest
      · subst h2
        simp [(List.nodup_cons.mp hnd).1]
      · simp only [h2, if_false]
        by_cases h3 : id ∈ kept
        · simp [h3]
        · simp only [h3, if_false]
          have hni : id ∉ (registryAfter host maxSize ops).1.index := by
            rw [hoi]; simp [h2, h3]
          have := mt (hc.2.2.1 id).mpr hni
          simp only [Option.not_isSome_iff_eq_none] at this
          exact this.symm

theorem opsOfExample_fresh : uuidsFresh exampleHost 2 opsOfExample := by
  intro k uuid instances buckets compression hk
  match k with
  | 0 =>
    simp [registryAfter]
  | 1 =>
    simp only [opsOfExample, List.getElem?_cons_succ, List.getElem?_cons_zero, Option.some.injEq,
      RegistryOp.create.injEq] at hk
    obtain ⟨rfl, _⟩ := hk
    decide
  | 2 =>
    simp [opsOfExample] at hk
  | k + 3 =>
    simp [opsOfExample] at hk

/-- Witness of C22: on a registry of capacity 2, `t1` and `t2` are created
and one byte is stored into `t1`; the index is then `t2, t1`, and creating
`t3` discards `t2`. -/
theorem registry_capacity_and_recency_witness :
    (registryAfter exampleHost 2 opsOfExample).1.index = ["t2", "t1"] ∧
    ∃ oldest rest, (registryAfter exampleHost 2 opsOfExample).1.index = oldest :: rest ∧
      (∀ id ∈ rest, lastTouch opsOfExample oldest < lastTouch opsOfExample id) ∧
      ((registryAfter exampleHost 2 opsOfExample).1.CreateTransaction "t3" [] [] .None).2
        = .ok "t3" ∧
      ((registryAfter exampleHost 2 opsOfExample).1.CreateTransaction "t3" [] [] .None).1.index
        = rest ++ ["t3"] ∧
      (∀ id, mapFind id ((registryAfter exampleHost 2 opsOfExample).1.CreateTransaction "t3" []
          [] .None).1.content
        = if "t3" = id then some (Transaction.create [] [] .None)
          else if id = oldest then none
          else mapFind id (registryAfter exampleHost 2 opsOfExample).1.content) :=
  ⟨by decide,
    (registry_capacity_and_recency exampleHost 2 (by decide) opsOfExample
      opsOfExample_fresh).2.2.2.2 "t3" [] [] .None (by decide) (by decide)⟩

/-- C23. `Store`, `Commit` and `Discard` on an identifier that is not
registered raise unknown-resource and leave the registry, and the archive, as
they are.  `Store` on a registered transaction with a bucket index that is not
below its number of buckets raises parameter-out-of-range.  After a `Commit`
or a `Discard` that raised nothing the identifier is not registered any more,
so that `Commit`, `Discard` and `Store` on it raise unknown-resource. -/
theorem registry_unknown_resource (host : Host) (r : ActivePushTransactions) (uuid : String)
    (posted : List (List Byte)) :
    (mapFind uuid r.content = none →
      (∀ bucketIndex data,
        r.Store host.uncompress uuid bucketIndex data = (r, some .UnknownResource)) ∧
      r.Commit host.md5 host.accepts uuid posted = (r, posted, some .UnknownResource) ∧
      r.Discard host.md5 host.accepts uuid posted = (r, posted, some .UnknownResource)) ∧
    (∀ found bucketIndex data, mapFind uuid r.content = some found →
      bucketIndex ≥ found.buckets.length →
      (r.Store host.uncompress uuid bucketIndex data).2 = some .ParameterOutOfRange) ∧
    ((r.Commit host.md5 host.accepts uuid posted).2.2 = none →
      mapFind uuid (r.Commit host.md5 host.accepts uuid posted).1.content = none) ∧
    ((r.Discard host.md5 host.accepts uuid posted).2.2 = none →
      mapFind uuid (r.Discard host.md5 host.accepts uuid posted).1.content = none) ∧
    (mapFind uuid r.content ≠ none →
      (r.Discard host.md5 host.accepts uuid posted).2.2 = none) := by
  obtain ⟨hnoneC, hokC, hraiseC⟩ := Finalize_spec host.md5 host.accepts r uuid true posted
  obtain ⟨hnoneD, hokD, _⟩ := Finalize_spec host.md5 host.accepts r uuid false posted
  refine ⟨?_, ?_, ?_, ?_, ?_⟩
  · intro hn
    exact ⟨fun bucketIndex data =>
      (Store_registry_spec host.uncompress r uuid bucketIndex data).1 hn, hnoneC hn, hnoneD hn⟩
  · intro found bucketIndex data hf hge
    rw [(Store_registry_spec host.uncompress r uuid bucketIndex data).2 found hf]
    simp [Transaction.Store, Transaction.GetBucket, hge]
  · intro hok
    unfold ActivePushTransactions.Commit at hok ⊢
    cases hf : mapFind uuid r.content with
    | none => rw [hnoneC hf] at hok; cases hok
    | some found =>
      cases he : (found.area.Commit host.md5 host.accepts posted).2.2 with
      | some e => rw [hraiseC found e hf rfl he] at hok; cases hok
      | none =>
        rw [hokC found hf (Or.inr he)]
        simp [mapFind_mapErase]
  · intro _
    unfold ActivePushTransactions.Discard
    cases hf : mapFind uuid r.content with
    | none => rw [hnoneD hf]; exact hf
    | some found =>
      rw [hokD found hf (Or.inl rfl)]
      simp [mapFind_mapErase]
  · intro hreg
    unfold ActivePushTransactions.Discard
    cases hf : mapFind uuid r.content with
    | none => exact absurd hf hreg
    | some found => rw [hokD found hf (Or.inl rfl)]

/-! ## `Commit` twice -/

theorem commitLoop_released (md5 : List Byte → String)
    (accepts : List (List Byte) → List Byte → Bool) (simulate : Bool) :
    ∀ (todo done : List (String × Option DownloadArea.Instance)) (posted : List (List Byte)),
      (DownloadArea.commitLoop md5 accepts simulate todo done posted).2.2 = none →
      (DownloadArea.commitLoop md5 accepts simulate todo done posted).1
        = done ++ todo.map (fun e => (e.1, none)) := by
  intro todo
  induction todo with
  | nil => intro done posted _; simp [DownloadArea.commitLoop]
  | cons x rest ih =>
    intro done posted h
    obtain ⟨key, v⟩ := x
    cases v with
    | none => simp [DownloadArea.commitLoop] at h
    | some slot =>
      unfold DownloadArea.commitLoop at h ⊢
      generalize slot.Commit md5 accepts simulate posted = res at h ⊢
      obtain ⟨p, e⟩ := res
      cases e with
      | some e => simp at h
      | none =>
        simp only at h ⊢
        rw [ih _ _ h]
        simp

theorem commitLoop_of_released (md5 : List Byte → String)
    (accepts : List (List Byte) → List Byte → Bool) (simulate : Bool)
    (entries : List (String × Option DownloadArea.Instance)) (posted : List (List Byte)) :
    DownloadArea.commitLoop md5 accepts simulate (entries.map (fun e => (e.1, none))) [] posted
      = (entries.map (fun e => (e.1, none)), posted,
          if entries = [] then none else some .InternalError) := by
  cases entries with
  | nil => simp [DownloadArea.commitLoop]
  | cons x rest => simp [DownloadArea.commitLoop]

/-- Counterexample to C24: on the area of one empty instance whose descriptor
carries the right digest, `Commit` raises nothing and hands the instance to
the archive; a second `Commit` raises the internal error. -/
theorem second_commit_raises_internal_error :
    (areaOfEmptyInstance.Commit exampleDigest acceptAll []).2 = ([[]], none) ∧
    ((areaOfEmptyInstance.Commit exampleDigest acceptAll []).1.Commit exampleDigest acceptAll
      [[]]).2 = ([[]], some .InternalError) := by
  constructor <;> rfl

/-- C24, amended. `Commit` is not idempotent.  After a `Commit` that raised
nothing every slot of the area has been released while its identifier stays in
the map; a second `Commit` hands nothing to the archive, and it raises nothing
only when the area has no instance at all: on an area of at least one
instance it raises the internal error and leaves the area as it is. -/
theorem commit_twice (md5 : List Byte → String) (accepts : List (List Byte) → List Byte → Bool)
    (area : DownloadArea) (posted : List (List Byte))
    (hok : (area.Commit md5 accepts posted).2.2 = none) :
    (area.Commit md5 accepts posted).1.instances = area.instances.map (fun e => (e.1, none)) ∧
    ((area.Commit md5 accepts posted).1.Commit md5 accepts (area.Commit md5 accepts posted).2.1)
      = ((area.Commit md5 accepts posted).1, (area.Commit md5 accepts posted).2.1,
          if area.instances = [] then none else some .InternalError) := by
  have hrel := commitLoop_released md5 accepts false area.instances [] posted hok
  have hinst : (area.Commit md5 accepts posted).1.instances
      = area.instances.map (fun e => (e.1, none)) := by
    show (DownloadArea.commitLoop md5 accepts false area.instances [] posted).1 = _
    rw [hrel]
    simp
  refine ⟨hinst, ?_⟩
  show DownloadArea.CommitInternal md5 accepts (area.Commit md5 accepts posted).1 false _ = _
  unfold DownloadArea.CommitInternal
  rw [hinst, commitLoop_of_released]
  simp only
  congr 1
  rw [← hinst]

/-- Witness of the amended C24: the area of one empty instance. -/
theorem commit_twice_witness :
    (areaOfEmptyInstance.Commit exampleDigest acceptAll []).1.instances
      = areaOfEmptyInstance.instances.map (fun e => (e.1, none)) ∧
    ((areaOfEmptyInstance.Commit exampleDigest acceptAll []).1.Commit exampleDigest acceptAll
        (areaOfEmptyInstance.Commit exampleDigest acceptAll []).2.1)
      = ((areaOfEmptyInstance.Commit exampleDigest acceptAll []).1,
          (areaOfEmptyInstance.Commit exampleDigest acceptAll []).2.1,
          if areaOfEmptyInstance.instances = [] then none else some .InternalError) :=
  commit_twice exampleDigest acceptAll areaOfEmptyInstance [] rfl

/-! ## The job state machine -/

/-- C25. `StatefulOrthancJob::Step` follows the transition table.  With no
current state it calls `CreateInitialState`, otherwise the `Step` of the
current state.  On `Next(s)` it makes `s` the current state and returns
`Continue`; on `Continue` it keeps the state, as its `Step` left it, and
returns `Continue`; on `Success` it sets the progress to 1, drops the state
and returns `Success`; on `Failure` it drops the state and returns `Failure`.
Hence whenever `Step` returns `Success` or `Failure` the job has no current
state, and the next `Step` is the one of a job without state, which calls
`CreateInitialState`. -/
theorem job_step_transition_table {State : Type} (b : JobBehaviour State)
    (job : StatefulOrthancJob State) :
    (job.state = none → ∀ info update, b.CreateInitialState job.info = (info, .ok update) →
      job.Step b = StatefulOrthancJob.applyUpdate none info update) ∧
    (∀ state, job.state = some state → ∀ state' info update,
      b.Step state job.info = (state', info, .ok update) →
      job.Step b = StatefulOrthancJob.applyUpdate (some state') info update) ∧
    (∀ (current : Option State) (info : JobInfo),
      (∀ other, StatefulOrthancJob.applyUpdate current info (some (.Next other))
        = (⟨some other, info.Update⟩, .ok .Continue)) ∧
      StatefulOrthancJob.applyUpdate current info (some .Continue)
        = (⟨current, info.Update⟩, .ok .Continue) ∧
      StatefulOrthancJob.applyUpdate current info (some .Success)
        = (⟨none, { info.Update with progress := 1 }⟩, .ok .Success) ∧
      StatefulOrthancJob.applyUpdate current info (some .Failure)
        = (⟨none, info.Update⟩, .ok .Failure)) ∧
    (((job.Step b).2 = .ok .Success ∨ (job.Step b).2 = .ok .Failure) →
      (job.Step b).1.state = none ∧
      ∀ info update, b.CreateInitialState (job.Step b).1.info = (info, .ok update) →
        (job.Step b).1.Step b = StatefulOrthancJob.applyUpdate none info update) := by
  have hfirst : ∀ (j : StatefulOrthancJob State), j.state = none → ∀ info update,
      b.CreateInitialState j.info = (info, .ok update) →
      j.Step b = StatefulOrthancJob.applyUpdate none info update := by
    intro j hs info update hc
    unfold StatefulOrthancJob.Step
    rw [hs]
    simp only [hc]
  have hdrop : ∀ (current : Option State) (info : JobInfo) (update : Option (StateUpdate State)),
      ((StatefulOrthancJob.applyUpdate current info update).2 = .ok .Success ∨
        (StatefulOrthancJob.applyUpdate current info update).2 = .ok .Failure) →
      (StatefulOrthancJob.applyUpdate current info update).1.state = none := by
    intro current info update h
    cases update with
    | none => simp [StatefulOrthancJob.applyUpdate] at h
    | some u =>
      cases u with
      | Next other => simp [StatefulOrthancJob.applyUpdate] at h
      | Continue => simp [StatefulOrthancJob.applyUpdate] at h
      | Success => rfl
      | Failure => rfl
  refine ⟨hfirst job, ?_, ?_, ?_⟩
  · intro state hs state' info update hstep
    unfold StatefulOrthancJob.Step
    rw [hs]
    simp only [hstep]
  · intro current info
    exact ⟨fun _ => rfl, rfl, rfl, rfl⟩
  · intro hres
    have hnone : (job.Step b).1.state = none := by
      unfold StatefulOrthancJob.Step at hres ⊢
      cases hs : job.state with
      | none =>
        rw [hs] at hres
        simp only at hres ⊢
        rcases hc : b.CreateInitialState job.info with ⟨info, r⟩
        rw [hc] at hres
        cases r with
        | error e => simp at hres
        | ok update => exact hdrop none info update hres
      | some state =>
        rw [hs] at hres
        simp only at hres ⊢
        rcases hc : b.Step state job.info with ⟨state', info, r⟩
        rw [hc] at hres
        cases r with
        | error e => simp at hres
        | ok update => exact hdrop (some state') info update hres
    exact ⟨hnone, hfirst _ hnone⟩

theorem peerLoop_answered {α : Type} (attempt : Nat → Option α) (maxRetries : Nat)
    (hwrap : maxRetries < UINT_MOD) (i : Nat) (answer : α)
    (hi : i ≤ maxRetries) (hans : attempt i = some answer) :
    ∀ (d issued fuel : Nat), issued + d = i → d + 1 ≤ fuel →
      (∀ j, issued ≤ j → j < i → attempt j = none) →
      peerLoop attempt maxRetries fuel issued issued = some (some answer, i + 1) := by
  intro d
  induction d with
  | zero =>
    intro issued fuel hd hfuel _
    obtain ⟨fuel, rfl⟩ : ∃ f, fuel = f + 1 := ⟨fuel - 1, by omega⟩
    have : issued = i := by omega
    subst this
    simp [peerLoop, hans]
  | succ d ih =>
    intro issued fuel hd hfuel hfail
    obtain ⟨fuel, rfl⟩ : ∃ f, fuel = f + 1 := ⟨fuel - 1, by omega⟩
    have hmod : (issued + 1) % UINT_MOD = issued + 1 := Nat.mod_eq_of_lt (by omega)
    have hlt : ¬ issued ≥ maxRetries := by omega
    have hnext := ih (issued + 1) fuel (by omega) (by omega)
      (fun j hj1 hj2 => hfail j (by omega) hj2)
    have hno := hfail issued (le_refl _) (by omega)
    unfold peerLoop
    simp only [hno, hlt, if_false, hmod]
    exact hnext

theorem peerLoop_exhausted {α : Type} (attempt : Nat → Option α) (maxRetries : Nat)
    (hwrap : maxRetries < UINT_MOD) :
    ∀ (d issued fuel : Nat), issued + d = maxRetries → d + 1 ≤ fuel →
      (∀ j, issued ≤ j → j ≤ maxRetries → attempt j = none) →
      peerLoop attempt maxRetries fuel issued issued = some (none, maxRetries + 1) := by
  intro d
  induction d with
  | zero =>
    intro issued fuel hd hfuel hfail
    obtain ⟨fuel, rfl⟩ : ∃ f, fuel = f + 1 := ⟨fuel - 1, by omega⟩
    have hi : issued = maxRetries := by omega
    subst hi
    have hno := hfail issued (le_refl _) (le_refl _)
    unfold peerLoop
    simp [hno]
  | succ d ih =>
    intro issued fuel hd hfuel hfail
    obtain ⟨fuel, rfl⟩ : ∃ f, fuel = f + 1 := ⟨fuel - 1, by omega⟩
    have hmod : (issued + 1) % UINT_MOD = issued + 1 := Nat.mod_eq_of_lt (by omega)
    have hlt : ¬ issued ≥ maxRetries := by omega
    have hnext := ih (issued + 1) fuel (by omega) (by omega)
      (fun j hj1 hj2 => hfail j (by omega) hj2)
    have hno := hfail issued (le_refl _) (by omega)
    unfold peerLoop
    simp only [hno, hlt, if_false, hmod]
    exact hnext

theorem peerLoop_outcome {α : Type} (attempt : Nat → Option α) (maxRetries : Nat)
    (hwrap : maxRetries < UINT_MOD) (fuel : Nat) (hfuel : maxRetries + 1 ≤ fuel) :
    (∃ i answer, i ≤ maxRetries ∧ attempt i = some answer ∧ (∀ j, j < i → attempt j = none) ∧
      peerLoop attempt maxRetries fuel 0 0 = some (some answer, i + 1)) ∨
    ((∀ j, j ≤ maxRetries → attempt j = none) ∧
      peerLoop attempt maxRetries fuel 0 0 = some (none, maxRetries + 1)) := by
  by_cases h : ∃ i, i ≤ maxRetries ∧ (attempt i).isSome
  · left
    classical
    let i := Nat.find h
    have hi : i ≤ maxRetries ∧ (attempt i).isSome := Nat.find_spec h
    have hmin : ∀ j, j < i → attempt j = none := by
      intro j hj
      have := Nat.find_min h hj
      simp only [not_and, Option.not_isSome_iff_eq_none] at this
      exact this (by omega)
    obtain ⟨answer, hans⟩ := Option.isSome_iff_exists.mp hi.2
    exact ⟨i, answer, hi.1, hans, hmin,
      peerLoop_answered attempt maxRetries hwrap i answer hi.1 hans i 0 fuel (by omega) (by omega)
        (fun j _ hj => hmin j hj)⟩
  · right
    have hall : ∀ j, j ≤ maxRetries → attempt j = none := by
      intro j hj
      by_contra hne
      exact h ⟨j, hj, Option.isSome_iff_ne_none.mpr hne⟩
    exact ⟨hall, peerLoop_exhausted attempt maxRetries hwrap maxRetries 0 fuel (by omega)
      (by omega) (fun j _ hj => hall j hj)⟩

/-- C27. For a retry budget that is an `unsigned int` and enough rounds of
the loops, the `Step` of the final state of the push job returns an update.
Entered for commit it sends only `POST <txn-uri>/commit`, at most
`maxRetries + 1` times, and returns `Success` if and only if one of these
calls succeeds, `Failure` otherwise.  Entered for abort it sends only
`DELETE <txn-uri>`, at least once and at most `maxRetries + 1` times, and
returns `Failure` whatever the outcome.  The `Step` of `PushBucketsState`
enters the final state for commit exactly when the status of the queue is
`Success`, and for abort exactly when it is `Failure`. -/
theorem push_final_state (post : Nat → Option Json) (delete : Nat → Option Unit)
    (maxHttpRetries fuel : Nat) (hwrap : maxHttpRetries < UINT_MOD)
    (hfuel : maxHttpRetries + 1 ≤ fuel) (transactionUri : String) :
    (∃ n, 1 ≤ n ∧ n ≤ maxHttpRetries + 1 ∧
      FinalState.Step post delete maxHttpRetries fuel transactionUri true
        = some (if ∃ i, i ≤ maxHttpRetries ∧ (post i).isSome then .Success else .Failure,
            List.replicate n (HttpMethod.Post, transactionUri ++ "/commit"))) ∧
    (∃ n, 1 ≤ n ∧ n ≤ maxHttpRetries + 1 ∧
      FinalState.Step post delete maxHttpRetries fuel transactionUri false
        = some (.Failure, List.replicate n (HttpMethod.Delete, transactionUri))) ∧
    (∀ status isCommit,
      PushBucketsState.Step transactionUri status = .Next (.Final transactionUri isCommit)
        ↔ (isCommit = true ∧ status = .Success) ∨ (isCommit = false ∧ status = .Failure)) := by
  refine ⟨?_, ?_, ?_⟩
  · rcases peerLoop_outcome post maxHttpRetries hwrap fuel hfuel with
      ⟨i, answer, hi, hans, _, hloop⟩ | ⟨hall, hloop⟩
    · refine ⟨i + 1, by omega, by omega, ?_⟩
      have hex : ∃ i, i ≤ maxHttpRetries ∧ (post i).isSome := ⟨i, hi, by simp [hans]⟩
      simp [FinalState.Step, DoPostPeer, hloop, hex]
    · refine ⟨maxHttpRetries + 1, by omega, le_refl _, ?_⟩
      have hex : ¬ ∃ i, i ≤ maxHttpRetries ∧ (post i).isSome := by
        rintro ⟨i, hi, hs⟩
        rw [hall i hi] at hs
        cases hs
      simp only [FinalState.Step, DoPostPeer, hloop, if_true, Option.map_some', if_neg hex]
      rfl
  · rcases peerLoop_outcome delete maxHttpRetries hwrap fuel hfuel with
      ⟨i, answer, hi, _, _, hloop⟩ | ⟨_, hloop⟩
    · refine ⟨i + 1, by omega, by omega, ?_⟩
      simp [FinalState.Step, DoDeletePeer, hloop]
    · refine ⟨maxHttpRetries + 1, by omega, le_refl _, ?_⟩
      simp [FinalState.Step, DoDeletePeer, hloop]
  · intro status isCommit
    cases status <;> cases isCommit <;> simp [PushBucketsState.Step]

/-- Witness of C27: one retry; the first `POST` fails and the second one
succeeds, the `DELETE` succeeds at once. -/
theorem push_final_state_witness :
    FinalState.Step examplePost exampleDelete 1 2 "/transfers/push/t1" true
      = some (.Success, List.replicate 2 (HttpMethod.Post, "/transfers/push/t1/commit")) ∧
    ∃ n, 1 ≤ n ∧ n ≤ 1 + 1 ∧
      FinalState.Step examplePost exampleDelete 1 2 "/transfers/push/t1" false
        = some (.Failure, List.replicate n (HttpMethod.Delete, "/transfers/push/t1")) :=
  ⟨rfl, (push_final_state examplePost exampleDelete 1 2 (by decide) (by decide)
    "/transfers/push/t1").2.1⟩

/-! ## The lookup state of the pull job -/

theorem mapInsert_ne_nil {α : Type} (k : String) (v : α) (l : List (String × α)) :
    mapInsert k v l ≠ [] := by
  cases l with
  | nil => simp [mapInsert]
  | cons e rest =>
    obtain ⟨k0, v0⟩ := e
    unfold mapInsert
    split
    · simp
    · split <;> simp

theorem addInstances_nonempty (lexicalCast : String → Option Nat) :
    ∀ (items : List Json) (scheduler result : TransferScheduler),
      addInstances lexicalCast items scheduler = .ok result →
      (items ≠ [] ∨ scheduler.instances ≠ []) → result.instances ≠ [] := by
  intro items
  induction items with
  | nil =>
    intro scheduler result h hne
    simp only [addInstances, Except.ok.injEq] at h
    subst h
    rcases hne with hne | hne
    · exact absurd rfl hne
    · exact hne
  | cons item rest ih =>
    intro scheduler result h _
    unfold addInstances at h
    cases hi : DicomInstanceInfo.ofJson lexicalCast item with
    | error e => rw [hi] at h; cases h
    | ok info =>
      rw [hi] at h
      exact ih _ _ h (Or.inr (mapInsert_ne_nil _ _ _))

theorem lookup_wellformed (lexicalCast : String → Option Nat) (query : TransferQuery)
    (targetBucketSize : Nat) (baseUrl : String) (members : List (String × Json))
    (instances : List Json) (originator : String)
    (hI : mapFind "Instances" members = some (.array instances))
    (hO : mapFind "Originator" members = some (.string originator)) :
    LookupInstancesState.Step lexicalCast query targetBucketSize baseUrl (some (.object members))
      = if query.hasOriginator && query.originator != originator then .ok .Failure
        else LookupInstancesState.plan lexicalCast targetBucketSize baseUrl query.compression
          instances := by
  simp only [LookupInstancesState.Step, Json.type, Json.isMember, Json.get, KEY_INSTANCES,
    KEY_ORIGINATOR_UUID, hI, hO, Json.asString, Json.items, Option.isSome_some,
    Option.getD_some, bne_self_eq_false, Bool.not_true, Bool.or_self, Bool.false_eq_true,
    if_false]

/-- The outcomes of the lookup step of the pull job, for a response that is an object
with an array `Instances` and a string `Originator`.  When the query carries
an originator and the originator of the response is a different string, the
step returns `Failure`.  A query without originator has the outcome that the
instances alone decide, whatever the originator of the response.  When the
originator is accepted: a response without instance gives `Success`, and no
download area nor bucket request is built; a response with at least one
instance whose instances all deserialise and for which the planner and the
pull URIs raise nothing gives `Next` of the state `PullBuckets`, which holds
the download area of the instances and the planned buckets.  When `DoPostPeer`
fails the step returns `Failure`. -/
theorem pull_lookup_step (lexicalCast : String → Option Nat) (query : TransferQuery)
    (targetBucketSize : Nat) (baseUrl : String) (members : List (String × Json))
    (instances : List Json) (originator : String)
    (hI : mapFind "Instances" members = some (.array instances))
    (hO : mapFind "Originator" members = some (.string originator)) :
    (query.hasOriginator = true → query.originator ≠ originator →
      LookupInstancesState.Step lexicalCast query targetBucketSize baseUrl
        (some (.object members)) = .ok .Failure) ∧
    (query.hasOriginator = false → ∀ members' originator',
      mapFind "Instances" members' = some (.array instances) →
      mapFind "Originator" members' = some (.string originator') →
      LookupInstancesState.Step lexicalCast query targetBucketSize baseUrl
          (some (.object members'))
        = LookupInstancesState.Step lexicalCast query targetBucketSize baseUrl
          (some (.object members))) ∧
    ((query.hasOriginator = false ∨ query.originator = originator) → instances = [] →
      LookupInstancesState.Step lexicalCast query targetBucketSize baseUrl
        (some (.object members)) = .ok .Success) ∧
    ((query.hasOriginator = false ∨ query.originator = originator) → instances ≠ [] →
      ∀ scheduler buckets uris, addInstances lexicalCast instances {} = .ok scheduler →
      scheduler.ComputePullBuckets [] targetBucketSize ((2 * targetBucketSize) % SIZE_MOD)
        baseUrl query.compression = (buckets, none) →
      pullUris query.compression buckets = .ok uris →
      LookupInstancesState.Step lexicalCast query targetBucketSize baseUrl
          (some (.object members))
        = .ok (.Next (.PullBuckets (DownloadArea.ofScheduler scheduler) buckets uris))) ∧
    LookupInstancesState.Step lexicalCast query targetBucketSize baseUrl none = .ok .Failure := by
  have hw := lookup_wellformed lexicalCast query targetBucketSize baseUrl members instances
    originator hI hO
  have haccept : (query.hasOriginator = false ∨ query.originator = originator) →
      (query.hasOriginator && query.originator != originator) = false := by
    intro h
    rcases h with h | h
    · simp [h]
    · simp [h]
  refine ⟨?_, ?_, ?_, ?_, rfl⟩
  · intro h1 h2
    rw [hw]
    simp [h1, h2]
  · intro h1 members' originator' hI' hO'
    rw [hw, lookup_wellformed lexicalCast query targetBucketSize baseUrl members' instances
      originator' hI' hO']
    simp [h1]
  · intro h1 h2
    rw [hw, haccept h1, h2]
    simp [LookupInstancesState.plan, addInstances, TransferScheduler.GetInstancesCount]
  · intro h1 h2 scheduler buckets uris hadd hplan huris
    have hne := addInstances_nonempty lexicalCast instances {} scheduler hadd (Or.inl h2)
    have hcount : ¬ scheduler.GetInstancesCount = 0 := by
      unfold TransferScheduler.GetInstancesCount
      intro h0
      exact hne (List.length_eq_zero.mp h0)
    rw [hw, haccept h1]
    simp only [Bool.false_eq_true, if_false, LookupInstancesState.plan, hadd, hcount,
      PullBucketsState.create, hplan, huris]

/-- Example of the lookup step: the query of the examples carries the originator `u1`;
a response without instance from `u1` gives `Success`, from `u2`
`Failure`. -/
theorem pull_lookup_step_witness :
    LookupInstancesState.Step exampleLexicalCast queryOfExample 4096 "http://peer/"
      (some (lookupAnswer [] "u1")) = .ok .Success ∧
    LookupInstancesState.Step exampleLexicalCast queryOfExample 4096 "http://peer/"
      (some (lookupAnswer [] "u2")) = .ok .Failure :=
  ⟨(pull_lookup_step exampleLexicalCast queryOfExample 4096 "http://peer/"
      [("Instances", .array []), ("Originator", .string "u1")] [] "u1" rfl rfl).2.2.1
      (Or.inr rfl) rfl,
    (pull_lookup_step exampleLexicalCast queryOfExample 4096 "http://peer/"
      [("Instances", .array []), ("Originator", .string "u2")] [] "u2" rfl rfl).1
      rfl (by decide)⟩

/-! ## Serialization of `TransferQuery` -/

theorem compression_round_trip (c : BucketCompression) :
    StringToBucketCompression (EnumerationToString c) = .ok c := by
  cases c <;> rfl

theorem ofJson_query_facts (body : Json) (q : TransferQuery)
    (h : TransferQuery.ofJson body = .ok q) :
    q.resources.type = .arrayValue ∧ (q.hasOriginator = false → q.originator = "") := by
  unfold TransferQuery.ofJson at h
  split at h
  · cases h
  · rename_i hcond
    simp only [Bool.or_eq_true, Bool.not_eq_true', bne_iff_ne, ne_eq, not_or, not_not,
      Bool.not_eq_false] at hcond
    have harr : (body.get KEY_RESOURCES).type = .arrayValue := hcond.1.1.2
    cases hc : StringToBucketCompression (body.get KEY_COMPRESSION).asString with
    | error e => rw [hc] at h; cases h
    | ok c =>
      rw [hc] at h
      simp only at h
      by_cases hm : body.isMember KEY_ORIGINATOR_UUID = true
      · simp only [hm, if_true] at h
        by_cases ht : ((body.get KEY_ORIGINATOR_UUID).type != .stringValue) = true
        · simp only [ht, if_true] at h
          cases h
        · simp only [ht, if_false, Bool.false_eq_true] at h
          split at h
          · cases h
          · simp only [Except.ok.injEq] at h
            subst h
            exact ⟨harr, fun hf => by cases hf⟩
      · simp only [hm, if_false, Bool.false_eq_true] at h
        split at h
        · cases h
        · simp only [Except.ok.injEq] at h
          subst h
          exact ⟨harr, fun _ => rfl⟩

theorem ofJson_Serialize (q : TransferQuery) (harr : q.resources.type = .arrayValue)
    (horig : q.hasOriginator = false → q.originator = "") :
    TransferQuery.ofJson q.Serialize = .ok { q with priority := 0 } := by
  have e1 : ¬ ("Peer" : String) = "Resources" := by decide
  have e2 : ¬ ("Peer" : String) = "Compression" := by decide
  have e3 : ¬ ("Peer" : String) = "Originator" := by decide
  have e4 : ¬ ("Peer" : String) = "Priority" := by decide
  have e5 : ¬ ("Resources" : String) = "Peer" := by decide
  have e6 : ¬ ("Resources" : String) = "Compression" := by decide
  have e7 : ¬ ("Resources" : String) = "Originator" := by decide
  have e8 : ¬ ("Resources" : String) = "Priority" := by decide
  have e9 : ¬ ("Compression" : String) = "Peer" := by decide
  have e10 : ¬ ("Compression" : String) = "Resources" := by decide
  have e11 : ¬ ("Compression" : String) = "Originator" := by decide
  have e12 : ¬ ("Compression" : String) = "Priority" := by decide
  have e13 : ¬ ("Originator" : String) = "Peer" := by decide
  have e14 : ¬ ("Originator" : String) = "Resources" := by decide
  have e15 : ¬ ("Originator" : String) = "Compression" := by decide
  have e16 : ¬ ("Originator" : String) = "Priority" := by decide
  have hc := compression_round_trip q.compression
  have ts : ∀ v, (Json.string v).type = JsonType.stringValue := fun _ => rfl
  have tobj : ∀ m, (Json.object m).type = JsonType.objectValue := fun _ => rfl
  cases ho : q.hasOriginator with
  | false =>
    have horig' := horig ho
    obtain ⟨peer, resources, compression, hasOriginator, originator, priority⟩ := q
    simp only at ho horig' harr hc
    subst ho horig'
    simp only [TransferQuery.Serialize, TransferQuery.ofJson, Json.set, Json.isMember, Json.get,
      mapFind_mapInsert, mapFind, KEY_PEER, KEY_RESOURCES, KEY_COMPRESSION, KEY_ORIGINATOR_UUID,
      KEY_PRIORITY, e1, e2, e3, e4, e5, e6, e7, e8, e9, e10, e11, e12, if_false, if_true,
      Option.isSome_some, Option.isSome_none, Option.getD_some, ts, tobj, Json.asString, harr,
      hc, Bool.false_eq_true, bne_self_eq_false, Bool.not_true, Bool.not_false, Bool.or_self,
      Bool.or_false]
  | true =>
    obtain ⟨peer, resources, compression, hasOriginator, originator, priority⟩ := q
    simp only at ho harr hc
    subst ho
    simp only [TransferQuery.Serialize, TransferQuery.ofJson, Json.set, Json.isMember, Json.get,
      mapFind_mapInsert, mapFind, KEY_PEER, KEY_RESOURCES, KEY_COMPRESSION, KEY_ORIGINATOR_UUID,
      KEY_PRIORITY, e1, e2, e3, e4, e5, e6, e7, e8, e9, e10, e11, e12, e13, e14, e15, e16,
      if_false, if_true, Option.isSome_some, Option.isSome_none, Option.getD_some, ts, tobj,
      Json.asString, harr, hc, Bool.false_eq_true, bne_self_eq_false, Bool.not_true,
      Bool.not_false, Bool.or_self, Bool.or_false]

/-- Counterexample to C29: the body of the examples carries an originator and
the priority 5 and is parsed into a query of priority 5; parsing the
serialization of that query gives the priority 0. -/
theorem serialization_drops_priority :
    TransferQuery.ofJson bodyOfExample = .ok queryOfExample ∧
    queryOfExample.priority = 5 ∧
    TransferQuery.ofJson queryOfExample.Serialize = .ok { queryOfExample with priority := 0 } :=
  ⟨rfl, rfl, ofJson_Serialize queryOfExample rfl (fun h => by cases h)⟩

/-- C29, amended. For every query `q` parsed from a body, parsing
`Serialize(q)` succeeds and gives the query with the peer, the resources, the
compression and the originator (presence and value) of `q`, and with the
priority 0: `Serialize` does not write the priority. -/
theorem query_round_trip (body : Json) (q : TransferQuery)
    (h : TransferQuery.ofJson body = .ok q) :
    TransferQuery.ofJson q.Serialize
      = .ok { peer := q.peer, resources := q.resources, compression := q.compression
              hasOriginator := q.hasOriginator, originator := q.originator, priority := 0 } := by
  obtain ⟨harr, horig⟩ := ofJson_query_facts body q h
  exact ofJson_Serialize q harr horig

/-- Witness of the amended C29: the body of the examples. -/
theorem query_round_trip_witness :
    TransferQuery.ofJson queryOfExample.Serialize
      = .ok { peer := "p", resources := .array [], compression := .Gzip
              hasOriginator := true, originator := "u1", priority := 0 } :=
  query_round_trip bodyOfExample queryOfExample rfl

/-! ## The arguments of the chunk endpoint -/

theorem ReadSizeArgument_bound (lexicalCastInt : String → Option Int)
    (hint : returnsInt lexicalCastInt) (value : String) (n : Nat)
    (h : ReadSizeArgument lexicalCastInt value = .ok n) : n < 2 ^ 31 := by
  unfold ReadSizeArgument at h
  cases hv : lexicalCastInt value with
  | none => rw [hv] at h; cases h
  | some tmp =>
    rw [hv] at h
    have hr := hint value tmp hv
    by_cases hpos : tmp ≥ 0
    · simp only [hpos, if_true, Except.ok.injEq] at h
      omega
    · simp [hpos] at h

theorem readArguments_bound (lexicalCastInt : String → Option Int)
    (hint : returnsInt lexicalCastInt) :
    ∀ (args : List (String × String)) (state result : Nat × Nat × BucketCompression),
      state.1 < 2 ^ 31 → state.2.1 < 2 ^ 31 →
      readArguments lexicalCastInt args state = .ok result →
      result.1 < 2 ^ 31 ∧ result.2.1 < 2 ^ 31 := by
  intro args
  induction args with
  | nil =>
    intro state result h1 h2 h
    simp only [readArguments, Except.ok.injEq] at h
    subst h
    exact ⟨h1, h2⟩
  | cons arg rest ih =>
    intro state result h1 h2 h
    obtain ⟨key, value⟩ := arg
    obtain ⟨offset, requestedSize, compression⟩ := state
    unfold readArguments at h
    split at h
    · cases hr : ReadSizeArgument lexicalCastInt value with
      | error e => rw [hr] at h; cases h
      | ok n =>
        rw [hr] at h
        exact ih (n, requestedSize, compression) result
          (ReadSizeArgument_bound lexicalCastInt hint value n hr) h2 h
    · split at h
      · cases hr : ReadSizeArgument lexicalCastInt value with
        | error e => rw [hr] at h; cases h
        | ok n =>
          rw [hr] at h
          exact ih (offset, n, compression) result h1
            (ReadSizeArgument_bound lexicalCastInt hint value n hr) h
      · split at h
        · cases hr : StringToBucketCompression value with
          | error e => rw [hr] at h; cases h
          | ok c =>
            rw [hr] at h
            exact ih (offset, requestedSize, c) result h1 h2 h
        · exact ih (offset, requestedSize, compression) result h1 h2 h

/-- C30. The chunk endpoint reads `offset` and `size` with
`boost::lexical_cast<int>`: whatever the integer parser does, as soon as its
values are values of `int`, every value that `ReadSizeArgument` returns, and
hence every `offset` and `size` that `ServeChunks` uses, is below `2^31`.  The
decimal text of `2^31` or more is therefore never read as that number. -/
theorem chunk_arguments_below_two_pow_31 (lexicalCastInt : String → Option Int)
    (hint : returnsInt lexicalCastInt) (args : List (String × String))
    (offset requestedSize : Nat) (compression : BucketCompression)
    (h : readArguments lexicalCastInt args (0, 0, .None)
      = .ok (offset, requestedSize, compression)) :
    offset < 2 ^ 31 ∧ requestedSize < 2 ^ 31 ∧
    (∀ value n, ReadSizeArgument lexicalCastInt value = .ok n → n ≠ 2147483648) := by
  have hb := readArguments_bound lexicalCastInt hint args (0, 0, .None)
    (offset, requestedSize, compression) (by norm_num) (by norm_num) h
  refine ⟨hb.1, hb.2, ?_⟩
  intro value n hn
  have := ReadSizeArgument_bound lexicalCastInt hint value n hn
  omega

theorem exampleLexicalCastInt_returnsInt : returnsInt exampleLexicalCastInt := by
  intro s v h
  unfold exampleLexicalCastInt at h
  cases hn : exampleLexicalCast s with
  | none => rw [hn] at h; cases h
  | some n =>
    rw [hn] at h
    simp only at h
    by_cases hlt : n < 2 ^ 31
    · rw [if_pos hlt] at h
      simp only [Option.some.injEq] at h
      subst h
      constructor
      · have : (0 : Int) ≤ (n : Int) := Int.natCast_nonneg n
        omega
      · exact_mod_cast hlt
    · rw [if_neg hlt] at h
      cases h

/-- Witness of C30: the arguments `offset=5&size=7` are read as 5 and 7, and
the parser of the examples rejects `offset=2147483648`. -/
theorem chunk_arguments_below_two_pow_31_witness :
    readArguments exampleLexicalCastInt [("offset", "5"), ("size", "7")] (0, 0, .None)
      = .ok (5, 7, .None) ∧
    readArguments exampleLexicalCastInt [("offset", "2147483648")] (0, 0, .None)
      = .error .BadParameterType ∧
    (5 < 2 ^ 31 ∧ 7 < 2 ^ 31 ∧
      ∀ value n, ReadSizeArgument exampleLexicalCastInt value = .ok n → n ≠ 2147483648) :=
  ⟨rfl, rfl,
    chunk_arguments_below_two_pow_31 exampleLexicalCastInt exampleLexicalCastInt_returnsInt
      [("offset", "5"), ("size", "7")] 5 7 .None rfl⟩

/-! ## The names of the compression methods -/

/-- C32. For every compression value `c`,
`StringToBucketCompression(EnumerationToString(c))` is `c`, and
`StringToBucketCompression` raises parameter-out-of-range for every string
other than exactly `"gzip"` and `"none"`: the only string that is read as `c`
is `EnumerationToString(c)`, and `"None"` is rejected. -/
theorem compression_names_round_trip :
    (∀ c, StringToBucketCompression (EnumerationToString c) = .ok c) ∧
    (∀ value, value ≠ "gzip" → value ≠ "none" →
      StringToBucketCompression value = .error .ParameterOutOfRange) ∧
    (∀ value c, StringToBucketCompression value = .ok c → value = EnumerationToString c) ∧
    StringToBucketCompression "None" = .error .ParameterOutOfRange ∧
    StringToBucketCompression "GZIP" = .error .ParameterOutOfRange ∧
    StringToBucketCompression "" = .error .ParameterOutOfRange := by
  refine ⟨?_, ?_, ?_, rfl, rfl, rfl⟩
  · intro c
    cases c <;> rfl
  · intro value h1 h2
    simp [StringToBucketCompression, h1, h2]
  · intro value c h
    unfold StringToBucketCompression at h
    by_cases h1 : value = "gzip"
    · rw [if_pos h1] at h
      cases h
      exact h1
    · rw [if_neg h1] at h
      by_cases h2 : value = "none"
      · rw [if_pos h2] at h
        cases h
        exact h2
      · rw [if_neg h2] at h
        cases h

/-! ## The chunks of a large instance -/

theorem last_chunk_size (size k : Nat) (hk : 0 < k) :
    size - (k - 1) * (size / k) = size / k + size % k := by
  have h := Nat.div_add_mod size k
  obtain ⟨m, rfl⟩ : ∃ m, k = m + 1 := ⟨k - 1, by omega⟩
  simp only [Nat.add_sub_cancel]
  generalize size / (m + 1) = q at h ⊢
  generalize size % (m + 1) = r at h ⊢
  have h2 : (m + 1) * q = m * q + q := by ring
  rw [h2] at h
  generalize m * q = p at h ⊢
  omega

theorem chunk_size_bounds (size sep : Nat) (hsep : 0 < sep) (hbig : sep ≤ size) :
    1 ≤ size / ceilDiv size sep ∧ size / ceilDiv size sep ≤ sep := by
  obtain ⟨hpos, hle⟩ := ceilDiv_pos_le size sep hsep hbig
  constructor
  · exact Nat.div_pos hle hpos
  · have hge : size ≤ ceilDiv size sep * sep := by
      rw [ceilDiv_eq size sep hsep]
      have h := Nat.div_add_mod size sep
      have hlt := Nat.mod_lt size hsep
      split
      · rename_i h0
        rw [Nat.mul_comm]
        omega
      · have : (size / sep + 1) * sep = sep * (size / sep) + sep := by ring
        omega
    apply Nat.div_le_of_le_mul
    exact hge

/-- C40. An instance of size at least `separate` is cut in
`k = ceil(size / separate)` buckets of one chunk, in pull and in push mode;
chunk number `j` starts at `j * floor(size / k)`; every chunk but the last has
the size `floor(size / k)`, which lies between 1 and `separate`, and the last
one has the size `floor(size / k) + (size mod k)`, which can exceed
`separate`: an instance of 11 bytes with `group = 1` and `separate = 4` is cut
in chunks of 3, 3 and 5 bytes. -/
theorem large_instance_chunk_sizes (s : TransferScheduler) (hwf : s.WellFormed)
    (g sep : Nat) (hg : 0 < g) (hgs : g ≤ sep) (target0 : List TransferBucket)
    (baseUrl : String) (compression : BucketCompression)
    (info : DicomInstanceInfo) (hmem : info ∈ s.ListInstances) (hbig : sep ≤ info.size) :
    (s.ComputePullBuckets target0 g sep baseUrl compression).1.filter
        (fun b => b.names info.id)
      = (List.range (ceilDiv info.size sep)).map (fun j => singleChunkBucket
          ⟨info.id, j * (info.size / ceilDiv info.size sep),
            if j = ceilDiv info.size sep - 1
            then info.size / ceilDiv info.size sep + info.size % ceilDiv info.size sep
            else info.size / ceilDiv info.size sep⟩) ∧
    (s.FormatPushTransactionBuckets target0 g sep).1.filter (fun b => b.names info.id)
      = (List.range (ceilDiv info.size sep)).map (fun j => singleChunkBucket
          ⟨info.id, j * (info.size / ceilDiv info.size sep),
            if j = ceilDiv info.size sep - 1
            then info.size / ceilDiv info.size sep + info.size % ceilDiv info.size sep
            else info.size / ceilDiv info.size sep⟩) ∧
    1 ≤ info.size / ceilDiv info.size sep ∧
    info.size / ceilDiv info.size sep ≤ sep ∧
    (schedulerOfEleven.ComputePullBuckets [] 1 4 "" .None).1.map (fun b => b.chunks)
      = [[⟨"dicom", 0, 3⟩], [⟨"dicom", 3, 3⟩], [⟨"dicom", 6, 5⟩]] := by
  have hk := (ceilDiv_pos_le info.size sep (by omega) hbig).1
  have hsplit : splitBuckets sep info
      = (List.range (ceilDiv info.size sep)).map (fun j => singleChunkBucket
          ⟨info.id, j * (info.size / ceilDiv info.size sep),
            if j = ceilDiv info.size sep - 1
            then info.size / ceilDiv info.size sep + info.size % ceilDiv info.size sep
            else info.size / ceilDiv info.size sep⟩) := by
    unfold splitBuckets splitChunk
    rw [last_chunk_size info.size _ hk]
  have hb := chunk_size_bounds info.size sep (by omega) hbig
  refine ⟨?_, ?_, hb.1, hb.2, by decide⟩
  · rw [← hsplit]
    exact planner_buckets_of_instance s hwf g sep hg hgs target0 baseUrl compression info hmem
      (by omega)
  · rw [← hsplit]
    exact planner_buckets_of_instance s hwf g sep hg hgs target0 "" .None info hmem (by omega)

/-- Witness of C40: the instance of 11 bytes, with `group = 1` and
`separate = 4`. -/
theorem large_instance_chunk_sizes_witness :
    (schedulerOfEleven.ComputePullBuckets [] 1 4 "http://localhost/" .Gzip).1.filter
        (fun b => b.names "dicom")
      = (List.range (ceilDiv 11 4)).map (fun j => singleChunkBucket
          ⟨"dicom", j * (11 / ceilDiv 11 4),
            if j = ceilDiv 11 4 - 1 then 11 / ceilDiv 11 4 + 11 % ceilDiv 11 4
            else 11 / ceilDiv 11 4⟩) ∧
    ceilDiv 11 4 = 3 ∧ 11 / ceilDiv 11 4 = 3 ∧ 11 % ceilDiv 11 4 = 2 :=
  ⟨(large_instance_chunk_sizes schedulerOfEleven (by decide) 1 4 (by decide) (by decide) []
      "http://localhost/" .Gzip ⟨"dicom", 11, ""⟩ (by decide) (by decide)).1,
    by decide, by decide, by decide⟩

/-! ## Exceptions that cross the registry, the job and the queue -/

/-- C35. When `DownloadArea::Commit` raises during
`ActivePushTransactions::Commit(uuid)`, the exception propagates and the
transaction stays registered under `uuid`, with the download area as the
failed commit left it: the index, hence the recency of every transaction, is
unchanged, the registry holds the same identifiers and as many transactions
as before, and the other transactions are untouched.  A later `Discard`
removes the transaction. -/
theorem failed_commit_keeps_transaction (md5 : List Byte → String)
    (accepts : List (List Byte) → List Byte → Bool) (r : ActivePushTransactions)
    (uuid : String) (posted : List (List Byte)) (found : Transaction) (e : ErrorCode)
    (hf : mapFind uuid r.content = some found)
    (he : (found.area.Commit md5 accepts posted).2.2 = some e) :
    (r.Commit md5 accepts uuid posted).2.2 = some e ∧
    (r.Commit md5 accepts uuid posted).2.1 = (found.area.Commit md5 accepts posted).2.1 ∧
    (r.Commit md5 accepts uuid posted).1.index = r.index ∧
    (r.Commit md5 accepts uuid posted).1.maxSize = r.maxSize ∧
    (r.Commit md5 accepts uuid posted).1.content.map Prod.fst = r.content.map Prod.fst ∧
    (r.Commit md5 accepts uuid posted).1.content.length = r.content.length ∧
    mapFind uuid (r.Commit md5 accepts uuid posted).1.content
      = some { found with area := (found.area.Commit md5 accepts posted).1 } ∧
    (∀ id, id ≠ uuid →
      mapFind id (r.Commit md5 accepts uuid posted).1.content = mapFind id r.content) ∧
    (∀ posted', ((r.Commit md5 accepts uuid posted).1.Discard md5 accepts uuid posted').2.2 = none ∧
      mapFind uuid ((r.Commit md5 accepts uuid posted).1.Discard md5 accepts uuid posted').1.content
        = none) := by
  have hspec := (Finalize_spec md5 accepts r uuid true posted).2.2 found e hf rfl he
  have hc : r.Commit md5 accepts uuid posted
      = (⟨mapSet uuid { found with area := (found.area.Commit md5 accepts posted).1 } r.content,
            r.index, r.maxSize⟩,
          (found.area.Commit md5 accepts posted).2.1, some e) := hspec
  have hfind : mapFind uuid
      (mapSet uuid { found with area := (found.area.Commit md5 accepts posted).1 } r.content)
      = some { found with area := (found.area.Commit md5 accepts posted).1 } := by
    rw [mapFind_mapSet, if_pos rfl, hf]
    rfl
  rw [hc]
  refine ⟨rfl, rfl, rfl, rfl, mapSet_keys _ _ _, ?_, hfind, ?_, ?_⟩
  · have := congrArg List.length (mapSet_keys uuid
      { found with area := (found.area.Commit md5 accepts posted).1 } r.content)
    simpa using this
  · intro id hid
    show mapFind id (mapSet uuid _ r.content) = _
    rw [mapFind_mapSet, if_neg hid]
  · intro posted'
    have hd := (Finalize_spec md5 accepts
      ⟨mapSet uuid { found with area := (found.area.Commit md5 accepts posted).1 } r.content,
        r.index, r.maxSize⟩ uuid false posted').2.1 _ hfind (Or.inl rfl)
    have hd' : ActivePushTransactions.Discard md5 accepts
        ⟨mapSet uuid { found with area := (found.area.Commit md5 accepts posted).1 } r.content,
          r.index, r.maxSize⟩ uuid posted' = _ := hd
    rw [hd']
    refine ⟨rfl, ?_⟩
    show mapFind uuid (mapErase uuid _) = none
    rw [mapFind_mapErase, if_pos rfl]

/-- Witness of C35: the commit of `t1` raises corrupted-file, since the
digest of its instance is not the one of its descriptor, and `t1` stays
registered. -/
theorem failed_commit_keeps_transaction_witness :
    (registryOfExample.Commit exampleDigest acceptAll "t1" []).2.2 = some .CorruptedFile ∧
    (registryOfExample.Commit exampleDigest acceptAll "t1" []).1.index = ["t1"] ∧
    (registryOfExample.Commit exampleDigest acceptAll "t1" []).1.content.length = 1 :=
  have h := failed_commit_keeps_transaction exampleDigest acceptAll registryOfExample "t1" []
    (Transaction.create [⟨"a", 1, "x"⟩] [] .None) .CorruptedFile rfl rfl
  ⟨h.1, h.2.2.1, h.2.2.2.2.2.1⟩

/-- C36. When the `Step` of the current state raises, `StatefulOrthancJob::Step`
propagates the exception and keeps the current state, as its `Step` left it,
without publishing the content.  A following `Reset` raises
bad-sequence-of-calls, and a following `Step` runs the `Step` of that same
state, not `CreateInitialState`. -/
theorem job_step_propagates_error {State : Type} (b : JobBehaviour State)
    (job : StatefulOrthancJob State) (state state' : State) (info' : JobInfo) (e : ErrorCode)
    (hs : job.state = some state)
    (hr : b.Step state job.info = (state', info', .error e)) :
    (job.Step b).2 = .error e ∧
    (job.Step b).1 = ⟨some state', info'⟩ ∧
    (job.Step b).1.Reset = some .BadSequenceOfCalls ∧
    (∀ s i u, b.Step state' info' = (s, i, .ok u) →
      (job.Step b).1.Step b = StatefulOrthancJob.applyUpdate (some s) i u) ∧
    (∀ s i e', b.Step state' info' = (s, i, .error e') →
      (job.Step b).1.Step b = (⟨some s, i⟩, .error e')) := by
  have hstep : job.Step b = (⟨some state', info'⟩, .error e) := by
    unfold StatefulOrthancJob.Step
    rw [hs]
    simp only [hr]
  rw [hstep]
  refine ⟨rfl, rfl, rfl, ?_, ?_⟩
  · intro s i u h
    unfold StatefulOrthancJob.Step
    simp only [h]
  · intro s i e' h
    unfold StatefulOrthancJob.Step
    simp only [h]

/-- Witness of C36: the commit state of a pull job on the area whose second
slot is corrupted.  `Commit` raises corrupted-file, the state is kept, `Reset`
raises bad-sequence-of-calls and the next `Step` runs `Commit` again, which
raises the internal error on the released first slot. -/
theorem job_step_propagates_error_witness :
    (StatefulOrthancJob.Step (commitBehaviour exampleDigest acceptAll)
      ⟨some (areaWithCorruptedSlot exampleDigest, []), {}⟩).2 = .error .CorruptedFile ∧
    (StatefulOrthancJob.Step (commitBehaviour exampleDigest acceptAll)
      ⟨some (areaWithCorruptedSlot exampleDigest, []), {}⟩).1.Reset
        = some .BadSequenceOfCalls ∧
    (StatefulOrthancJob.Step (commitBehaviour exampleDigest acceptAll)
      (StatefulOrthancJob.Step (commitBehaviour exampleDigest acceptAll)
        ⟨some (areaWithCorruptedSlot exampleDigest, []), {}⟩).1)
      = (⟨some (areaAfterFailedCommit exampleDigest, [[]]), {}⟩, .error .InternalError) :=
  have h := job_step_propagates_error (commitBehaviour exampleDigest acceptAll)
    ⟨some (areaWithCorruptedSlot exampleDigest, []), {}⟩
    (areaWithCorruptedSlot exampleDigest, []) (areaAfterFailedCommit exampleDigest, [[]]) {}
    .CorruptedFile rfl rfl
  ⟨h.1, h.2.2.1, h.2.2.2.2 (areaAfterFailedCommit exampleDigest, [[]]) {} .InternalError rfl⟩

/-- C37. One call to `ExecuteOneQuery` on a queue that has not failed and
whose cursor is on a request.  When `ReadBody` raises, no call is made; when
`HandleAnswer` raises on the answer of the first call that succeeds, no
further call is made.  In both cases the exception propagates with the cursor
advanced by one, `succeeded` and the byte counters unchanged and `failed`
still unset, and the status of the queue is `Running`, not `Failure`. -/
theorem executeOneQuery_propagates_error (attempt : Nat → Attempt) (q : HttpQueriesQueue)
    (fuel : Nat) (query : IHttpQuery)
    (hfuel : q.maxRetries + 1 ≤ fuel) (hwrap : q.maxRetries + 1 < UINT_MOD)
    (hf : q.isFailure = false) (hq : q.queries[q.position]? = some query)
    (hinv : q.successQueries ≤ q.position) :
    (∀ e, query.method = .Post ∨ query.method = .Put → query.ReadBody = .error e →
      q.ExecuteOneQuery attempt fuel
        = some { queue := { q with position := q.position + 1 }
                 result := .error e, networkTraffic := 0, requests := [] }) ∧
    (∀ body i answer e,
      (if query.method = .Post ∨ query.method = .Put then query.ReadBody else .ok []) = .ok body →
      i ≤ q.maxRetries → (∀ j, j < i → ∀ a, attempt j ≠ .answered a) →
      attempt i = .answered answer →
      query.method = .Get ∨ query.method = .Post → query.HandleAnswer answer = some e →
      q.ExecuteOneQuery attempt fuel
        = some { queue := { q with position := q.position + 1 }
                 result := .error e, networkTraffic := 0
                 requests := List.replicate (i + 1) (requestOf query body) }) ∧
    ({ q with position := q.position + 1 } : HttpQueriesQueue).GetStatusInternal = .Running ∧
    ({ q with position := q.position + 1 } : HttpQueriesQueue).successQueries
      = q.successQueries ∧
    ({ q with position := q.position + 1 } : HttpQueriesQueue).isFailure = false := by
  have htake := takeQuery_of q query hf hq
  refine ⟨?_, ?_, ?_, rfl, hf⟩
  · intro e hm hb
    unfold HttpQueriesQueue.ExecuteOneQuery
    rw [htake]
    simp only [hm, if_true, hb]
  · intro body i answer e hbody hi hfail hans hm hh
    have hloop := retryLoop_answered attempt q.maxRetries hwrap i answer hi hans i 0 fuel
      (by omega) (by omega) (fun j _ hj => hfail j hj)
    unfold HttpQueriesQueue.ExecuteOneQuery
    rw [htake]
    simp only [hbody, hloop, hm, if_true, hh]
    rfl
  · have hlt : q.position < q.queries.length := by
      rcases Nat.lt_or_ge q.position q.queries.length with h | h
      · exact h
      · rw [List.getElem?_eq_none h] at hq
        cases hq
    have hne : q.successQueries ≠ q.queries.length := by omega
    simp [HttpQueriesQueue.GetStatusInternal, hne, hf]

/-- Witness of C37: a queue of one GET request whose `HandleAnswer` raises the
network-protocol error on the answer of the first call, and a queue of one
POST request whose `ReadBody` raises. -/
theorem executeOneQuery_propagates_error_witness :
    ((queueOf [raisingQuery] 0).ExecuteOneQuery (fun _ => .answered [1]) 1
      = some { queue := { queueOf [raisingQuery] 0 with position := 1 }
               result := .error .NetworkProtocol, networkTraffic := 0
               requests := List.replicate 1 (requestOf raisingQuery []) } ∧
    ({ queueOf [raisingQuery] 0 with position := 1 } : HttpQueriesQueue).GetStatusInternal
      = .Running) ∧
    (queueOf [unreadableQuery] 0).ExecuteOneQuery (fun _ => .answered [1]) 1
      = some { queue := { queueOf [unreadableQuery] 0 with position := 1 }
               result := .error .ParameterOutOfRange, networkTraffic := 0, requests := [] } :=
  have h := executeOneQuery_propagates_error (fun _ => .answered [1]) (queueOf [raisingQuery] 0) 1
    raisingQuery (by decide) (by decide) rfl rfl (by decide)
  ⟨⟨h.2.1 [] 0 [1] .NetworkProtocol rfl (by decide) (fun j hj => absurd hj (by omega)) rfl
    (Or.inl rfl) rfl, h.2.2.1⟩,
    (executeOneQuery_propagates_error (fun _ => .answered [1]) (queueOf [unreadableQuery] 0) 1
      unreadableQuery (by decide) (by decide) rfl rfl (by decide)).1 .ParameterOutOfRange
      (Or.inl rfl) rfl⟩

/-! ## Deserialization of a bucket -/

theorem ofJsonLoop_elements (lexicalCast : String → Option Nat) :
    ∀ (items : List Json) (b0 : TransferBucket),
      (∀ item ∈ items, isChunkElement lexicalCast item) →
      ∃ cs, TransferBucket.ofJsonLoop lexicalCast items b0
          = .ok { chunks := b0.chunks ++ cs
                  totalSize := cs.foldl (fun total c => addSz total c.size) b0.totalSize
                  extensible := b0.extensible } ∧
        List.Forall₂ (fun item c => ∃ members offset size, item = .object members ∧
          mapFind "ID" members = some (.string c.instanceId) ∧
          mapFind "Offset" members = some (.string offset) ∧
          mapFind "Size" members = some (.string size) ∧
          lexicalCast offset = some c.offset ∧ lexicalCast size = some c.size) items cs := by
  intro items
  induction items with
  | nil =>
    intro b0 _
    exact ⟨[], by simp [TransferBucket.ofJsonLoop], List.Forall₂.nil⟩
  | cons item rest ih =>
    intro b0 h
    obtain ⟨members, id, offset, size, rfl, hid, hoff, hsize, ho, hs⟩ :=
      h item (List.mem_cons_self _ _)
    obtain ⟨o, ho⟩ := Option.isSome_iff_exists.mp ho
    obtain ⟨sz, hs⟩ := Option.isSome_iff_exists.mp hs
    obtain ⟨cs, hcs, hrel⟩ := ih
      { chunks := b0.chunks ++ [⟨id, o, sz⟩], totalSize := addSz b0.totalSize sz,
        extensible := b0.extensible }
      (fun i hi => h i (List.mem_cons_of_mem _ hi))
    refine ⟨⟨id, o, sz⟩ :: cs, ?_, ?_⟩
    · rcases ofJsonLoop_object lexicalCast members rest b0 with
        ⟨id', offset', size', h1, h2, h3, heq⟩ | ⟨hno, _⟩
      · rw [hid] at h1
        rw [hoff] at h2
        rw [hsize] at h3
        simp only [Option.some.injEq, Json.string.injEq] at h1 h2 h3
        subst h1 h2 h3
        rw [heq, ho, hs]
        simp only []
        rw [hcs]
        simp
      · exact absurd ⟨id, offset, size, hid, hoff, hsize⟩ hno
    · exact List.Forall₂.cons ⟨members, offset, size, rfl, hid, hoff, hsize, ho, hs⟩ hrel

/-- The constructor of a bucket from JSON checks the types and parses the
numbers, nothing else.  For every array of chunk elements (objects whose
`ID`, `Offset` and `Size` are strings, the last two decimal numbers) it
returns a bucket that holds exactly the chunks of the elements, in order,
whatever their offsets and sizes; its `totalSize` is the sum of the chunk
sizes, taken in `size_t`; and the bucket is sealed: `AddChunk` raises
bad-sequence-of-calls for every range that lies in the instance, and
parameter-out-of-range otherwise. -/
theorem bucket_deserialisation_validates_types (lexicalCast : String → Option Nat)
    (items : List Json) (hitems : ∀ item ∈ items, isChunkElement lexicalCast item) :
    ∃ b, TransferBucket.ofJson lexicalCast (.array items) = .ok b ∧
      List.Forall₂ (fun item c => ∃ members offset size, item = .object members ∧
        mapFind "ID" members = some (.string c.instanceId) ∧
        mapFind "Offset" members = some (.string offset) ∧
        mapFind "Size" members = some (.string size) ∧
        lexicalCast offset = some c.offset ∧ lexicalCast size = some c.size) items b.chunks ∧
      b.chunks.length = items.length ∧
      b.totalSize = sumSizes b.chunks % SIZE_MOD ∧
      b.extensible = false ∧
      (∀ info offset size, addSz offset size ≤ info.size →
        b.AddChunk info offset size = .error .BadSequenceOfCalls) ∧
      (∀ info offset size, addSz offset size > info.size →
        b.AddChunk info offset size = .error .ParameterOutOfRange) := by
  obtain ⟨cs, hcs, hrel⟩ := ofJsonLoop_elements lexicalCast items
    { chunks := [], totalSize := 0, extensible := false } hitems
  refine ⟨(⟨[] ++ cs, cs.foldl (fun total c => addSz total c.size) 0, false⟩ : TransferBucket),
    ?_, ?_, ?_, ?_, rfl, ?_, ?_⟩
  · unfold TransferBucket.ofJson
    simp only [Json.type, bne_self_eq_false, Bool.false_eq_true, if_false]
    exact hcs
  · simpa using hrel
  · simpa using hrel.length_eq.symm
  · have h := foldl_addSz cs 0 (by unfold SIZE_MOD; norm_num)
    simpa using h
  · intro info offset size hle
    rw [AddChunk_sealed _ info offset size rfl, if_neg (by omega)]
  · intro info offset size hgt
    rw [AddChunk_sealed _ info offset size rfl, if_pos hgt]

/-- Example of the deserialization of a bucket: an array whose first chunk is empty and whose second
chunk starts at offset 3 gives a sealed bucket of these two chunks; the
serialization of an extensible bucket gives a sealed bucket as well. -/
theorem bucket_deserialisation_validates_types_witness :
    (∃ b, TransferBucket.ofJson exampleLexicalCast
        (.array [chunkToJson ⟨"a", 0, 0⟩, chunkToJson ⟨"b", 3, 4⟩]) = .ok b ∧
      List.Forall₂ (fun item c => ∃ members offset size, item = .object members ∧
        mapFind "ID" members = some (.string c.instanceId) ∧
        mapFind "Offset" members = some (.string offset) ∧
        mapFind "Size" members = some (.string size) ∧
        exampleLexicalCast offset = some c.offset ∧ exampleLexicalCast size = some c.size)
        [chunkToJson ⟨"a", 0, 0⟩, chunkToJson ⟨"b", 3, 4⟩] b.chunks ∧
      b.chunks.length = [chunkToJson ⟨"a", 0, 0⟩, chunkToJson ⟨"b", 3, 4⟩].length ∧
      b.totalSize = sumSizes b.chunks % SIZE_MOD ∧
      b.extensible = false ∧
      (∀ info offset size, addSz offset size ≤ info.size →
        b.AddChunk info offset size = .error .BadSequenceOfCalls) ∧
      (∀ info offset size, addSz offset size > info.size →
        b.AddChunk info offset size = .error .ParameterOutOfRange)) ∧
    TransferBucket.ofJson exampleLexicalCast
        (.array [chunkToJson ⟨"a", 0, 0⟩, chunkToJson ⟨"b", 3, 4⟩])
      = .ok { chunks := [⟨"a", 0, 0⟩, ⟨"b", 3, 4⟩], totalSize := 4, extensible := false } ∧
    (bucketOfChunks [⟨"d1", 0, 10⟩]).extensible = true ∧
    TransferBucket.ofJson exampleLexicalCast (bucketOfChunks [⟨"d1", 0, 10⟩]).Serialize
      = .ok { chunks := [⟨"d1", 0, 10⟩], totalSize := 10, extensible := false } :=
  ⟨bucket_deserialisation_validates_types exampleLexicalCast
      [chunkToJson ⟨"a", 0, 0⟩, chunkToJson ⟨"b", 3, 4⟩]
      (by
        intro item hitem
        simp only [List.mem_cons, List.mem_singleton, List.not_mem_nil, or_false] at hitem
        rcases hitem with rfl | rfl
        · exact ⟨_, "a", "0", "0", rfl, rfl, rfl, rfl, by decide, by decide⟩
        · exact ⟨_, "b", "3", "4", rfl, rfl, rfl, rfl, by decide, by decide⟩),
    rfl, rfl, rfl⟩

/-! ## A download area after `CheckMD5` -/

theorem commitLoop_simulate_posted (md5 : List Byte → String)
    (accepts : List (List Byte) → List Byte → Bool) :
    ∀ (todo done : List (String × Option DownloadArea.Instance)) (posted : List (List Byte)),
      (DownloadArea.commitLoop md5 accepts true todo done posted).2.1 = posted := by
  intro todo
  induction todo with
  | nil => intro done posted; rfl
  | cons x rest ih =>
    intro done posted
    obtain ⟨key, v⟩ := x
    cases v with
    | none => rfl
    | some slot =>
      unfold DownloadArea.commitLoop
      by_cases hm : md5 slot.file = slot.info.md5
      · simp only [DownloadArea.Instance.Commit, hm, if_true, Bool.not_true, Bool.false_eq_true,
          if_false]
        exact ih _ _
      · simp only [DownloadArea.Instance.Commit, hm, if_false]

theorem mapFind_released (id : String) (entries : List (String × Option DownloadArea.Instance)) :
    mapFind id (entries.map (fun e => (e.1, (none : Option DownloadArea.Instance))))
      = (mapFind id entries).map (fun _ => none) :=
  mapFind_map (fun _ _ => (none : Option DownloadArea.Instance)) id entries

theorem commit_of_released_head (md5 : List Byte → String)
    (accepts : List (List Byte) → List Byte → Bool) (simulate : Bool) (key : String)
    (rest : List (String × Option DownloadArea.Instance)) (total : Nat)
    (posted : List (List Byte)) :
    DownloadArea.CommitInternal md5 accepts ⟨(key, none) :: rest, total⟩ simulate posted
      = (⟨(key, none) :: rest, total⟩, posted, some .InternalError) := by
  simp [DownloadArea.CommitInternal, DownloadArea.commitLoop]

theorem writeUncompressed_released (entries : List (String × Option DownloadArea.Instance))
    (total : Nat) (bucket : TransferBucket) (payload : List Byte) (c : Chunk) (rest : List Chunk)
    (hlen : payload.length = bucket.GetTotalSize) (hpay : payload ≠ [])
    (hchunks : bucket.chunks = c :: rest) :
    DownloadArea.WriteUncompressedBucket ⟨entries.map (fun e => (e.1, none)), total⟩ bucket payload
      = (⟨entries.map (fun e => (e.1, none)), total⟩,
          some (if addSz 0 c.size > payload.length then .InternalError
            else if (mapFind c.instanceId entries).isSome then .InternalError
            else .UnknownResource)) := by
  have hpos : payload.length ≠ 0 := fun h => hpay (List.length_eq_zero.mp h)
  unfold DownloadArea.WriteUncompressedBucket
  simp only [hlen, bne_self_eq_false, Bool.false_eq_true, if_false]
  rw [← hlen]
  have h0 : (payload.length == 0) = false := by simpa using hpos
  simp only [h0, Bool.false_eq_true, if_false, hchunks]
  unfold DownloadArea.writeChunksLoop
  by_cases hgt : addSz 0 c.size > payload.length
  · simp only [hgt, if_true]
  · simp only [hgt, if_false, DownloadArea.LookupInstance, mapFind_released]
    cases hfind : mapFind c.instanceId entries with
    | none => simp
    | some v => simp

/-- Counterexample to C34: `CheckMD5` raises nothing on the area of one empty
instance; afterwards `WriteBucket` of a bucket of one chunk of one byte, with
a payload of one byte, raises unknown-resource, not the internal error, since
the chunk names an instance that the area does not hold. -/
theorem writeBucket_after_checkMD5_unknown_instance :
    areaOfEmptyInstance.instances ≠ [] ∧
    (areaOfEmptyInstance.CheckMD5 exampleDigest acceptAll []).2.2 = none ∧
    (bucketOfChunks [⟨"zz", 0, 1⟩]).chunks ≠ [] ∧
    ([7] : List Byte).length = (bucketOfChunks [⟨"zz", 0, 1⟩]).GetTotalSize ∧
    ((areaOfEmptyInstance.CheckMD5 exampleDigest acceptAll []).1.WriteBucket exampleUncompress
      (bucketOfChunks [⟨"zz", 0, 1⟩]) [7] .None).2 = some .UnknownResource := by
  refine ⟨by decide, rfl, by decide, rfl, rfl⟩

/-- C34, amended. `CheckMD5` consumes the area.  After a `CheckMD5` that
raised nothing on an area of at least one instance, every slot has been
released while its identifier stays in the map, and nothing has been handed to
the archive; every later `Commit` or `CheckMD5` raises the internal error;
`WriteInstance` raises corrupted-file; and `WriteBucket` of a bucket with a
non-empty payload of the right length raises the internal error when its first
chunk names an instance of the area, but unknown-resource when that chunk fits
in the payload and names an instance that the area does not hold.  Likewise,
after a `Commit` or a `CheckMD5` that raised on a slot, the slots before it
are released and the others are kept; when it is not the first slot, a
retried `Commit` raises the internal error and hands nothing to the archive. -/
theorem checkMD5_consumes_area (md5 : List Byte → String)
    (accepts : List (List Byte) → List Byte → Bool) (area : DownloadArea)
    (posted : List (List Byte)) (hne : area.instances ≠ []) :
    ((area.CheckMD5 md5 accepts posted).2.2 = none →
      (area.CheckMD5 md5 accepts posted).1.instances
        = area.instances.map (fun e => (e.1, none)) ∧
      (area.CheckMD5 md5 accepts posted).2.1 = posted ∧
      (∀ p, (area.CheckMD5 md5 accepts posted).1.Commit md5 accepts p
        = ((area.CheckMD5 md5 accepts posted).1, p, some .InternalError)) ∧
      (∀ p, (area.CheckMD5 md5 accepts posted).1.CheckMD5 md5 accepts p
        = ((area.CheckMD5 md5 accepts posted).1, p, some .InternalError)) ∧
      (∀ uncompress bucket data compression payload c rest,
        inflate uncompress compression data = .ok payload →
        payload.length = bucket.GetTotalSize → payload ≠ [] → bucket.chunks = c :: rest →
        ((mapFind c.instanceId area.instances).isSome →
          (area.CheckMD5 md5 accepts posted).1.WriteBucket uncompress bucket data compression
            = ((area.CheckMD5 md5 accepts posted).1, some .InternalError)) ∧
        (mapFind c.instanceId area.instances = none → addSz 0 c.size ≤ payload.length →
          (area.CheckMD5 md5 accepts posted).1.WriteBucket uncompress bucket data compression
            = ((area.CheckMD5 md5 accepts posted).1, some .UnknownResource))) ∧
      (∀ id data, (area.CheckMD5 md5 accepts posted).1.WriteInstance md5 id data
        = ((area.CheckMD5 md5 accepts posted).1, some .CorruptedFile))) ∧
    (∀ simulate e, (area.CommitInternal md5 accepts simulate posted).2.2 = some e →
      ∃ pre key v post, area.instances = pre ++ (key, v) :: post ∧
        (area.CommitInternal md5 accepts simulate posted).1.instances
          = pre.map (fun x => (x.1, none)) ++ (key, v) :: post ∧
        (pre ≠ [] → ∀ p,
          (area.CommitInternal md5 accepts simulate posted).1.Commit md5 accepts p
            = ((area.CommitInternal md5 accepts simulate posted).1, p, some .InternalError))) := by
  constructor
  · intro hok
    have hok' : (DownloadArea.commitLoop md5 accepts true area.instances [] posted).2.2 = none :=
      hok
    have hrel := commitLoop_released md5 accepts true area.instances [] posted hok'
    have hpost := commitLoop_simulate_posted md5 accepts area.instances [] posted
    have hres : area.CheckMD5 md5 accepts posted
        = (⟨area.instances.map (fun e => (e.1, none)), area.totalSize⟩, posted, none) := by
      show (({ area with
          instances := (DownloadArea.commitLoop md5 accepts true area.instances [] posted).1 },
        (DownloadArea.commitLoop md5 accepts true area.instances [] posted).2.1,
        (DownloadArea.commitLoop md5 accepts true area.instances [] posted).2.2) :
          DownloadArea × List (List Byte) × Option ErrorCode) = _
      rw [hrel, hpost, hok']
      simp
    rw [hres]
    obtain ⟨x, tail, hx⟩ := List.exists_cons_of_ne_nil hne
    refine ⟨rfl, rfl, ?_, ?_, ?_, ?_⟩
    · intro p
      show DownloadArea.CommitInternal md5 accepts _ false p = _
      simp only [hx, List.map_cons]
      exact commit_of_released_head md5 accepts false _ _ _ p
    · intro p
      show DownloadArea.CommitInternal md5 accepts _ true p = _
      simp only [hx, List.map_cons]
      exact commit_of_released_head md5 accepts true _ _ _ p
    · intro uncompress bucket data compression payload c rest hinfl hlen hpay hchunks
      have hw : DownloadArea.WriteBucket uncompress
          ⟨area.instances.map (fun e => (e.1, none)), area.totalSize⟩ bucket data compression
          = DownloadArea.WriteUncompressedBucket
              ⟨area.instances.map (fun e => (e.1, none)), area.totalSize⟩ bucket payload := by
        cases compression with
        | None =>
          simp only [inflate, Except.ok.injEq] at hinfl
          subst hinfl
          rfl
        | Gzip =>
          simp only [inflate] at hinfl
          simp only [DownloadArea.WriteBucket, hinfl]
      simp only []
      rw [hw, writeUncompressed_released area.instances area.totalSize bucket payload c rest hlen
        hpay hchunks]
      constructor
      · intro hsome
        by_cases hgt : addSz 0 c.size > payload.length
        · simp only [hgt, if_true]
        · simp only [hgt, if_false, hsome, if_true]
      · intro hnone hfit
        have hgt : ¬ addSz 0 c.size > payload.length := by omega
        simp [hgt, hnone]
    · intro id data
      show DownloadArea.WriteInstance md5
        ⟨area.instances.map (fun e => (e.1, none)), area.totalSize⟩ id data = _
      unfold DownloadArea.WriteInstance
      simp only [mapFind_released]
      cases hfind : mapFind id area.instances with
      | none => rfl
      | some v => rfl
  · intro simulate e he
    have he' : (DownloadArea.commitLoop md5 accepts simulate area.instances [] posted).2.2
        = some e := he
    obtain ⟨pre, key, v, post, hsplit, _, hinst, _⟩ :=
      commitLoop_raise md5 accepts simulate area.instances [] posted e he'
    refine ⟨pre, key, v, post, hsplit, ?_, ?_⟩
    · show (DownloadArea.commitLoop md5 accepts simulate area.instances [] posted).1 = _
      rw [hinst]
      simp
    · intro hpre p
      have harea : (area.CommitInternal md5 accepts simulate posted).1
          = ⟨pre.map (fun x => (x.1, none)) ++ (key, v) :: post, area.totalSize⟩ := by
        show ({ area with
          instances := (DownloadArea.commitLoop md5 accepts simulate area.instances [] posted).1 }
            : DownloadArea) = _
        rw [hinst]
        simp
      rw [harea]
      obtain ⟨x, tail, hx⟩ := List.exists_cons_of_ne_nil hpre
      subst hx
      exact commit_of_released_head md5 accepts false _ _ _ p

/-- Witness of the amended C34: on the area whose second slot is corrupted,
`CheckMD5` raises on the second slot; the first slot is released and a retried
`Commit` raises the internal error. -/
theorem checkMD5_consumes_area_witness :
    (areaWithCorruptedSlot exampleDigest).instances ≠ [] ∧
    ∃ pre key v post, (areaWithCorruptedSlot exampleDigest).instances = pre ++ (key, v) :: post ∧
      ((areaWithCorruptedSlot exampleDigest).CommitInternal exampleDigest acceptAll true
          []).1.instances = pre.map (fun x => (x.1, none)) ++ (key, v) :: post ∧
      (pre ≠ [] → ∀ p,
        ((areaWithCorruptedSlot exampleDigest).CommitInternal exampleDigest acceptAll true
            []).1.Commit exampleDigest acceptAll p
          = (((areaWithCorruptedSlot exampleDigest).CommitInternal exampleDigest acceptAll true
              []).1, p, some .InternalError)) :=
  ⟨by decide,
    (checkMD5_consumes_area exampleDigest acceptAll (areaWithCorruptedSlot exampleDigest) []
      (by decide)).2 true .CorruptedFile rfl⟩

/-! ## The shape of the buckets of the planner -/

theorem mem_dropLast_cons {α : Type} (x a : α) (l : List α) (h : x ∈ (a :: l).dropLast) :
    x = a ∨ x ∈ l.dropLast := by
  cases l with
  | nil => simp at h
  | cons b rest =>
    simp only [List.dropLast_cons₂, List.mem_cons] at h
    exact h

theorem referencePacking_facts (g : Nat) (hg : 0 < g) (baseUrl : String)
    (compression : BucketCompression) :
    ∀ (infos : List DicomInstanceInfo) (w : List Chunk),
      (∀ i ∈ infos, i.size < g) → totalSizeOf w < g →
      ∀ b ∈ referencePacking g baseUrl compression infos w,
        ∃ chunks, b = bucketOfChunks chunks ∧ chunks ≠ [] ∧
          (∀ c ∈ chunks, c ∈ w ∨ ∃ i ∈ infos, c = ⟨i.id, 0, i.size⟩) ∧
          b.totalSize ≤ 2 * g - 2 := by
  intro infos
  induction infos with
  | nil =>
    intro w _ hw b hb
    unfold referencePacking at hb
    cases w with
    | nil => simp at hb
    | cons c rest =>
      simp only [List.isEmpty_cons, Bool.false_eq_true, if_false, List.mem_singleton] at hb
      subst hb
      refine ⟨c :: rest, rfl, by simp, fun x hx => Or.inl hx, ?_⟩
      show totalSizeOf (c :: rest) ≤ 2 * g - 2
      omega
  | cons i rest ih =>
    intro w hsmall hw b hb
    have hi := hsmall i (List.mem_cons_self _ _)
    have hrest : ∀ j ∈ rest, j.size < g := fun j hj => hsmall j (List.mem_cons_of_mem _ hj)
    have htot : totalSizeOf (w ++ [⟨i.id, 0, i.size⟩]) ≤ totalSizeOf w + i.size := by
      rw [totalSizeOf_append]
      exact Nat.mod_le _ _
    rw [referencePacking] at hb
    by_cases hc : closesBucket g baseUrl compression (w ++ [⟨i.id, 0, i.size⟩]) = true
    · simp only [hc, if_true, List.mem_cons] at hb
      rcases hb with rfl | hb
      · refine ⟨w ++ [⟨i.id, 0, i.size⟩], rfl, by simp, ?_, ?_⟩
        · intro c hmem
          rcases List.mem_append.mp hmem with h | h
          · exact Or.inl h
          · exact Or.inr ⟨i, List.mem_cons_self _ _, by simpa using h⟩
        · show totalSizeOf (w ++ [⟨i.id, 0, i.size⟩]) ≤ 2 * g - 2
          omega
      · obtain ⟨chunks, h1, h2, h3, h4⟩ := ih [] hrest (by simpa [totalSizeOf] using hg) b hb
        refine ⟨chunks, h1, h2, ?_, h4⟩
        intro c hmem
        rcases h3 c hmem with h | ⟨j, hj, hcj⟩
        · cases h
        · exact Or.inr ⟨j, List.mem_cons_of_mem _ hj, hcj⟩
    · have hc' : closesBucket g baseUrl compression (w ++ [⟨i.id, 0, i.size⟩]) = false := by
        simpa using hc
      simp only [hc', Bool.false_eq_true, if_false] at hb
      have hlt : totalSizeOf (w ++ [⟨i.id, 0, i.size⟩]) < g := by
        unfold closesBucket at hc'
        simp only [Bool.or_eq_false_iff, decide_eq_false_iff_not, not_le] at hc'
        exact hc'.1
      obtain ⟨chunks, h1, h2, h3, h4⟩ := ih _ hrest hlt b hb
      refine ⟨chunks, h1, h2, ?_, h4⟩
      intro c hmem
      rcases h3 c hmem with h | ⟨j, hj, hcj⟩
      · rcases List.mem_append.mp h with h | h
        · exact Or.inl h
        · exact Or.inr ⟨i, List.mem_cons_self _ _, by simpa using h⟩
      · exact Or.inr ⟨j, List.mem_cons_of_mem _ hj, hcj⟩

theorem referencePacking_push (g : Nat) (compression : BucketCompression) :
    ∀ (infos : List DicomInstanceInfo) (w : List Chunk),
      ∀ b ∈ (referencePacking g "" compression infos w).dropLast, g ≤ b.totalSize := by
  intro infos
  induction infos with
  | nil =>
    intro w b hb
    unfold referencePacking at hb
    cases w with
    | nil => simp at hb
    | cons c rest => simp at hb
  | cons i rest ih =>
    intro w b hb
    rw [referencePacking] at hb
    by_cases hc : closesBucket g "" compression (w ++ [⟨i.id, 0, i.size⟩]) = true
    · simp only [hc, if_true] at hb
      rcases mem_dropLast_cons _ _ _ hb with rfl | hb
      · have hge : totalSizeOf (w ++ [⟨i.id, 0, i.size⟩]) ≥ g := by
          unfold closesBucket at hc
          have he : ("" : String).isEmpty = true := rfl
          simpa [he] using hc
        exact hge
      · exact ih [] b hb
    · have hc' : closesBucket g "" compression (w ++ [⟨i.id, 0, i.size⟩]) = false := by
        simpa using hc
      simp only [hc', Bool.false_eq_true, if_false] at hb
      exact ih _ b hb

theorem splitChunk_facts (sep : Nat) (hsep : 0 < sep) (info : DicomInstanceInfo)
    (hpos : 0 < info.size) (j : Nat) (hj : j < ceilDiv info.size sep) :
    0 < (splitChunk info (ceilDiv info.size sep) j).size ∧
    (splitChunk info (ceilDiv info.size sep) j).offset
      + (splitChunk info (ceilDiv info.size sep) j).size ≤ info.size := by
  have hk : 0 < ceilDiv info.size sep := by omega
  have hq : 1 ≤ info.size / ceilDiv info.size sep := by
    rcases Nat.lt_or_ge info.size sep with hlt | hge
    · rw [ceilDiv_of_lt _ _ hpos hlt]
      simpa using hpos
    · exact (chunk_size_bounds info.size sep hsep hge).1
  have hlast := last_chunk_size info.size (ceilDiv info.size sep) hk
  have hmul : ceilDiv info.size sep * (info.size / ceilDiv info.size sep) ≤ info.size :=
    Nat.mul_div_le _ _
  unfold splitChunk
  simp only []
  generalize ceilDiv info.size sep = k at *
  generalize hqd : info.size / k = q at *
  by_cases hjl : j = k - 1
  · subst hjl
    simp only [if_true]
    rw [hlast]
    have h1 : (k - 1) * q ≤ k * q := Nat.mul_le_mul_right _ (by omega)
    have h2 := Nat.div_add_mod info.size k
    rw [hqd] at h2
    have h3 : k * q = (k - 1) * q + q := by
      obtain ⟨m, rfl⟩ : ∃ m, k = m + 1 := ⟨k - 1, by omega⟩
      simp only [Nat.add_sub_cancel]
      ring
    generalize (k - 1) * q = a at *
    generalize k * q = b at *
    omega
  · simp only [hjl, if_false]
    have h1 : (j + 1) * q ≤ k * q := Nat.mul_le_mul_right _ (by omega)
    have h3 : (j + 1) * q = j * q + q := by ring
    generalize j * q = a at *
    generalize (j + 1) * q = b at *
    generalize k * q = c at *
    omega

/-- Every bucket that the planner returns is either the bucket of one chunk
of an instance of size at least `group`, which is not empty and lies in the
instance, or a bucket of whole instances of non-zero size below `group`. -/
theorem planner_bucket_shape (s : TransferScheduler) (hwf : s.WellFormed)
    (g sep : Nat) (hg : 0 < g) (hgs : g ≤ sep) (target0 : List TransferBucket)
    (baseUrl : String) (compression : BucketCompression) (buckets : List TransferBucket)
    (h : s.ComputeBucketsInternal target0 g sep baseUrl compression = (buckets, none)) :
    buckets = separateBuckets s g sep ++ referencePacking g baseUrl compression
        (s.ListInstances.filter (fun i => decide (i.size < g) && decide (0 < i.size))) [] ∧
    (∀ b ∈ separateBuckets s g sep, ∃ info ∈ s.ListInstances, g ≤ info.size ∧
      ∃ c, b = singleChunkBucket c ∧ c.instanceId = info.id ∧ 0 < c.size ∧
        c.offset + c.size ≤ info.size) ∧
    (∀ b ∈ referencePacking g baseUrl compression
        (s.ListInstances.filter (fun i => decide (i.size < g) && decide (0 < i.size))) [],
      ∃ chunks, b = bucketOfChunks chunks ∧ chunks ≠ [] ∧ b.totalSize ≤ 2 * g - 2 ∧
        ∀ c ∈ chunks, ∃ info ∈ s.ListInstances, info.size < g ∧ 0 < info.size ∧
          c = ⟨info.id, 0, info.size⟩) := by
  have hb := ComputeBucketsInternal_ok s hwf g sep hg hgs target0 baseUrl compression buckets h
  refine ⟨hb, ?_, ?_⟩
  · intro b hmem
    unfold separateBuckets at hmem
    obtain ⟨info, hinfo, hbi⟩ := List.mem_flatMap.mp hmem
    obtain ⟨hin, hbig⟩ := List.mem_filter.mp hinfo
    have hbig' : g ≤ info.size := by simpa using hbig
    unfold splitBuckets at hbi
    obtain ⟨j, hj, rfl⟩ := List.mem_map.mp hbi
    have hj' : j < ceilDiv info.size sep := List.mem_range.mp hj
    obtain ⟨h1, h2⟩ := splitChunk_facts sep (by omega) info (by omega) j hj'
    exact ⟨info, hin, hbig', _, rfl, rfl, h1, h2⟩
  · intro b hmem
    obtain ⟨chunks, h1, h2, h3, h4⟩ := referencePacking_facts g hg baseUrl compression _ []
      (by
        intro i hi
        have := (List.mem_filter.mp hi).2
        simp only [Bool.and_eq_true, decide_eq_true_eq] at this
        exact this.1)
      (by simpa [totalSizeOf] using hg) b hmem
    refine ⟨chunks, h1, h2, h4, ?_⟩
    intro c hc
    rcases h3 c hc with hnil | ⟨i, hi, hci⟩
    · cases hnil
    · obtain ⟨hin, hp⟩ := List.mem_filter.mp hi
      simp only [Bool.and_eq_true, decide_eq_true_eq] at hp
      exact ⟨i, hin, hp.1, hp.2, hci⟩

theorem same_id_same_instance (s : TransferScheduler) (hwf : s.WellFormed)
    (a b : DicomInstanceInfo) (ha : a ∈ s.ListInstances) (hb : b ∈ s.ListInstances)
    (hid : a.id = b.id) : a = b :=
  List.inj_on_of_nodup_map (WellFormed.ids_nodup s hwf) ha hb hid

/-- C39. For thresholds `0 < group <= separate`, when the planner returns:
every bucket holds at least one chunk and no empty chunk; every bucket that
holds a chunk of an instance of size below `group` has a `totalSize` of at
most `2 * group - 2`, in pull and in push mode; and in push mode, where the
base URL is empty, every such bucket except the last bucket has a `totalSize`
of at least `group`. -/
theorem planner_bucket_sizes (s : TransferScheduler) (hwf : s.WellFormed)
    (g sep : Nat) (hg : 0 < g) (hgs : g ≤ sep) (target0 : List TransferBucket)
    (baseUrl : String) (compression : BucketCompression) (buckets : List TransferBucket)
    (h : s.ComputePullBuckets target0 g sep baseUrl compression = (buckets, none)) :
    (∀ b ∈ buckets, b.chunks ≠ [] ∧ ∀ c ∈ b.chunks, 0 < c.size) ∧
    (∀ b ∈ buckets,
      (∃ c ∈ b.chunks, ∃ info ∈ s.ListInstances, info.size < g ∧ c.instanceId = info.id) →
      b.totalSize ≤ 2 * g - 2) ∧
    (baseUrl = "" → ∀ b ∈ buckets.dropLast,
      (∃ c ∈ b.chunks, ∃ info ∈ s.ListInstances, info.size < g ∧ c.instanceId = info.id) →
      g ≤ b.totalSize) ∧
    s.FormatPushTransactionBuckets target0 g sep = s.ComputePullBuckets target0 g sep "" .None := by
  obtain ⟨hb, hsep, hpack⟩ :=
    planner_bucket_shape s hwf g sep hg hgs target0 baseUrl compression buckets h
  have hnot : ∀ b ∈ separateBuckets s g sep,
      ¬ ∃ c ∈ b.chunks, ∃ info ∈ s.ListInstances, info.size < g ∧ c.instanceId = info.id := by
    intro b hmem ⟨c, hc, info, hin, hsmall, hid⟩
    obtain ⟨big, hbig, hge, c0, rfl, hid0, _, _⟩ := hsep b hmem
    have hcc : c = c0 := by simpa [singleChunkBucket] using hc
    subst hcc
    have := same_id_same_instance s hwf big info hbig hin (by rw [← hid0, hid])
    subst this
    omega
  refine ⟨?_, ?_, ?_, rfl⟩
  · intro b hmem
    rw [hb] at hmem
    rcases List.mem_append.mp hmem with hm | hm
    · obtain ⟨_, _, _, c0, rfl, _, hpos, _⟩ := hsep b hm
      refine ⟨by simp [singleChunkBucket], ?_⟩
      intro c hc
      have hcc : c = c0 := by simpa [singleChunkBucket] using hc
      rw [hcc]
      exact hpos
    · obtain ⟨chunks, rfl, hne, _, hall⟩ := hpack b hm
      refine ⟨hne, ?_⟩
      intro c hc
      obtain ⟨info, _, _, hpos, rfl⟩ := hall c hc
      exact hpos
  · intro b hmem hsmall
    rw [hb] at hmem
    rcases List.mem_append.mp hmem with hm | hm
    · exact absurd hsmall (hnot b hm)
    · obtain ⟨_, _, _, hle, _⟩ := hpack b hm
      exact hle
  · intro hbase b hmem hsmall
    subst hbase
    rw [hb] at hmem
    by_cases hnil : referencePacking g "" compression
        (s.ListInstances.filter (fun i => decide (i.size < g) && decide (0 < i.size))) [] = []
    · rw [hnil, List.append_nil] at hmem
      exact absurd hsmall (hnot b (List.mem_of_mem_dropLast hmem))
    · rw [List.dropLast_append_of_ne_nil _ hnil] at hmem
      rcases List.mem_append.mp hmem with hm | hm
      · exact absurd hsmall (hnot b hm)
      · exact referencePacking_push g compression _ [] b hm

/-- Witness of C39: the three instances of 10 bytes of the unit tests, planned
in push mode with `group = 20`, give a bucket of 20 bytes followed by a bucket
of 10 bytes. -/
theorem planner_bucket_sizes_witness :
    schedulerOfTests.ComputePullBuckets [] 20 1000 "" .None
      = ([bucketOfChunks [⟨"d1", 0, 10⟩, ⟨"d2", 0, 10⟩], bucketOfChunks [⟨"d3", 0, 10⟩]], none) ∧
    (∀ b ∈ [bucketOfChunks [⟨"d1", 0, 10⟩, ⟨"d2", 0, 10⟩], bucketOfChunks [⟨"d3", 0, 10⟩]],
      (∃ c ∈ b.chunks, ∃ info ∈ schedulerOfTests.ListInstances,
        info.size < 20 ∧ c.instanceId = info.id) → b.totalSize ≤ 2 * 20 - 2) ∧
    (("" : String) = "" →
      ∀ b ∈ [bucketOfChunks [⟨"d1", 0, 10⟩, ⟨"d2", 0, 10⟩],
          bucketOfChunks [⟨"d3", 0, 10⟩]].dropLast,
        (∃ c ∈ b.chunks, ∃ info ∈ schedulerOfTests.ListInstances,
          info.size < 20 ∧ c.instanceId = info.id) → 20 ≤ b.totalSize) :=
  have h := planner_bucket_sizes schedulerOfTests (by decide) 20 1000 (by decide) (by decide) []
    "" .None [bucketOfChunks [⟨"d1", 0, 10⟩, ⟨"d2", 0, 10⟩], bucketOfChunks [⟨"d3", 0, 10⟩]]
    (by decide)
  ⟨by decide, h.2.1, h.2.2.1⟩

/-! ## The manifest of a push transaction -/

theorem foldl_append_array {α : Type} (f : α → Json) (l : List α) :
    ∀ acc : List Json,
      l.foldl (fun tmp x => Json.append tmp (f x)) (.array acc) = .array (acc ++ l.map f) := by
  induction l with
  | nil => intro acc; simp
  | cons x rest ih =>
    intro acc
    rw [List.foldl_cons]
    show List.foldl _ (Json.array (acc ++ [f x])) rest = _
    rw [ih]
    simp

theorem info_round_trip (lexicalCast : String → Option Nat) (info : DicomInstanceInfo)
    (hinfo : lexicalCast (toString info.size) = some info.size) :
    DicomInstanceInfo.ofJson lexicalCast info.Serialize = .ok info := by
  have h1 : ¬ ("ID" : String) = "MD5" := by decide
  have h2 : ¬ ("ID" : String) = "Size" := by decide
  have h3 : ¬ ("MD5" : String) = "Size" := by decide
  have h4 : ¬ ("MD5" : String) = "ID" := by decide
  rw [Serialize_info_eq]
  simp [DicomInstanceInfo.ofJson, Json.type, Json.isMember, Json.get, Json.asString,
    KEY_ID, KEY_MD5, KEY_SIZE, mapFind_cons, h1, h2, h3, h4, hinfo]

theorem bucket_round_trip (lexicalCast : String → Option Nat) (b : TransferBucket)
    (hchunks : ∀ c ∈ b.chunks, lexicalCast (toString c.offset) = some c.offset ∧
      lexicalCast (toString c.size) = some c.size) :
    TransferBucket.ofJson lexicalCast b.Serialize
      = .ok { chunks := b.chunks, totalSize := totalSizeOf b.chunks, extensible := false } := by
  rw [Serialize_bucket_eq]
  simp only [TransferBucket.ofJson, Json.type]
  rw [if_neg (by decide), ofJsonLoop_map lexicalCast _ _ hchunks]
  simp [totalSizeOf]

theorem manifest_object (instances buckets : Json) (name : String) :
    (((Json.object []).set KEY_INSTANCES instances).set KEY_BUCKETS buckets).set KEY_COMPRESSION
        (.string name)
      = .object [("Buckets", buckets), ("Compression", .string name),
          ("Instances", instances)] := by
  have h1 : ("Buckets" : String).data < ("Instances" : String).data := by decide
  have h2 : ¬ ("Compression" : String).data < ("Buckets" : String).data := by decide
  have h3 : ¬ ("Compression" : String) = "Buckets" := by decide
  have h4 : ("Compression" : String).data < ("Instances" : String).data := by decide
  simp only [Json.set, KEY_INSTANCES, KEY_BUCKETS, KEY_COMPRESSION, mapInsert, h1, h2, h3, h4,
    if_false, if_true]

theorem FormatPushTransaction_ok (s : TransferScheduler) (target0 : Json)
    (buckets0 buckets : List TransferBucket) (g sep : Nat) (compression : BucketCompression)
    (h : s.FormatPushTransactionBuckets buckets0 g sep = (buckets, none)) :
    s.FormatPushTransaction target0 buckets0 g sep compression
      = (.object [("Buckets", .array (buckets.map (fun b => b.Serialize))),
            ("Compression", .string (EnumerationToString compression)),
            ("Instances", .array (s.ListInstances.map (fun i => i.Serialize)))],
          buckets, none) := by
  unfold TransferScheduler.FormatPushTransaction
  rw [h]
  have hi : s.instances.foldl (fun tmp e => Json.append tmp e.2.Serialize) (.array [])
      = .array (s.ListInstances.map (fun i => i.Serialize)) := by
    rw [foldl_append_array (fun e : String × DicomInstanceInfo => e.2.Serialize)]
    simp [TransferScheduler.ListInstances, List.map_map, Function.comp_def]
  have hbk : buckets.foldl (fun tmp b => Json.append tmp b.Serialize) (.array [])
      = .array (buckets.map (fun b => b.Serialize)) := by
    rw [foldl_append_array (fun b : TransferBucket => b.Serialize)]
    simp
  simp only [hi, hbk, manifest_object]
  cases compression <;> rfl

theorem FormatPushTransaction_raise (s : TransferScheduler) (target0 : Json)
    (buckets0 buckets : List TransferBucket) (g sep : Nat) (compression : BucketCompression)
    (e : ErrorCode) (h : s.FormatPushTransactionBuckets buckets0 g sep = (buckets, some e)) :
    s.FormatPushTransaction target0 buckets0 g sep compression = (target0, buckets, some e) := by
  unfold TransferScheduler.FormatPushTransaction
  rw [h]

theorem planner_totalSize (s : TransferScheduler) (hwf : s.WellFormed)
    (g sep : Nat) (hg : 0 < g) (hgs : g ≤ sep) (target0 : List TransferBucket)
    (baseUrl : String) (compression : BucketCompression) (buckets : List TransferBucket)
    (h : s.ComputeBucketsInternal target0 g sep baseUrl compression = (buckets, none)) :
    ∀ b ∈ buckets, b.totalSize = totalSizeOf b.chunks := by
  obtain ⟨hb, hsep, hpack⟩ :=
    planner_bucket_shape s hwf g sep hg hgs target0 baseUrl compression buckets h
  intro b hmem
  rw [hb] at hmem
  rcases List.mem_append.mp hmem with hm | hm
  · obtain ⟨info, hin, _, c, rfl, _, _, hle⟩ := hsep b hm
    have hsz : info.size < SIZE_MOD := by
      unfold TransferScheduler.ListInstances at hin
      obtain ⟨e, he, rfl⟩ := List.mem_map.mp hin
      exact (hwf.2 e he).2
    show c.size = totalSizeOf [c]
    simp only [totalSizeOf, List.foldl_cons, List.foldl_nil]
    rw [addSz_of_lt (by omega)]
    omega
  · obtain ⟨chunks, rfl, _, _, _⟩ := hpack b hm
    rfl

/-- The thresholds are checked first: with `group = 2` and `separate = 1` the call
raises parameter-out-of-range and leaves the target, here the null value, and
the bucket list as they are: no manifest is produced. -/
theorem push_manifest_raises_on_bad_thresholds :
    schedulerOfTests.FormatPushTransaction .null [] 2 1 .None
      = (.null, [], some .ParameterOutOfRange) ∧
    (Json.null).type ≠ .objectValue := by
  constructor
  · rfl
  · decide

/-- C31. `FormatPushTransaction` raises parameter-out-of-range, and
leaves its arguments as they are, when `group > separate` or `separate = 0`;
it raises nothing when `0 < group <= separate`.  Whenever it raises nothing,
the bucket list returned is the one of the planner run in push mode, and the
manifest is the object whose `Instances` array holds the serialization of every
instance, in increasing order of the identifiers, whose `Buckets` array holds
the serialization of every returned bucket, in order, and whose `Compression`
is `"none"` or `"gzip"`, the name of the requested compression.  Deserialising
the entries gives back the instances and the chunks of the buckets, as sealed
buckets, with the `totalSize` of the buckets of the planner; and an empty
instance set gives two empty arrays and no bucket. -/
theorem push_manifest_format (lexicalCast : String → Option Nat) (s : TransferScheduler)
    (hwf : s.WellFormed) (target0 : Json) (buckets0 : List TransferBucket) (g sep : Nat)
    (compression : BucketCompression)
    (hsizes : ∀ info ∈ s.ListInstances, lexicalCast (toString info.size) = some info.size)
    (hchunks : ∀ b ∈ (s.FormatPushTransaction target0 buckets0 g sep compression).2.1,
      ∀ c ∈ b.chunks, lexicalCast (toString c.offset) = some c.offset ∧
        lexicalCast (toString c.size) = some c.size) :
    (0 < g → g ≤ sep →
      (s.FormatPushTransaction target0 buckets0 g sep compression).2.2 = none ∧
      ∀ b ∈ (s.FormatPushTransaction target0 buckets0 g sep compression).2.1,
        b.totalSize = totalSizeOf b.chunks) ∧
    (g > sep ∨ sep = 0 →
      s.FormatPushTransaction target0 buckets0 g sep compression
        = (target0, buckets0, some .ParameterOutOfRange)) ∧
    ((s.FormatPushTransaction target0 buckets0 g sep compression).2.2 = none →
      (s.FormatPushTransaction target0 buckets0 g sep compression).2.1
        = (s.FormatPushTransactionBuckets buckets0 g sep).1 ∧
      (s.FormatPushTransaction target0 buckets0 g sep compression).1
        = .object [("Buckets", .array
              ((s.FormatPushTransaction target0 buckets0 g sep compression).2.1.map
                (fun b => b.Serialize))),
            ("Compression", .string (EnumerationToString compression)),
            ("Instances", .array (s.ListInstances.map (fun i => i.Serialize)))] ∧
      (EnumerationToString compression = "none" ∨ EnumerationToString compression = "gzip") ∧
      (s.ListInstances.map (fun i => i.id)).Pairwise (fun a b => a.data < b.data) ∧
      s.ListInstances.map (fun i => DicomInstanceInfo.ofJson lexicalCast i.Serialize)
        = s.ListInstances.map Except.ok ∧
      (s.FormatPushTransaction target0 buckets0 g sep compression).2.1.map
          (fun b => TransferBucket.ofJson lexicalCast b.Serialize)
        = (s.FormatPushTransaction target0 buckets0 g sep compression).2.1.map
          (fun b => .ok { chunks := b.chunks, totalSize := totalSizeOf b.chunks
                          extensible := false }) ∧
      (s.instances = [] →
        s.FormatPushTransaction target0 buckets0 g sep compression
          = (.object [("Buckets", .array []),
                ("Compression", .string (EnumerationToString compression)),
                ("Instances", .array [])], [], none))) := by
  refine ⟨?_, ?_, ?_⟩
  · intro hg hgs
    have hret := ComputeBucketsInternal_returns s hwf g sep hg hgs buckets0 "" .None (Or.inl rfl)
    have hplan : s.FormatPushTransactionBuckets buckets0 g sep
        = ((s.FormatPushTransactionBuckets buckets0 g sep).1, none) := by
      rw [← hret]
      rfl
    rw [FormatPushTransaction_ok s target0 buckets0 _ g sep compression hplan]
    exact ⟨rfl, planner_totalSize s hwf g sep hg hgs buckets0 "" .None _ hplan⟩
  · intro hbad
    have hplan : s.FormatPushTransactionBuckets buckets0 g sep
        = (buckets0, some .ParameterOutOfRange) := by
      unfold TransferScheduler.FormatPushTransactionBuckets
        TransferScheduler.ComputeBucketsInternal
      have hc : (decide (g > sep) || sep == 0) = true := by
        rcases hbad with h | h
        · simp [h]
        · simp [h]
      rw [if_pos hc]
    exact FormatPushTransaction_raise s target0 buckets0 _ g sep compression _ hplan
  · intro hok
    cases hres : (s.FormatPushTransactionBuckets buckets0 g sep).2 with
    | some e =>
      have hplan : s.FormatPushTransactionBuckets buckets0 g sep
          = ((s.FormatPushTransactionBuckets buckets0 g sep).1, some e) := by
        rw [← hres]
      rw [FormatPushTransaction_raise s target0 buckets0 _ g sep compression e hplan] at hok
      cases hok
    | none =>
      have hplan : s.FormatPushTransactionBuckets buckets0 g sep
          = ((s.FormatPushTransactionBuckets buckets0 g sep).1, none) := by
        rw [← hres]
      have hfmt := FormatPushTransaction_ok s target0 buckets0 _ g sep compression hplan
      rw [hfmt] at hchunks ⊢
      refine ⟨rfl, rfl, ?_, ?_, ?_, ?_, ?_⟩
      · cases compression
        · exact Or.inl rfl
        · exact Or.inr rfl
      · have h := hwf.1
        have heq : s.ListInstances.map (fun i => i.id) = s.instances.map Prod.fst := by
          unfold TransferScheduler.ListInstances
          rw [List.map_map]
          apply List.map_congr_left
          intro e he
          exact (hwf.2 e he).1.symm
        rw [heq]
        exact h
      · apply List.map_congr_left
        intro info hinfo
        exact info_round_trip lexicalCast info (hsizes info hinfo)
      · apply List.map_congr_left
        intro b hb
        exact bucket_round_trip lexicalCast b (hchunks b hb)
      · intro hempty
        have hnil : (s.FormatPushTransactionBuckets buckets0 g sep).1 = [] := by
          have h2 := hres
          unfold TransferScheduler.FormatPushTransactionBuckets
            TransferScheduler.ComputeBucketsInternal at h2 ⊢
          by_cases hc : (decide (g > sep) || sep == 0) = true
          · rw [if_pos hc] at h2
            cases h2
          · rw [if_neg hc, hempty]
            rfl
        rw [hnil]
        simp [TransferScheduler.ListInstances, hempty]

/-- Witness of C31: the unit test `TransferScheduler.Basic`, three instances
of 10 bytes with `group = 10`, `separate = 1000` and gzip. -/
theorem push_manifest_format_witness :
    (schedulerOfTests.FormatPushTransaction .null [] 10 1000 .Gzip).2.2 = none ∧
    (schedulerOfTests.FormatPushTransaction .null [] 10 1000 .Gzip).2.1
      = [singleChunkBucket ⟨"d1", 0, 10⟩, singleChunkBucket ⟨"d2", 0, 10⟩,
          singleChunkBucket ⟨"d3", 0, 10⟩] ∧
    (schedulerOfTests.FormatPushTransaction .null [] 10 1000 .Gzip).1
      = .object [("Buckets", .array
            ((schedulerOfTests.FormatPushTransaction .null [] 10 1000 .Gzip).2.1.map
              (fun b => b.Serialize))),
          ("Compression", .string (EnumerationToString .Gzip)),
          ("Instances", .array (schedulerOfTests.ListInstances.map (fun i => i.Serialize)))] ∧
    schedulerOfTests.ListInstances.map
        (fun i => DicomInstanceInfo.ofJson exampleLexicalCast i.Serialize)
      = schedulerOfTests.ListInstances.map Except.ok :=
  have h := push_manifest_format exampleLexicalCast schedulerOfTests (by decide) .null [] 10 1000
    .Gzip (by decide) (by decide)
  ⟨(h.1 (by decide) (by decide)).1, by decide, (h.2.2 rfl).2.1, (h.2.2 rfl).2.2.2.2.1⟩

/-! ## The cache seen from its callers -/

theorem access_content (c : OrthancInstancesCache) (id : String) :
    (c.access id).1.content = c.content := by
  unfold OrthancInstancesCache.access
  split <;> rfl

theorem access_found (c : OrthancInstancesCache) (id : String) (source : SourceDicomInstance)
    (h : (c.access id).2 = some source) : mapFind id c.content = some source := by
  unfold OrthancInstancesCache.access at h
  split at h
  · exact h
  · cases h

theorem RemoveOldest_mirrors (load : String → SourceDicomInstance) (c : OrthancInstancesCache)
    (h : c.Mirrors load) : c.RemoveOldest.Mirrors load := by
  unfold OrthancInstancesCache.RemoveOldest
  cases hi : c.index with
  | nil => exact h
  | cons oldest rest =>
    simp only []
    cases hf : mapFind oldest c.content with
    | none => exact h
    | some source =>
      intro id src hsrc
      simp only [mapFind_mapErase] at hsrc
      by_cases hid : id = oldest
      · rw [if_pos hid] at hsrc
        cases hsrc
      · rw [if_neg hid] at hsrc
        exact h id src hsrc

theorem removeWhile_mirrors (load : String → SourceDicomInstance)
    (test : OrthancInstancesCache → Bool) :
    ∀ (fuel : Nat) (c : OrthancInstancesCache), c.Mirrors load →
      (OrthancInstancesCache.removeWhile test fuel c).Mirrors load := by
  intro fuel
  induction fuel with
  | zero => intro c h; exact h
  | succ n ih =>
    intro c h
    unfold OrthancInstancesCache.removeWhile
    split
    · exact ih _ (RemoveOldest_mirrors load c h)
    · exact h

theorem Store_mirrors (load : String → SourceDicomInstance) (c : OrthancInstancesCache)
    (id : String) (h : c.Mirrors load) : (c.Store id (load id)).Mirrors load := by
  unfold OrthancInstancesCache.Store
  split
  · exact h
  · intro k src hsrc
    simp only [mapFind_mapInsert] at hsrc
    by_cases hk : id = k
    · rw [if_pos hk] at hsrc
      cases hsrc
      rw [hk]
    · rw [if_neg hk] at hsrc
      exact removeWhile_mirrors load _ _ c h k src hsrc

theorem GetInstanceInfo_spec (load : String → SourceDicomInstance) (c : OrthancInstancesCache)
    (id : String) (h : c.Mirrors load) :
    (c.GetInstanceInfo load id).1.Mirrors load ∧
    (c.GetInstanceInfo load id).2 = ((load id).info.size, (load id).info.md5) := by
  unfold OrthancInstancesCache.GetInstanceInfo
  have hm : (c.access id).1.Mirrors load := by
    intro k src hsrc
    rw [access_content] at hsrc
    exact h k src hsrc
  rcases ha : c.access id with ⟨c1, found⟩
  rw [ha] at hm
  cases found with
  | none => exact ⟨Store_mirrors load c1 id hm, rfl⟩
  | some source =>
    have hs : source = load id := h id source (access_found c id source (by rw [ha]))
    subst hs
    exact ⟨hm, rfl⟩

theorem GetChunk_spec (md5 : List Byte → String) (load : String → SourceDicomInstance)
    (c : OrthancInstancesCache) (id : String) (offset size : Nat) (h : c.Mirrors load) :
    (c.GetChunk md5 load id offset size).1.Mirrors load ∧
    (c.GetChunk md5 load id offset size).2 = (load id).GetChunk md5 offset size := by
  unfold OrthancInstancesCache.GetChunk
  have hm : (c.access id).1.Mirrors load := by
    intro k src hsrc
    rw [access_content] at hsrc
    exact h k src hsrc
  rcases ha : c.access id with ⟨c1, found⟩
  rw [ha] at hm
  cases found with
  | some source =>
    have hs : source = load id := h id source (access_found c id source (by rw [ha]))
    subst hs
    exact ⟨hm, rfl⟩
  | none =>
    simp only []
    cases hg : (load id).GetChunk md5 offset size with
    | error e => exact ⟨hm, rfl⟩
    | ok result => exact ⟨Store_mirrors load c1 id hm, rfl⟩

theorem ofArchive_GetChunk (md5 : List Byte → String) (archive : String → List Byte)
    (id : String) (offset size : Nat) (hle : offset + size ≤ (archive id).length)
    (hlt : (archive id).length < SIZE_MOD) :
    (SourceDicomInstance.ofArchive md5 archive id).GetChunk md5 offset size
      = .ok (((archive id).drop offset).take size, md5 (((archive id).drop offset).take size)) := by
  unfold SourceDicomInstance.GetChunk SourceDicomInstance.ofArchive
  simp only []
  rw [addSz_of_lt (by omega), if_neg (by omega)]

/-! ## The chunk endpoint and the body of a push request -/

theorem servable_head (len : String → Nat) (c : Chunk) (rest : List Chunk)
    (h : chunksServable len (c :: rest)) :
    0 < c.size ∧ c.offset + c.size ≤ len c.instanceId ∧ len c.instanceId < SIZE_MOD ∧
      (rest ≠ [] → c.offset + c.size = len c.instanceId) ∧
      (∀ d ∈ rest.head?, d.offset = 0) ∧ chunksServable len rest := by
  cases rest with
  | nil =>
    obtain ⟨h1, h2, h3⟩ := h
    exact ⟨h1, h2, h3, fun hne => absurd rfl hne, by simp, trivial⟩
  | cons d rest =>
    obtain ⟨h1, h2, h3, h4, h5⟩ := h
    exact ⟨h1, by omega, h3, fun _ => h2, by simpa using h4, h5⟩

theorem servable_of_whole (len : String → Nat) :
    ∀ (chunks : List Chunk),
      (∀ c ∈ chunks, 0 < c.size ∧ c.offset = 0 ∧ c.size = len c.instanceId ∧
        len c.instanceId < SIZE_MOD) →
      chunksServable len chunks := by
  intro chunks
  induction chunks with
  | nil => intro _; trivial
  | cons c rest ih =>
    intro h
    obtain ⟨h1, h2, h3, h4⟩ := h c (List.mem_cons_self _ _)
    have hrest := ih (fun d hd => h d (List.mem_cons_of_mem _ hd))
    cases rest with
    | nil => exact ⟨h1, by omega, h4⟩
    | cons d rest =>
      have hd := h d (List.mem_cons_of_mem _ (List.mem_cons_self _ _))
      exact ⟨h1, by omega, h4, hd.2.1, hrest⟩

theorem servable_in_range (len : String → Nat) :
    ∀ (chunks : List Chunk), chunksServable len chunks →
      ∀ c ∈ chunks, c.offset + c.size ≤ len c.instanceId ∧ len c.instanceId < SIZE_MOD := by
  intro chunks
  induction chunks with
  | nil => intro _ c hc; cases hc
  | cons c rest ih =>
    intro h d hd
    obtain ⟨_, h2, h3, _, _, h6⟩ := servable_head len c rest h
    rcases List.mem_cons.mp hd with rfl | hd
    · exact ⟨h2, h3⟩
    · exact ih h6 d hd

theorem serveLoop_spec (md5 : List Byte → String) (archive : String → List Byte)
    (requestedSize : Nat) :
    ∀ (chunks : List Chunk) (cache : OrthancInstancesCache) (offset : Nat) (buffer : List Byte),
      cache.Mirrors (SourceDicomInstance.ofArchive md5 archive) →
      chunksServable (fun id => (archive id).length) chunks →
      (∀ c0 ∈ chunks.head?, offset = c0.offset) →
      buffer.length + sumSizes chunks = requestedSize →
      (serveLoop md5 (SourceDicomInstance.ofArchive md5 archive) requestedSize
          (chunks.map (fun c => c.instanceId)) cache offset buffer).2
        = .ok (buffer ++ payloadOf archive chunks) := by
  intro chunks
  induction chunks with
  | nil =>
    intro cache offset buffer _ _ _ _
    simp [serveLoop, payloadOf]
  | cons c rest ih =>
    intro cache offset buffer hmirror hserv hoff hsum
    obtain ⟨hpos, hle, hlt, hend, hnext, hrest⟩ :=
      servable_head (fun id => (archive id).length) c rest hserv
    have hoff' : offset = c.offset := hoff c (by simp)
    subst hoff'
    simp only [sumSizes, List.map_cons, List.sum_cons] at hsum
    have hsum' : buffer.length + (c.size + sumSizes rest) = requestedSize := hsum
    have hcond : requestedSize = 0 ∨ buffer.length < requestedSize := Or.inr (by omega)
    obtain ⟨hm1, hinfo⟩ := GetInstanceInfo_spec (SourceDicomInstance.ofArchive md5 archive) cache
      c.instanceId hmirror
    have hread : (if requestedSize = 0 then (archive c.instanceId).length - c.offset
        else if requestedSize - buffer.length > (archive c.instanceId).length - c.offset then
          (archive c.instanceId).length - c.offset
        else requestedSize - buffer.length) = c.size := by
      rw [if_neg (by omega)]
      cases rest with
      | nil =>
        simp only [sumSizes, List.map_nil, List.sum_nil] at hsum'
        rw [if_neg (by omega)]
        omega
      | cons d rest' =>
        have he := hend (by simp)
        simp only at he
        by_cases hgt : requestedSize - buffer.length > (archive c.instanceId).length - c.offset
        · rw [if_pos hgt]; omega
        · rw [if_neg hgt]; omega
    obtain ⟨hm2, hchunk⟩ := GetChunk_spec md5 (SourceDicomInstance.ofArchive md5 archive)
      (cache.GetInstanceInfo (SourceDicomInstance.ofArchive md5 archive) c.instanceId).1
      c.instanceId c.offset c.size hm1
    rw [ofArchive_GetChunk md5 archive c.instanceId c.offset c.size hle hlt] at hchunk
    have hstep : serveLoop md5 (SourceDicomInstance.ofArchive md5 archive) requestedSize
        ((c :: rest).map (fun c => c.instanceId)) cache c.offset buffer
        = serveLoop md5 (SourceDicomInstance.ofArchive md5 archive) requestedSize
            (rest.map (fun c => c.instanceId))
            ((cache.GetInstanceInfo (SourceDicomInstance.ofArchive md5 archive)
              c.instanceId).1.GetChunk md5 (SourceDicomInstance.ofArchive md5 archive)
                c.instanceId c.offset c.size).1
            0 (buffer ++ ((archive c.instanceId).drop c.offset).take c.size) := by
      rw [List.map_cons, serveLoop, if_pos hcond]
      rcases hgi : cache.GetInstanceInfo (SourceDicomInstance.ofArchive md5 archive)
        c.instanceId with ⟨cache1, instanceSize, digest⟩
      rw [hgi] at hinfo hchunk
      simp only [Prod.mk.injEq] at hinfo
      obtain ⟨hsz, _⟩ := hinfo
      have hsz' : instanceSize = (archive c.instanceId).length := hsz
      subst hsz'
      simp only []
      rw [if_neg (by omega), hread]
      rcases hgc : cache1.GetChunk md5 (SourceDicomInstance.ofArchive md5 archive)
        c.instanceId c.offset c.size with ⟨cache2, result⟩
      rw [hgc] at hchunk
      simp only at hchunk
      subst hchunk
      rfl
    rw [hstep]
    have hlen : (((archive c.instanceId).drop c.offset).take c.size).length = c.size := by
      rw [List.length_take, List.length_drop]
      omega
    rw [ih _ 0 _ hm2 hrest (fun d hd => (hnext d hd).symm) (by
      rw [List.length_append, hlen]
      omega)]
    simp [payloadOf]

theorem readBodyLoop_spec (md5 : List Byte → String) (archive : String → List Byte) :
    ∀ (chunks : List Chunk) (cache : OrthancInstancesCache) (buffer : List Byte),
      cache.Mirrors (SourceDicomInstance.ofArchive md5 archive) →
      (∀ c ∈ chunks, c.offset + c.size ≤ (archive c.instanceId).length ∧
        (archive c.instanceId).length < SIZE_MOD) →
      (readBodyLoop md5 (SourceDicomInstance.ofArchive md5 archive) chunks cache buffer).2
        = .ok (buffer ++ payloadOf archive chunks) := by
  intro chunks
  induction chunks with
  | nil =>
    intro cache buffer _ _
    simp [readBodyLoop, payloadOf]
  | cons c rest ih =>
    intro cache buffer hmirror hrange
    obtain ⟨hle, hlt⟩ := hrange c (List.mem_cons_self _ _)
    obtain ⟨hm2, hchunk⟩ := GetChunk_spec md5 (SourceDicomInstance.ofArchive md5 archive) cache
      c.instanceId c.offset c.size hmirror
    rw [ofArchive_GetChunk md5 archive c.instanceId c.offset c.size hle hlt] at hchunk
    have hstep : readBodyLoop md5 (SourceDicomInstance.ofArchive md5 archive) (c :: rest) cache
        buffer
        = readBodyLoop md5 (SourceDicomInstance.ofArchive md5 archive) rest
            (cache.GetChunk md5 (SourceDicomInstance.ofArchive md5 archive) c.instanceId c.offset
              c.size).1
            (buffer ++ ((archive c.instanceId).drop c.offset).take c.size) := by
      rw [readBodyLoop]
      rcases hgc : cache.GetChunk md5 (SourceDicomInstance.ofArchive md5 archive)
        c.instanceId c.offset c.size with ⟨cache2, result⟩
      rw [hgc] at hchunk
      simp only at hchunk
      subst hchunk
      rfl
    rw [hstep, ih _ _ hm2 (fun d hd => hrange d (List.mem_cons_of_mem _ hd))]
    simp [payloadOf]

theorem ReadSizeArgument_of_nat (lexicalCastInt : String → Option Int) (value : String)
    (n : Nat) (h : lexicalCastInt value = some (n : Int)) :
    ReadSizeArgument lexicalCastInt value = .ok n := by
  unfold ReadSizeArgument
  rw [h]
  simp

theorem readArguments_of_pull (lexicalCastInt : String → Option Int) (offset size : Nat)
    (compression : BucketCompression)
    (hoff : lexicalCastInt (toString offset) = some (offset : Int))
    (hsize : lexicalCastInt (toString size) = some (size : Int)) :
    readArguments lexicalCastInt
        [("offset", toString offset), ("size", toString size),
          ("compression", compressionName compression)] (0, 0, .None)
      = .ok (offset, size, compression) := by
  have h1 : ¬ ("size" : String) = "offset" := by decide
  have h2 : ¬ ("compression" : String) = "offset" := by decide
  have h3 : ¬ ("compression" : String) = "size" := by decide
  have hc : StringToBucketCompression (compressionName compression) = .ok compression := by
    cases compression <;> rfl
  simp only [readArguments, if_true, h1, h2, h3, if_false,
    ReadSizeArgument_of_nat lexicalCastInt _ _ hoff,
    ReadSizeArgument_of_nat lexicalCastInt _ _ hsize, hc]

theorem ComputePullUri_eq (b : TransferBucket) (compression : BucketCompression)
    (c0 : Chunk) (rest : List Chunk) (hb : b.chunks = c0 :: rest) :
    b.ComputePullUri compression
      = .ok ("/transfers/chunks/" ++ ".".intercalate (b.chunks.map (fun c => c.instanceId))
          ++ "?offset=" ++ toString c0.offset ++ "&size=" ++ toString b.GetTotalSize
          ++ "&compression=" ++ compressionName compression) := by
  have hjoin : TransferBucket.joinIds true (URI_CHUNKS ++ "/") (c0 :: rest)
      = "/transfers/chunks/" ++ ".".intercalate ((c0 :: rest).map (fun c => c.instanceId)) := by
    simp only [TransferBucket.joinIds, if_true, List.map_cons, String.intercalate, joinIds_eq_go]
    have : URI_CHUNKS ++ "/" = "/transfers/chunks/" := by decide
    rw [this, intercalate_go_append]
  unfold TransferBucket.ComputePullUri
  rw [hb]
  simp only [hjoin, TransferBucket.GetTotalSize]
  cases compression <;> simp only [compressionName, String.append_assoc] <;> rfl

theorem planner_servable (s : TransferScheduler) (hwf : s.WellFormed)
    (g sep : Nat) (hg : 0 < g) (hgs : g ≤ sep) (target0 : List TransferBucket)
    (baseUrl : String) (compression : BucketCompression) (buckets : List TransferBucket)
    (h : s.ComputeBucketsInternal target0 g sep baseUrl compression = (buckets, none))
    (len : String → Nat) (hlen : ∀ info ∈ s.ListInstances, len info.id = info.size) :
    ∀ b ∈ buckets, b.chunks ≠ [] ∧ chunksServable len b.chunks := by
  obtain ⟨hb, hsep, hpack⟩ :=
    planner_bucket_shape s hwf g sep hg hgs target0 baseUrl compression buckets h
  have hsz : ∀ info ∈ s.ListInstances, info.size < SIZE_MOD := by
    intro info hin
    unfold TransferScheduler.ListInstances at hin
    obtain ⟨e, he, rfl⟩ := List.mem_map.mp hin
    exact (hwf.2 e he).2
  intro b hmem
  rw [hb] at hmem
  rcases List.mem_append.mp hmem with hm | hm
  · obtain ⟨info, hin, _, c, rfl, hid, hpos, hle⟩ := hsep b hm
    have hl := hlen info hin
    have hs := hsz info hin
    refine ⟨by simp [singleChunkBucket], ?_⟩
    show chunksServable len [c]
    rw [← hid] at hl
    exact ⟨hpos, by omega, by omega⟩
  · obtain ⟨chunks, rfl, hne, _, hall⟩ := hpack b hm
    refine ⟨hne, ?_⟩
    apply servable_of_whole
    intro c hc
    obtain ⟨info, hin, _, hpos, rfl⟩ := hall c hc
    have hl := hlen info hin
    have hs := hsz info hin
    exact ⟨hpos, rfl, hl.symm, by simp only []; omega⟩

/-- C33. The pull mode serves what the push mode sends.  Take a bucket that
the planner returns for thresholds `0 < group <= separate`, an archive whose
instances have the sizes of the descriptors, and a cache that holds instances
of this archive.  When the integer parser reads the decimal text of the first
offset and of the total size of the bucket (which `boost::lexical_cast<int>`
does for values below `2^31`), when the tokenizer cuts the joined identifiers
at the dots, and when the bytes of the bucket fit in a `size_t`, the chunk
endpoint called with the parts of the pull URI of the bucket answers the
concatenation, chunk after chunk, of bytes `[offset_i, offset_i + size_i)` of
instance `id_i`, compressed or not as the URI says; `ReadBody` of the push
query builds the same body for the same bucket; and this payload has
`totalSize` bytes. -/
theorem pull_serves_push_payload (lexicalCastInt : String → Option Int)
    (tokenize : String → List String) (compress : List Byte → List Byte)
    (md5 : List Byte → String) (archive : String → List Byte)
    (s : TransferScheduler) (hwf : s.WellFormed) (g sep : Nat) (hg : 0 < g) (hgs : g ≤ sep)
    (target0 : List TransferBucket) (baseUrl : String) (compression : BucketCompression)
    (buckets : List TransferBucket)
    (h : s.ComputePullBuckets target0 g sep baseUrl compression = (buckets, none))
    (b : TransferBucket) (hb : b ∈ buckets)
    (hoff : ∀ c0 ∈ b.chunks.head?, lexicalCastInt (toString c0.offset) = some (c0.offset : Int))
    (hsize : lexicalCastInt (toString b.GetTotalSize) = some (b.GetTotalSize : Int))
    (htok : tokenize (".".intercalate (b.chunks.map (fun c => c.instanceId)))
      = b.chunks.map (fun c => c.instanceId))
    (hsum : sumSizes b.chunks < SIZE_MOD)
    (harch : ∀ info ∈ s.ListInstances, (archive info.id).length = info.size)
    (cache : OrthancInstancesCache)
    (hcache : cache.Mirrors (SourceDicomInstance.ofArchive md5 archive))
    (wire : BucketCompression) :
    ∃ c0 rest, b.chunks = c0 :: rest ∧
      b.ComputePullUri wire
        = .ok ("/transfers/chunks/" ++ ".".intercalate (b.chunks.map (fun c => c.instanceId))
            ++ "?offset=" ++ toString c0.offset ++ "&size=" ++ toString b.GetTotalSize
            ++ "&compression=" ++ compressionName wire) ∧
      (ServeChunks lexicalCastInt tokenize compress md5
          (SourceDicomInstance.ofArchive md5 archive) cache .Get
          (".".intercalate (b.chunks.map (fun c => c.instanceId)))
          [("offset", toString c0.offset), ("size", toString b.GetTotalSize),
            ("compression", compressionName wire)]).2
        = .ok (.buffer (encodePayload compress wire (payloadOf archive b.chunks))
            (if wire = .None then "application/octet-stream" else "application/gzip")) ∧
      (BucketPushQuery.ReadBody compress md5 (SourceDicomInstance.ofArchive md5 archive) cache b
          wire).2
        = .ok (encodePayload compress wire (payloadOf archive b.chunks)) ∧
      (payloadOf archive b.chunks).length = b.GetTotalSize := by
  obtain ⟨hne, hserv⟩ := planner_servable s hwf g sep hg hgs target0 baseUrl compression buckets h
    (fun id => (archive id).length) harch b hb
  have htotal : b.GetTotalSize = sumSizes b.chunks := by
    have h1 := planner_totalSize s hwf g sep hg hgs target0 baseUrl compression buckets h b hb
    have h2 := foldl_addSz b.chunks 0 (by unfold SIZE_MOD; norm_num)
    show b.totalSize = _
    rw [h1]
    unfold totalSizeOf
    rw [h2, Nat.zero_add, Nat.mod_eq_of_lt hsum]
  have hrange := servable_in_range _ b.chunks hserv
  obtain ⟨c0, rest, hchunks⟩ := List.exists_cons_of_ne_nil hne
  have hoff0 := hoff c0 (by rw [hchunks]; simp)
  have hserve := serveLoop_spec md5 archive b.GetTotalSize b.chunks cache c0.offset [] hcache
    hserv (by rw [hchunks]; intro c hc; simp at hc; rw [hc]) (by simp [htotal])
  have hbody := readBodyLoop_spec md5 archive b.chunks cache [] hcache hrange
  simp only [List.nil_append] at hserve hbody
  refine ⟨c0, rest, hchunks, ComputePullUri_eq b wire c0 rest hchunks, ?_, ?_, ?_⟩
  · unfold ServeChunks
    rw [if_neg (by simp), htok]
    simp only [readArguments_of_pull lexicalCastInt c0.offset b.GetTotalSize wire hoff0 hsize]
    rcases hsl : serveLoop md5 (SourceDicomInstance.ofArchive md5 archive) b.GetTotalSize
      (b.chunks.map (fun c => c.instanceId)) cache c0.offset [] with ⟨cache1, result⟩
    rw [hsl] at hserve
    simp only at hserve
    subst hserve
    rw [hsl]
    cases wire <;> rfl
  · unfold BucketPushQuery.ReadBody
    rcases hrl : readBodyLoop md5 (SourceDicomInstance.ofArchive md5 archive) b.chunks cache []
      with ⟨cache1, result⟩
    rw [hrl] at hbody
    simp only at hbody
    subst hbody
    cases wire <;> rfl
  · rw [payloadOf_length archive b.chunks (fun c hc => (hrange c hc).1), htotal]

/-- Witness of C33: the two instances of the unit test `DownloadArea.Basic`,
planned in pull mode with `group = 20`, give one bucket of 18 bytes, which the
chunk endpoint serves from an empty cache. -/
theorem pull_serves_push_payload_witness :
    schedulerOfSources.ComputePullBuckets [] 20 1000 "http://localhost/" .None
      = ([bucketOfChunks [⟨"d1", 0, 5⟩, ⟨"d2", 0, 13⟩]], none) ∧
    ∃ c0 rest, (bucketOfChunks [⟨"d1", 0, 5⟩, ⟨"d2", 0, 13⟩]).chunks = c0 :: rest ∧
      (bucketOfChunks [⟨"d1", 0, 5⟩, ⟨"d2", 0, 13⟩]).ComputePullUri .None
        = .ok ("/transfers/chunks/" ++ ".".intercalate
              ((bucketOfChunks [⟨"d1", 0, 5⟩, ⟨"d2", 0, 13⟩]).chunks.map (fun c => c.instanceId))
            ++ "?offset=" ++ toString c0.offset ++ "&size="
            ++ toString (bucketOfChunks [⟨"d1", 0, 5⟩, ⟨"d2", 0, 13⟩]).GetTotalSize
            ++ "&compression=" ++ compressionName .None) ∧
      (ServeChunks exampleLexicalCastInt exampleTokenize exampleCompress exampleDigest
          (SourceDicomInstance.ofArchive exampleDigest sourcesOfTest) {} .Get
          (".".intercalate
            ((bucketOfChunks [⟨"d1", 0, 5⟩, ⟨"d2", 0, 13⟩]).chunks.map (fun c => c.instanceId)))
          [("offset", toString c0.offset),
            ("size", toString (bucketOfChunks [⟨"d1", 0, 5⟩, ⟨"d2", 0, 13⟩]).GetTotalSize),
            ("compression", compressionName .None)]).2
        = .ok (.buffer (encodePayload exampleCompress .None
              (payloadOf sourcesOfTest (bucketOfChunks [⟨"d1", 0, 5⟩, ⟨"d2", 0, 13⟩]).chunks))
            (if BucketCompression.None = .None then "application/octet-stream"
              else "application/gzip")) ∧
      (BucketPushQuery.ReadBody exampleCompress exampleDigest
          (SourceDicomInstance.ofArchive exampleDigest sourcesOfTest) {}
          (bucketOfChunks [⟨"d1", 0, 5⟩, ⟨"d2", 0, 13⟩]) .None).2
        = .ok (encodePayload exampleCompress .None
            (payloadOf sourcesOfTest (bucketOfChunks [⟨"d1", 0, 5⟩, ⟨"d2", 0, 13⟩]).chunks)) ∧
      (payloadOf sourcesOfTest (bucketOfChunks [⟨"d1", 0, 5⟩, ⟨"d2", 0, 13⟩]).chunks).length
        = (bucketOfChunks [⟨"d1", 0, 5⟩, ⟨"d2", 0, 13⟩]).GetTotalSize :=
  ⟨by decide,
    pull_serves_push_payload exampleLexicalCastInt exampleTokenize exampleCompress exampleDigest
      sourcesOfTest schedulerOfSources (by decide) 20 1000 (by decide) (by decide) []
      "http://localhost/" .None [bucketOfChunks [⟨"d1", 0, 5⟩, ⟨"d2", 0, 13⟩]] (by decide)
      (bucketOfChunks [⟨"d1", 0, 5⟩, ⟨"d2", 0, 13⟩]) (List.mem_singleton.mpr rfl)
      (by intro c0 hc0; cases hc0; decide) (by decide) (by decide) (by decide) (by decide) {}
      (by intro id source hfind; cases hfind) .None⟩

/-! ## Counters that wrap, signs that parse -/

/-- C16. The constructors from JSON accept every string that the parser
accepts, decimal or not.  `boost::lexical_cast<size_t>` reads `"-1"` as
`2^64 - 1`; with such a parser the descriptor whose `Size` is `"-1"` and the
bucket whose chunk has the `Offset` and the `Size` `"-1"` are built, with the
size `2^64 - 1`, and nothing is raised. -/
theorem deserialisers_accept_signed_size (lexicalCast : String → Option Nat)
    (hsign : lexicalCast "-1" = some 18446744073709551615) :
    DicomInstanceInfo.ofJson lexicalCast
        (.object [("ID", .string "a"), ("MD5", .string "m"), ("Size", .string "-1")])
      = .ok ⟨"a", 18446744073709551615, "m"⟩ ∧
    TransferBucket.ofJson lexicalCast
        (.array [.object [("ID", .string "a"), ("Offset", .string "-1"),
          ("Size", .string "-1")]])
      = .ok ⟨[⟨"a", 18446744073709551615, 18446744073709551615⟩], 18446744073709551615,
          false⟩ := by
  have h1 : ¬ ("ID" : String) = "MD5" := by decide
  have h2 : ¬ ("ID" : String) = "Size" := by decide
  have h3 : ¬ ("MD5" : String) = "Size" := by decide
  have h4 : ¬ ("MD5" : String) = "ID" := by decide
  have h5 : ¬ ("ID" : String) = "Offset" := by decide
  have h6 : ¬ ("Offset" : String) = "ID" := by decide
  have h7 : ¬ ("Offset" : String) = "Size" := by decide
  have hadd : addSz 0 18446744073709551615 = 18446744073709551615 := by decide
  constructor
  · simp [DicomInstanceInfo.ofJson, Json.type, Json.isMember, Json.get, Json.asString,
      KEY_ID, KEY_MD5, KEY_SIZE, mapFind_cons, h1, h2, h3, h4, hsign]
  · simp [TransferBucket.ofJson, TransferBucket.ofJsonLoop, Json.type, Json.isMember, Json.get,
      Json.asString, KEY_ID, KEY_OFFSET, KEY_SIZE, mapFind_cons, h2, h5, h6, h7, hsign, hadd]

/-- Witness of C16: the parser of the examples that follows the sign rule of
`boost::lexical_cast`. -/
theorem deserialisers_accept_signed_size_witness :
    signedLexicalCast "-1" = some 18446744073709551615 ∧
    DicomInstanceInfo.ofJson signedLexicalCast
        (.object [("ID", .string "a"), ("MD5", .string "m"), ("Size", .string "-1")])
      = .ok ⟨"a", 18446744073709551615, "m"⟩ :=
  ⟨by decide, (deserialisers_accept_signed_size signedLexicalCast (by decide)).1⟩

/-- C38. The constructor of a bucket from JSON adds the chunk sizes in
`size_t`.  For the array of two chunk elements whose sizes are
`"18446744073709551615"` and `"2"`, read by a parser of decimal numbers, it
returns the sealed bucket of these two chunks, whose sizes add up to
`2^64 + 1`, with a `totalSize` of 1. -/
theorem deserialised_total_size_wraps_around (lexicalCast : String → Option Nat)
    (h0 : lexicalCast "0" = some 0) (h2 : lexicalCast "2" = some 2)
    (hbig : lexicalCast "18446744073709551615" = some 18446744073709551615) :
    TransferBucket.ofJson lexicalCast
        (.array [.object [("ID", .string "a"), ("Offset", .string "0"),
            ("Size", .string "18446744073709551615")],
          .object [("ID", .string "b"), ("Offset", .string "0"), ("Size", .string "2")]])
      = .ok ⟨[⟨"a", 0, 18446744073709551615⟩, ⟨"b", 0, 2⟩], 1, false⟩ ∧
    sumSizes [⟨"a", 0, 18446744073709551615⟩, ⟨"b", 0, 2⟩] = 18446744073709551617 := by
  have e2 : ¬ ("ID" : String) = "Size" := by decide
  have e5 : ¬ ("ID" : String) = "Offset" := by decide
  have e6 : ¬ ("Offset" : String) = "ID" := by decide
  have e7 : ¬ ("Offset" : String) = "Size" := by decide
  have hadd1 : addSz 0 18446744073709551615 = 18446744073709551615 := by decide
  have hadd2 : addSz 18446744073709551615 2 = 1 := by decide
  constructor
  · simp [TransferBucket.ofJson, TransferBucket.ofJsonLoop, Json.type, Json.isMember, Json.get,
      Json.asString, KEY_ID, KEY_OFFSET, KEY_SIZE, mapFind_cons, e2, e5, e6, e7, h0, h2, hbig,
      hadd1, hadd2]
  · decide

/-- Witness of C38: the parser of the examples reads the three numbers. -/
theorem deserialised_total_size_wraps_around_witness :
    TransferBucket.ofJson exampleLexicalCast
        (.array [.object [("ID", .string "a"), ("Offset", .string "0"),
            ("Size", .string "18446744073709551615")],
          .object [("ID", .string "b"), ("Offset", .string "0"), ("Size", .string "2")]])
      = .ok ⟨[⟨"a", 0, 18446744073709551615⟩, ⟨"b", 0, 2⟩], 1, false⟩ :=
  (deserialised_total_size_wraps_around exampleLexicalCast (by decide) (by decide)
    (by decide)).1

/-! ## The retry counter at the end of `unsigned int` -/

/-- C28. A well-formed response whose only instance is empty: the lookup step
of the pull job raises the internal error, which comes from the planner, and
returns no update. -/
theorem pull_lookup_raises_on_empty_instance :
    LookupInstancesState.Step exampleLexicalCast queryOfExample 4194304 "http://peer/"
      (some (lookupAnswer
        [.object [("ID", .string "a"), ("MD5", .string "d41d8cd98f00b204e9800998ecf8427e"),
          ("Size", .string "0")]] "u1"))
      = .error .InternalError ∧
    DicomInstanceInfo.ofJson exampleLexicalCast
        (.object [("ID", .string "a"), ("MD5", .string "d41d8cd98f00b204e9800998ecf8427e"),
          ("Size", .string "0")])
      = .ok ⟨"a", 0, "d41d8cd98f00b204e9800998ecf8427e"⟩ := by
  constructor <;> rfl

end OrthancPlugins
